import Mathlib

/-!
# Definitions
-/

namespace sjtu
namespace map

/-- A node pointer; `none` is `nullptr`. -/
abbrev NodePtr := Option Nat

/-- Colour constant `R = 1`. -/
abbrev R : Bool := true

/-- Colour constant `B = 0`. -/
abbrev B : Bool := false

/-- The exceptions of `exceptions.hpp` that the map throws. -/
inductive Exn where
  | index_out_of_bound
  | invalid_iterator
deriving DecidableEq, Repr

/-- The `struct Node` of the source: `data` (key and mapped value), `color`, `lc`, `rc`, `pa`. -/
structure Node (K V : Type) where
  key : K
  value : V
  color : Bool
  lc : NodePtr
  rc : NodePtr
  pa : NodePtr
deriving DecidableEq, Repr

variable {K V : Type}

/-- The accessor `ch(d)`: `d ? rc : lc`. -/
def Node.ch (n : Node K V) (d : Bool) : NodePtr := if d then n.rc else n.lc

/-- Assignment through the reference `ch(d)`. -/
def Node.setCh (n : Node K V) (d : Bool) (p : NodePtr) : Node K V :=
  if d then { n with rc := p } else { n with lc := p }

/-- The node after `pa = p`. -/
def Node.setPa (n : Node K V) (p : NodePtr) : Node K V := { n with pa := p }

/-- The node after `color = c`. -/
def Node.setColor (n : Node K V) (c : Bool) : Node K V := { n with color := c }

/-- The node after `value() = v`. -/
def Node.setValue (n : Node K V) (v : V) : Node K V := { n with value := v }

/-- The members `siz`, `cmp`, `root` of one `map` object, the address `self` of that object
(`this`), and the memory it lives in: `heap` (the allocated nodes) and `next` (the address the
next `new Node` returns). -/
structure MapState (K V : Type) where
  siz : Nat
  cmp : K → K → Bool
  root : NodePtr
  self : Nat
  heap : Nat → Option (Node K V)
  next : Nat

/-- An `iterator` / `const_iterator`: the members `ptr` and `tree`. -/
structure iterator where
  ptr : NodePtr
  tree : Option Nat
deriving DecidableEq, Repr

/-- Write the whole node at address `a`. -/
def MapState.store (m : MapState K V) (a : Nat) (n : Node K V) : MapState K V :=
  { m with heap := Function.update m.heap a (some n) }

/-- The assignment `root = r`. -/
def MapState.setRoot (m : MapState K V) (r : NodePtr) : MapState K V :=
  { m with root := r }

/-- The assignment `siz = n`. -/
def MapState.setSiz (m : MapState K V) (n : Nat) : MapState K V :=
  { m with siz := n }

/-- The statement `delete a`: the node at `a` is no longer allocated. -/
def MapState.free (m : MapState K V) (a : Nat) : MapState K V :=
  { m with heap := Function.update m.heap a none }

/-- The expression `new Node(...)`: the node `n` is placed at the address `next`, which is
returned by `new`; the allocator moves on. -/
def MapState.alloc (m : MapState K V) (n : Node K V) : MapState K V :=
  { m with heap := Function.update m.heap m.next (some n), next := m.next + 1 }

/-- A field assignment `a->f = ...`: fails when no node lives at `a`. -/
def MapState.modify (m : MapState K V) (a : Nat) (f : Node K V → Node K V) :
    Option (MapState K V) :=
  match m.heap a with
  | none => none
  | some n => some (m.store a (f n))

/-- The assignment `a->pa = p`. -/
def setPa (m : MapState K V) (a : Nat) (p : NodePtr) : Option (MapState K V) :=
  m.modify a (fun n => n.setPa p)

/-- The assignment `a->ch(d) = p`. -/
def setCh (m : MapState K V) (a : Nat) (d : Bool) (p : NodePtr) : Option (MapState K V) :=
  m.modify a (fun n => n.setCh d p)

/-- The assignment `a->color = c`. -/
def setColor (m : MapState K V) (a : Nat) (c : Bool) : Option (MapState K V) :=
  m.modify a (fun n => n.setColor c)

/-- The assignment `a->value() = v`. -/
def setValue (m : MapState K V) (a : Nat) (v : V) : Option (MapState K V) :=
  m.modify a (fun n => n.setValue v)

/-- The source's `equal(a, b)`: `!cmp(a, b) && !cmp(b, a)`. -/
def equal (cmp : K → K → Bool) (a b : K) : Bool := !cmp a b && !cmp b a

/-- The source's `id(x)`: `x == x->pa->rc`. -/
def id (m : MapState K V) (x : Nat) : Option Bool := do
  let nx ← m.heap x
  let p ← nx.pa
  let np ← m.heap p
  pure (np.rc == some x)

/-- The source's `black(x)`: `!x || x->color == B`. -/
def black (m : MapState K V) (x : NodePtr) : Option Bool :=
  match x with
  | none => some true
  | some a => do
    let n ← m.heap a
    pure (n.color == B)

/-- The source's `red(x)`: `x && x->color == R`. -/
def red (m : MapState K V) (x : NodePtr) : Option Bool :=
  match x with
  | none => some false
  | some a => do
    let n ← m.heap a
    pure (n.color == R)

/-- The source's `rotate(x)`, statement by statement. -/
def rotate (m : MapState K V) (x : Nat) : Option (MapState K V) := do
  let d ← id m x
  let nx ← m.heap x
  let p ← nx.pa
  let np ← m.heap p
  let g := np.pa
  let m ← setPa m x g
  let m ← (match g with
    | some ga => do
      let dp ← id m p
      setCh m ga dp (some x)
    | none => pure (m.setRoot (some x)))
  let nx ← m.heap x
  let m ← setCh m p d (nx.ch (!d))
  let m ← setCh m x (!d) (some p)
  let m ← setPa m p (some x)
  let np ← m.heap p
  match np.ch d with
  | some c => setPa m c (some p)
  | none => pure m

/-- The source's `RB_insert_fixup(x)`; one unit of fuel per loop test. -/
def RB_insert_fixup : Nat → MapState K V → Nat → Option (MapState K V)
  | 0, _, _ => none
  | fuel + 1, m, x => do
    let nx ← m.heap x
    if (← red m nx.pa) then
      let p ← nx.pa
      let np ← m.heap p
      let g ← np.pa
      let ng ← m.heap g
      let u := ng.ch (!(← id m p))
      if (← red m u) then
        let ua ← u
        let m ← setColor m ua B
        let m ← setColor m p B
        let m ← setColor m g R
        RB_insert_fixup fuel m g
      else
        let m ← (if (← id m x) != (← id m p) then do
            let m ← rotate m x
            let m ← rotate m x
            setColor m x B
          else do
            let m ← rotate m p
            setColor m p B)
        let m ← setColor m g R
        let r ← m.root
        setColor m r B
    else
      let r ← m.root
      setColor m r B

/-- The search loop of the non-const `RB_find`: returns the final `(y, z)`. -/
def RB_find_loop (cmp : K → K → Bool) (heap : Nat → Option (Node K V)) (key : K) :
    Nat → NodePtr → NodePtr → Option (NodePtr × NodePtr)
  | 0, _, _ => none
  | _ + 1, y, none => some (y, none)
  | fuel + 1, y, some a => do
    let nz ← heap a
    if equal cmp key nz.key then
      pure (y, some a)
    else
      RB_find_loop cmp heap key fuel (some a) (nz.ch (cmp nz.key key))

/-- The source's non-const `RB_find(key, mode)`; `T()` is `default`. -/
def RB_find [Inhabited V] (fuel : Nat) (m : MapState K V) (key : K) (mode : Nat) :
    Option (MapState K V × NodePtr) := do
  let (y, z) ← RB_find_loop m.cmp m.heap key fuel none m.root
  if z.isSome || mode == 0 then
    pure (m, z)
  else
    let m := m.setSiz ((m.siz + 1) % 2 ^ 64)
    let x := m.next
    let m := m.alloc ⟨key, default, R, none, none, none⟩
    let m ← setPa m x y
    let m ← (match y with
      | none => pure (m.setRoot (some x))
      | some ya => do
        let ny ← m.heap ya
        setCh m ya (m.cmp ny.key key) (some x))
    let m ← RB_insert_fixup fuel m x
    pure (m, some x)

/-- The source's const `RB_find(key)`. -/
def RB_find_const (cmp : K → K → Bool) (heap : Nat → Option (Node K V)) (key : K) :
    Nat → NodePtr → Option NodePtr
  | 0, _ => none
  | _ + 1, none => some none
  | fuel + 1, some a => do
    let nz ← heap a
    if equal cmp key nz.key then
      pure (some a)
    else
      RB_find_const cmp heap key fuel (nz.ch (!cmp key nz.key))

/-- The loop of the source's `minmax(x, d)`, entered with `x` present. -/
def minmax_loop (heap : Nat → Option (Node K V)) (d : Bool) : Nat → Nat → Option Nat
  | 0, _ => none
  | fuel + 1, x => do
    let nx ← heap x
    match nx.ch d with
    | some c => minmax_loop heap d fuel c
    | none => pure x

/-- The source's `minmax(x, d)`. -/
def minmax (heap : Nat → Option (Node K V)) (fuel : Nat) (x : NodePtr) (d : Bool) :
    Option NodePtr :=
  match x with
  | none => some none
  | some a => (minmax_loop heap d fuel a).map some

/-- The source's `min(x)`. -/
def min (heap : Nat → Option (Node K V)) (fuel : Nat) (x : NodePtr) : Option NodePtr :=
  minmax heap fuel x false

/-- The source's `max(x)`. -/
def max (heap : Nat → Option (Node K V)) (fuel : Nat) (x : NodePtr) : Option NodePtr :=
  minmax heap fuel x true

/-- The upward `for` loop of the source's `predsucc(x, d)`. -/
def predsucc_loop (heap : Nat → Option (Node K V)) (d : Bool) : Nat → Nat → Option NodePtr
  | 0, _ => none
  | fuel + 1, x => do
    let nx ← heap x
    match nx.pa with
    | none => pure none
    | some p => do
      let np ← heap p
      if np.ch (!d) == some x then
        pure (some p)
      else
        predsucc_loop heap d fuel p

/-- The source's `predsucc(x, d)`. -/
def predsucc (heap : Nat → Option (Node K V)) (fuel : Nat) (x : Nat) (d : Bool) :
    Option NodePtr := do
  let nx ← heap x
  match nx.ch d with
  | some c => minmax heap fuel (some c) (!d)
  | none => predsucc_loop heap d fuel x

/-- The source's `pred(x)`. -/
def pred (heap : Nat → Option (Node K V)) (fuel : Nat) (x : Nat) : Option NodePtr :=
  predsucc heap fuel x false

/-- The source's `succ(x)`. -/
def succ (heap : Nat → Option (Node K V)) (fuel : Nat) (x : Nat) : Option NodePtr :=
  predsucc heap fuel x true

/-- The source's `RB_transplant(u, v)`. -/
def RB_transplant (m : MapState K V) (u : Nat) (v : NodePtr) : Option (MapState K V) := do
  let m ← (if some u == m.root then
      pure (m.setRoot v)
    else do
      let nu ← m.heap u
      let p ← nu.pa
      let du ← id m u
      setCh m p du v)
  match v with
  | some va => do
    let nu ← m.heap u
    setPa m va nu.pa
  | none => pure m

/-- Lines 225-229 of `RB_delete_fixup` (case #1): when the brother `b` is red, rotate it up,
recolour, and re-read `b = p->ch(d)`; returns the state and the current `b`. -/
def delete_fixup_case1 (m : MapState K V) (pa : Nat) (d : Bool) (b : NodePtr) :
    Option (MapState K V × NodePtr) := do
  if (← red m b) then
    let ba ← b
    let m ← rotate m ba
    let m ← setColor m ba B
    let m ← setColor m pa R
    let np ← m.heap pa
    pure (m, np.ch d)
  else
    pure (m, b)

/-- The test `black(b->lc) && black(b->rc)` of line 231 (short-circuit). -/
def delete_fixup_test2 (m : MapState K V) (ba : Nat) : Option Bool := do
  let nb ← m.heap ba
  if (← black m nb.lc) then black m nb.rc else pure false

/-- Lines 235-240 of `RB_delete_fixup` (case #3): when `b->ch(d)` is black, rotate `b->ch(!d)`
up, recolour, and move `b` to `b->pa`; returns the state and the current `b`. -/
def delete_fixup_case3 (m : MapState K V) (d : Bool) (ba : Nat) :
    Option (MapState K V × Nat) := do
  let nb ← m.heap ba
  if (← black m (nb.ch d)) then
    let c ← nb.ch (!d)
    let m ← rotate m c
    let m ← setColor m ba R
    let nb ← m.heap ba
    let b2 ← nb.pa
    let m ← setColor m b2 B
    pure (m, b2)
  else
    pure (m, ba)

/-- Lines 242-245 of `RB_delete_fixup` (case #4). -/
def delete_fixup_case4 (m : MapState K V) (pa : Nat) (d : Bool) (ba : Nat) :
    Option (MapState K V) := do
  let m ← rotate m ba
  let np ← m.heap pa
  let m ← setColor m ba np.color
  let m ← setColor m pa B
  let nb ← m.heap ba
  let c ← nb.ch d
  setColor m c B

/-- The loop test `x != root && black(x)` of line 222 (short-circuit). -/
def delete_fixup_test (m : MapState K V) (x : NodePtr) : Option Bool :=
  if x != m.root then black m x else some false

/-- The source's `RB_delete_fixup(x, p)`; one unit of fuel per loop test. -/
def RB_delete_fixup : Nat → MapState K V → NodePtr → NodePtr → Option (MapState K V)
  | 0, _, _, _ => none
  | fuel + 1, m, x, p =>
    match delete_fixup_test m x with
    | none => none
    | some false =>
      match x with
      | some xa => setColor m xa B
      | none => some m
    | some true =>
      match p with
      | none => none
      | some pa =>
        match m.heap pa with
        | none => none
        | some np =>
          let d := np.rc != x
          match delete_fixup_case1 m pa d (np.ch d) with
          | none => none
          | some (_, none) => none
          | some (m1, some ba) =>
            match delete_fixup_test2 m1 ba with
            | none => none
            | some true =>
              match setColor m1 ba R with
              | none => none
              | some m2 =>
                match m2.heap pa with
                | none => none
                | some np2 => RB_delete_fixup fuel m2 (some pa) np2.pa
            | some false =>
              match delete_fixup_case3 m1 d ba with
              | none => none
              | some (m2, b2) =>
                match delete_fixup_case4 m2 pa d b2 with
                | none => none
                | some m3 => RB_delete_fixup fuel m3 m3.root (some pa)

/-- Lines 275-277 of `RB_delete` (the successor `y` is not the right child of `z`):
`RB_transplant(y, x); y->rc = z->rc; y->rc->pa = y`. -/
def RB_delete_detach (m : MapState K V) (z y : Nat) (x : NodePtr) : Option (MapState K V) := do
  let m ← RB_transplant m y x
  let nz ← m.heap z
  let m ← setCh m y true nz.rc
  let ny ← m.heap y
  let yr ← ny.rc
  setPa m yr (some y)

/-- Lines 279-282 of `RB_delete`:
`RB_transplant(z, y); y->lc = z->lc; y->lc->pa = y; y->color = z->color`. -/
def RB_delete_replace (m : MapState K V) (z y : Nat) : Option (MapState K V) := do
  let m ← RB_transplant m z (some y)
  let nz ← m.heap z
  let m ← setCh m y false nz.lc
  let ny ← m.heap y
  let yl ← ny.lc
  let m ← setPa m yl (some y)
  let nz ← m.heap z
  setColor m y nz.color

/-- Lines 258-283 of `RB_delete`: the node `z` is unlinked; returns the state and the
locals `x`, `p` and `flag`. -/
def RB_delete_splice (fuel : Nat) (m : MapState K V) (z : Nat) :
    Option (MapState K V × NodePtr × NodePtr × Bool) := do
  let nz ← m.heap z
  let p := nz.pa
  let flag ← black m (some z)
  if nz.lc.isNone then do
    let x := nz.rc
    let m ← RB_transplant m z x
    pure (m, x, p, flag)
  else if nz.rc.isNone then do
    let x := nz.lc
    let m ← RB_transplant m z x
    pure (m, x, p, flag)
  else do
    let y ← (← min m.heap fuel nz.rc)
    let ny ← m.heap y
    let flag := ny.color == B
    let x := ny.rc
    let (m, p) ← (if ny.pa == some z then
        pure (m, some y)
      else do
        let p := ny.pa
        let m ← RB_delete_detach m z y x
        pure (m, p))
    let m ← RB_delete_replace m z y
    pure (m, x, p, flag)

/-- The source's `RB_delete(z)`; `delete z` removes the node from the heap. -/
def RB_delete (fuel : Nat) (m : MapState K V) (z : Nat) : Option (MapState K V) := do
  let m := m.setSiz ((m.siz + 2 ^ 64 - 1) % 2 ^ 64)
  let (m, x, p, flag) ← RB_delete_splice fuel m z
  let _ ← m.heap z
  let m := m.free z
  if flag then
    RB_delete_fixup fuel m x p
  else
    pure m

/-- The constructor `map()`: `siz(0), root(nullptr)`; `cmp` is the value `Compare()`, the
object lives at `self` in the given memory. -/
def mk (cmp : K → K → Bool) (self : Nat) (heap : Nat → Option (Node K V)) (next : Nat) :
    MapState K V :=
  { siz := 0, cmp := cmp, root := none, self := self, heap := heap, next := next }

/-- The source's `insert(value)`. -/
def insert [Inhabited V] (fuel : Nat) (m : MapState K V) (value : K × V) :
    Option (MapState K V × (iterator × Bool)) := do
  let sz0 := m.siz
  let (m, p) ← RB_find fuel m value.1 1
  if m.siz == sz0 then
    pure (m, (⟨p, some m.self⟩, false))
  else
    let pa ← p
    let m ← setValue m pa value.2
    pure (m, (⟨p, some m.self⟩, true))

/-- The source's non-const `operator[](key)`: the state after the call and the node whose
mapped value the returned reference denotes. -/
def index [Inhabited V] (fuel : Nat) (m : MapState K V) (key : K) :
    Option (MapState K V × Nat) := do
  let (m, p) ← RB_find fuel m key 1
  let pa ← p
  let _ ← m.heap pa
  pure (m, pa)

/-- The source's `erase(pos)`: the state after the call and its outcome (`error` when
`invalid_iterator` is thrown). -/
def erase (fuel : Nat) (m : MapState K V) (pos : iterator) :
    Option (MapState K V × Except Exn Unit) :=
  match pos.ptr with
  | none => some (m, .error .invalid_iterator)
  | some z =>
    if pos.tree != some m.self then
      some (m, .error .invalid_iterator)
    else do
      let m ← RB_delete fuel m z
      pure (m, .ok ())

/-- The source's `count(key)`, through the const `RB_find`. -/
def count (fuel : Nat) (m : MapState K V) (key : K) : Option Nat := do
  let z ← RB_find_const m.cmp m.heap key fuel m.root
  pure (if z != none then 1 else 0)

/-- The source's non-const `find(key)`: the non-const `RB_find` with `mode = 0`. -/
def find [Inhabited V] (fuel : Nat) (m : MapState K V) (key : K) :
    Option (MapState K V × iterator) := do
  let (m, z) ← RB_find fuel m key 0
  pure (m, ⟨z, some m.self⟩)

/-- The source's const `find(key)`: the const `RB_find`. -/
def find_const (fuel : Nat) (m : MapState K V) (key : K) : Option iterator := do
  let z ← RB_find_const m.cmp m.heap key fuel m.root
  pure ⟨z, some m.self⟩

/-- The source's `end()`. -/
def end_ (m : MapState K V) : iterator := ⟨none, some m.self⟩

/-- The source's `size()`. -/
def size (m : MapState K V) : Nat := m.siz

/-- The source's `empty()`. -/
def empty (m : MapState K V) : Bool := m.siz == 0


/-- A binary tree of nodes `(address, colour, left, key, value, right)`. -/
inductive Tree (K V : Type) where
  | nil : Tree K V
  | node (a : Nat) (c : Bool) (l : Tree K V) (k : K) (v : V) (r : Tree K V) : Tree K V

namespace Tree

/-- The pointer to the root node. -/
def ptr : Tree K V → NodePtr
  | nil => none
  | node a _ _ _ _ _ => some a

/-- The colour of the root; an absent node counts as black. -/
def color : Tree K V → Bool
  | nil => B
  | node _ c _ _ _ _ => c

/-- The node addresses, in order. -/
def addrs : Tree K V → List Nat
  | nil => []
  | node a _ l _ _ r => l.addrs ++ a :: r.addrs

/-- The in-order sequence of `(address, key, value)`. -/
def nodes : Tree K V → List (Nat × K × V)
  | nil => []
  | node a _ l k v r => l.nodes ++ (a, k, v) :: r.nodes

/-- The in-order sequence of keys. -/
def keys (t : Tree K V) : List K := t.nodes.map (fun e => e.2.1)

/-- The in-order sequence of `(key, value)` entries. -/
def entries (t : Tree K V) : List (K × V) := t.nodes.map (fun e => e.2)

/-- The number of nodes. -/
def size : Tree K V → Nat
  | nil => 0
  | node _ _ l _ _ r => l.size + r.size + 1

/-- The number of nodes on the longest root-to-absent-child path. -/
def height : Tree K V → Nat
  | nil => 0
  | node _ _ l _ _ r => Max.max l.height r.height + 1

/-- No red node has a red child. -/
def NoRedRed : Tree K V → Prop
  | nil => True
  | node _ c l _ _ r => (c = R → l.color = B ∧ r.color = B) ∧ l.NoRedRed ∧ r.NoRedRed

/-- Every path from the root to an absent child passes exactly `n` black nodes. -/
def BH : Tree K V → Nat → Prop
  | nil, n => n = 0
  | node _ c l _ _ r, n =>
    if c = B then ∃ n', n = n' + 1 ∧ l.BH n' ∧ r.BH n' else l.BH n ∧ r.BH n

/-- The keys are strictly increasing, in order, under `cmp`. -/
def Sorted (cmp : K → K → Bool) (t : Tree K V) : Prop :=
  t.keys.Pairwise (fun a b => cmp a b = true)

/-- The red-black colour invariants: black root, no red-red pair, equal black count. -/
def RB (t : Tree K V) : Prop := t.color = B ∧ t.NoRedRed ∧ ∃ n, t.BH n

/-- The node with children given by direction: `td` is the child `ch(d)`, `tn` is `ch(!d)`. -/
def mkD (d : Bool) (a : Nat) (c : Bool) (k : K) (v : V) (td tn : Tree K V) : Tree K V :=
  if d then node a c tn k v td else node a c td k v tn

end Tree

/-- The heap content of a node with children given by direction. -/
def nodeD (d : Bool) (k : K) (v : V) (c : Bool) (pd pn pa : NodePtr) : Node K V :=
  if d then ⟨k, v, c, pn, pd, pa⟩ else ⟨k, v, c, pd, pn, pa⟩

/-- The heap `h` holds the tree `t`, whose root has parent link `pa`. -/
def Rep (h : Nat → Option (Node K V)) : Tree K V → NodePtr → Prop
  | .nil, _ => True
  | .node a c l k v r, pa =>
    h a = some ⟨k, v, c, l.ptr, r.ptr, pa⟩ ∧ Rep h l (some a) ∧ Rep h r (some a)

/-- One level of a context: the node `a` whose child `ch(d)` is the hole and whose other
child is `sib`. -/
structure Frame (K V : Type) where
  d : Bool
  a : Nat
  c : Bool
  k : K
  v : V
  sib : Tree K V

/-- Fill the hole of one frame. -/
def Frame.fill (f : Frame K V) (t : Tree K V) : Tree K V :=
  Tree.mkD f.d f.a f.c f.k f.v t f.sib

/-- Fill the hole of a context (innermost frame first). -/
def plug : List (Frame K V) → Tree K V → Tree K V
  | [], t => t
  | f :: fs, t => plug fs (f.fill t)

/-- The parent pointer of the hole. -/
def parentOf : List (Frame K V) → NodePtr
  | [] => none
  | f :: _ => some f.a

/-- The addresses of the nodes of a context. -/
def ctxAddrs : List (Frame K V) → List Nat
  | [] => []
  | f :: fs => f.a :: (f.sib.addrs ++ ctxAddrs fs)

/-- The heap holds the context, whose hole is filled by the pointer `p`. -/
def RepC (h : Nat → Option (Node K V)) : List (Frame K V) → NodePtr → Prop
  | [], _ => True
  | f :: fs, p =>
    h f.a = some (nodeD f.d f.k f.v f.c p f.sib.ptr (parentOf fs)) ∧
      Rep h f.sib (some f.a) ∧ RepC h fs (some f.a)

/-- The state `m` holds the tree `t`: `root` points to it, the heap holds its nodes with
consistent child and parent links, and no address occurs twice. -/
structure Repr (m : MapState K V) (t : Tree K V) : Prop where
  root : m.root = t.ptr
  rep : Rep m.heap t none
  nodup : t.addrs.Nodup

/-- The comparator is a strict weak order. -/
structure StrictWeak (cmp : K → K → Bool) : Prop where
  irrefl : ∀ a, cmp a a = false
  trans : ∀ a b c, cmp a b = true → cmp b c = true → cmp a c = true
  incomp : ∀ a b c, equal cmp a b = true → equal cmp b c = true → equal cmp a c = true

/-- The allocator's contract: no node lives at or above the address `next`. -/
def HeapFresh (m : MapState K V) : Prop := ∀ a, m.next ≤ a → m.heap a = none

/-- A valid map: the state holds a tree that is ordered under the comparator and satisfies
the red-black colour invariants, the comparator is a strict weak order, and the allocator's
next address is unused. -/
structure Valid (m : MapState K V) (t : Tree K V) : Prop where
  repr : Repr m t
  sorted : t.Sorted m.cmp
  rb : t.RB
  swo : StrictWeak m.cmp
  fresh : HeapFresh m

section basic

/-- The root pointer of a plugged context. -/
def topPtr : List (Frame K V) → NodePtr → NodePtr
  | [], p => p
  | f :: fs, _ => topPtr fs (some f.a)

end basic

/-- The state `m'` differs from `m` at most in `root` and in the heap at addresses in `s`. -/
structure Touch (m m' : MapState K V) (s : List Nat) : Prop where
  siz : m'.siz = m.siz
  cmp : m'.cmp = m.cmp
  self : m'.self = m.self
  next : m'.next = m.next
  heap : ∀ a, a ∉ s → m'.heap a = m.heap a

/-- The computation `o` returns a result, and the result satisfies `P`. -/
def Succeeds {α : Type} (o : Option α) (P : α → Prop) : Prop := ∃ a, o = some a ∧ P a


/-- The descent of `RB_find` on the abstract tree: the context reached and the subtree found
there (`nil` when the key is absent). -/
def locate (cmp : K → K → Bool) (key : K) : Tree K V → List (Frame K V) →
    List (Frame K V) × Tree K V
  | .nil, ctx => (ctx, .nil)
  | .node a c l k v r, ctx =>
    if equal cmp key k then (ctx, .node a c l k v r)
    else if cmp k key then locate cmp key r (⟨true, a, c, k, v, l⟩ :: ctx)
    else locate cmp key l (⟨false, a, c, k, v, r⟩ :: ctx)

/-- The nodes of a context that precede the hole, in order. -/
def ctxLeft : List (Frame K V) → List (Nat × K × V)
  | [] => []
  | f :: fs => ctxLeft fs ++ (if f.d then f.sib.nodes ++ [(f.a, f.k, f.v)] else [])

/-- The nodes of a context that follow the hole, in order. -/
def ctxRight : List (Frame K V) → List (Nat × K × V)
  | [] => []
  | f :: fs => (if f.d then [] else (f.a, f.k, f.v) :: f.sib.nodes) ++ ctxRight fs


/-- The comparator `<` on `Nat` (`std::less`). -/
def natLt : Nat → Nat → Bool := fun a b => decide (a < b)

/-- A concrete heap: the node at address 1 holds key 20 and is black, its children at 2 and 3
hold keys 10 and 30 and are red. -/
def exHeap : Nat → Option (Node Nat Nat) := fun a =>
  if a = 1 then some ⟨20, 200, B, some 2, some 3, none⟩
  else if a = 2 then some ⟨10, 100, R, none, none, some 1⟩
  else if a = 3 then some ⟨30, 300, R, none, none, some 1⟩
  else none

/-- A concrete map object at address 0 with the three entries of `exHeap`. -/
def exMap : MapState Nat Nat :=
  { siz := 3, cmp := natLt, root := some 1, self := 0, heap := exHeap, next := 4 }

/-- The tree that `exMap` holds. -/
def exTree : Tree Nat Nat :=
  .node 1 B (.node 2 R .nil 10 100 .nil) 20 200 (.node 3 R .nil 30 300 .nil)


/-- One step of a fixup: the state `M` holds `T'`, which has the nodes of `T` in the same
order, and `M` differs from `m` only in `root` and at the nodes of `T`. -/
structure Step (m M : MapState K V) (T T' : Tree K V) : Prop where
  repr : Repr M T'
  touch : Touch m M T.addrs
  nodes : T'.nodes = T.nodes

/-- The tree with its root coloured black. -/
def Tree.blacken : Tree K V → Tree K V
  | .nil => .nil
  | .node a _ l k v r => .node a B l k v r


/-- The child `ch(d)` of the root. -/
def Tree.child (d : Bool) : Tree K V → Tree K V
  | .nil => .nil
  | .node _ _ l _ _ r => if d then r else l

/-- The tree with its root recoloured. -/
def Tree.setColor (c : Bool) : Tree K V → Tree K V
  | .nil => .nil
  | .node a _ l k v r => .node a c l k v r

/-- The effect of `RB_insert_fixup(x)` on the abstract tree: `t` is the subtree rooted at `x`,
the context is the path from `x` up to the root. -/
def insFix : List (Frame K V) → Tree K V → Tree K V
  | fp :: fg :: up, t =>
    if fp.c = R then
      if fg.sib.color = R then
        insFix up (Tree.mkD fg.d fg.a R fg.k fg.v
          (Tree.mkD fp.d fp.a B fp.k fp.v t fp.sib) (fg.sib.setColor B))
      else if fp.d ≠ fg.d then
        match t with
        | .nil => plug (fp :: fg :: up) t
        | .node x _ _ k v _ =>
          (plug up (Tree.mkD fg.d x B k v
            (Tree.mkD fp.d fp.a fp.c fp.k fp.v (t.child (!fp.d)) fp.sib)
            (Tree.mkD fg.d fg.a R fg.k fg.v (t.child fp.d) fg.sib))).blacken
      else
        (plug up (Tree.mkD fg.d fp.a B fp.k fp.v t
          (Tree.mkD fg.d fg.a R fg.k fg.v fp.sib fg.sib))).blacken
    else (plug (fp :: fg :: up) t).blacken
  | [fp], t => (plug [fp] t).blacken
  | [], t => t.blacken


/-- The colour of the parent of the hole; black when the hole is at the root. -/
def ctxColor : List (Frame K V) → Bool
  | [] => B
  | f :: _ => f.c

/-- The colour invariants of a context whose hole stands for a subtree with `n` black nodes
on every path: every sibling subtree is well coloured and has the black count its level
needs, and a red frame has a black sibling and a black parent. -/
def CtxInv : List (Frame K V) → Nat → Prop
  | [], _ => True
  | f :: fs, n =>
    f.sib.BH n ∧ f.sib.NoRedRed ∧ (f.c = R → f.sib.color = B ∧ ctxColor fs = B) ∧
      CtxInv fs (if f.c = B then n + 1 else n)


/-- The state after `RB_find(key, 1)` on an absent key. -/
structure Inserted (m M : MapState K V) (t T : Tree K V) (key : K) (v : V) : Prop where
  repr : Repr M T
  rb : T.RB
  siz : M.siz = (m.siz + 1) % 2 ^ 64
  cmp : M.cmp = m.cmp
  self : M.self = m.self
  next : M.next = m.next + 1
  frame : ∀ a, a ∉ t.addrs → a ≠ m.next → M.heap a = m.heap a
  nodes : ∃ l1 l2, t.nodes = l1 ++ l2 ∧ T.nodes = l1 ++ (m.next, key, v) :: l2 ∧
    (∀ e ∈ l1, m.cmp e.2.1 key = true) ∧ (∀ e ∈ l2, m.cmp key e.2.1 = true)


/-- The test `black(b->lc) && black(b->rc)` on the abstract tree. -/
def Tree.bothBlack (b : Tree K V) : Bool :=
  (b.child false).color == B && (b.child true).color == B

/-- Cases #3 and #4 of `RB_delete_fixup` on the abstract tree: the subtree that takes the
place of the subtree of the parent `p`, where `t` is the child `ch(d)` of `p` (the node `x`)
and `b` its black brother, not both of whose children are black. -/
def delRot (d : Bool) (p : Nat) (cp : Bool) (kp : K) (vp : V) (t b : Tree K V) : Tree K V :=
  match b with
  | .nil => .nil
  | .node ba _ _ kb vb _ =>
    if (b.child (!d)).color = B then
      match b.child d with
      | .nil => .nil
      | .node na _ _ kn vn _ =>
        Tree.mkD (!d) na cp kn vn
          (Tree.mkD (!d) ba B kb vb (b.child (!d)) ((b.child d).child (!d)))
          (Tree.mkD d p B kp vp t ((b.child d).child d))
    else
      Tree.mkD (!d) ba cp kb vb ((b.child (!d)).setColor B)
        (Tree.mkD d p B kp vp t (b.child d))

/-- The effect of `RB_delete_fixup(x, p)` on the abstract tree: `t` is the subtree rooted at
`x` (possibly empty), the context is the path from `x` up to the root. -/
def delFix : List (Frame K V) → Tree K V → Tree K V
  | [], t => t.blacken
  | f :: up, t =>
    if t.color = R then plug (f :: up) t.blacken
    else if f.sib.color = R then
      match f.sib with
      | .nil => plug (f :: up) t
      | .node ba _ _ kb vb _ =>
        if (f.sib.child f.d).bothBlack then
          plug (⟨f.d, ba, B, kb, vb, f.sib.child (!f.d)⟩ :: up)
            (Tree.mkD f.d f.a B f.k f.v t ((f.sib.child f.d).setColor R))
        else
          (plug (⟨f.d, ba, B, kb, vb, f.sib.child (!f.d)⟩ :: up)
            (delRot f.d f.a R f.k f.v t (f.sib.child f.d))).blacken
    else if f.sib.bothBlack then
      delFix up (Tree.mkD f.d f.a f.c f.k f.v t (f.sib.setColor R))
    else
      (plug up (delRot f.d f.a f.c f.k f.v t f.sib)).blacken

/-- The shapes on which `RB_delete_fixup` dereferences no absent node: a black `x` below
the root has a brother, and after the rotation of a red brother the new brother exists. -/
def DelSafe : List (Frame K V) → Tree K V → Prop
  | [], _ => True
  | f :: up, t =>
    t.color = B → (f.sib ≠ .nil ∧
      (if f.sib.color = R then f.sib.child f.d ≠ .nil
       else if f.sib.bothBlack then
         DelSafe up (Tree.mkD f.d f.a f.c f.k f.v t (f.sib.setColor R))
       else True))


/-- Two frames agree in direction, colour and sibling subtree. -/
def Frame.Sim (f g : Frame K V) : Prop := f.d = g.d ∧ f.c = g.c ∧ f.sib = g.sib

/-- The state after the splice of `RB_delete`: `x` is the subtree that has moved up, in the
context `ctx`; `c` is the colour of the node that has been removed from its place. -/
structure Spliced (m M : MapState K V) (t : Tree K V) (z : Nat) (ctx : List (Frame K V))
    (x : Tree K V) (c : Bool) : Prop where
  repr : Repr M (plug ctx x)
  zout : z ∉ (plug ctx x).addrs
  zheap : ∃ n, M.heap z = some n
  touch : Touch m M t.addrs
  nodes : ∃ l1 l2 kz vz, t.nodes = l1 ++ (z, kz, vz) :: l2 ∧ (plug ctx x).nodes = l1 ++ l2
  shape : ∃ C d a k v, t = plug C (Tree.mkD d a c k v x .nil) ∧ List.Forall₂ Frame.Sim C ctx


/-- The state after `RB_delete(z)`. -/
structure Erased (m M : MapState K V) (t T : Tree K V) (z : Nat) : Prop where
  repr : Repr M T
  rb : T.RB
  siz : M.siz = (m.siz + 2 ^ 64 - 1) % 2 ^ 64
  cmp : M.cmp = m.cmp
  self : M.self = m.self
  next : M.next = m.next
  frame : ∀ a, a ∉ t.addrs → M.heap a = m.heap a
  freed : M.heap z = none
  nodes : ∃ l1 l2 kz vz, t.nodes = l1 ++ (z, kz, vz) :: l2 ∧ T.nodes = l1 ++ l2


/-- One call of a client: `insert({k, v})`, `operator[](k)`, or `erase(find(k))` (where
`find` returns `end()` on an absent key, and `erase` then throws and changes nothing). -/
inductive Op (K V : Type) where
  | insert (k : K) (v : V)
  | index (k : K)
  | erase (k : K)

/-- The state after one call. -/
def step [Inhabited V] (fuel : Nat) (m : MapState K V) : Op K V → Option (MapState K V)
  | .insert k v => (insert fuel m (k, v)).map (fun r => r.1)
  | .index k => (index fuel m k).map (fun r => r.1)
  | .erase k => (find fuel m k).bind fun r => (erase fuel r.1 r.2).map (fun q => q.1)

/-- The state after a sequence of calls. -/
def run [Inhabited V] (fuel : Nat) : MapState K V → List (Op K V) → Option (MapState K V)
  | m, [] => some m
  | m, op :: ops => (step fuel m op).bind fun m' => run fuel m' ops


/-- The source's non-const `at(key)`, through the non-const `RB_find` with `mode = 0`: the
state after the call, and the node whose mapped value the returned reference denotes or the
exception thrown. -/
def at_ [Inhabited V] (fuel : Nat) (m : MapState K V) (key : K) :
    Option (MapState K V × Except Exn Nat) := do
  let (m, p) ← RB_find fuel m key 0
  match p with
  | none => pure (m, .error .index_out_of_bound)
  | some pa => do
    let _ ← m.heap pa
    pure (m, .ok pa)

/-- The source's const `at(key)`, through the const `RB_find`. -/
def at_const (fuel : Nat) (m : MapState K V) (key : K) : Option (Except Exn Nat) := do
  let p ← RB_find_const m.cmp m.heap key fuel m.root
  match p with
  | none => pure (.error .index_out_of_bound)
  | some pa => do
    let _ ← m.heap pa
    pure (.ok pa)

/-- The source's const `operator[](key)`: `return at(key)`. -/
def index_const (fuel : Nat) (m : MapState K V) (key : K) : Option (Except Exn Nat) :=
  at_const fuel m key


/-- The source's `begin()` / `cbegin()`: `iterator(min(root), this)`. -/
def begin (fuel : Nat) (m : MapState K V) : Option iterator := do
  let p ← min m.heap fuel m.root
  pure ⟨p, some m.self⟩

/-- The source's prefix `operator++` of `iterator` and `const_iterator`: the iterator after
the call and the outcome (`error` when `invalid_iterator` is thrown). The call
`tree->succ(ptr)` goes through the pointer `tree`. -/
def iterator.inc (heap : Nat → Option (Node K V)) (fuel : Nat) (it : iterator) :
    Option (iterator × Except Exn Unit) :=
  match it.ptr with
  | none => some (it, .error .invalid_iterator)
  | some p => do
    let _ ← it.tree
    let q ← succ heap fuel p
    pure (⟨q, it.tree⟩, .ok ())

/-- The source's postfix `operator++(int)`: the iterator after the call and the returned
copy of the iterator before it. -/
def iterator.post_inc (heap : Nat → Option (Node K V)) (fuel : Nat) (it : iterator) :
    Option (iterator × Except Exn iterator) :=
  match it.ptr with
  | none => some (it, .error .invalid_iterator)
  | some p => do
    let ret := it
    let _ ← it.tree
    let q ← succ heap fuel p
    pure (⟨q, it.tree⟩, .ok ret)

/-- The source's prefix `operator--` of `iterator` and `const_iterator`, on an iterator of
the map object `m` when `ptr` is absent (`tree->root` reads that object). -/
def iterator.dec (fuel : Nat) (m : MapState K V) (it : iterator) :
    Option (iterator × Except Exn Unit) := do
  let p ← (match it.ptr with
    | some x => do
      let _ ← it.tree
      pred m.heap fuel x
    | none => if it.tree = some m.self then max m.heap fuel m.root else none)
  match p with
  | none => pure (it, .error .invalid_iterator)
  | some q => pure (⟨some q, it.tree⟩, .ok ())

/-- The source's postfix `operator--(int)`: `ret = *this; --*this; return ret`. -/
def iterator.post_dec (fuel : Nat) (m : MapState K V) (it : iterator) :
    Option (iterator × Except Exn iterator) := do
  let ret := it
  let (it, r) ← iterator.dec fuel m it
  match r with
  | .error e => pure (it, .error e)
  | .ok _ => pure (it, .ok ret)

/-- The source's `operator*` of `iterator` and `const_iterator`: the `data` of the node. -/
def iterator.star (heap : Nat → Option (Node K V)) (it : iterator) :
    Option (Except Exn (K × V)) :=
  match it.ptr with
  | none => some (.error .invalid_iterator)
  | some p => do
    let n ← heap p
    pure (.ok (n.key, n.value))

/-- The source's `operator->` of `iterator` and `const_iterator`, `return &(ptr->data)`: the
address of the member `data`, the first member of the node `ptr`. The function is `noexcept`
and makes no test on `ptr`. -/
def iterator.arrow (it : iterator) : Except Exn NodePtr := .ok it.ptr

/-- The source's `operator==` (all four overloads between `iterator` and
`const_iterator`): `ptr == rhs.ptr && tree == rhs.tree`. -/
def iterator.eq (a b : iterator) : Bool := a.ptr == b.ptr && a.tree == b.tree

/-- The source's `operator!=` (all four overloads): `!(*this == rhs)`. -/
def iterator.ne (a b : iterator) : Bool := !(iterator.eq a b)

/-- A client loop `for (n times) { out.push_back(*it); ++it; }`: the iterator reached and
the entries read; it has no result when `*it` or `++it` throws. -/
def walk (heap : Nat → Option (Node K V)) (fuel : Nat) :
    Nat → iterator → List (K × V) → Option (iterator × List (K × V))
  | 0, it, acc => some (it, acc)
  | n + 1, it, acc =>
    match iterator.star heap it with
    | some (.ok e) =>
      match iterator.inc heap fuel it with
      | some (it', .ok _) => walk heap fuel n it' (acc ++ [e])
      | _ => none
    | _ => none


/-- A second map object, at address 1, that holds the tree of `exMap`. -/
def exTwin : MapState Nat Nat := { exMap with self := 1 }


/-- The source's `copy(x, p)`; `new Node(*x)` copies all members of `*x`. -/
def copy : Nat → MapState K V → NodePtr → NodePtr → Option (MapState K V × NodePtr)
  | 0, _, _, _ => none
  | _ + 1, m, none, _ => some (m, none)
  | fuel + 1, m, some x, p => do
    let nx ← m.heap x
    let y := m.next
    let m := m.alloc nx
    let nx ← m.heap x
    let r ← copy fuel m nx.lc (some y)
    let m ← setCh r.1 y false r.2
    let nx ← m.heap x
    let r ← copy fuel m nx.rc (some y)
    let m ← setCh r.1 y true r.2
    let m ← setPa m y p
    pure (m, some y)

/-- The source's `destroy(x)`. -/
def destroy : Nat → MapState K V → NodePtr → Option (MapState K V)
  | 0, _, _ => none
  | _ + 1, m, none => some m
  | fuel + 1, m, some x => do
    let nx ← m.heap x
    let m ← destroy fuel m nx.lc
    let nx ← m.heap x
    let m ← destroy fuel m nx.rc
    let _ ← m.heap x
    pure (m.free x)

/-- The copy constructor `map(const map &other)`: `siz(other.siz)`, then
`root = copy(other.root)`; `cmp` is the value `Compare()`, the new object lives at `self` in
the memory of `other`. -/
def mk_copy (fuel : Nat) (cmp : K → K → Bool) (self : Nat) (other : MapState K V) :
    Option (MapState K V) := do
  let m : MapState K V :=
    { siz := other.siz, cmp := cmp, root := none, self := self, heap := other.heap,
      next := other.next }
  let r ← copy fuel m other.root none
  pure (r.1.setRoot r.2)

/-- The source's `operator=(other)`; the object `other` lives in the memory of `m`, its
members `siz` and `root` and its address `self` are read. -/
def assign (fuel : Nat) (m other : MapState K V) : Option (MapState K V) :=
  if m.self == other.self then
    some m
  else do
    let m := m.setSiz other.siz
    let m ← destroy fuel m m.root
    let r ← copy fuel m other.root none
    pure (r.1.setRoot r.2)

/-- The source's `clear()`. -/
def clear (fuel : Nat) (m : MapState K V) : Option (MapState K V) := do
  let m ← destroy fuel m m.root
  pure ((m.setRoot none).setSiz 0)

/-- The map object `a` seen in the memory that a call on another object has left. -/
def MapState.sync (a M : MapState K V) : MapState K V :=
  { a with heap := M.heap, next := M.next }

/-- The tree with fresh addresses from `b` on, in the order in which `copy` allocates:
the root first, then the left subtree, then the right subtree. -/
def Tree.copyAt : Tree K V → Nat → Tree K V
  | .nil, _ => .nil
  | .node _ c l k v r, b => .node b c (l.copyAt (b + 1)) k v (r.copyAt (b + 1 + l.size))

/-- The tree without its addresses: colours, keys, mapped values and topology. -/
def Tree.skel : Tree K V → Tree K V
  | .nil => .nil
  | .node _ c l k v r => .node 0 c l.skel k v r.skel

/-- The state `M` is `m` after allocations of `n` nodes: the members of the object are
unchanged, the nodes below the old `next` are unchanged, and nothing lives at or above the
new `next`. -/
structure Grown (m M : MapState K V) (n : Nat) : Prop where
  siz : M.siz = m.siz
  cmp : M.cmp = m.cmp
  self : M.self = m.self
  root : M.root = m.root
  next : M.next = m.next + n
  old : ∀ a, a < m.next → M.heap a = m.heap a
  fresh : HeapFresh M

/-- An empty map object at address 9 in the memory of `exMap`. -/
def exEmpty : MapState Nat Nat :=
  { siz := 0, cmp := natLt, root := none, self := 9, heap := exHeap, next := 4 }


/-- The state `M` holds the tree `T` after a call on the state `m` that held `t`: `M` is a
valid map, its stored count is the number of nodes of `T`, which is at most `n`; the memory
below `m.next` is unchanged outside the nodes of `t`, and the nodes of `T` are nodes of `t`
or were unused. -/
structure Evolves (n : Nat) (m M : MapState K V) (t T : Tree K V) : Prop where
  valid : Valid M T
  cmp : M.cmp = m.cmp
  self : M.self = m.self
  next : m.next ≤ M.next
  frame : ∀ a, a ∉ t.addrs → a < m.next → M.heap a = m.heap a
  addrs : ∀ a ∈ T.addrs, a ∈ t.addrs ∨ m.next ≤ a
  siz : M.siz = T.size
  size : T.size ≤ n


/-- The data members of one map object: `siz`, `cmp`, `root`. -/
structure Obj (K : Type) where
  siz : Nat
  cmp : K → K → Bool
  root : NodePtr

/-- A memory of nodes with its allocator, and the map objects of a client, the object `i` at
the object address `i`. -/
structure World (K V : Type) where
  heap : Nat → Option (Node K V)
  next : Nat
  objs : List (Obj K)

/-- The map object `i` with the memory, as a state of the member functions. -/
def World.view (w : World K V) (i : Nat) : Option (MapState K V) :=
  (w.objs[i]?).map fun o =>
    { siz := o.siz, cmp := o.cmp, root := o.root, self := i, heap := w.heap, next := w.next }

/-- Write back the state that a member function of the object `i` has left. -/
def World.put (w : World K V) (i : Nat) (M : MapState K V) : World K V :=
  { heap := M.heap, next := M.next, objs := w.objs.set i ⟨M.siz, M.cmp, M.root⟩ }

/-- Add the object that a constructor has left. -/
def World.push (w : World K V) (M : MapState K V) : World K V :=
  { heap := M.heap, next := M.next, objs := w.objs ++ [⟨M.siz, M.cmp, M.root⟩] }

/-- One statement of a client: `map c;`, `map c(objs[j]);`, `objs[i] = objs[j];`,
`objs[i].clear();`, or one of the calls of `Op` on `objs[i]`. -/
inductive WOp (K V : Type) where
  | create
  | copy (j : Nat)
  | assign (i j : Nat)
  | clear (i : Nat)
  | call (i : Nat) (op : Op K V)

/-- The memory after one statement; `cmp` is the value `Compare()`. A statement that names
an object that does not exist is skipped. -/
def World.step [Inhabited V] (fuel : Nat) (cmp : K → K → Bool) (w : World K V) :
    WOp K V → Option (World K V)
  | .create => some (w.push (sjtu.map.mk cmp w.objs.length w.heap w.next))
  | .copy j =>
    match w.view j with
    | none => some w
    | some a => (mk_copy fuel cmp w.objs.length a).map w.push
  | .assign i j =>
    match w.view i, w.view j with
    | some a, some b => (assign fuel a b).map (w.put i)
    | _, _ => some w
  | .clear i =>
    match w.view i with
    | none => some w
    | some a => (sjtu.map.clear fuel a).map (w.put i)
  | .call i op =>
    match w.view i with
    | none => some w
    | some a => (sjtu.map.step fuel a op).map (w.put i)

/-- The memory after a sequence of statements. -/
def World.run [Inhabited V] (fuel : Nat) (cmp : K → K → Bool) :
    World K V → List (WOp K V) → Option (World K V)
  | w, [] => some w
  | w, op :: ops => (World.step fuel cmp w op).bind fun w' => World.run fuel cmp w' ops

/-- A memory with one map object, empty. -/
def World.init (cmp : K → K → Bool) (heap : Nat → Option (Node K V)) (next : Nat) :
    World K V :=
  { heap := heap, next := next, objs := [⟨0, cmp, none⟩] }

/-- Every object `i` of the memory is a valid map with tree `ts i`, comparator `cmp` and
stored count the number of its nodes, at most `n`; no two trees share a node. -/
structure WInv (cmp : K → K → Bool) (n : Nat) (w : World K V) (ts : Nat → Tree K V) :
    Prop where
  fresh : ∀ a, w.next ≤ a → w.heap a = none
  obj : ∀ i M, w.view i = some M →
    Valid M (ts i) ∧ M.cmp = cmp ∧ M.siz = (ts i).size ∧ (ts i).size ≤ n
  out : ∀ i, w.objs.length ≤ i → ts i = .nil
  disj : ∀ i j, i ≠ j → ∀ a ∈ (ts i).addrs, a ∉ (ts j).addrs
  lt : ∀ i, ∀ a ∈ (ts i).addrs, a < w.next


/-- The in-order sequence of `(address, colour, key, value)`. -/
def Tree.cnodes : Tree K V → List (Nat × Bool × K × V)
  | .nil => []
  | .node a c l k v r => l.cnodes ++ (a, c, k, v) :: r.cnodes


/-- A black three-node tree: the node at address 1 holds key 20, its children at 2 and 3
hold keys 10 and 30; all three are black. -/
def exHeapB : Nat → Option (Node Nat Nat) := fun a =>
  if a = 1 then some ⟨20, 200, B, some 2, some 3, none⟩
  else if a = 2 then some ⟨10, 100, B, none, none, some 1⟩
  else if a = 3 then some ⟨30, 300, B, none, none, some 1⟩
  else none

/-- A map object at address 0 with the three entries of `exHeapB`. -/
def exMapB : MapState Nat Nat :=
  { siz := 3, cmp := natLt, root := some 1, self := 0, heap := exHeapB, next := 4 }

/-- The tree that `exMapB` holds. -/
def exTreeB : Tree Nat Nat :=
  .node 1 B (.node 2 B .nil 10 100 .nil) 20 200 (.node 3 B .nil 30 300 .nil)


/-- The order `>` on the natural numbers. -/
def natGt : Nat → Nat → Bool := fun a b => decide (b < a)

end map
end sjtu

namespace sjtu
namespace vector

/-- The exceptions of `exceptions.hpp` that the vector throws. -/
inductive Exn where
  | index_out_of_bound
  | invalid_iterator
  | container_is_empty
deriving DecidableEq, Repr

/-- The members `arr`, `siz`, `cap` of one `vector` object. -/
structure Vec (T : Type) where
  arr : Nat → Option T
  siz : Nat
  cap : Nat

variable {T : Type}

/-- The constructor `vector()`: `arr(nullptr), siz(0), cap(0)`. -/
def mk : Vec T := { arr := fun _ => none, siz := 0, cap := 0 }

/-- The source's `size()`. -/
def size (v : Vec T) : Nat := v.siz

/-- The loop `for (size_t i = ind; i < siz; i++) arr[i] = arr[i + 1];` of `erase`, entered
with the loop variable `i`; one unit of fuel per loop test. -/
def erase_loop : Nat → (Nat → Option T) → Nat → Nat → Option (Nat → Option T)
  | 0, _, _, _ => none
  | fuel + 1, arr, siz, i =>
    if i < siz then do
      let _ ← arr i
      let x ← arr (i + 1)
      erase_loop fuel (Function.update arr i (some x)) siz ((i + 1) % 2 ^ 64)
    else
      some arr

/-- The source's `erase(const size_t &ind)`. Lines 423-433: the guard is `ind > siz`; then
`siz--`, the shifting loop, `arr[siz].~T()`, and the iterator `begin() + ind`, given by its
index. -/
def erase (fuel : Nat) (v : Vec T) (ind : Nat) : Option (Vec T × Except Exn Nat) :=
  if ind > v.siz then
    some (v, .error .index_out_of_bound)
  else do
    let siz := (v.siz + 2 ^ 64 - 1) % 2 ^ 64
    let arr ← erase_loop fuel v.arr siz ind
    let _ ← arr siz
    pure ({ v with arr := Function.update arr siz none, siz := siz }, .ok ind)

/-- The vector holds the list `l`: the slots below `siz` hold the elements of `l`, the other
slots hold no constructed object. -/
def Holds (v : Vec T) (l : List T) : Prop :=
  v.siz = l.length ∧ l.length ≤ v.cap ∧ v.cap < 2 ^ 64 ∧ ∀ i, v.arr i = l[i]?

/-- The vector `[7]` with capacity 2. -/
def exVec : Vec Nat := { arr := fun i => if i = 0 then some 7 else none, siz := 1, cap := 2 }

end vector
end sjtu

namespace sjtu
namespace priority_queue

/-- The exception of `exceptions.hpp` that the priority queue throws. -/
inductive Exn where
  | container_is_empty
deriving DecidableEq, Repr

/-- The `struct Node` of the source: `key`, `lc`, `rc` and the height `h`. -/
structure Node (T : Type) where
  key : T
  lc : Option Nat
  rc : Option Nat
  h : Int

/-- The members `cmp`, `siz`, `root` of one `priority_queue` object, and the memory it lives
in: `heap` (the allocated nodes) and `next` (the address the next `new Node` returns). -/
structure PQState (T : Type) where
  cmp : T → T → Bool
  siz : Nat
  root : Option Nat
  heap : Nat → Option (Node T)
  next : Nat

/-- The data members of one `priority_queue` object. -/
structure Obj (T : Type) where
  cmp : T → T → Bool
  siz : Nat
  root : Option Nat

/-- A memory of nodes with its allocator, and the queue objects of a client: the object `i`
at the object address `i`, for `i` below `count`. -/
structure Mem (T : Type) where
  heap : Nat → Option (Node T)
  next : Nat
  objs : Nat → Option (Obj T)
  count : Nat

variable {T : Type}

/-- The value of an `int` expression, in two's complement on 32 bits. -/
def wrap32 (x : Int) : Int := (x + 2 ^ 31) % 2 ^ 32 - 2 ^ 31

/-- The source's `h(p)`: `p ? p->h : 0`. -/
def h (heap : Nat → Option (Node T)) (p : Option Nat) : Option Int :=
  match p with
  | none => some 0
  | some a => (heap a).map (fun n => n.h)

/-- Lines 52-57 of `merge(x, y)`, after the recursive call has returned `r`:
`x->rc = r; if (h(x->rc) > h(x->lc)) swap(x->rc, x->lc); x->h = h(x->rc) + 1; return x`. -/
def merge_link (heap : Nat → Option (Node T)) (x : Nat) (r : Option Nat) :
    Option ((Nat → Option (Node T)) × Option Nat) := do
  let nx ← heap x
  let heap := Function.update heap x (some { nx with rc := r })
  let nx ← heap x
  let hr ← h heap nx.rc
  let hl ← h heap nx.lc
  let heap := if hr > hl then Function.update heap x (some { nx with rc := nx.lc, lc := nx.rc })
    else heap
  let nx ← heap x
  let hr ← h heap nx.rc
  pure (Function.update heap x (some { nx with h := wrap32 (hr + 1) }), some x)

/-- The source's `merge(Node *x, Node *y)`; one unit of fuel per call. -/
def merge (cmp : T → T → Bool) :
    Nat → (Nat → Option (Node T)) → Option Nat → Option Nat →
      Option ((Nat → Option (Node T)) × Option Nat)
  | 0, _, _, _ => none
  | _ + 1, heap, none, y => some (heap, y)
  | _ + 1, heap, some x, none => some (heap, some x)
  | fuel + 1, heap, some x, some y => do
    let nx ← heap x
    let ny ← heap y
    let xy := if cmp nx.key ny.key then (y, x) else (x, y)
    let nx ← heap xy.1
    let r ← merge cmp fuel heap nx.rc (some xy.2)
    merge_link r.1 xy.1 r.2

/-- The constructor `priority_queue()`: `root(nullptr), siz(0)`; `cmp` is the value
`Compare()`. -/
def mk (cmp : T → T → Bool) (heap : Nat → Option (Node T)) (next : Nat) : PQState T :=
  { cmp := cmp, siz := 0, root := none, heap := heap, next := next }

/-- The source's `top()`. -/
def top (q : PQState T) : Option (Except Exn T) :=
  if q.siz == 0 then
    some (.error .container_is_empty)
  else do
    let p ← q.root
    let n ← q.heap p
    pure (.ok n.key)

/-- The source's `push(e)`: `new Node(e)` at the address `next`, then
`root = merge(root, p); siz++`. -/
def push (fuel : Nat) (q : PQState T) (e : T) : Option (PQState T) := do
  let p := q.next
  let heap := Function.update q.heap p (some ⟨e, none, none, 1⟩)
  let r ← merge q.cmp fuel heap q.root (some p)
  pure { q with heap := r.1, next := q.next + 1, root := r.2, siz := (q.siz + 1) % 2 ^ 64 }

/-- The source's `pop()`. -/
def pop (fuel : Nat) (q : PQState T) : Option (PQState T × Except Exn Unit) :=
  if q.siz == 0 then
    some (q, .error .container_is_empty)
  else do
    let p ← q.root
    let np ← q.heap p
    let r ← merge q.cmp fuel q.heap np.lc np.rc
    let _ ← r.1 p
    pure ({ q with heap := Function.update r.1 p none, root := r.2,
                   siz := (q.siz + 2 ^ 64 - 1) % 2 ^ 64 }, .ok ())

/-- The source's `size()`. -/
def size (q : PQState T) : Nat := q.siz

/-- The source's `empty()`. -/
def empty (q : PQState T) : Bool := q.siz == 0

/-- The queue object `i` with the memory, as a state of the member functions. -/
def Mem.view (w : Mem T) (i : Nat) : Option (PQState T) :=
  (w.objs i).map fun o =>
    { cmp := o.cmp, siz := o.siz, root := o.root, heap := w.heap, next := w.next }

/-- Write back the state that a member function of the object `i` has left. -/
def Mem.put (w : Mem T) (i : Nat) (q : PQState T) : Mem T :=
  { w with heap := q.heap, next := q.next,
           objs := Function.update w.objs i (some ⟨q.cmp, q.siz, q.root⟩) }

/-- The source's `merge(priority_queue &other)` on the objects `i` (`this`) and `j`
(`other`), statement by statement: `root = merge(root, other.root), other.root = nullptr;
siz += other.siz, other.siz = 0;`. -/
def merge_other (fuel : Nat) (w : Mem T) (i j : Nat) : Option (Mem T) := do
  let a ← w.objs i
  let b ← w.objs j
  let r ← merge a.cmp fuel w.heap a.root b.root
  let objs := Function.update w.objs i (some { a with root := r.2 })
  let b ← objs j
  let objs := Function.update objs j (some { b with root := none })
  let a ← objs i
  let b ← objs j
  let objs := Function.update objs i (some { a with siz := (a.siz + b.siz) % 2 ^ 64 })
  let b ← objs j
  let objs := Function.update objs j (some { b with siz := 0 })
  pure { w with heap := r.1, objs := objs }

/-- One statement of a client: `priority_queue q;`, `objs[i].push(e)`, `objs[i].pop()`,
`objs[i].merge(objs[j])`. -/
inductive QOp (T : Type) where
  | create
  | push (i : Nat) (e : T)
  | pop (i : Nat)
  | merge (i j : Nat)

/-- The memory after one statement; `cmp` is the value `Compare()`. A statement that names
an object that does not exist is skipped; a `pop()` that throws changes nothing. -/
def Mem.step (fuel : Nat) (cmp : T → T → Bool) (w : Mem T) : QOp T → Option (Mem T)
  | .create =>
    some { w with objs := Function.update w.objs w.count (some ⟨cmp, 0, none⟩),
                  count := w.count + 1 }
  | .push i e =>
    match w.view i with
    | none => some w
    | some q => (sjtu.priority_queue.push fuel q e).map (w.put i)
  | .pop i =>
    match w.view i with
    | none => some w
    | some q => (sjtu.priority_queue.pop fuel q).map (fun r => w.put i r.1)
  | .merge i j =>
    match w.objs i, w.objs j with
    | some _, some _ => merge_other fuel w i j
    | _, _ => some w

/-- The memory after a sequence of statements. -/
def Mem.run (fuel : Nat) (cmp : T → T → Bool) : Mem T → List (QOp T) → Option (Mem T)
  | w, [] => some w
  | w, op :: ops => (Mem.step fuel cmp w op).bind fun w1 => Mem.run fuel cmp w1 ops

/-- A memory with one queue object, empty. -/
def Mem.init (cmp : T → T → Bool) (heap : Nat → Option (Node T)) (next : Nat) : Mem T :=
  { heap := heap, next := next, objs := fun i => if i = 0 then some ⟨cmp, 0, none⟩ else none,
    count := 1 }

end priority_queue
end sjtu

namespace sjtu
namespace priority_queue
variable {T : Type}

/-- The tree of nodes reachable from a pointer, with the address, key and height field of
every node. -/
inductive PTree (T : Type) where
  | nil
  | node (a : Nat) (k : T) (hh : Int) (l r : PTree T)

/-- The pointer to the root node. -/
def PTree.ptr : PTree T → Option Nat
  | .nil => none
  | .node a _ _ _ _ => some a

/-- The node addresses. -/
def PTree.addrs : PTree T → List Nat
  | .nil => []
  | .node a _ _ l r => a :: (l.addrs ++ r.addrs)

/-- The keys, the root first. -/
def PTree.keys : PTree T → List T
  | .nil => []
  | .node _ k _ l r => k :: (l.keys ++ r.keys)

/-- The number of nodes. -/
def PTree.size : PTree T → Nat
  | .nil => 0
  | .node _ _ _ l r => l.size + r.size + 1

/-- The heap `heap` holds the tree `t`. -/
def PRep (heap : Nat → Option (Node T)) : PTree T → Prop
  | .nil => True
  | .node a k hh l r => heap a = some ⟨k, l.ptr, r.ptr, hh⟩ ∧ PRep heap l ∧ PRep heap r

/-- The key of every node is not below the key of any node under it: `cmp k y` is false for
every key `y` of the subtrees. -/
def HeapOrd (cmp : T → T → Bool) : PTree T → Prop
  | .nil => True
  | .node _ k _ l r =>
    (∀ y ∈ l.keys ++ r.keys, cmp k y = false) ∧ HeapOrd cmp l ∧ HeapOrd cmp r

/-- The nodes at the addresses `S` are allocated and their child pointers stay in `S`. -/
def ClosedOn (heap : Nat → Option (Node T)) (S : List Nat) : Prop :=
  ∀ a ∈ S, ∃ n, heap a = some n ∧ (∀ c, n.lc = some c → c ∈ S) ∧ (∀ c, n.rc = some c → c ∈ S)

/-- What `merge` returns on two represented, heap-ordered trees without a common node. -/
def Merged (cmp : T → T → Bool) (heap heap2 : Nat → Option (Node T)) (tx ty t : PTree T) :
    Prop :=
  PRep heap2 t ∧ t.addrs.Perm (tx.addrs ++ ty.addrs) ∧ t.keys.Perm (tx.keys ++ ty.keys) ∧
    HeapOrd cmp t ∧ ∀ a, a ∉ tx.addrs ++ ty.addrs → heap2 a = heap a

end priority_queue
end sjtu

namespace sjtu
namespace priority_queue
variable {T : Type}

/-- The state `q` holds the heap-ordered tree `t`, and `siz` is its number of nodes. -/
structure QInv (q : PQState T) (t : PTree T) : Prop where
  rep : PRep q.heap t
  root : q.root = t.ptr
  nodup : t.addrs.Nodup
  ord : HeapOrd q.cmp t
  siz : q.siz = t.size

/-- Every queue object `i` of the memory holds the heap-ordered tree `ts i` with comparator
`cmp` and stored count the number of its nodes; no two trees share a node. -/
structure MInv (cmp : T → T → Bool) (w : Mem T) (ts : Nat → PTree T) : Prop where
  fresh : ∀ a, w.next ≤ a → w.heap a = none
  cnt : ∀ i, w.count ≤ i → w.objs i = none
  obj : ∀ i o, w.objs i = some o →
    o.cmp = cmp ∧ QInv ⟨o.cmp, o.siz, o.root, w.heap, w.next⟩ (ts i)
  out : ∀ i, w.objs i = none → ts i = .nil
  disj : ∀ i j, i ≠ j → ∀ a ∈ (ts i).addrs, a ∉ (ts j).addrs

end priority_queue
end sjtu

/-!
# Theorems
-/

/-!
## The abstract tree denoted by a heap

`Tree` is the shape a heap denotes: every node carries its address, so node identity is
visible.  `Rep heap t pa` says that the heap holds exactly the nodes of `t`, linked as in `t`,
the root's parent link being `pa`.  A context (`List Frame`, innermost frame first) is a tree
with a hole; `plug` fills the hole.
-/

namespace sjtu
namespace map
variable {K V : Type}

/-! ### Basic facts on trees and contexts -/

section basic

@[simp] theorem Tree.ptr_nil : (Tree.nil : Tree K V).ptr = none := rfl

@[simp] theorem Tree.ptr_node (a c) (l : Tree K V) (k v r) :
    (Tree.node a c l k v r).ptr = some a := rfl

@[simp] theorem Tree.ptr_mkD (d a c) (k : K) (v : V) (td tn) :
    (Tree.mkD d a c k v td tn).ptr = some a := by
  cases d <;> rfl

@[simp] theorem Tree.color_mkD (d a c) (k : K) (v : V) (td tn) :
    (Tree.mkD d a c k v td tn).color = c := by
  cases d <;> rfl

@[simp] theorem Tree.addrs_nil : (Tree.nil : Tree K V).addrs = [] := rfl

@[simp] theorem Tree.addrs_node (a c) (l : Tree K V) (k v r) :
    (Tree.node a c l k v r).addrs = l.addrs ++ a :: r.addrs := rfl

@[simp] theorem Tree.nodes_nil : (Tree.nil : Tree K V).nodes = [] := rfl

@[simp] theorem Tree.nodes_node (a c) (l : Tree K V) (k v r) :
    (Tree.node a c l k v r).nodes = l.nodes ++ (a, k, v) :: r.nodes := rfl

theorem Tree.addrs_eq_map (t : Tree K V) : t.addrs = t.nodes.map (fun e => e.1) := by
  induction t with
  | nil => rfl
  | node a c l k v r ihl ihr => simp [ihl, ihr]

theorem Tree.size_eq_length (t : Tree K V) : t.size = t.nodes.length := by
  induction t with
  | nil => rfl
  | node a c l k v r ihl ihr => simp [Tree.size, ihl, ihr]; omega

theorem Tree.height_le_size (t : Tree K V) : t.height ≤ t.size := by
  induction t with
  | nil => exact Nat.le_refl _
  | node a c l k v r ihl ihr =>
    simp only [Tree.height, Tree.size]
    have : Max.max l.height r.height ≤ l.size + r.size :=
      Nat.max_le.mpr ⟨Nat.le_trans ihl (Nat.le_add_right _ r.size),
        Nat.le_trans ihr (Nat.le_add_left _ l.size)⟩
    omega

theorem Tree.ptr_mem_addrs {t : Tree K V} {a : Nat} (h : t.ptr = some a) : a ∈ t.addrs := by
  cases t with
  | nil => simp at h
  | node b c l k v r => simp at h; simp [h]

theorem Tree.perm_addrs_mkD (d a c) (k : K) (v : V) (td tn : Tree K V) :
    (Tree.mkD d a c k v td tn).addrs.Perm (a :: (td.addrs ++ tn.addrs)) := by
  cases d
  · simp only [Tree.mkD, Bool.false_eq_true, if_false, Tree.addrs_node]
    exact List.perm_middle
  · simp only [Tree.mkD, if_true, Tree.addrs_node]
    exact List.perm_middle.trans (List.Perm.cons _ List.perm_append_comm)

theorem Tree.mem_addrs_mkD {d a c} {k : K} {v : V} {td tn : Tree K V} {b : Nat} :
    b ∈ (Tree.mkD d a c k v td tn).addrs ↔ b = a ∨ b ∈ td.addrs ∨ b ∈ tn.addrs := by
  rw [(Tree.perm_addrs_mkD d a c k v td tn).mem_iff]; simp

theorem Tree.nodup_addrs_mkD {d a c} {k : K} {v : V} {td tn : Tree K V} :
    (Tree.mkD d a c k v td tn).addrs.Nodup ↔
      a ∉ td.addrs ∧ a ∉ tn.addrs ∧ td.addrs.Nodup ∧ tn.addrs.Nodup ∧
        ∀ b ∈ td.addrs, b ∉ tn.addrs := by
  rw [(Tree.perm_addrs_mkD d a c k v td tn).nodup_iff]
  simp only [List.nodup_cons, List.mem_append, not_or, List.nodup_append, List.Disjoint]
  constructor
  · rintro ⟨⟨h1, h2⟩, h3, h4, h5⟩
    exact ⟨h1, h2, h3, h4, fun b hb hb' => h5 hb hb'⟩
  · rintro ⟨h1, h2, h3, h4, h5⟩
    exact ⟨⟨h1, h2⟩, h3, h4, fun b hb hb' => h5 b hb hb'⟩

@[simp] theorem nodeD_ch (d : Bool) (k : K) (v : V) (c pd pn pa) :
    (nodeD d k v c pd pn pa).ch d = pd := by
  cases d <;> rfl

@[simp] theorem nodeD_ch_not (d : Bool) (k : K) (v : V) (c pd pn pa) :
    (nodeD d k v c pd pn pa).ch (!d) = pn := by
  cases d <;> rfl

@[simp] theorem nodeD_pa (d : Bool) (k : K) (v : V) (c pd pn pa) :
    (nodeD d k v c pd pn pa).pa = pa := by
  cases d <;> rfl

@[simp] theorem nodeD_color (d : Bool) (k : K) (v : V) (c pd pn pa) :
    (nodeD d k v c pd pn pa).color = c := by
  cases d <;> rfl

@[simp] theorem nodeD_key (d : Bool) (k : K) (v : V) (c pd pn pa) :
    (nodeD d k v c pd pn pa).key = k := by
  cases d <;> rfl

@[simp] theorem nodeD_value (d : Bool) (k : K) (v : V) (c pd pn pa) :
    (nodeD d k v c pd pn pa).value = v := by
  cases d <;> rfl

@[simp] theorem nodeD_setCh (d : Bool) (k : K) (v : V) (c pd pn pa q) :
    (nodeD d k v c pd pn pa).setCh d q = nodeD d k v c q pn pa := by
  cases d <;> rfl

@[simp] theorem nodeD_setCh_not (d : Bool) (k : K) (v : V) (c pd pn pa q) :
    (nodeD d k v c pd pn pa).setCh (!d) q = nodeD d k v c pd q pa := by
  cases d <;> rfl

@[simp] theorem nodeD_setPa (d : Bool) (k : K) (v : V) (c pd pn pa q) :
    (nodeD d k v c pd pn pa).setPa q = nodeD d k v c pd pn q := by
  cases d <;> rfl

@[simp] theorem nodeD_setColor (d : Bool) (k : K) (v : V) (c pd pn pa c') :
    (nodeD d k v c pd pn pa).setColor c' = nodeD d k v c' pd pn pa := by
  cases d <;> rfl

@[simp] theorem nodeD_setValue (d : Bool) (k : K) (v : V) (c pd pn pa v') :
    (nodeD d k v c pd pn pa).setValue v' = nodeD d k v' c pd pn pa := by
  cases d <;> rfl

theorem nodeD_not (d : Bool) (k : K) (v : V) (c pd pn pa) :
    nodeD (!d) k v c pd pn pa = nodeD d k v c pn pd pa := by
  cases d <;> rfl

theorem Rep_mkD {h : Nat → Option (Node K V)} {d a c} {k : K} {v : V} {td tn : Tree K V}
    {pa : NodePtr} :
    Rep h (Tree.mkD d a c k v td tn) pa ↔
      h a = some (nodeD d k v c td.ptr tn.ptr pa) ∧ Rep h td (some a) ∧ Rep h tn (some a) := by
  cases d
  · simp [Tree.mkD, Rep, nodeD]
  · simp only [Tree.mkD, if_true, Rep, nodeD]
    tauto

/-- `Rep` only reads the heap at the addresses of the tree. -/
theorem Rep_congr {h h' : Nat → Option (Node K V)} {t : Tree K V} {pa : NodePtr}
    (hag : ∀ a ∈ t.addrs, h' a = h a) (hr : Rep h t pa) : Rep h' t pa := by
  induction t generalizing pa with
  | nil => trivial
  | node a c l k v r ihl ihr =>
    obtain ⟨h1, h2, h3⟩ := hr
    refine ⟨?_, ihl (fun b hb => hag b (by simp [hb])) h2,
      ihr (fun b hb => hag b (by simp [hb])) h3⟩
    rw [hag a (by simp)]; exact h1

/-- Re-pointing the parent link of the root of a tree. -/
theorem Rep_reparent {h h' : Nat → Option (Node K V)} {t : Tree K V} {pa pa' : NodePtr}
    (hr : Rep h t pa) (hnd : t.addrs.Nodup)
    (hroot : ∀ a, t.ptr = some a → ∀ n, h a = some n → h' a = some { n with pa := pa' })
    (hag : ∀ a ∈ t.addrs, t.ptr ≠ some a → h' a = h a) : Rep h' t pa' := by
  cases t with
  | nil => trivial
  | node a c l k v r =>
    obtain ⟨h1, h2, h3⟩ := hr
    simp only [Tree.addrs_node] at hnd
    have hnd' := List.nodup_middle.mp hnd
    have ha : a ∉ l.addrs ++ r.addrs := (List.nodup_cons.mp hnd').1
    simp only [List.mem_append, not_or] at ha
    refine ⟨?_, Rep_congr (fun b hb => hag b (by simp [hb]) ?_) h2,
      Rep_congr (fun b hb => hag b (by simp [hb]) ?_) h3⟩
    · rw [hroot a rfl _ h1]
    · simp only [Tree.ptr_node, ne_eq, Option.some.injEq]
      rintro rfl; exact ha.1 hb
    · simp only [Tree.ptr_node, ne_eq, Option.some.injEq]
      rintro rfl; exact ha.2 hb

@[simp] theorem plug_nil (t : Tree K V) : plug [] t = t := rfl

@[simp] theorem plug_cons (f : Frame K V) (fs) (t : Tree K V) :
    plug (f :: fs) t = plug fs (f.fill t) := rfl

theorem plug_append (c1 c2 : List (Frame K V)) (t : Tree K V) :
    plug (c1 ++ c2) t = plug c2 (plug c1 t) := by
  induction c1 generalizing t with
  | nil => rfl
  | cons f fs ih => simp [ih]

@[simp] theorem parentOf_nil : parentOf ([] : List (Frame K V)) = none := rfl

@[simp] theorem parentOf_cons (f : Frame K V) (fs) : parentOf (f :: fs) = some f.a := rfl

@[simp] theorem Frame.fill_ptr (f : Frame K V) (t : Tree K V) : (f.fill t).ptr = some f.a := by
  simp [Frame.fill]

theorem plug_ptr (ctx : List (Frame K V)) (t : Tree K V) :
    (plug ctx t).ptr = topPtr ctx t.ptr := by
  induction ctx generalizing t with
  | nil => rfl
  | cons f fs ih => simp [ih, topPtr]

theorem topPtr_cons (f : Frame K V) (fs) (p q : NodePtr) :
    topPtr (f :: fs) p = topPtr (f :: fs) q := rfl

theorem perm_addrs_plug (ctx : List (Frame K V)) (t : Tree K V) :
    (plug ctx t).addrs.Perm (t.addrs ++ ctxAddrs ctx) := by
  induction ctx generalizing t with
  | nil => simp [ctxAddrs]
  | cons f fs ih =>
    refine (ih (f.fill t)).trans ?_
    simp only [ctxAddrs, Frame.fill]
    refine ((Tree.perm_addrs_mkD _ _ _ _ _ _ _).append_right _).trans ?_
    simp only [List.cons_append, List.append_assoc]
    exact List.perm_middle.symm

theorem mem_addrs_plug {ctx : List (Frame K V)} {t : Tree K V} {b : Nat} :
    b ∈ (plug ctx t).addrs ↔ b ∈ t.addrs ∨ b ∈ ctxAddrs ctx := by
  rw [(perm_addrs_plug ctx t).mem_iff]; simp

theorem nodup_addrs_plug {ctx : List (Frame K V)} {t : Tree K V} :
    (plug ctx t).addrs.Nodup ↔
      t.addrs.Nodup ∧ (ctxAddrs ctx).Nodup ∧ ∀ b ∈ t.addrs, b ∉ ctxAddrs ctx := by
  rw [(perm_addrs_plug ctx t).nodup_iff, List.nodup_append]
  constructor
  · rintro ⟨h1, h2, h3⟩; exact ⟨h1, h2, fun b hb hb' => h3 hb hb'⟩
  · rintro ⟨h1, h2, h3⟩; exact ⟨h1, h2, fun b hb hb' => h3 b hb hb'⟩

theorem Rep_plug {h : Nat → Option (Node K V)} {ctx : List (Frame K V)} {t : Tree K V} :
    Rep h (plug ctx t) none ↔ RepC h ctx t.ptr ∧ Rep h t (parentOf ctx) := by
  induction ctx generalizing t with
  | nil => simp [RepC]
  | cons f fs ih =>
    simp only [plug_cons, ih, Frame.fill, Rep_mkD, RepC, Tree.ptr_mkD, parentOf_cons]
    tauto

/-- `RepC` only reads the heap at the addresses of the context. -/
theorem RepC_congr {h h' : Nat → Option (Node K V)} {ctx : List (Frame K V)} {p : NodePtr}
    (hag : ∀ a ∈ ctxAddrs ctx, h' a = h a) (hr : RepC h ctx p) : RepC h' ctx p := by
  induction ctx generalizing p with
  | nil => trivial
  | cons f fs ih =>
    obtain ⟨h1, h2, h3⟩ := hr
    refine ⟨?_, Rep_congr (fun b hb => hag b (by simp [ctxAddrs, hb])) h2,
      ih (fun b hb => hag b (by simp [ctxAddrs, hb])) h3⟩
    rw [hag f.a (by simp [ctxAddrs])]; exact h1

/-- Re-pointing the hole of a context. -/
theorem RepC_rehole {h h' : Nat → Option (Node K V)} {ctx : List (Frame K V)} {p q : NodePtr}
    (hr : RepC h ctx p) (hnd : (ctxAddrs ctx).Nodup)
    (hroot : ∀ f fs, ctx = f :: fs → ∀ n, h f.a = some n → h' f.a = some (n.setCh f.d q))
    (hag : ∀ a ∈ ctxAddrs ctx, parentOf ctx ≠ some a → h' a = h a) : RepC h' ctx q := by
  cases ctx with
  | nil => trivial
  | cons f fs =>
    obtain ⟨h1, h2, h3⟩ := hr
    simp only [ctxAddrs, List.nodup_cons, List.mem_append, not_or] at hnd
    refine ⟨?_, Rep_congr (fun b hb => hag b (by simp [ctxAddrs, hb]) ?_) h2,
      RepC_congr (fun b hb => hag b (by simp [ctxAddrs, hb]) ?_) h3⟩
    · rw [hroot f fs rfl _ h1]; simp
    · simp only [parentOf_cons, ne_eq, Option.some.injEq]
      rintro rfl; exact hnd.1.1 hb
    · simp only [parentOf_cons, ne_eq, Option.some.injEq]
      rintro rfl; exact hnd.1.2 hb

end basic
/-!
## Reading and writing single nodes of a represented tree
-/


theorem Touch.same (m : MapState K V) (s : List Nat) : Touch m m s :=
  ⟨rfl, rfl, rfl, rfl, fun _ _ => rfl⟩

theorem Touch.seq {m m1 m2 : MapState K V} {s : List Nat}
    (h1 : Touch m m1 s) (h2 : Touch m1 m2 s) : Touch m m2 s :=
  ⟨h2.siz.trans h1.siz, h2.cmp.trans h1.cmp, h2.self.trans h1.self, h2.next.trans h1.next,
    fun a ha => (h2.heap a ha).trans (h1.heap a ha)⟩

theorem Touch.mono {m m' : MapState K V} {s s' : List Nat}
    (h : Touch m m' s) (hs : ∀ a, a ∈ s → a ∈ s') : Touch m m' s' :=
  ⟨h.siz, h.cmp, h.self, h.next, fun a ha => h.heap a (fun h' => ha (hs a h'))⟩

@[simp] theorem store_heap_same (m : MapState K V) (a : Nat) (n : Node K V) :
    (m.store a n).heap a = some n := by
  simp [MapState.store]

theorem store_heap_ne (m : MapState K V) {a b : Nat} (n : Node K V) (h : b ≠ a) :
    (m.store a n).heap b = m.heap b := by
  simp [MapState.store, Function.update, h]

@[simp] theorem store_root (m : MapState K V) (a : Nat) (n : Node K V) :
    (m.store a n).root = m.root := rfl

@[simp] theorem store_siz (m : MapState K V) (a : Nat) (n : Node K V) :
    (m.store a n).siz = m.siz := rfl

@[simp] theorem store_cmp (m : MapState K V) (a : Nat) (n : Node K V) :
    (m.store a n).cmp = m.cmp := rfl

@[simp] theorem store_self (m : MapState K V) (a : Nat) (n : Node K V) :
    (m.store a n).self = m.self := rfl

@[simp] theorem store_next (m : MapState K V) (a : Nat) (n : Node K V) :
    (m.store a n).next = m.next := rfl

theorem modify_eq {m : MapState K V} {a : Nat} {n : Node K V} (f : Node K V → Node K V)
    (h : m.heap a = some n) : m.modify a f = some (m.store a (f n)) := by
  simp [MapState.modify, h]

theorem Touch.store (m : MapState K V) {a : Nat} (n : Node K V) {s : List Nat} (ha : a ∈ s) :
    Touch m (m.store a n) s :=
  ⟨rfl, rfl, rfl, rfl, fun b hb => store_heap_ne m n (fun h => hb (h ▸ ha))⟩

@[simp] theorem setRoot_heap (m : MapState K V) (r : NodePtr) : (m.setRoot r).heap = m.heap := rfl

@[simp] theorem setRoot_root (m : MapState K V) (r : NodePtr) : (m.setRoot r).root = r := rfl

@[simp] theorem setRoot_siz (m : MapState K V) (r : NodePtr) : (m.setRoot r).siz = m.siz := rfl

@[simp] theorem setRoot_cmp (m : MapState K V) (r : NodePtr) : (m.setRoot r).cmp = m.cmp := rfl

@[simp] theorem setRoot_self (m : MapState K V) (r : NodePtr) : (m.setRoot r).self = m.self := rfl

@[simp] theorem setRoot_next (m : MapState K V) (r : NodePtr) : (m.setRoot r).next = m.next := rfl

@[simp] theorem setSiz_heap (m : MapState K V) (n : Nat) : (m.setSiz n).heap = m.heap := rfl

@[simp] theorem setSiz_root (m : MapState K V) (n : Nat) : (m.setSiz n).root = m.root := rfl

@[simp] theorem setSiz_siz (m : MapState K V) (n : Nat) : (m.setSiz n).siz = n := rfl

@[simp] theorem setSiz_cmp (m : MapState K V) (n : Nat) : (m.setSiz n).cmp = m.cmp := rfl

@[simp] theorem setSiz_self (m : MapState K V) (n : Nat) : (m.setSiz n).self = m.self := rfl

@[simp] theorem setSiz_next (m : MapState K V) (n : Nat) : (m.setSiz n).next = m.next := rfl

theorem Touch.setRoot (m : MapState K V) (r : NodePtr) (s : List Nat) :
    Touch m (m.setRoot r) s :=
  ⟨rfl, rfl, rfl, rfl, fun _ _ => rfl⟩

@[simp] theorem succeeds_some {α : Type} (a : α) (P : α → Prop) :
    Succeeds (some a) P ↔ P a := by
  simp [Succeeds]

@[simp] theorem succeeds_none {α : Type} (P : α → Prop) : ¬ Succeeds (none : Option α) P := by
  simp [Succeeds]

theorem Succeeds.imp {α : Type} {o : Option α} {P Q : α → Prop} (h : Succeeds o P)
    (hpq : ∀ a, P a → Q a) : Succeeds o Q := by
  obtain ⟨a, h1, h2⟩ := h
  exact ⟨a, h1, hpq a h2⟩

theorem succeeds_bind {α β : Type} {o : Option α} {f : α → Option β} {P : β → Prop} :
    Succeeds (o.bind f) P ↔ Succeeds o (fun a => Succeeds (f a) P) := by
  cases o <;> simp [Succeeds]

/-- Reading the node at the focus of a context. -/
theorem Repr.heap_mkD {m : MapState K V} (ctx : List (Frame K V)) {d a c} {k : K} {v : V}
    {td tn : Tree K V} (hr : Repr m (plug ctx (Tree.mkD d a c k v td tn))) :
    m.heap a = some (nodeD d k v c td.ptr tn.ptr (parentOf ctx)) :=
  (Rep_mkD.mp (Rep_plug.mp hr.rep).2).1

theorem Repr.heap_node {m : MapState K V} {ctx : List (Frame K V)} {a c} {k : K} {v : V}
    {l r : Tree K V} (hr : Repr m (plug ctx (Tree.node a c l k v r))) :
    m.heap a = some ⟨k, v, c, l.ptr, r.ptr, parentOf ctx⟩ :=
  (Rep_plug.mp hr.rep).2.1

theorem Repr.heap_frame {m : MapState K V} {f : Frame K V} {fs : List (Frame K V)}
    {t : Tree K V} (hr : Repr m (plug (f :: fs) t)) :
    m.heap f.a = some (nodeD f.d f.k f.v f.c t.ptr f.sib.ptr (parentOf fs)) :=
  Repr.heap_mkD fs hr

/-- Overwriting the colour, key and value of the node at the focus. -/
theorem Repr.store_node {m : MapState K V} {ctx : List (Frame K V)} {a c} {k : K} {v : V}
    {l r : Tree K V} (hr : Repr m (plug ctx (Tree.node a c l k v r))) (c' : Bool) (v' : V) :
    Repr (m.store a ⟨k, v', c', l.ptr, r.ptr, parentOf ctx⟩)
      (plug ctx (Tree.node a c' l k v' r)) := by
  obtain ⟨hroot, hrep, hnd⟩ := hr
  have hnd0 := hnd
  rw [nodup_addrs_plug] at hnd
  obtain ⟨hn1, hn2, hn3⟩ := hnd
  rw [Rep_plug] at hrep
  obtain ⟨hC, hx, hl, hrr⟩ := hrep
  simp only [Tree.addrs_node] at hn1 hn3
  have hn1' := List.nodup_cons.mp (List.nodup_middle.mp hn1)
  have ha : a ∉ l.addrs ∧ a ∉ r.addrs := by
    have := hn1'.1; simpa [not_or] using this
  refine ⟨?_, ?_, ?_⟩
  · simp only [store_root, hroot, plug_ptr, Tree.ptr_node]
  · rw [Rep_plug]
    refine ⟨RepC_congr (fun b hb => store_heap_ne m _ ?_) hC, ?_,
      Rep_congr (fun b hb => store_heap_ne m _ ?_) hl,
      Rep_congr (fun b hb => store_heap_ne m _ ?_) hrr⟩
    · rintro rfl; exact hn3 b (by simp) hb
    · simp
    · rintro rfl; exact ha.1 hb
    · rintro rfl; exact ha.2 hb
  · rw [nodup_addrs_plug]
    exact ⟨hn1, hn2, hn3⟩

theorem nodes_plug_congr {t1 t2 : Tree K V} (h : t1.nodes = t2.nodes)
    (ctx : List (Frame K V)) : (plug ctx t1).nodes = (plug ctx t2).nodes := by
  induction ctx generalizing t1 t2 with
  | nil => exact h
  | cons f fs ih =>
    apply ih
    simp only [Frame.fill, Tree.mkD]
    split <;> simp [h]

/-- The assignment `a->color = c'` on the node at the focus. -/
theorem setColor_spec {m : MapState K V} (ctx : List (Frame K V)) {a c} {k : K} {v : V}
    {l r : Tree K V} (hr : Repr m (plug ctx (Tree.node a c l k v r))) (c' : Bool) :
    ∃ m', setColor m a c' = some m' ∧ Repr m' (plug ctx (Tree.node a c' l k v r)) ∧
      Touch m m' (plug ctx (Tree.node a c l k v r)).addrs := by
  refine ⟨_, modify_eq _ hr.heap_node, hr.store_node c' v, Touch.store m _ ?_⟩
  simp [mem_addrs_plug]

/-- The assignment `a->value() = v'` on the node at the focus. -/
theorem setValue_spec {m : MapState K V} (ctx : List (Frame K V)) {a c} {k : K} {v : V}
    {l r : Tree K V} (hr : Repr m (plug ctx (Tree.node a c l k v r))) (v' : V) :
    ∃ m', setValue m a v' = some m' ∧ Repr m' (plug ctx (Tree.node a c l k v' r)) ∧
      Touch m m' (plug ctx (Tree.node a c l k v r)).addrs := by
  refine ⟨_, modify_eq _ hr.heap_node, hr.store_node c v', Touch.store m _ ?_⟩
  simp [mem_addrs_plug]

/-!
## Rotation
-/


theorem id_eq {m : MapState K V} {x p : Nat} {nx np : Node K V} (hx : m.heap x = some nx)
    (hpa : nx.pa = some p) (hp : m.heap p = some np) : id m x = some (np.rc == some x) := by
  simp only [id, hx, hpa, hp, Option.bind_eq_bind, Option.some_bind, Option.pure_def]

/-- `id(x) = d` when `x` is the child `ch(d)` of its parent and not the other child. -/
theorem id_eq_dir {m : MapState K V} {x p : Nat} {nx np : Node K V} {d : Bool}
    (hx : m.heap x = some nx) (hpa : nx.pa = some p) (hp : m.heap p = some np)
    (hd : np.ch d = some x) (hd' : np.ch (!d) ≠ some x) : id m x = some d := by
  rw [id_eq hx hpa hp]
  cases d
  · simp only [Node.ch, Bool.not_false, if_true] at hd'
    simp [hd']
  · simp only [Node.ch, if_true] at hd
    simp [hd]

set_option maxHeartbeats 1600000 in
/-- The effect of `rotate(x)` on the heap, stated on pointers alone. -/
theorem rotate_raw {m : MapState K V} {x p : Nat} {nx np : Node K V} {d : Bool}
    (hx : m.heap x = some nx) (hxpa : nx.pa = some p) (hp : m.heap p = some np) (hxp : x ≠ p)
    (hd : np.ch d = some x) (hd' : np.ch (!d) ≠ some x)
    (hg : ∀ g, np.pa = some g → g ≠ x ∧ g ≠ p ∧
      ∃ ng dg, m.heap g = some ng ∧ ng.ch dg = some p ∧ ng.ch (!dg) ≠ some p)
    (hc : ∀ c, nx.ch (!d) = some c → c ≠ x ∧ c ≠ p ∧ np.pa ≠ some c ∧ ∃ nc, m.heap c = some nc) :
    Succeeds (rotate m x) (fun M => M.siz = m.siz ∧ M.cmp = m.cmp ∧ M.self = m.self ∧
      M.next = m.next ∧
      M.root = (if np.pa = none then some x else m.root) ∧
      M.heap x = some ((nx.setCh (!d) (some p)).setPa np.pa) ∧
      M.heap p = some ((np.setCh d (nx.ch (!d))).setPa (some x)) ∧
      (∀ g, np.pa = some g → ∀ ng, m.heap g = some ng → ∀ dg, ng.ch dg = some p →
        ng.ch (!dg) ≠ some p → M.heap g = some (ng.setCh dg (some x))) ∧
      (∀ c, nx.ch (!d) = some c → ∀ nc, m.heap c = some nc →
        M.heap c = some (nc.setPa (some p))) ∧
      (∀ b, b ≠ x → b ≠ p → some b ≠ np.pa → some b ≠ nx.ch (!d) → M.heap b = m.heap b)) := by
  have hidx : id m x = some d := id_eq_dir hx hxpa hp hd hd'
  have hpx : p ≠ x := fun h => hxp h.symm
  generalize hq : nx.ch (!d) = q at hc
  generalize hpa : np.pa = g at hg
  cases g with
  | none =>
    cases q with
    | none =>
      cases d <;>
      · simp only [Node.ch, Bool.not_false, Bool.not_true, Bool.false_eq_true, if_true, if_false] at hq
        simp only [rotate, hidx, hx, hxpa, hp, hpa, hq, setPa, setCh, MapState.modify,
          Option.bind_eq_bind, Option.some_bind, Option.pure_def, store_heap_same,
          store_heap_ne _ _ hpx, store_heap_ne _ _ hxp,
          Node.ch, Node.setCh, Node.setPa, Bool.not_false, Bool.not_true, Bool.false_eq_true,
          if_true, if_false, succeeds_some, setRoot_heap, setRoot_root, setRoot_siz, setRoot_cmp, setRoot_self, setRoot_next, store_root, store_siz, store_cmp, store_self, store_next]
        simp +contextual [store_heap_ne]
    | some c =>
      obtain ⟨hcx, hcp, -, nc, hnc⟩ := hc c rfl
      cases d <;>
      · simp only [Node.ch, Bool.not_false, Bool.not_true, Bool.false_eq_true, if_true, if_false] at hq
        simp only [rotate, hidx, hx, hxpa, hp, hpa, hq, hnc, setPa, setCh, MapState.modify,
          Option.bind_eq_bind, Option.some_bind, Option.pure_def, store_heap_same,
          store_heap_ne _ _ hpx, store_heap_ne _ _ hxp, store_heap_ne _ _ hcx, store_heap_ne _ _ hcp,
          Node.ch, Node.setCh, Node.setPa, Bool.not_false, Bool.not_true, Bool.false_eq_true,
          if_true, if_false, succeeds_some, setRoot_heap, setRoot_root, setRoot_siz, setRoot_cmp, setRoot_self, setRoot_next, store_root, store_siz, store_cmp, store_self, store_next]
        simp +contextual [store_heap_ne, hxp, hpx, hcx.symm, hcp.symm, hnc]
  | some g =>
    obtain ⟨hgx, hgp, ng, dg, hng, hdg, hdg'⟩ := hg g rfl
    have hidp : ∀ n, id (m.store x n) p = some dg := fun n =>
      id_eq_dir (by rw [store_heap_ne _ _ hpx, hp] : (m.store x n).heap p = some np) hpa
        (by rw [store_heap_ne _ _ hgx, hng] : (m.store x n).heap g = some ng) hdg hdg'
    cases q with
    | none =>
      cases d <;> cases dg <;>
      · simp only [Node.ch, Bool.not_false, Bool.not_true, Bool.false_eq_true, if_true, if_false] at hq hdg hdg'
        simp only [rotate, hidx, hidp, hx, hxpa, hp, hpa, hq, hng, setPa, setCh, MapState.modify,
          Option.bind_eq_bind, Option.some_bind, Option.pure_def, store_heap_same,
          store_heap_ne _ _ hpx, store_heap_ne _ _ hxp, store_heap_ne _ _ hgx, store_heap_ne _ _ hgp,
          store_heap_ne _ _ hgx.symm, store_heap_ne _ _ hgp.symm,
          Node.ch, Node.setCh, Node.setPa, Bool.not_false, Bool.not_true, Bool.false_eq_true,
          if_true, if_false, succeeds_some, setRoot_heap, setRoot_root, setRoot_siz, setRoot_cmp, setRoot_self, setRoot_next, store_root, store_siz, store_cmp, store_self, store_next]
        simp +contextual [store_heap_ne, hxp, hpx, hgx, hgp, hgx.symm, hgp.symm, hng, hdg, hdg']
    | some c =>
      obtain ⟨hcx, hcp, hcg, nc, hnc⟩ := hc c rfl
      have hcg : c ≠ g := fun h => hcg (by rw [h]; exact hpa)
      cases d <;> cases dg <;>
      · simp only [Node.ch, Bool.not_false, Bool.not_true, Bool.false_eq_true, if_true, if_false] at hq hdg hdg'
        simp only [rotate, hidx, hidp, hx, hxpa, hp, hpa, hq, hng, hnc, setPa, setCh, MapState.modify,
          Option.bind_eq_bind, Option.some_bind, Option.pure_def, store_heap_same,
          store_heap_ne _ _ hpx, store_heap_ne _ _ hxp, store_heap_ne _ _ hgx, store_heap_ne _ _ hgp,
          store_heap_ne _ _ hgx.symm, store_heap_ne _ _ hgp.symm,
          store_heap_ne _ _ hcx, store_heap_ne _ _ hcp, store_heap_ne _ _ hcg,
          Node.ch, Node.setCh, Node.setPa, Bool.not_false, Bool.not_true, Bool.false_eq_true,
          if_true, if_false, succeeds_some, setRoot_heap, setRoot_root, setRoot_siz, setRoot_cmp, setRoot_self, setRoot_next, store_root, store_siz, store_cmp, store_self, store_next]
        simp +contextual [store_heap_ne, hxp, hpx, hgx, hgp, hgx.symm, hgp.symm, hng, hnc, hcx.symm, hcp.symm, hcg.symm, hcg, hdg, hdg']

theorem parentOf_mem {ctx : List (Frame K V)} {a : Nat} (h : parentOf ctx = some a) :
    a ∈ ctxAddrs ctx := by
  cases ctx with
  | nil => simp at h
  | cons f fs =>
    simp only [parentOf_cons, Option.some.injEq] at h
    simp [ctxAddrs, h]

/-- Replacing the subtree in the hole of a context: the frame rule for contexts. -/
theorem Repr.replug {m M : MapState K V} {ctx : List (Frame K V)} {sub sub' : Tree K V}
    (hr : Repr m (plug ctx sub))
    (hsub : Rep M.heap sub' (parentOf ctx))
    (hroot0 : ctx = [] → M.root = sub'.ptr)
    (hroot1 : ctx ≠ [] → M.root = m.root)
    (hhole : ∀ f fs, ctx = f :: fs → ∀ n, m.heap f.a = some n →
      M.heap f.a = some (n.setCh f.d sub'.ptr))
    (hframe : ∀ b ∈ ctxAddrs ctx, parentOf ctx ≠ some b → M.heap b = m.heap b)
    (hnd : sub'.addrs.Nodup) (hdisj : ∀ b ∈ sub'.addrs, b ∉ ctxAddrs ctx) :
    Repr M (plug ctx sub') := by
  obtain ⟨hroot, hrep, hnodup⟩ := hr
  rw [Rep_plug] at hrep
  rw [nodup_addrs_plug] at hnodup
  refine ⟨?_, ?_, ?_⟩
  · cases ctx with
    | nil => simpa using hroot0 rfl
    | cons f fs =>
      rw [hroot1 (by simp), hroot, plug_ptr, plug_ptr]
      rfl
  · rw [Rep_plug]
    exact ⟨RepC_rehole hrep.1 hnodup.2.1 hhole hframe, hsub⟩
  · rw [nodup_addrs_plug]
    exact ⟨hnd, hnodup.2.1, hdisj⟩

theorem rotate_nodes (d : Bool) (p : Nat) (cp : Bool) (kp : K) (vp : V) (x : Nat) (cx : Bool)
    (kx : K) (vx : V) (XD XN S : Tree K V) :
    (Tree.mkD d x cx kx vx XD (Tree.mkD d p cp kp vp XN S)).nodes =
      (Tree.mkD d p cp kp vp (Tree.mkD d x cx kx vx XD XN) S).nodes := by
  cases d <;> simp [Tree.mkD]

/-- `rotate(x)` on a represented tree: `x`, the child `ch(d)` of `p`, is promoted into the
place of `p`; `p` becomes the child `ch(!d)` of `x` and adopts the former `ch(!d)` subtree of
`x` as its child `ch(d)`. -/
theorem rotate_spec {m : MapState K V} {up : List (Frame K V)} {d : Bool} {p : Nat} {cp : Bool}
    {kp : K} {vp : V} {x : Nat} {cx : Bool} {kx : K} {vx : V} {XD XN S : Tree K V}
    (hr : Repr m (plug up (Tree.mkD d p cp kp vp (Tree.mkD d x cx kx vx XD XN) S))) :
    Succeeds (rotate m x) (fun M =>
      Repr M (plug up (Tree.mkD d x cx kx vx XD (Tree.mkD d p cp kp vp XN S))) ∧
      Touch m M (plug up (Tree.mkD d p cp kp vp (Tree.mkD d x cx kx vx XD XN) S)).addrs) := by
  have hp := hr.heap_mkD up
  have hx := Repr.heap_mkD (⟨d, p, cp, kp, vp, S⟩ :: up) hr
  simp only [Tree.ptr_mkD, parentOf_cons] at hp hx
  have hnd := hr.nodup
  have hrep := hr.rep
  rw [Rep_plug, Rep_mkD, Rep_mkD] at hrep
  obtain ⟨hC, -, ⟨-, hXD, hXN⟩, hS⟩ := hrep
  simp only [Tree.ptr_mkD] at hC
  rw [nodup_addrs_plug, Tree.nodup_addrs_mkD, Tree.nodup_addrs_mkD] at hnd
  simp only [Tree.mem_addrs_mkD, not_or] at hnd
  obtain ⟨⟨⟨hpx, hpXD, hpXN⟩, hpS, ⟨hxXD, hxXN, ndXD, ndXN, hXDXN⟩, ndS, hXS⟩, ndC, hTC⟩ := hnd
  have hxp : x ≠ p := fun h => hpx h.symm
  have hxS : x ∉ S.addrs := hXS x (Or.inl rfl)
  have hpC : p ∉ ctxAddrs up := hTC p (Or.inl rfl)
  have hxC : x ∉ ctxAddrs up := hTC x (Or.inr (Or.inl (Or.inl rfl)))
  have hraw := rotate_raw (d := d) hx (nodeD_pa ..) hp hxp (nodeD_ch ..)
    (by rw [nodeD_ch_not]; exact fun h => hxS (Tree.ptr_mem_addrs h))
    (by
      rw [nodeD_pa]
      intro g hg
      cases up with
      | nil => simp at hg
      | cons f fs =>
        simp only [parentOf_cons, Option.some.injEq] at hg
        subst hg
        simp only [ctxAddrs, List.mem_cons, List.mem_append, not_or] at hpC hxC
        refine ⟨fun h => hxC.1 h.symm, fun h => hpC.1 h.symm, _, f.d, hC.1, nodeD_ch .., ?_⟩
        rw [nodeD_ch_not]
        exact fun h => hpC.2.1 (Tree.ptr_mem_addrs h))
    (by
      rw [nodeD_ch_not, nodeD_pa]
      intro c hc
      have hcm := Tree.ptr_mem_addrs hc
      refine ⟨fun h => hxXN (h ▸ hcm), fun h => hpXN (h ▸ hcm), ?_, ?_⟩
      · intro h
        cases up with
        | nil => simp at h
        | cons f fs =>
          simp only [parentOf_cons, Option.some.injEq] at h
          exact hTC c (Or.inr (Or.inl (Or.inr (Or.inr hcm)))) (by simp [ctxAddrs, h])
      · cases XN with
        | nil => simp at hc
        | node xn cn ln kn vn rn =>
          simp only [Tree.ptr_node, Option.some.injEq] at hc
          subst hc
          exact ⟨_, hXN.1⟩)
  refine hraw.imp ?_
  rintro M ⟨hsiz, hcmp, hself, hnext, hroot, hMx, hMp, hMg, hMc, hMf⟩
  simp only [nodeD_pa, nodeD_ch_not, nodeD_setCh_not, nodeD_setCh, nodeD_setPa] at hroot hMx hMp hMg hMc hMf
  -- the frame outside the four touched nodes
  have hfr : ∀ b, b ≠ x → b ≠ p → some b ≠ parentOf up → some b ≠ XN.ptr → M.heap b = m.heap b :=
    hMf
  have hfXD : ∀ b ∈ XD.addrs, M.heap b = m.heap b := fun b hb =>
    hfr b (fun h => hxXD (h ▸ hb)) (fun h => hpXD (h ▸ hb))
      (fun h => hTC b (Or.inr (Or.inl (Or.inr (Or.inl hb)))) (parentOf_mem h.symm))
      (fun h => hXDXN b hb (Tree.ptr_mem_addrs h.symm))
  have hfS : ∀ b ∈ S.addrs, M.heap b = m.heap b := fun b hb =>
    hfr b (fun h => hxS (h ▸ hb)) (fun h => hpS (h ▸ hb))
      (fun h => hTC b (Or.inr (Or.inr hb)) (parentOf_mem h.symm))
      (fun h => hXS b (Or.inr (Or.inr (Tree.ptr_mem_addrs h.symm))) hb)
  refine ⟨Repr.replug hr ?_ ?_ ?_ ?_ ?_ ?_ ?_, ?_⟩
  · rw [Rep_mkD, Rep_mkD]
    simp only [Tree.ptr_mkD]
    refine ⟨hMx, Rep_congr hfXD hXD, hMp, ?_, Rep_congr hfS hS⟩
    refine Rep_reparent hXN ndXN (fun a ha n hn => ?_) (fun b hb hne => ?_)
    · rw [hMc a ha n hn]; rfl
    · exact hfr b (fun h => hxXN (h ▸ hb)) (fun h => hpXN (h ▸ hb))
        (fun h => hTC b (Or.inr (Or.inl (Or.inr (Or.inr hb)))) (parentOf_mem h.symm))
        (fun h => hne h.symm)
  · intro h
    subst h
    simpa using hroot
  · intro h
    cases up with
    | nil => exact absurd rfl h
    | cons f fs => simpa using hroot
  · intro f fs hup n hn
    subst hup
    simp only [Tree.ptr_mkD]
    exact hMg f.a rfl n hn f.d (by rw [hC.1] at hn; cases hn; exact nodeD_ch ..)
      (by
        rw [hC.1] at hn; cases hn
        rw [nodeD_ch_not]
        simp only [ctxAddrs, List.mem_cons, List.mem_append, not_or] at hpC
        exact fun h => hpC.2.1 (Tree.ptr_mem_addrs h))
  · intro b hb hne
    exact hfr b (fun h => hxC (h ▸ hb)) (fun h => hpC (h ▸ hb)) (fun h => hne h.symm)
      (fun h => hTC b (Or.inr (Or.inl (Or.inr (Or.inr (Tree.ptr_mem_addrs h.symm))))) hb)
  · rw [Tree.addrs_eq_map, rotate_nodes, ← Tree.addrs_eq_map, Tree.nodup_addrs_mkD,
      Tree.nodup_addrs_mkD]
    simp only [Tree.mem_addrs_mkD, not_or]
    exact ⟨⟨hpx, hpXD, hpXN⟩, hpS, ⟨hxXD, hxXN, ndXD, ndXN, hXDXN⟩, ndS, hXS⟩
  · intro b hb
    rw [Tree.addrs_eq_map, rotate_nodes, ← Tree.addrs_eq_map] at hb
    simp only [Tree.mem_addrs_mkD] at hb
    exact hTC b hb
  · refine ⟨hsiz, hcmp, hself, hnext, fun b hb => ?_⟩
    simp only [mem_addrs_plug, Tree.mem_addrs_mkD, not_or] at hb
    exact hfr b hb.1.2.1.1 hb.1.1 (fun h => hb.2 (parentOf_mem h.symm))
      (fun h => hb.1.2.1.2.2 (Tree.ptr_mem_addrs h.symm))

/-!
## The locator: `RB_find` in find mode, the const `RB_find`, `find`, `count`
-/


theorem nodes_plug (ctx : List (Frame K V)) (t : Tree K V) :
    (plug ctx t).nodes = ctxLeft ctx ++ t.nodes ++ ctxRight ctx := by
  induction ctx generalizing t with
  | nil => simp [ctxLeft, ctxRight]
  | cons f fs ih =>
    rw [plug_cons, ih]
    obtain ⟨d, a, c, k, v, sib⟩ := f
    cases d <;> simp [Frame.fill, Tree.mkD, ctxLeft, ctxRight]

theorem locate_plug (cmp : K → K → Bool) (key : K) (t : Tree K V) (ctx : List (Frame K V)) :
    plug (locate cmp key t ctx).1 (locate cmp key t ctx).2 = plug ctx t := by
  induction t generalizing ctx with
  | nil => rfl
  | node a c l k v r ihl ihr =>
    simp only [locate]
    split
    · rfl
    · split
      · rw [ihr]; rfl
      · rw [ihl]; rfl

theorem locate_found {cmp : K → K → Bool} {key : K} {t : Tree K V} {ctx : List (Frame K V)}
    {a : Nat} {c : Bool} {l : Tree K V} {k : K} {v : V} {r : Tree K V}
    (h : (locate cmp key t ctx).2 = .node a c l k v r) :
    equal cmp key k = true ∧ (a, k, v) ∈ t.nodes := by
  induction t generalizing ctx with
  | nil => simp [locate] at h
  | node a' c' l' k' v' r' ihl ihr =>
    simp only [locate] at h
    split at h
    · rename_i heq
      simp only [Tree.node.injEq] at h
      obtain ⟨rfl, -, -, rfl, rfl, -⟩ := h
      exact ⟨heq, by simp⟩
    · split at h
      · have := ihr h
        exact ⟨this.1, by simp [this.2]⟩
      · have := ihl h
        exact ⟨this.1, by simp [this.2]⟩

theorem Tree.keys_node (a c) (l : Tree K V) (k : K) (v : V) (r : Tree K V) :
    (Tree.node a c l k v r).keys = l.keys ++ k :: r.keys := by
  simp [Tree.keys]

theorem Tree.sorted_node {cmp : K → K → Bool} {a c} {l : Tree K V} {k : K} {v : V}
    {r : Tree K V} (hs : StrictWeak cmp) :
    (Tree.node a c l k v r).Sorted cmp ↔
      l.Sorted cmp ∧ r.Sorted cmp ∧ (∀ x ∈ l.keys, cmp x k = true) ∧
        (∀ y ∈ r.keys, cmp k y = true) := by
  simp only [Tree.Sorted, Tree.keys_node, List.pairwise_append, List.pairwise_cons,
    List.mem_cons]
  constructor
  · rintro ⟨h1, ⟨h2, h3⟩, h4⟩
    exact ⟨h1, h3, fun x hx => h4 x hx k (Or.inl rfl), h2⟩
  · rintro ⟨h1, h2, h3, h4⟩
    refine ⟨h1, ⟨h4, h2⟩, ?_⟩
    rintro x hx y (rfl | hy)
    · exact h3 x hx
    · exact hs.trans _ _ _ (h3 x hx) (h4 y hy)

theorem StrictWeak.asymm {cmp : K → K → Bool} (hs : StrictWeak cmp) {a b : K}
    (h : cmp a b = true) : cmp b a = false := by
  cases hba : cmp b a with
  | false => rfl
  | true =>
    have := hs.trans _ _ _ h hba
    rw [hs.irrefl] at this
    exact absurd this (by simp)

theorem equal_comm (cmp : K → K → Bool) (a b : K) : equal cmp a b = equal cmp b a := by
  simp only [equal, Bool.and_comm]

theorem equal_false_of_lt {cmp : K → K → Bool} {a b : K} (h : cmp a b = true) :
    equal cmp a b = false := by
  simp [equal, h]

theorem equal_false_of_gt {cmp : K → K → Bool} {a b : K} (h : cmp b a = true) :
    equal cmp a b = false := by
  simp [equal, h]

/-- When the keys are not equivalent, exactly one of the two comparisons holds. -/
theorem StrictWeak.lt_of_not {cmp : K → K → Bool} (_hs : StrictWeak cmp) {a b : K}
    (heq : equal cmp a b = false) (h : cmp b a = false) : cmp a b = true := by
  simp only [equal, h, Bool.not_false, Bool.and_true, Bool.not_eq_false'] at heq
  exact heq

/-- With the key absent from a sorted tree, every key is inequivalent to it and the hole
reached lies between the smaller and the larger keys. -/
theorem locate_nil {cmp : K → K → Bool} (hs : StrictWeak cmp) (key : K) {t : Tree K V}
    (ctx : List (Frame K V)) (hsorted : t.Sorted cmp)
    (hl : ∀ e ∈ ctxLeft ctx, cmp e.2.1 key = true)
    (hr : ∀ e ∈ ctxRight ctx, cmp key e.2.1 = true)
    (h : (locate cmp key t ctx).2 = .nil) :
    (∀ k ∈ t.keys, equal cmp key k = false) ∧
      (∀ e ∈ ctxLeft (locate cmp key t ctx).1, cmp e.2.1 key = true) ∧
      (∀ e ∈ ctxRight (locate cmp key t ctx).1, cmp key e.2.1 = true) := by
  induction t generalizing ctx with
  | nil => exact ⟨by simp [Tree.keys], hl, hr⟩
  | node a c l k v r ihl ihr =>
    rw [Tree.sorted_node hs] at hsorted
    obtain ⟨hsl, hsr, hlk, hkr⟩ := hsorted
    simp only [locate] at h ⊢
    split at h
    · simp at h
    · rename_i hne
      simp only [Bool.not_eq_true] at hne
      simp only [hne, Bool.false_eq_true, if_false]
      split at h
      · rename_i hlt
        simp only [hlt, if_true]
        have := ihr (⟨true, a, c, k, v, l⟩ :: ctx) hsr
          (by
            intro e he
            simp only [ctxLeft, if_true, List.mem_append, List.mem_singleton] at he
            rcases he with he | he | rfl
            · exact hl e he
            · exact hs.trans _ _ _ (hlk e.2.1 (List.mem_map_of_mem _ he)) hlt
            · exact hlt)
          (by
            intro e he
            simp only [ctxRight, Bool.false_eq_true, if_false, if_true, List.nil_append] at he
            exact hr e he) h
        refine ⟨?_, this.2⟩
        intro k' hk'
        simp only [Tree.keys_node, List.mem_append, List.mem_cons] at hk'
        rcases hk' with hk' | rfl | hk'
        · exact equal_false_of_gt (hs.trans _ _ _ (hlk k' hk') hlt)
        · exact hne
        · exact this.1 k' hk'
      · rename_i hlt
        simp only [Bool.not_eq_true] at hlt
        simp only [hlt, Bool.false_eq_true, if_false]
        have hgt : cmp key k = true := hs.lt_of_not hne hlt
        have := ihl (⟨false, a, c, k, v, r⟩ :: ctx) hsl
          (by
            intro e he
            simp only [ctxLeft, Bool.false_eq_true, if_false, List.append_nil] at he
            exact hl e he)
          (by
            intro e he
            simp only [ctxRight, Bool.false_eq_true, if_false, List.cons_append,
              List.mem_cons, List.mem_append] at he
            rcases he with rfl | he | he
            · exact hgt
            · exact hs.trans _ _ _ hgt (hkr e.2.1 (List.mem_map_of_mem _ he))
            · exact hr e he) h
        refine ⟨?_, this.2⟩
        intro k' hk'
        simp only [Tree.keys_node, List.mem_append, List.mem_cons] at hk'
        rcases hk' with hk' | rfl | hk'
        · exact this.1 k' hk'
        · exact hne
        · exact equal_false_of_lt (hs.trans _ _ _ hgt (hkr k' hk'))

/-- In a sorted tree at most one node holds a key equivalent to `key`. -/
theorem Tree.equiv_unique {cmp : K → K → Bool} (hs : StrictWeak cmp) {key : K} {t : Tree K V}
    (hsorted : t.Sorted cmp) {e1 e2 : Nat × K × V} (h1 : e1 ∈ t.nodes) (h2 : e2 ∈ t.nodes)
    (q1 : equal cmp key e1.2.1 = true) (q2 : equal cmp key e2.2.1 = true) : e1 = e2 := by
  have hpw : t.nodes.Pairwise (fun a b => cmp a.2.1 b.2.1 = true) := by
    have := hsorted
    simp only [Tree.Sorted, Tree.keys, List.pairwise_map] at this
    exact this
  have hne : ∀ a b : Nat × K × V, cmp a.2.1 b.2.1 = true → equal cmp key a.2.1 = true →
      equal cmp key b.2.1 = true → False := by
    intro a b hab qa qb
    have := hs.incomp _ _ _ (by rw [equal_comm]; exact qa) qb
    rw [equal_false_of_lt hab] at this
    exact absurd this (by simp)
  by_contra hcon
  have hsym : Symmetric (fun a b : Nat × K × V =>
      cmp a.2.1 b.2.1 = true ∨ cmp b.2.1 a.2.1 = true) := fun a b h => h.symm
  rcases List.Pairwise.forall hsym (hpw.imp (fun h => Or.inl h)) h1 h2 hcon with h | h
  · exact hne _ _ h q1 q2
  · exact hne _ _ h q2 q1

/-- The search loop of the non-const `RB_find` on a represented subtree computes `locate`. -/
theorem RB_find_loop_spec (cmp : K → K → Bool) {h : Nat → Option (Node K V)} (key : K)
    {t : Tree K V} (ctx : List (Frame K V)) {fuel : Nat} (hrep : Rep h t (parentOf ctx))
    (hfuel : t.height < fuel) :
    RB_find_loop cmp h key fuel (parentOf ctx) t.ptr =
      some (parentOf (locate cmp key t ctx).1, (locate cmp key t ctx).2.ptr) := by
  induction t generalizing ctx fuel with
  | nil =>
    cases fuel with
    | zero => simp at hfuel
    | succ n => rfl
  | node a c l k v r ihl ihr =>
    cases fuel with
    | zero => simp at hfuel
    | succ n =>
      obtain ⟨h1, h2, h3⟩ := hrep
      simp only [Tree.height] at hfuel
      have hl : l.height < n := by
        have := Nat.le_max_left l.height r.height; omega
      have hr : r.height < n := by
        have := Nat.le_max_right l.height r.height; omega
      simp only [Tree.ptr_node, RB_find_loop, h1, Option.bind_eq_bind, Option.some_bind,
        Option.pure_def, locate]
      split
      · rfl
      · split
        · rename_i hlt
          simp only [Node.ch, hlt, if_true]
          exact ihr (⟨true, a, c, k, v, l⟩ :: ctx) h3 hr
        · rename_i hlt
          simp only [Bool.not_eq_true] at hlt
          simp only [Node.ch, hlt, Bool.false_eq_true, if_false]
          exact ihl (⟨false, a, c, k, v, r⟩ :: ctx) h2 hl

/-- Under a strict weak order the const locator takes the same branch as the non-const one,
whatever the heap and the fuel. -/
theorem RB_find_const_eq {cmp : K → K → Bool} (hs : StrictWeak cmp)
    (h : Nat → Option (Node K V)) (key : K) (fuel : Nat) (y z : NodePtr) :
    RB_find_const cmp h key fuel z = (RB_find_loop cmp h key fuel y z).map (fun r => r.2) := by
  induction fuel generalizing y z with
  | zero => rfl
  | succ n ih =>
    cases z with
    | none => rfl
    | some a =>
      simp only [RB_find_const, RB_find_loop, Option.bind_eq_bind, Option.pure_def]
      cases h a with
      | none => rfl
      | some nz =>
        simp only [Option.some_bind]
        cases heq : equal cmp key nz.key with
        | true => simp
        | false =>
          simp only [Bool.false_eq_true, if_false]
          have hflip : (!cmp key nz.key) = cmp nz.key key := by
            cases hlt : cmp nz.key key with
            | true => rw [hs.asymm hlt]; rfl
            | false => rw [hs.lt_of_not heq hlt]; rfl
          rw [hflip]
          exact ih (some a) _

/-!
## Lookup: `find`, `count`, `insert` on a present key, the guard of `erase`
-/


/-- The non-const `RB_find` in find mode on a represented tree. -/
theorem RB_find_mode0 [Inhabited V] {m : MapState K V} {t : Tree K V} (hr : Repr m t)
    (key : K) {fuel : Nat} (hfuel : t.height < fuel) :
    RB_find fuel m key 0 = some (m, (locate m.cmp key t []).2.ptr) := by
  have h := RB_find_loop_spec m.cmp key [] hr.rep hfuel
  simp only [parentOf_nil] at h
  simp only [RB_find, hr.root, h, Option.bind_eq_bind, Option.some_bind, beq_self_eq_true,
    Bool.or_true, if_true, Option.pure_def]

/-- The non-const `RB_find` in insert mode when the key is present. -/
theorem RB_find_mode1_present [Inhabited V] {m : MapState K V} {t : Tree K V} (hr : Repr m t)
    (key : K) {fuel : Nat} (hfuel : t.height < fuel) {a : Nat}
    (hfound : (locate m.cmp key t []).2.ptr = some a) :
    RB_find fuel m key 1 = some (m, some a) := by
  have h := RB_find_loop_spec m.cmp key [] hr.rep hfuel
  simp only [parentOf_nil] at h
  simp only [RB_find, hr.root, h, hfound, Option.bind_eq_bind, Option.some_bind,
    Option.isSome_some, Bool.true_or, if_true, Option.pure_def]

/-- The const `RB_find` reaches the node the non-const one reaches. -/
theorem RB_find_const_spec {m : MapState K V} {t : Tree K V} (hr : Repr m t)
    (hs : StrictWeak m.cmp) (key : K) {fuel : Nat} (hfuel : t.height < fuel) :
    RB_find_const m.cmp m.heap key fuel m.root = some (locate m.cmp key t []).2.ptr := by
  rw [RB_find_const_eq hs m.heap key fuel none m.root, hr.root]
  have h := RB_find_loop_spec m.cmp key [] hr.rep hfuel
  simp only [parentOf_nil] at h
  rw [h]; rfl

/-- What `locate` finds in a sorted tree: the node with an equivalent key, if there is one. -/
theorem locate_correct {cmp : K → K → Bool} (hs : StrictWeak cmp) {t : Tree K V}
    (hsorted : t.Sorted cmp) (key : K) :
    (∀ e ∈ t.nodes, equal cmp key e.2.1 = true → (locate cmp key t []).2.ptr = some e.1) ∧
      ((locate cmp key t []).2.ptr = none ↔ ∀ k ∈ t.keys, equal cmp key k = false) := by
  cases hloc : (locate cmp key t []).2 with
  | nil =>
    have h := (locate_nil hs key [] hsorted (by simp [ctxLeft])
      (by simp [ctxRight]) hloc).1
    refine ⟨fun e he heq => ?_, by simpa using h⟩
    rw [h e.2.1 (List.mem_map_of_mem _ he)] at heq
    exact absurd heq (by simp)
  | node a c l k v r =>
    obtain ⟨heq, hmem⟩ := locate_found hloc
    refine ⟨fun e he heq' => ?_, ?_⟩
    · have := Tree.equiv_unique hs hsorted hmem he heq heq'
      rw [← this]; rfl
    · simp only [Tree.ptr_node]
      refine ⟨fun h => by simp at h, fun h => ?_⟩
      have := h k (List.mem_map_of_mem (fun e => e.2.1) hmem)
      rw [heq] at this
      exact absurd this (by simp)

theorem natLt_strictWeak : StrictWeak natLt := by
  refine ⟨fun a => by simp [natLt], fun a b c h1 h2 => ?_, fun a b c h1 h2 => ?_⟩
  · simp only [natLt, decide_eq_true_eq] at *
    omega
  · simp only [equal, natLt, Bool.and_eq_true, Bool.not_eq_true', decide_eq_false_iff_not] at *
    omega

theorem exMap_repr : Repr exMap exTree := by
  refine ⟨rfl, ?_, by decide⟩
  simp [exTree, Rep, exMap, exHeap]

theorem exTree_sorted : exTree.Sorted natLt := by
  simp [Tree.Sorted, Tree.keys, exTree, natLt]

theorem exTree_rb : exTree.RB := by
  refine ⟨rfl, by simp [exTree, Tree.NoRedRed, Tree.color], 1, ?_⟩
  simp [exTree, Tree.BH]

theorem exMap_fresh : HeapFresh exMap := by
  intro a ha
  simp only [exMap] at ha
  simp only [exMap, exHeap]
  rw [if_neg (by omega), if_neg (by omega), if_neg (by omega)]

theorem exMap_valid : Valid exMap exTree :=
  ⟨exMap_repr, exTree_sorted, exTree_rb, natLt_strictWeak, exMap_fresh⟩

/-- C9: on a map whose tree is ordered under a strict weak order, `find(key)` (both
overloads) returns, unchanged map aside, an iterator of this map placed at the node whose key
is equivalent to `key` whenever the tree holds such a node, and it returns `end()` exactly
when no stored key is equivalent to `key`; the non-const overload leaves the map as it was. -/
theorem find_correct [Inhabited V] {m : MapState K V} {t : Tree K V} (hr : Repr m t)
    (hs : StrictWeak m.cmp) (hsorted : t.Sorted m.cmp) (key : K) {fuel : Nat}
    (hfuel : t.height < fuel) :
    ∃ it : iterator, find fuel m key = some (m, it) ∧ find_const fuel m key = some it ∧
      it.tree = some m.self ∧
      (∀ e ∈ t.nodes, equal m.cmp key e.2.1 = true → it.ptr = some e.1) ∧
      (it = end_ m ↔ ∀ k ∈ t.keys, equal m.cmp key k = false) := by
  refine ⟨⟨(locate m.cmp key t []).2.ptr, some m.self⟩, ?_, ?_, rfl,
    (locate_correct hs hsorted key).1, ?_⟩
  · simp only [find, RB_find_mode0 hr key hfuel, Option.bind_eq_bind, Option.some_bind,
      Option.pure_def]
  · simp only [find_const, RB_find_const_spec hr hs key hfuel, Option.bind_eq_bind,
      Option.some_bind, Option.pure_def]
  · rw [← (locate_correct hs hsorted key).2]
    simp [end_]

theorem find_correct_witness :
    Repr exMap exTree ∧ StrictWeak exMap.cmp ∧ exTree.Sorted exMap.cmp ∧ exTree.height < 3 ∧
    ∃ it : iterator, find 3 exMap 30 = some (exMap, it) ∧ find_const 3 exMap 30 = some it ∧
      it.tree = some exMap.self ∧
      (∀ e ∈ exTree.nodes, equal exMap.cmp 30 e.2.1 = true → it.ptr = some e.1) ∧
      (it = end_ exMap ↔ ∀ k ∈ exTree.keys, equal exMap.cmp 30 k = false) :=
  ⟨exMap_repr, natLt_strictWeak, exTree_sorted, by decide,
    find_correct exMap_repr natLt_strictWeak exTree_sorted 30 (by decide)⟩

/-- C10: under a strict weak order the const locator behind `count` and the non-const
locator behind `find` reach the same node, so on every represented tree `find(key)` and the
const `find(key)` return the same iterator and `count(key)` is `1` when that iterator differs
from `end()` and `0` when it is `end()`. -/
theorem count_agrees_find [Inhabited V] {m : MapState K V} {t : Tree K V} (hr : Repr m t)
    (hs : StrictWeak m.cmp) (key : K) {fuel : Nat} (hfuel : t.height < fuel) :
    ∃ it : iterator, find fuel m key = some (m, it) ∧ find_const fuel m key = some it ∧
      count fuel m key = some (if it = end_ m then 0 else 1) := by
  refine ⟨⟨(locate m.cmp key t []).2.ptr, some m.self⟩, ?_, ?_, ?_⟩
  · simp only [find, RB_find_mode0 hr key hfuel, Option.bind_eq_bind, Option.some_bind,
      Option.pure_def]
  · simp only [find_const, RB_find_const_spec hr hs key hfuel, Option.bind_eq_bind,
      Option.some_bind, Option.pure_def]
  · simp only [count, RB_find_const_spec hr hs key hfuel, Option.bind_eq_bind,
      Option.some_bind, Option.pure_def, end_, iterator.mk.injEq, and_true]
    cases (locate m.cmp key t []).2.ptr <;> simp

theorem count_agrees_find_witness :
    Repr exMap exTree ∧ StrictWeak exMap.cmp ∧ exTree.height < 3 ∧
    ∃ it : iterator, find 3 exMap 10 = some (exMap, it) ∧ find_const 3 exMap 10 = some it ∧
      count 3 exMap 10 = some (if it = end_ exMap then 0 else 1) :=
  ⟨exMap_repr, natLt_strictWeak, by decide,
    count_agrees_find exMap_repr natLt_strictWeak 10 (by decide)⟩

/-- The source's `insert` when the descent of `RB_find` ends at a node. -/
theorem insert_of_found [Inhabited V] {m : MapState K V} {t : Tree K V} (hr : Repr m t)
    (value : K × V) {fuel : Nat} (hfuel : t.height < fuel) {a : Nat}
    (hfound : (locate m.cmp value.1 t []).2.ptr = some a) :
    insert fuel m value = some (m, (⟨some a, some m.self⟩, false)) := by
  simp only [insert, RB_find_mode1_present hr value.1 hfuel hfound, Option.bind_eq_bind,
    Option.some_bind, beq_self_eq_true, if_true, Option.pure_def]

/-- C5: `insert` on a key already present returns `inserted = false` with an iterator of this
map at the existing entry, and the state after the call is the state before it: heap (shape,
colours, keys, mapped values), `root` and `siz` are all unchanged. -/
theorem insert_present [Inhabited V] {m : MapState K V} {t : Tree K V} (hr : Repr m t)
    (hs : StrictWeak m.cmp) (hsorted : t.Sorted m.cmp) (value : K × V) {fuel : Nat}
    (hfuel : t.height < fuel) {e : Nat × K × V} (he : e ∈ t.nodes)
    (hpresent : equal m.cmp value.1 e.2.1 = true) :
    insert fuel m value = some (m, (⟨some e.1, some m.self⟩, false)) :=
  insert_of_found hr value hfuel ((locate_correct hs hsorted value.1).1 e he hpresent)

theorem insert_present_witness :
    Repr exMap exTree ∧ StrictWeak exMap.cmp ∧ exTree.Sorted exMap.cmp ∧ exTree.height < 3 ∧
    (3, 30, 300) ∈ exTree.nodes ∧ equal exMap.cmp 30 30 = true ∧
    insert 3 exMap (30, 7) = some (exMap, (⟨some 3, some exMap.self⟩, false)) :=
  ⟨exMap_repr, natLt_strictWeak, exTree_sorted, by decide, by decide, by decide,
    insert_present (e := (3, 30, 300)) exMap_repr natLt_strictWeak exTree_sorted (30, 7)
      (by decide) (by decide) (by decide)⟩

/-- C8: `erase(pos)` throws `invalid_iterator` exactly when `pos` is the past-end position or
belongs to another container; when it throws the state is the one before the call; and
`erase(end())` throws on every map. -/
theorem erase_invalid_iff (fuel : Nat) (m : MapState K V) (pos : iterator) :
    ((∃ m', erase fuel m pos = some (m', .error .invalid_iterator)) ↔
        (pos.ptr = none ∨ pos.tree ≠ some m.self)) ∧
      (∀ m' e, erase fuel m pos = some (m', .error e) → m' = m ∧ e = .invalid_iterator) ∧
      erase fuel m (end_ m) = some (m, .error .invalid_iterator) := by
  refine ⟨⟨?_, ?_⟩, ?_, rfl⟩
  · rintro ⟨m', h⟩
    simp only [erase] at h
    cases hp : pos.ptr with
    | none => exact Or.inl rfl
    | some z =>
      right
      intro ht
      simp only [hp, ht, bne_self_eq_false, Bool.false_eq_true, if_false,
        Option.bind_eq_bind, Option.pure_def] at h
      cases hd : RB_delete fuel m z with
      | none => simp [hd] at h
      | some m2 => simp [hd] at h
  · rintro (h | h)
    · exact ⟨m, by simp [erase, h]⟩
    · refine ⟨m, ?_⟩
      simp only [erase]
      cases hp : pos.ptr with
      | none => rfl
      | some z => simp [h]
  · intro m' e h
    simp only [erase] at h
    cases hp : pos.ptr with
    | none =>
      simp only [hp, Option.some.injEq, Prod.mk.injEq, Except.error.injEq] at h
      exact ⟨h.1.symm, h.2.symm⟩
    | some z =>
      simp only [hp] at h
      split at h
      · simp only [Option.some.injEq, Prod.mk.injEq, Except.error.injEq] at h
        exact ⟨h.1.symm, h.2.symm⟩
      · simp only [Option.bind_eq_bind, Option.pure_def] at h
        cases hd : RB_delete fuel m z with
        | none => simp [hd] at h
        | some m2 => simp [hd] at h

/-!
## Steps on a represented tree: reads, recolouring, rotation in step form
-/


theorem Step.refl {m : MapState K V} {T : Tree K V} (hr : Repr m T) : Step m m T T :=
  ⟨hr, Touch.same m _, rfl⟩

theorem Step.trans {m M1 M2 : MapState K V} {T T1 T2 : Tree K V} (h1 : Step m M1 T T1)
    (h2 : Step M1 M2 T1 T2) : Step m M2 T T2 := by
  refine ⟨h2.repr, h1.touch.seq (h2.touch.mono ?_), h2.nodes.trans h1.nodes⟩
  intro a ha
  rw [Tree.addrs_eq_map, h1.nodes, ← Tree.addrs_eq_map] at ha
  exact ha

/-- Sequencing: run `o`, then `f` on its result. -/
theorem Succeeds.bind {α β : Type} {o : Option α} {f : α → Option β} {P : α → Prop}
    {Q : β → Prop} (h : Succeeds o P) (hf : ∀ a, P a → Succeeds (f a) Q) :
    Succeeds (o.bind f) Q :=
  succeeds_bind.mpr (h.imp hf)

theorem Tree.mkD_not (d : Bool) (a : Nat) (c : Bool) (k : K) (v : V) (td tn : Tree K V) :
    Tree.mkD (!d) a c k v td tn = Tree.mkD d a c k v tn td := by
  cases d <;> rfl

theorem Tree.nodes_mkD_color (d : Bool) (a : Nat) (c c' : Bool) (k : K) (v : V)
    (td tn : Tree K V) :
    (Tree.mkD d a c' k v td tn).nodes = (Tree.mkD d a c k v td tn).nodes := by
  cases d <;> rfl

/-- The assignment `a->color = c'` on the node at the focus, in step form. -/
theorem setColor_step {m : MapState K V} (ctx : List (Frame K V)) {d : Bool} {a : Nat}
    {c : Bool} {k : K} {v : V} {td tn : Tree K V}
    (hr : Repr m (plug ctx (Tree.mkD d a c k v td tn))) (c' : Bool) :
    Succeeds (setColor m a c') (fun M =>
      Step m M (plug ctx (Tree.mkD d a c k v td tn)) (plug ctx (Tree.mkD d a c' k v td tn))) := by
  cases d
  · obtain ⟨M, h1, h2, h3⟩ := setColor_spec ctx hr c'
    exact ⟨M, h1, h2, h3, nodes_plug_congr (Tree.nodes_mkD_color ..) ctx⟩
  · obtain ⟨M, h1, h2, h3⟩ := setColor_spec ctx hr c'
    exact ⟨M, h1, h2, h3, nodes_plug_congr (Tree.nodes_mkD_color ..) ctx⟩

/-- The assignment `a->color = c'` on the node at the focus, in step form. -/
theorem setColor_step_node {m : MapState K V} (ctx : List (Frame K V)) {a : Nat}
    {c : Bool} {k : K} {v : V} {l r : Tree K V}
    (hr : Repr m (plug ctx (Tree.node a c l k v r))) (c' : Bool) :
    Succeeds (setColor m a c') (fun M =>
      Step m M (plug ctx (Tree.node a c l k v r)) (plug ctx (Tree.node a c' l k v r))) := by
  obtain ⟨M, h1, h2, h3⟩ := setColor_spec ctx hr c'
  exact ⟨M, h1, h2, h3, nodes_plug_congr
    (show (Tree.node a c' l k v r).nodes = (Tree.node a c l k v r).nodes from rfl) ctx⟩

/-- `rotate(x)` in step form. -/
theorem rotate_step {m : MapState K V} (up : List (Frame K V)) {d : Bool} {p : Nat} {cp : Bool}
    {kp : K} {vp : V} {x : Nat} {cx : Bool} {kx : K} {vx : V} {XD XN S : Tree K V}
    (hr : Repr m (plug up (Tree.mkD d p cp kp vp (Tree.mkD d x cx kx vx XD XN) S))) :
    Succeeds (rotate m x) (fun M =>
      Step m M (plug up (Tree.mkD d p cp kp vp (Tree.mkD d x cx kx vx XD XN) S))
        (plug up (Tree.mkD d x cx kx vx XD (Tree.mkD d p cp kp vp XN S)))) :=
  (rotate_spec hr).imp (fun _ h => ⟨h.1, h.2, nodes_plug_congr (rotate_nodes ..) up⟩)

/-- `id(x)` is the direction of the innermost frame around `x`. -/
theorem id_spec {m : MapState K V} {f : Frame K V} {fs : List (Frame K V)} {t : Tree K V}
    {x : Nat} (hr : Repr m (plug (f :: fs) t)) (hx : t.ptr = some x) : id m x = some f.d := by
  cases t with
  | nil => simp at hx
  | node a c l k v r =>
    simp only [Tree.ptr_node, Option.some.injEq] at hx
    subst hx
    have h1 := hr.heap_node
    have h2 := hr.heap_frame
    have hnd := hr.nodup
    rw [nodup_addrs_plug] at hnd
    refine id_eq_dir h1 rfl h2 (nodeD_ch ..) ?_
    rw [nodeD_ch_not]
    intro h
    exact hnd.2.2 a (by simp) (by simp [ctxAddrs, Tree.ptr_mem_addrs h])

/-- `red(x)` on the root pointer of the subtree at the focus. -/
theorem red_spec {m : MapState K V} (ctx : List (Frame K V)) {t : Tree K V}
    (hr : Repr m (plug ctx t)) : red m t.ptr = some (t.color == R) := by
  cases t with
  | nil => rfl
  | node a c l k v r =>
    simp only [Tree.ptr_node, red, hr.heap_node, Option.bind_eq_bind, Option.some_bind,
      Option.pure_def, Tree.color]

/-- `black(x)` on the root pointer of the subtree at the focus. -/
theorem black_spec {m : MapState K V} (ctx : List (Frame K V)) {t : Tree K V}
    (hr : Repr m (plug ctx t)) : black m t.ptr = some (t.color == B) := by
  cases t with
  | nil => rfl
  | node a c l k v r =>
    simp only [Tree.ptr_node, black, hr.heap_node, Option.bind_eq_bind, Option.some_bind,
      Option.pure_def, Tree.color]

/-- The statement `root->color = B` on a non-empty tree. -/
theorem blacken_step {m : MapState K V} {T : Tree K V} (hr : Repr m T) (hne : T ≠ .nil) :
    Succeeds (m.root.bind fun r => setColor m r B) (fun M => Step m M T T.blacken) := by
  cases T with
  | nil => exact absurd rfl hne
  | node a c l k v r =>
    rw [hr.root]
    obtain ⟨M, h1, h2, h3⟩ := setColor_spec [] hr B
    exact ⟨M, h1, h2, h3, rfl⟩

theorem plug_ne_nil (ctx : List (Frame K V)) {t : Tree K V} (h : t ≠ .nil) :
    plug ctx t ≠ .nil := by
  induction ctx generalizing t with
  | nil => exact h
  | cons f fs ih =>
    apply ih
    simp only [Frame.fill, Tree.mkD]
    split <;> simp

/-!
## `RB_insert_fixup` computes `insFix`
-/


theorem Tree.mkD_child (d : Bool) (t : Tree K V) {a : Nat} {c : Bool} {l : Tree K V} {k : K}
    {v : V} {r : Tree K V} (h : t = .node a c l k v r) :
    t = Tree.mkD d a c k v (t.child d) (t.child (!d)) := by
  subst h
  cases d <;> rfl

theorem Tree.setColor_mkD (d : Bool) (a : Nat) (c c' : Bool) (k : K) (v : V)
    (td tn : Tree K V) :
    (Tree.mkD d a c k v td tn).setColor c' = Tree.mkD d a c' k v td tn := by
  cases d <;> rfl

/-- One pass through the loop of `RB_insert_fixup` when the test `red(x->pa)` fails. -/
theorem insert_fixup_exit {m : MapState K V} {x : Nat} {nx : Node K V} (fuel : Nat)
    (hx : m.heap x = some nx) (hred : red m nx.pa = some false) :
    RB_insert_fixup (fuel + 1) m x = m.root.bind fun r => setColor m r B := by
  simp only [RB_insert_fixup, hx, hred, Option.bind_eq_bind, Option.some_bind,
    Bool.false_eq_true, if_false]

/-- One pass through the loop of `RB_insert_fixup`, case #1 (red uncle). -/
theorem insert_fixup_case1 {m : MapState K V} {x p g u : Nat} {nx np ng : Node K V}
    {dp : Bool} (fuel : Nat)
    (hx : m.heap x = some nx) (hpa : nx.pa = some p) (hred : red m (some p) = some true)
    (hp : m.heap p = some np) (hg : np.pa = some g) (hng : m.heap g = some ng)
    (hidp : id m p = some dp) (hu : ng.ch (!dp) = some u) (hru : red m (some u) = some true) :
    RB_insert_fixup (fuel + 1) m x =
      (setColor m u B).bind fun m1 => (setColor m1 p B).bind fun m2 =>
        (setColor m2 g R).bind fun m3 => RB_insert_fixup fuel m3 g := by
  simp only [RB_insert_fixup, hx, hpa, hred, hp, hg, hng, hidp, hu, hru, Option.bind_eq_bind,
    Option.some_bind, if_true]

/-- One pass through the loop of `RB_insert_fixup`, cases #2 and #3 (black uncle). -/
theorem insert_fixup_case23 {m : MapState K V} {x p g : Nat} {nx np ng : Node K V}
    {dx dp : Bool} (fuel : Nat)
    (hx : m.heap x = some nx) (hpa : nx.pa = some p) (hred : red m (some p) = some true)
    (hp : m.heap p = some np) (hg : np.pa = some g) (hng : m.heap g = some ng)
    (hidp : id m p = some dp) (hru : red m (ng.ch (!dp)) = some false)
    (hidx : id m x = some dx) :
    RB_insert_fixup (fuel + 1) m x =
      ((if (dx != dp) = true then
          (rotate m x).bind fun m1 => (rotate m1 x).bind fun m2 => setColor m2 x B
        else (rotate m p).bind fun m1 => setColor m1 p B).bind fun m3 =>
        (setColor m3 g R).bind fun m4 => m4.root.bind fun r => setColor m4 r B) := by
  simp only [RB_insert_fixup, hx, hpa, hred, hp, hg, hng, hidp, hidx, hru, Option.bind_eq_bind,
    Option.some_bind, if_true, Bool.false_eq_true, if_false]

theorem getLast_cons_cons {α : Type} (a b : α) (l : List α) {f : α}
    (h : l.getLast? = some f) : (a :: b :: l).getLast? = some f := by
  cases l with
  | nil => simp at h
  | cons c l' => simpa [List.getLast?_cons_cons] using h

/-- `RB_insert_fixup(x)` on a represented tree whose root is black computes `insFix`. -/
theorem insert_fixup_spec (fuel : Nat) :
    ∀ (ctx : List (Frame K V)) (t : Tree K V) (m : MapState K V) (x : Nat),
      Repr m (plug ctx t) → t.ptr = some x → (∀ f, ctx.getLast? = some f → f.c = B) →
      ctx.length < fuel →
      Succeeds (RB_insert_fixup fuel m x) (fun M => Step m M (plug ctx t) (insFix ctx t)) := by
  induction fuel with
  | zero => intro ctx t m x _ _ _ hfuel; simp at hfuel
  | succ n ih =>
    intro ctx t m x0 hr hx hlast hfuel
    cases t with
    | nil => simp at hx
    | node x cx l k v r =>
    simp only [Tree.ptr_node, Option.some.injEq] at hx
    subst hx
    have hhx := hr.heap_node
    match ctx, hr, hlast, hfuel, hhx with
    | [], hr, _, _, hhx =>
      rw [insert_fixup_exit n hhx rfl]
      exact blacken_step hr (by simp)
    | [fp], hr, hlast, _, hhx =>
      have hfpB : fp.c = B := hlast fp rfl
      have hp := hr.heap_frame
      rw [insert_fixup_exit n hhx (by simp [red, hp, hfpB])]
      exact blacken_step hr (plug_ne_nil _ (by simp))
    | fp :: fg :: up, hr, hlast, hfuel, hhx =>
      have hp := hr.heap_frame
      simp only [parentOf_cons, Tree.ptr_node] at hp hhx
      by_cases hpc : fp.c = R
      · -- the parent is red, so it is not the root and the grandparent exists
        obtain ⟨dp, p, cp, kp, vp, S⟩ := fp
        obtain ⟨dg, g, cg, kg, vg, U⟩ := fg
        simp only at hpc hp hhx
        subst hpc
        have hfuel' : up.length < n := by
          simp only [List.length_cons] at hfuel; omega
        have hlast' : ∀ f, up.getLast? = some f → f.c = B :=
          fun f hf => hlast f (getLast_cons_cons _ _ _ hf)
        have hr1 : Repr m (plug (⟨dg, g, cg, kg, vg, U⟩ :: up)
            (Tree.mkD dp p R kp vp (.node x cx l k v r) S)) := hr
        have hg := hr1.heap_frame
        simp only [Tree.ptr_mkD] at hg
        have hidp : id m p = some dg := id_spec hr1 (by simp)
        have hidx : id m x = some dp := id_spec hr (by simp)
        have hredp : red m (some p) = some true := by simp [red, hp]
        have hrU : Repr m (plug (⟨!dg, g, cg, kg, vg,
            Tree.mkD dp p R kp vp (.node x cx l k v r) S⟩ :: up) U) := by
          simpa only [plug_cons, Frame.fill, Tree.mkD_not] using hr
        have hredu := red_spec _ hrU
        by_cases hU : U.color = R
        · -- case #1
          cases U with
          | nil => simp [Tree.color] at hU
          | node u cu ul uk uv ur =>
          simp only [Tree.color] at hU
          subst hU
          rw [insert_fixup_case1 n hhx rfl hredp hp (nodeD_pa ..) hg hidp
            (by rw [nodeD_ch_not]; rfl) (by simpa using hredu)]
          simp only [insFix, Tree.color, if_true, Tree.setColor]
          refine (setColor_step_node _ hrU B).bind (fun M1 hs1 => ?_)
          simp only [plug_cons, Frame.fill, Tree.mkD_not] at hs1
          refine (setColor_step (⟨dg, g, cg, kg, vg, .node u B ul uk uv ur⟩ :: up)
            hs1.repr B).bind (fun M2 hs2 => ?_)
          simp only [plug_cons, Frame.fill] at hs2
          refine (setColor_step up hs2.repr R).bind (fun M3 hs3 => ?_)
          refine (ih up _ M3 g hs3.repr (by simp) hlast' hfuel').imp (fun M hs4 => ?_)
          exact ((hs1.trans hs2).trans hs3).trans hs4
        · -- cases #2 and #3
          have hU' : U.color = B := by simpa using hU
          have hredu' : red m U.ptr = some false := by rw [hredu, hU']; rfl
          rw [insert_fixup_case23 n hhx rfl hredp hp (nodeD_pa ..) hg hidp
            (by rw [nodeD_ch_not]; exact hredu') hidx]
          simp only [insFix, hU, if_false, if_true]
          by_cases hd : dp = dg
          · -- case #3: `x` and `p` are children on the same side
            subst hd
            simp only [bne_self_eq_false, Bool.false_eq_true, if_false, ne_eq, not_true_eq_false]
            simp only [plug_cons, Frame.fill] at hr ⊢
            refine (((rotate_step up hr).bind fun M1 hs1 =>
              (setColor_step up hs1.repr B).imp fun M2 hs2 => hs1.trans hs2).bind
                fun M3 hs3 => ?_)
            have hv : Repr M3 (plug (⟨!dp, p, B, kp, vp, .node x cx l k v r⟩ :: up)
                (Tree.mkD dp g cg kg vg S U)) := by
              simpa only [plug_cons, Frame.fill, Tree.mkD_not] using hs3.repr
            refine (setColor_step _ hv R).bind fun M4 hs4 => ?_
            simp only [plug_cons, Frame.fill, Tree.mkD_not] at hs4
            refine (blacken_step hs4.repr (plug_ne_nil _ (by cases dp <;> simp [Tree.mkD]))).imp
              fun M5 hs5 => ?_
            exact (hs3.trans hs4).trans hs5
          · -- case #2: `x` is an inner child
            obtain rfl : dg = !dp := by
              cases dp <;> cases dg <;> simp_all
            have hne : (dp != !dp) = true := by cases dp <;> rfl
            simp only [hne, if_true, ne_eq, hd, not_false_eq_true]
            have hmk := Tree.mkD_child dp (Tree.node x cx l k v r) rfl
            generalize (Tree.node x cx l k v r).child dp = XD at hmk ⊢
            generalize (Tree.node x cx l k v r).child (!dp) = XN at hmk ⊢
            rw [hmk] at hr
            simp only [plug_cons, Frame.fill] at hr
            have hr' : Repr m (plug (⟨!dp, g, cg, kg, vg, U⟩ :: up)
                (Tree.mkD dp p R kp vp (Tree.mkD dp x cx k v XD XN) S)) := hr
            have hA : Succeeds ((rotate m x).bind fun m1 => (rotate m1 x).bind fun m2 =>
                setColor m2 x B) (fun M => Step m M
                  (plug up (Tree.mkD dp g cg kg vg U
                    (Tree.mkD dp p R kp vp (Tree.mkD dp x cx k v XD XN) S)))
                  (plug up (Tree.mkD dp x B k v (Tree.mkD dp g cg kg vg U XD)
                    (Tree.mkD dp p R kp vp XN S)))) := by
              refine (rotate_step _ hr').bind fun M1 hs1 => ?_
              simp only [plug_cons, Frame.fill, Tree.mkD_not] at hs1
              have hv1 : Repr M1 (plug up (Tree.mkD (!dp) g cg kg vg
                  (Tree.mkD (!dp) x cx k v (Tree.mkD dp p R kp vp XN S) XD) U)) := by
                simpa only [plug_cons, Frame.fill, Tree.mkD_not] using hs1.repr
              refine (rotate_step up hv1).bind fun M2 hs2 => ?_
              simp only [plug_cons, Frame.fill, Tree.mkD_not] at hs2
              refine (setColor_step up hs2.repr B).imp fun M3 hs3 => ?_
              exact (hs1.trans hs2).trans hs3
            refine hA.bind fun M4 hs4 => ?_
            have hv : Repr M4 (plug (⟨dp, x, B, k, v, Tree.mkD dp p R kp vp XN S⟩ :: up)
                (Tree.mkD dp g cg kg vg U XD)) := hs4.repr
            refine (setColor_step _ hv R).bind fun M5 hs5 => ?_
            simp only [plug_cons, Frame.fill, Tree.mkD_not] at hs5
            refine (blacken_step hs5.repr
              (plug_ne_nil _ (by cases dp <;> simp [Tree.mkD]))).imp fun M6 hs6 => ?_
            have := (hs4.trans hs5).trans hs6
            simp only [plug_cons, Frame.fill, Tree.mkD_not] at this ⊢
            rw [hmk]
            exact this
      · have hpc' : fp.c = B := by simpa using hpc
        rw [insert_fixup_exit n hhx (by simp [red, hp, hpc'])]
        simp only [insFix, hpc, if_false]
        exact blacken_step hr (plug_ne_nil _ (by simp))

/-!
## Red-black invariants of contexts, and their preservation by `insFix`
-/


theorem Tree.BH_mkD {d : Bool} {a : Nat} {c : Bool} {k : K} {v : V} {td tn : Tree K V}
    {n : Nat} :
    (Tree.mkD d a c k v td tn).BH n ↔
      if c = B then ∃ n', n = n' + 1 ∧ td.BH n' ∧ tn.BH n' else td.BH n ∧ tn.BH n := by
  cases d
  · simp [Tree.mkD, Tree.BH]
  · simp only [Tree.mkD, if_true, Tree.BH]
    split
    · constructor <;> rintro ⟨n', h1, h2, h3⟩ <;> exact ⟨n', h1, h3, h2⟩
    · exact And.comm

theorem Tree.NoRedRed_mkD {d : Bool} {a : Nat} {c : Bool} {k : K} {v : V} {td tn : Tree K V} :
    (Tree.mkD d a c k v td tn).NoRedRed ↔
      (c = R → td.color = B ∧ tn.color = B) ∧ td.NoRedRed ∧ tn.NoRedRed := by
  cases d
  · simp [Tree.mkD, Tree.NoRedRed]
  · simp only [Tree.mkD, if_true, Tree.NoRedRed]
    constructor
    · rintro ⟨h1, h2, h3⟩; exact ⟨fun h => ⟨(h1 h).2, (h1 h).1⟩, h3, h2⟩
    · rintro ⟨h1, h2, h3⟩; exact ⟨fun h => ⟨(h1 h).2, (h1 h).1⟩, h3, h2⟩

theorem Tree.BH_black {a : Nat} {k : K} {v : V} {l r : Tree K V} {n : Nat}
    (hl : l.BH n) (hr : r.BH n) : (Tree.node a B l k v r).BH (n + 1) := by
  simp only [Tree.BH, if_true]
  exact ⟨n, rfl, hl, hr⟩

theorem Tree.BH_mkD_black {d : Bool} {a : Nat} {k : K} {v : V} {td tn : Tree K V} {n : Nat}
    (h1 : td.BH n) (h2 : tn.BH n) : (Tree.mkD d a B k v td tn).BH (n + 1) := by
  rw [Tree.BH_mkD]
  simp only [if_true]
  exact ⟨n, rfl, h1, h2⟩

theorem Tree.BH_mkD_red {d : Bool} {a : Nat} {k : K} {v : V} {td tn : Tree K V} {n : Nat}
    (h1 : td.BH n) (h2 : tn.BH n) : (Tree.mkD d a R k v td tn).BH n := by
  rw [Tree.BH_mkD]
  simp only [Bool.true_eq_false, if_false]
  exact ⟨h1, h2⟩

/-- Filling a well-coloured context with a well-coloured subtree of the right black count
gives a tree without red-red pair and with equal black counts. -/
theorem plug_inv (ctx : List (Frame K V)) {t : Tree K V} {n : Nat} (hc : CtxInv ctx n)
    (hb : t.BH n) (hn : t.NoRedRed) (hcol : ctxColor ctx = R → t.color = B) :
    (plug ctx t).NoRedRed ∧ ∃ N, (plug ctx t).BH N := by
  induction ctx generalizing t n with
  | nil => exact ⟨hn, n, hb⟩
  | cons f fs ih =>
    obtain ⟨h1, h2, h3, h4⟩ := hc
    simp only [ctxColor] at hcol
    refine ih h4 ?_ ?_ ?_
    · simp only [Frame.fill, Tree.BH_mkD]
      split
      · exact ⟨n, rfl, hb, h1⟩
      · exact ⟨hb, h1⟩
    · simp only [Frame.fill, Tree.NoRedRed_mkD]
      exact ⟨fun h => ⟨hcol h, (h3 h).1⟩, hn, h2⟩
    · intro h
      simp only [Frame.fill, Tree.color_mkD]
      cases hfc : f.c with
      | false => rfl
      | true =>
        have := (h3 hfc).2
        rw [this] at h
        exact absurd h (by simp)

/-- A well-coloured tree splits into a well-coloured context and subtree. -/
theorem unplug_inv (ctx : List (Frame K V)) {t : Tree K V} {N : Nat}
    (hn : (plug ctx t).NoRedRed) (hb : (plug ctx t).BH N) :
    ∃ n, CtxInv ctx n ∧ t.BH n ∧ t.NoRedRed ∧ (ctxColor ctx = R → t.color = B) := by
  induction ctx generalizing t with
  | nil => exact ⟨N, trivial, hb, hn, fun h => by simp [ctxColor] at h⟩
  | cons f fs ih =>
    obtain ⟨n', hc, hfb, hfn, hfc⟩ := ih (t := f.fill t) hn hb
    simp only [Frame.fill, Tree.NoRedRed_mkD, Tree.color_mkD] at hfn hfc
    simp only [Frame.fill, Tree.BH_mkD] at hfb
    obtain ⟨hcol, hnt, hns⟩ := hfn
    have hparent : f.c = R → ctxColor fs = B := by
      intro h
      cases hcc : ctxColor fs with
      | false => rfl
      | true =>
        have := hfc hcc
        rw [h] at this
        exact absurd this (by simp)
    cases hfcol : f.c with
    | false =>
      simp only [hfcol, if_true] at hfb
      obtain ⟨n, rfl, hbt, hbs⟩ := hfb
      refine ⟨n, ⟨hbs, hns, fun h => by simp [hfcol] at h, ?_⟩, hbt, hnt, ?_⟩
      · simpa [hfcol] using hc
      · simp [ctxColor, hfcol]
    | true =>
      simp only [hfcol, Bool.true_eq_false, if_false] at hfb
      refine ⟨n', ⟨hfb.2, hns, fun h => ⟨(hcol hfcol).2, hparent hfcol⟩, ?_⟩, hfb.1, hnt, ?_⟩
      · simpa [hfcol] using hc
      · intro _; exact (hcol hfcol).1

theorem Tree.color_blacken (t : Tree K V) : t.blacken.color = B := by
  cases t <;> rfl

/-- Colouring the root black keeps a well-coloured tree well coloured. -/
theorem Tree.blacken_RB {t : Tree K V} {n : Nat} (hn : t.NoRedRed) (hb : t.BH n) :
    t.blacken.RB := by
  cases t with
  | nil => exact ⟨rfl, trivial, 0, rfl⟩
  | node a c l k v r =>
    refine ⟨rfl, ⟨fun h => by simp at h, hn.2.1, hn.2.2⟩, ?_⟩
    cases c with
    | false => exact ⟨n, hb⟩
    | true =>
      simp only [Tree.BH, Bool.true_eq_false, if_false] at hb
      exact ⟨n + 1, Tree.BH_black hb.1 hb.2⟩

theorem Tree.NoRedRed_setColor_black {t : Tree K V} (hn : t.NoRedRed) :
    (t.setColor B).NoRedRed := by
  cases t with
  | nil => trivial
  | node a c l k v r => exact ⟨fun h => by simp at h, hn.2.1, hn.2.2⟩

theorem Tree.BH_setColor_black {t : Tree K V} {n : Nat} (hc : t.color = R) (hb : t.BH n) :
    (t.setColor B).BH (n + 1) := by
  cases t with
  | nil => simp [Tree.color] at hc
  | node a c l k v r =>
    simp only [Tree.color] at hc
    subst hc
    simp only [Tree.BH, Bool.true_eq_false, if_false] at hb
    exact Tree.BH_black hb.1 hb.2

theorem Tree.color_setColor_black (t : Tree K V) : (t.setColor B).color = B := by
  cases t <;> rfl

theorem Tree.red_children {t : Tree K V} {n : Nat} (hc : t.color = R) (hb : t.BH n)
    (hn : t.NoRedRed) (d : Bool) :
    (t.child d).BH n ∧ (t.child d).NoRedRed ∧ (t.child d).color = B := by
  cases t with
  | nil => simp [Tree.color] at hc
  | node a c l k v r =>
    simp only [Tree.color] at hc
    subst hc
    simp only [Tree.BH, Bool.true_eq_false, if_false] at hb
    obtain ⟨h1, h2, h3⟩ := hn
    cases d
    · exact ⟨hb.1, h2, (h1 rfl).1⟩
    · exact ⟨hb.2, h3, (h1 rfl).2⟩

/-- `insFix` restores the red-black colour invariants. -/
theorem insFix_RB (ctx : List (Frame K V)) (t : Tree K V) :
    ∀ n, CtxInv ctx n → t.BH n → t.NoRedRed → t.color = R →
      (∀ f, ctx.getLast? = some f → f.c = B) → (insFix ctx t).RB := by
  induction ctx, t using insFix.induct with
  | case1 fp fg up t hp hu ih =>
    intro n hc hb hn hcol hlast
    obtain ⟨hps, hpn, hpc, hc1⟩ := hc
    simp only [hp, Bool.true_eq_false, if_false] at hc1
    obtain ⟨hgs, hgn, -, hc2⟩ := hc1
    have hgc : fg.c = B := (hpc hp).2
    simp only [hgc, if_true] at hc2
    simp only [insFix, hp, hu, if_true]
    refine ih (n + 1) hc2 ?_ ?_ (by simp) (fun f hf => hlast f (getLast_cons_cons _ _ _ hf))
    · exact Tree.BH_mkD_red (Tree.BH_mkD_black hb hps) (Tree.BH_setColor_black hu hgs)
    · rw [Tree.NoRedRed_mkD, Tree.NoRedRed_mkD]
      simp only [Tree.color_mkD, Tree.color_setColor_black, and_self, implies_true, true_and]
      exact ⟨⟨fun h => by simp at h, hn, hpn⟩, Tree.NoRedRed_setColor_black hgn⟩
  | case2 fp fg up hp hu hd =>
    intro n _ _ _ hcol
    simp [Tree.color] at hcol
  | case3 fp fg up hp hu hd a c l k v r =>
    intro n hc hb hn hcol hlast
    obtain ⟨hps, hpn, hpc, hc1⟩ := hc
    simp only [hp, Bool.true_eq_false, if_false] at hc1
    obtain ⟨hgs, hgn, -, hc2⟩ := hc1
    have hgc : fg.c = B := (hpc hp).2
    simp only [hgc, if_true] at hc2
    have hu' : fg.sib.color = B := by simpa using hu
    simp only [insFix, hp, hu, hd, if_true, if_false, ne_eq, not_false_eq_true]
    have h1 := Tree.red_children hcol hb hn fp.d
    have h2 := Tree.red_children hcol hb hn (!fp.d)
    have hN := plug_inv up (t := Tree.mkD fg.d a B k v
        (Tree.mkD fp.d fp.a R fp.k fp.v ((Tree.node a c l k v r).child (!fp.d)) fp.sib)
        (Tree.mkD fg.d fg.a R fg.k fg.v ((Tree.node a c l k v r).child fp.d) fg.sib)) hc2
      (Tree.BH_mkD_black (Tree.BH_mkD_red h2.1 hps) (Tree.BH_mkD_red h1.1 hgs))
      (by
        rw [Tree.NoRedRed_mkD, Tree.NoRedRed_mkD, Tree.NoRedRed_mkD]
        exact ⟨fun h => by simp at h, ⟨fun _ => ⟨h2.2.2, (hpc hp).1⟩, h2.2.1, hpn⟩,
          ⟨fun _ => ⟨h1.2.2, hu'⟩, h1.2.1, hgn⟩⟩)
      (by intro _; simp)
    obtain ⟨hN1, N, hN2⟩ := hN
    exact Tree.blacken_RB hN1 hN2
  | case4 fp fg up t hp hu hd =>
    intro n hc hb hn hcol hlast
    obtain ⟨hps, hpn, hpc, hc1⟩ := hc
    simp only [hp, Bool.true_eq_false, if_false] at hc1
    obtain ⟨hgs, hgn, -, hc2⟩ := hc1
    have hgc : fg.c = B := (hpc hp).2
    simp only [hgc, if_true] at hc2
    have hu' : fg.sib.color = B := by simpa using hu
    simp only [insFix, hp, hu, hd, if_true, if_false]
    have hN := plug_inv up (t := Tree.mkD fg.d fp.a B fp.k fp.v t
        (Tree.mkD fg.d fg.a R fg.k fg.v fp.sib fg.sib)) hc2
      (Tree.BH_mkD_black hb (Tree.BH_mkD_red hps hgs))
      (by
        rw [Tree.NoRedRed_mkD, Tree.NoRedRed_mkD]
        exact ⟨fun h => by simp at h, hn, ⟨fun _ => ⟨(hpc hp).1, hu'⟩, hpn, hgn⟩⟩)
      (by intro _; simp)
    obtain ⟨hN1, N, hN2⟩ := hN
    exact Tree.blacken_RB hN1 hN2
  | case5 fp fg up t hp =>
    intro n hc hb hn hcol hlast
    simp only [insFix, hp, if_false]
    obtain ⟨hN1, N, hN2⟩ := plug_inv _ hc hb hn (by intro h; exact absurd h hp)
    exact Tree.blacken_RB hN1 hN2
  | case6 fp t =>
    intro n hc hb hn hcol hlast
    have hp : fp.c = B := hlast fp rfl
    simp only [insFix]
    obtain ⟨hN1, N, hN2⟩ := plug_inv _ hc hb hn (by intro h; simp [ctxColor, hp] at h)
    exact Tree.blacken_RB hN1 hN2
  | case7 t =>
    intro n hc hb hn hcol hlast
    exact Tree.blacken_RB hn hb

/-!
## `RB_find` in insert mode on an absent key: linking the new leaf
-/


@[simp] theorem alloc_heap_same (m : MapState K V) (n : Node K V) :
    (m.alloc n).heap m.next = some n := by
  simp [MapState.alloc]

theorem alloc_heap_ne (m : MapState K V) (n : Node K V) {b : Nat} (h : b ≠ m.next) :
    (m.alloc n).heap b = m.heap b := by
  simp [MapState.alloc, Function.update, h]

@[simp] theorem alloc_root (m : MapState K V) (n : Node K V) : (m.alloc n).root = m.root := rfl

@[simp] theorem alloc_siz (m : MapState K V) (n : Node K V) : (m.alloc n).siz = m.siz := rfl

@[simp] theorem alloc_cmp (m : MapState K V) (n : Node K V) : (m.alloc n).cmp = m.cmp := rfl

@[simp] theorem alloc_self (m : MapState K V) (n : Node K V) : (m.alloc n).self = m.self := rfl

@[simp] theorem alloc_next (m : MapState K V) (n : Node K V) :
    (m.alloc n).next = m.next + 1 := rfl

/-- Every node of a represented tree is allocated. -/
theorem Rep_heap_some {h : Nat → Option (Node K V)} {t : Tree K V} {pa : NodePtr}
    (hr : Rep h t pa) {a : Nat} (ha : a ∈ t.addrs) : ∃ n, h a = some n := by
  induction t generalizing pa with
  | nil => simp at ha
  | node b c l k v r ihl ihr =>
    obtain ⟨h1, h2, h3⟩ := hr
    simp only [Tree.addrs_node, List.mem_append, List.mem_cons] at ha
    rcases ha with ha | rfl | ha
    · exact ihl h2 ha
    · exact ⟨_, h1⟩
    · exact ihr h3 ha

/-- The address the allocator hands out next is not a node of the tree. -/
theorem fresh_not_mem {m : MapState K V} {t : Tree K V} (hr : Repr m t) (hf : HeapFresh m) :
    m.next ∉ t.addrs := by
  intro h
  obtain ⟨n, hn⟩ := Rep_heap_some hr.rep h
  rw [hf m.next (Nat.le_refl _)] at hn
  exact absurd hn (by simp)

/-- Every frame that `locate` pushes points towards the key as the comparator says. -/
theorem locate_dir (cmp : K → K → Bool) (key : K) (t : Tree K V) (ctx : List (Frame K V))
    (h : ∀ f ∈ ctx, f.d = cmp f.k key) : ∀ f ∈ (locate cmp key t ctx).1, f.d = cmp f.k key := by
  induction t generalizing ctx with
  | nil => exact h
  | node a c l k v r ihl ihr =>
    simp only [locate]
    split
    · exact h
    · split
      · rename_i hlt
        apply ihr
        intro f hf
        simp only [List.mem_cons] at hf
        rcases hf with rfl | hf
        · exact hlt.symm
        · exact h f hf
      · rename_i hlt
        apply ihl
        intro f hf
        simp only [List.mem_cons] at hf
        rcases hf with rfl | hf
        · simp only [Bool.not_eq_true] at hlt
          exact hlt.symm
        · exact h f hf

/-- The number of frames `locate` pushes is at most the height of the tree. -/
theorem locate_length (cmp : K → K → Bool) (key : K) (t : Tree K V) (ctx : List (Frame K V)) :
    (locate cmp key t ctx).1.length + (locate cmp key t ctx).2.height ≤
      ctx.length + t.height := by
  induction t generalizing ctx with
  | nil => exact Nat.le_refl _
  | node a c l k v r ihl ihr =>
    simp only [locate]
    split
    · exact Nat.le_refl _
    · split
      · have := ihr (⟨true, a, c, k, v, l⟩ :: ctx)
        simp only [List.length_cons, Tree.height] at this ⊢
        have := Nat.le_max_right l.height r.height
        omega
      · have := ihl (⟨false, a, c, k, v, r⟩ :: ctx)
        simp only [List.length_cons, Tree.height] at this ⊢
        have := Nat.le_max_left l.height r.height
        omega

/-- The non-const `RB_find` in insert mode on an absent key: up to the call of
`RB_insert_fixup` the new red leaf is allocated at `next` and linked into the hole that
`locate` reaches. -/
theorem RB_find_link [Inhabited V] {m : MapState K V} {t : Tree K V} (hr : Repr m t)
    (hfresh : HeapFresh m) (key : K) {ctx : List (Frame K V)}
    (hloc : locate m.cmp key t [] = (ctx, .nil)) {fuel : Nat} (hfuel : t.height < fuel) :
    ∃ M, Repr M (plug ctx (.node m.next R .nil key default .nil)) ∧
      M.siz = (m.siz + 1) % 2 ^ 64 ∧ M.cmp = m.cmp ∧ M.self = m.self ∧ M.next = m.next + 1 ∧
      (∀ a, a ∉ t.addrs → a ≠ m.next → M.heap a = m.heap a) ∧
      RB_find fuel m key 1 =
        (RB_insert_fixup fuel M m.next).bind fun m4 => some (m4, some m.next) := by
  have hplug : plug ctx .nil = t := by
    have := locate_plug m.cmp key t []
    rw [hloc] at this
    exact this
  have hloop := RB_find_loop_spec m.cmp key [] hr.rep hfuel
  simp only [parentOf_nil, hloc, Tree.ptr_nil] at hloop
  have hx : m.next ∉ t.addrs := fresh_not_mem hr hfresh
  have hdir := locate_dir m.cmp key t [] (by simp)
  rw [hloc] at hdir
  subst hplug
  cases ctx with
  | nil =>
    refine ⟨(((m.setSiz ((m.siz + 1) % 2 ^ 64)).alloc ⟨key, default, R, none, none, none⟩).store
      m.next ⟨key, default, R, none, none, none⟩).setRoot (some m.next), ?_, rfl, rfl, rfl, rfl,
      ?_, ?_⟩
    · refine ⟨rfl, ?_, by simp⟩
      simp [plug, Rep]
    · intro a _ ha
      simp only [setRoot_heap]
      rw [store_heap_ne _ _ ha]
      exact alloc_heap_ne _ _ ha
    · have e1 : ((m.setSiz ((m.siz + 1) % 2 ^ 64)).alloc
          ⟨key, default, R, none, none, none⟩).heap m.next
          = some ⟨key, default, R, none, none, none⟩ := alloc_heap_same _ _
      have e0 : ((1 : Nat) == 0) = false := rfl
      simp only [RB_find, hr.root, hloop, parentOf_nil, Option.bind_eq_bind, Option.some_bind,
        Option.isSome_none, Bool.false_or, setPa, MapState.modify, setSiz_next,
        e1, e0, Node.setPa, Option.pure_def, store_next, alloc_next, Bool.false_eq_true,
        if_false]
  | cons f fs =>
    have hf := hr.heap_frame
    simp only [Tree.ptr_nil] at hf
    have hxC : m.next ∉ ctxAddrs (f :: fs) := fun h => hx (mem_addrs_plug.mpr (Or.inr h))
    have hfa : f.a ≠ m.next := by
      intro h
      exact hxC (by rw [← h]; simp [ctxAddrs])
    have hfd : m.cmp f.k key = f.d := (hdir f (by simp)).symm
    refine ⟨(((m.setSiz ((m.siz + 1) % 2 ^ 64)).alloc ⟨key, default, R, none, none, none⟩).store
      m.next ⟨key, default, R, none, none, some f.a⟩).store f.a
        (nodeD f.d f.k f.v f.c (some m.next) f.sib.ptr (parentOf fs)), ?_, rfl, rfl, rfl, rfl,
      ?_, ?_⟩
    · refine Repr.replug hr ?_ (by simp) (fun _ => rfl) ?_ ?_ (by simp) ?_
      · simp only [Rep, parentOf_cons, Tree.ptr_nil, and_true]
        rw [store_heap_ne _ _ hfa.symm, store_heap_same]
      · intro f' fs' h n hn
        cases h
        rw [hf] at hn
        cases hn
        simp
      · intro b hb hne
        have hbx : b ≠ m.next := by
          intro h
          exact hxC (by rw [← h]; exact hb)
        have hbf : b ≠ f.a := fun h => hne (by rw [h]; rfl)
        rw [store_heap_ne _ _ hbf, store_heap_ne _ _ hbx]
        exact alloc_heap_ne _ _ hbx
      · intro b hb
        simp only [Tree.addrs_node, Tree.addrs_nil, List.nil_append, List.mem_singleton] at hb
        subst hb
        exact hxC
    · intro a ha hne
      have haf : a ≠ f.a := by
        intro h
        exact ha (mem_addrs_plug.mpr (Or.inr (by rw [h]; simp [ctxAddrs])))
      rw [store_heap_ne _ _ haf, store_heap_ne _ _ hne]
      exact alloc_heap_ne _ _ hne
    · have e1 : ((m.setSiz ((m.siz + 1) % 2 ^ 64)).alloc
          ⟨key, default, R, none, none, none⟩).heap m.next
          = some ⟨key, default, R, none, none, none⟩ := alloc_heap_same _ _
      have e0 : ((1 : Nat) == 0) = false := rfl
      have e2 : ((m.setSiz ((m.siz + 1) % 2 ^ 64)).alloc
          ⟨key, default, R, none, none, none⟩).heap f.a = m.heap f.a :=
        alloc_heap_ne (m.setSiz ((m.siz + 1) % 2 ^ 64)) _ hfa
      simp only [RB_find, hr.root, hloop, parentOf_cons, e0, e2, Bool.false_eq_true, if_false, Option.bind_eq_bind, Option.some_bind,
        Option.isSome_none, Bool.false_or, setPa, setCh, MapState.modify, setSiz_next,
        e1, Node.setPa, Option.pure_def, store_next, alloc_next,
        store_heap_ne _ _ hfa, alloc_heap_ne _ _ hfa, setSiz_heap, hf, store_cmp, alloc_cmp,
        setSiz_cmp, nodeD_key, hfd, nodeD_setCh]

/-!
## `RB_find` in insert mode on an absent key: the whole insertion
-/


/-- The root colour of a plugged context: the colour of the outermost frame. -/
theorem plug_color (ctx : List (Frame K V)) (t : Tree K V) {f : Frame K V}
    (h : ctx.getLast? = some f) : (plug ctx t).color = f.c := by
  induction ctx generalizing t with
  | nil => simp at h
  | cons g gs ih =>
    rw [plug_cons]
    cases gs with
    | nil =>
      simp only [List.getLast?_singleton, Option.some.injEq] at h
      subst h
      simp [Frame.fill]
    | cons g' gs' =>
      rw [List.getLast?_cons_cons] at h
      exact ih _ h

theorem Tree.keys_eq_of_nodes {t t' : Tree K V} (h : t'.nodes = t.nodes) : t'.keys = t.keys := by
  simp only [Tree.keys, h]

theorem Tree.sorted_of_nodes {cmp : K → K → Bool} {t t' : Tree K V} (h : t'.nodes = t.nodes)
    (hs : t.Sorted cmp) : t'.Sorted cmp := by
  simp only [Tree.Sorted, Tree.keys_eq_of_nodes h]
  exact hs

theorem Tree.mem_addrs_of_nodes {t t' : Tree K V} (h : t'.nodes = t.nodes) (a : Nat) :
    a ∈ t'.addrs ↔ a ∈ t.addrs := by
  rw [Tree.addrs_eq_map, Tree.addrs_eq_map, h]

/-- `RB_find(key, 1)` on a valid map that holds no key equivalent to `key`: a node with
`key` and the default value is allocated at `next`, it is placed at the sorted position, and
the colour invariants hold again. -/
theorem RB_find_insert_absent [Inhabited V] {m : MapState K V} {t : Tree K V}
    (hv : Valid m t) (key : K) (habs : ∀ k ∈ t.keys, equal m.cmp key k = false) {fuel : Nat}
    (hfuel : t.height + 1 < fuel) :
    ∃ M T, RB_find fuel m key 1 = some (M, some m.next) ∧ Inserted m M t T key default := by
  obtain ⟨hr, hsorted, ⟨hcol, hnrr, N, hbh⟩, hs, hfresh⟩ := hv
  -- the descent ends in a hole
  obtain ⟨ctx, hloc⟩ : ∃ ctx, locate m.cmp key t [] = (ctx, .nil) := by
    cases hsub : (locate m.cmp key t []).2 with
    | nil => exact ⟨(locate m.cmp key t []).1, by rw [← hsub]⟩
    | node a c l k v r =>
      obtain ⟨heq, hmem⟩ := locate_found hsub
      rw [habs k (List.mem_map_of_mem (fun e => e.2.1) hmem)] at heq
      exact absurd heq (by simp)
  have hplug : plug ctx .nil = t := by
    have := locate_plug m.cmp key t []
    rw [hloc] at this
    exact this
  have hlen : ctx.length ≤ t.height := by
    have := locate_length m.cmp key t []
    rw [hloc] at this
    simpa [Tree.height] using this
  have hbounds := locate_nil hs key [] hsorted (by simp [ctxLeft]) (by simp [ctxRight])
    (by rw [hloc])
  rw [hloc] at hbounds
  obtain ⟨-, hleft, hright⟩ := hbounds
  have hlast : ∀ f, ctx.getLast? = some f → f.c = B := by
    intro f hf
    have := plug_color ctx (.nil : Tree K V) hf
    rw [hplug, hcol] at this
    exact this.symm
  -- linking the leaf
  obtain ⟨M4, hr4, hsiz4, hcmp4, hself4, hnext4, hframe4, hfind⟩ :=
    RB_find_link hr hfresh key hloc (Nat.lt_of_succ_lt hfuel)
  -- the fixup
  obtain ⟨M5, hfix, hstep⟩ := insert_fixup_spec fuel ctx _ M4 m.next hr4 rfl hlast
    (by omega)
  refine ⟨M5, insFix ctx (.node m.next R .nil key default .nil), ?_, hstep.repr, ?_, ?_, ?_, ?_,
    ?_, ?_, ?_⟩
  · rw [hfind, hfix]; rfl
  · -- colours
    rw [← hplug] at hnrr hbh
    obtain ⟨n, hc, hb0, -, -⟩ := unplug_inv ctx hnrr hbh
    simp only [Tree.BH] at hb0
    subst hb0
    exact insFix_RB ctx _ 0 hc (by simp [Tree.BH]) (by simp [Tree.NoRedRed, Tree.color]) rfl
      hlast
  · rw [hstep.touch.siz, hsiz4]
  · rw [hstep.touch.cmp, hcmp4]
  · rw [hstep.touch.self, hself4]
  · rw [hstep.touch.next, hnext4]
  · intro a ha hne
    rw [hstep.touch.heap a, hframe4 a ha hne]
    rw [mem_addrs_plug]
    rw [← hplug, mem_addrs_plug] at ha
    simpa [hne] using ha
  · refine ⟨ctxLeft ctx, ctxRight ctx, ?_, ?_, hleft, hright⟩
    · rw [← hplug, nodes_plug]; simp
    · rw [hstep.nodes, nodes_plug]; simp

/-!
## `insert` and `operator[]`
-/


/-- Every node of a tree is the focus of some context. -/
theorem exists_plug_of_mem {t : Tree K V} {a : Nat} (ha : a ∈ t.addrs) :
    ∃ ctx c l k v r, t = plug ctx (.node a c l k v r) := by
  suffices h : ∀ (t : Tree K V) (up : List (Frame K V)), a ∈ t.addrs →
      ∃ ctx c l k v r, plug up t = plug ctx (.node a c l k v r) from h t [] ha
  intro t
  induction t with
  | nil => intro up ha; simp at ha
  | node b c l k v r ihl ihr =>
    intro up ha
    simp only [Tree.addrs_node, List.mem_append, List.mem_cons] at ha
    rcases ha with ha | rfl | ha
    · obtain ⟨ctx, c', l', k', v', r', h⟩ := ihl (⟨false, b, c, k, v, r⟩ :: up) ha
      exact ⟨ctx, c', l', k', v', r', h⟩
    · exact ⟨up, c, l, k, v, r, rfl⟩
    · obtain ⟨ctx, c', l', k', v', r', h⟩ := ihr (⟨true, b, c, k, v, l⟩ :: up) ha
      exact ⟨ctx, c', l', k', v', r', h⟩

/-- A list with distinct first components splits at a given first component in one way. -/
theorem split_unique {α β : Type} {A A' Bs Bs' : List (α × β)} {e e' : α × β}
    (h : A ++ e :: Bs = A' ++ e' :: Bs') (he : e.1 = e'.1)
    (hnd : ((A ++ e :: Bs).map (fun x => x.1)).Nodup) : A = A' ∧ e = e' ∧ Bs = Bs' := by
  induction A generalizing A' with
  | nil =>
    cases A' with
    | nil =>
      simp only [List.nil_append, List.cons.injEq] at h
      exact ⟨rfl, h.1, h.2⟩
    | cons a' As' =>
      simp only [List.nil_append, List.cons_append, List.cons.injEq] at h
      obtain ⟨rfl, rfl⟩ := h
      exfalso
      simp only [List.nil_append, List.map_cons, List.nodup_cons, List.mem_map] at hnd
      exact hnd.1 ⟨e', by simp, he.symm⟩
  | cons a As ih =>
    cases A' with
    | nil =>
      simp only [List.nil_append, List.cons_append, List.cons.injEq] at h
      obtain ⟨rfl, rfl⟩ := h
      exfalso
      simp only [List.cons_append, List.map_cons, List.nodup_cons, List.mem_map] at hnd
      exact hnd.1 ⟨e, by simp, he⟩
    | cons a' As' =>
      simp only [List.cons_append, List.cons.injEq] at h
      obtain ⟨rfl, h⟩ := h
      simp only [List.cons_append, List.map_cons, List.nodup_cons] at hnd
      obtain ⟨h1, h2, h3⟩ := ih h hnd.2
      exact ⟨by rw [h1], h2, h3⟩

/-- The colour invariants of a plugged tree only depend on the colours in the hole. -/
theorem plug_RB_congr (ctx : List (Frame K V)) {s t : Tree K V} (hc : t.color = s.color)
    (hb : ∀ n, s.BH n → t.BH n) (hn : s.NoRedRed → t.NoRedRed)
    (h : (plug ctx s).RB) : (plug ctx t).RB := by
  obtain ⟨hcol, hnrr, N, hbh⟩ := h
  obtain ⟨n, hci, hb1, hn1, hc1⟩ := unplug_inv ctx hnrr hbh
  obtain ⟨h1, h2⟩ := plug_inv ctx hci (hb n hb1) (hn hn1) (fun h => by rw [hc]; exact hc1 h)
  refine ⟨?_, h1, h2⟩
  cases hl : ctx.getLast? with
  | none =>
    have : ctx = [] := List.getLast?_eq_none_iff.mp hl
    subst this
    simpa [hc] using hcol
  | some f =>
    rw [plug_color ctx t hl]
    rw [plug_color ctx s hl] at hcol
    exact hcol

/-- Inserting a key between the smaller and the larger keys keeps the order. -/
theorem sorted_insert {cmp : K → K → Bool} (_hs : StrictWeak cmp) {l1 l2 : List (Nat × K × V)}
    {e : Nat × K × V}
    (h : ((l1 ++ l2).map (fun x => x.2.1)).Pairwise (fun a b => cmp a b = true))
    (hl : ∀ x ∈ l1, cmp x.2.1 e.2.1 = true) (hr : ∀ x ∈ l2, cmp e.2.1 x.2.1 = true) :
    ((l1 ++ e :: l2).map (fun x => x.2.1)).Pairwise (fun a b => cmp a b = true) := by
  simp only [List.map_append, List.map_cons, List.pairwise_append, List.pairwise_cons,
    List.mem_map, List.mem_cons, forall_exists_index, and_imp] at h ⊢
  obtain ⟨h1, h2, h3⟩ := h
  refine ⟨h1, ⟨?_, h2⟩, ?_⟩
  · rintro k x hx rfl
    exact hr x hx
  · rintro k x hx rfl k' (rfl | ⟨y, hy, rfl⟩)
    · exact hl x hx
    · exact h3 _ x hx rfl _ y hy rfl

/-- The state after an insertion is a valid map again. -/
theorem Inserted.valid {m M : MapState K V} {t T : Tree K V} {key : K} {v : V}
    (hv : Valid m t) (h : Inserted m M t T key v) : Valid M T := by
  obtain ⟨l1, l2, hn1, hn2, hl, hr⟩ := h.nodes
  refine ⟨h.repr, ?_, h.rb, by rw [h.cmp]; exact hv.swo, ?_⟩
  · rw [h.cmp]
    have hs := hv.sorted
    simp only [Tree.Sorted, Tree.keys, hn1, hn2] at hs ⊢
    exact sorted_insert hv.swo hs hl hr
  · intro a ha
    rw [h.next] at ha
    have hm : m.heap a = none := hv.fresh a (by omega)
    rw [h.frame a ?_ (by omega), hm]
    intro hmem
    obtain ⟨n, hn⟩ := Rep_heap_some hv.repr.rep hmem
    rw [hm] at hn
    exact absurd hn (by simp)

/-- The assignment `a->value() = v` at a node of a represented tree. -/
theorem setValue_at {M : MapState K V} {T : Tree K V} (hr : Repr M T) (hrb : T.RB)
    {l1 l2 : List (Nat × K × V)} {a : Nat} {k : K} {v0 : V}
    (hn : T.nodes = l1 ++ (a, k, v0) :: l2) (v : V) :
    Succeeds (setValue M a v) (fun M' => ∃ T', Repr M' T' ∧ T'.RB ∧
      T'.nodes = l1 ++ (a, k, v) :: l2 ∧ Touch M M' T.addrs ∧
      ∃ n, M'.heap a = some n ∧ n.key = k ∧ n.value = v) := by
  have ha : a ∈ T.addrs := by
    rw [Tree.addrs_eq_map, hn]; simp
  obtain ⟨ctx, c, l, k', v', r, rfl⟩ := exists_plug_of_mem ha
  have hnd := hr.nodup
  rw [Tree.addrs_eq_map, hn] at hnd
  have hshape : ∀ e : Nat × K × V, ctxLeft ctx ++ (l.nodes ++ e :: r.nodes) ++ ctxRight ctx =
      (ctxLeft ctx ++ l.nodes) ++ e :: (r.nodes ++ ctxRight ctx) := by
    intro e; simp
  rw [nodes_plug, Tree.nodes_node, hshape] at hn
  obtain ⟨h1, h2, h3⟩ := split_unique hn.symm rfl hnd
  simp only [Prod.mk.injEq, true_and] at h2
  obtain ⟨rfl, rfl⟩ := h2
  obtain ⟨M', hset, hr', ht⟩ := setValue_spec ctx hr v
  refine ⟨M', hset, plug ctx (.node a c l k v r), hr', ?_, ?_, ht, ?_⟩
  · exact plug_RB_congr ctx (s := .node a c l k v0 r) (t := .node a c l k v r) rfl
      (fun n h => h) (fun h => h) hrb
  · rw [nodes_plug, Tree.nodes_node, hshape, h1, h3]
  · exact ⟨_, hr'.heap_node, rfl, rfl⟩

theorem siz_succ_ne (n : Nat) : ((n + 1) % 2 ^ 64 == n) = false := by
  rw [beq_eq_false_iff_ne]
  intro h
  have h1 : (n + 1) % 2 ^ 64 < 2 ^ 64 := Nat.mod_lt _ (by decide)
  by_cases h2 : n + 1 < 2 ^ 64
  · rw [Nat.mod_eq_of_lt h2] at h; omega
  · have h3 : n + 1 = 2 ^ 64 := by omega
    rw [h3, Nat.mod_self] at h
    omega

/-- `insert` of an absent key, with every part of the resulting state. -/
theorem insert_absent_core [Inhabited V] {m : MapState K V} {t : Tree K V} (hv : Valid m t)
    (value : K × V) (habs : ∀ k ∈ t.keys, equal m.cmp value.1 k = false) {fuel : Nat}
    (hfuel : t.height + 1 < fuel) :
    ∃ M T, insert fuel m value = some (M, (⟨some m.next, some M.self⟩, true)) ∧
      Inserted m M t T value.1 value.2 ∧
      ∃ n, M.heap m.next = some n ∧ n.key = value.1 ∧ n.value = value.2 := by
  obtain ⟨M5, T5, hfind, hins⟩ := RB_find_insert_absent hv value.1 habs hfuel
  obtain ⟨l1, l2, hn1, hn2, hl, hr⟩ := hins.nodes
  obtain ⟨M6, hset, T6, hr6, hrb6, hn6, ht6, hnode⟩ :=
    setValue_at hins.repr hins.rb hn2 value.2
  have hframe6 : ∀ a, a ∉ T5.addrs → M6.heap a = M5.heap a := ht6.heap
  refine ⟨M6, T6, ?_, ⟨hr6, hrb6, ?_, ?_, ?_, ?_, ?_, l1, l2, hn1, hn6, hl, hr⟩, hnode⟩
  · simp only [insert, hfind, Option.bind_eq_bind, Option.some_bind, hins.siz, siz_succ_ne,
      Bool.false_eq_true, if_false, hset, Option.pure_def, ht6.self]
  · rw [ht6.siz, hins.siz]
  · rw [ht6.cmp, hins.cmp]
  · rw [ht6.self, hins.self]
  · rw [ht6.next, hins.next]
  · intro a ha hne
    rw [hframe6 a, hins.frame a ha hne]
    rw [Tree.addrs_eq_map, hn2]
    rw [Tree.addrs_eq_map, hn1] at ha
    simp only [List.map_append, List.map_cons, List.mem_append, List.mem_cons, not_or] at ha ⊢
    exact ⟨ha.1, hne, ha.2⟩

theorem Inserted.size {m M : MapState K V} {t T : Tree K V} {key : K} {v : V}
    (h : Inserted m M t T key v) : T.size = t.size + 1 := by
  obtain ⟨l1, l2, hn1, hn2, -, -⟩ := h.nodes
  rw [Tree.size_eq_length, Tree.size_eq_length, hn1, hn2]
  simp only [List.length_append, List.length_cons]
  omega

/-- `operator[]` on a valid map, key present or not: the resulting state is a valid map. -/
theorem index_valid [Inhabited V] {m : MapState K V} {t : Tree K V} (hv : Valid m t)
    (key : K) {fuel : Nat} (hfuel : t.height + 1 < fuel) :
    ∃ M T a, index fuel m key = some (M, a) ∧ Valid M T ∧ a ∈ T.addrs ∧ M.cmp = m.cmp ∧
      T.size ≤ t.size + 1 := by
  by_cases habs : ∀ k ∈ t.keys, equal m.cmp key k = false
  · obtain ⟨M, T, hfind, hins⟩ := RB_find_insert_absent hv key habs hfuel
    obtain ⟨l1, l2, -, hn2, -, -⟩ := hins.nodes
    have hmem : m.next ∈ T.addrs := by
      rw [Tree.addrs_eq_map, hn2]; simp
    obtain ⟨n, hn⟩ := Rep_heap_some hins.repr.rep hmem
    refine ⟨M, T, m.next, ?_, hins.valid hv, hmem, hins.cmp, Nat.le_of_eq hins.size⟩
    simp only [index, hfind, hn, Option.bind_eq_bind, Option.some_bind, Option.pure_def]
  · simp only [not_forall, Bool.not_eq_false] at habs
    obtain ⟨k, hk, heq⟩ := habs
    simp only [Tree.keys, List.mem_map] at hk
    obtain ⟨e, he, rfl⟩ := hk
    have hfound := (locate_correct hv.swo hv.sorted key).1 e he heq
    have hmem : e.1 ∈ t.addrs := by
      rw [Tree.addrs_eq_map]; exact List.mem_map_of_mem _ he
    obtain ⟨n, hn⟩ := Rep_heap_some hv.repr.rep hmem
    refine ⟨m, t, e.1, ?_, hv, hmem, rfl, Nat.le_succ _⟩
    simp only [index, RB_find_mode1_present hv.repr key (Nat.lt_of_succ_lt hfuel) hfound, hn,
      Option.bind_eq_bind, Option.some_bind, Option.pure_def]

/-- `insert` on a valid map, key present or not: the resulting state is a valid map. -/
theorem insert_valid [Inhabited V] {m : MapState K V} {t : Tree K V} (hv : Valid m t)
    (value : K × V) {fuel : Nat} (hfuel : t.height + 1 < fuel) :
    ∃ M T r, insert fuel m value = some (M, r) ∧ Valid M T ∧ M.cmp = m.cmp ∧
      T.size ≤ t.size + 1 := by
  by_cases habs : ∀ k ∈ t.keys, equal m.cmp value.1 k = false
  · obtain ⟨M, T, hi, hins, -⟩ := insert_absent_core hv value habs hfuel
    exact ⟨M, T, _, hi, hins.valid hv, hins.cmp, Nat.le_of_eq hins.size⟩
  · simp only [not_forall, Bool.not_eq_false] at habs
    obtain ⟨k, hk, heq⟩ := habs
    simp only [Tree.keys, List.mem_map] at hk
    obtain ⟨e, he, rfl⟩ := hk
    exact ⟨m, t, _, insert_of_found hv.repr value (Nat.lt_of_succ_lt hfuel)
      ((locate_correct hv.swo hv.sorted value.1).1 e he heq), hv, rfl, Nat.le_succ _⟩

/-- C1: on a map whose tree satisfies the invariants (ordered under a strict weak order,
black root, no red node with a red child, equal black count on every path to an absent
child, consistent parent links), `insert(value)` and `operator[](key)` return, and the tree
the state then holds has a black root, no red node with a red child, and one black count
for every path from the root to an absent child. -/
theorem insert_preserves_RB [Inhabited V] {m : MapState K V} {t : Tree K V} (hv : Valid m t)
    (value : K × V) {fuel : Nat} (hfuel : t.height + 1 < fuel) :
    (∃ M T r, insert fuel m value = some (M, r) ∧ Repr M T ∧
        T.color = B ∧ T.NoRedRed ∧ ∃ n, T.BH n) ∧
      (∃ M T a, index fuel m value.1 = some (M, a) ∧ Repr M T ∧
        T.color = B ∧ T.NoRedRed ∧ ∃ n, T.BH n) := by
  obtain ⟨M, T, r, h1, h2, -, -⟩ := insert_valid hv value hfuel
  obtain ⟨M', T', a, h3, h4, -, -, -⟩ := index_valid hv value.1 hfuel
  exact ⟨⟨M, T, r, h1, h2.repr, h2.rb⟩, ⟨M', T', a, h3, h4.repr, h4.rb⟩⟩

theorem insert_preserves_RB_witness :
    Valid exMap exTree ∧ exTree.height + 1 < 4 ∧
    (∃ M T r, insert 4 exMap (25, 7) = some (M, r) ∧ Repr M T ∧
        T.color = B ∧ T.NoRedRed ∧ ∃ n, T.BH n) ∧
      (∃ M T a, index 4 exMap 25 = some (M, a) ∧ Repr M T ∧
        T.color = B ∧ T.NoRedRed ∧ ∃ n, T.BH n) :=
  ⟨exMap_valid, by decide, insert_preserves_RB exMap_valid (25, 7) (by decide)⟩

/-- C4: `insert` of a pair whose key is equivalent to no stored key returns
`inserted = true` and an iterator of this map at a node that holds exactly that pair; the
in-order sequence of nodes (address, key, value) afterwards is the previous one with the new
node put between the smaller and the larger keys, every earlier node keeping its address,
key and value; the state is a valid map again and `size()` has grown by one. -/
theorem insert_absent [Inhabited V] {m : MapState K V} {t : Tree K V} (hv : Valid m t)
    (value : K × V) (habs : ∀ k ∈ t.keys, equal m.cmp value.1 k = false) {fuel : Nat}
    (hfuel : t.height + 1 < fuel) (hsz : m.siz + 1 < 2 ^ 64) :
    ∃ M T a, insert fuel m value = some (M, (⟨some a, some M.self⟩, true)) ∧ Valid M T ∧
      (∃ n, M.heap a = some n ∧ (n.key, n.value) = value) ∧
      (∃ l1 l2, t.nodes = l1 ++ l2 ∧ T.nodes = l1 ++ (a, value.1, value.2) :: l2 ∧
        (∀ e ∈ l1, m.cmp e.2.1 value.1 = true) ∧ (∀ e ∈ l2, m.cmp value.1 e.2.1 = true)) ∧
      size M = size m + 1 := by
  obtain ⟨M, T, hi, hins, n, hn, hk, hval⟩ := insert_absent_core hv value habs hfuel
  refine ⟨M, T, m.next, hi, hins.valid hv, ⟨n, hn, by rw [hk, hval]⟩, hins.nodes, ?_⟩
  simp only [size, hins.siz]
  exact Nat.mod_eq_of_lt hsz

theorem insert_absent_witness :
    Valid exMap exTree ∧ (∀ k ∈ exTree.keys, equal exMap.cmp 25 k = false) ∧
    exTree.height + 1 < 4 ∧ exMap.siz + 1 < 2 ^ 64 ∧
    ∃ M T a, insert 4 exMap (25, 7) = some (M, (⟨some a, some M.self⟩, true)) ∧ Valid M T ∧
      (∃ n, M.heap a = some n ∧ (n.key, n.value) = ((25, 7) : Nat × Nat)) ∧
      (∃ l1 l2, exTree.nodes = l1 ++ l2 ∧ T.nodes = l1 ++ (a, 25, 7) :: l2 ∧
        (∀ e ∈ l1, exMap.cmp e.2.1 25 = true) ∧ (∀ e ∈ l2, exMap.cmp 25 e.2.1 = true)) ∧
      size M = size exMap + 1 :=
  ⟨exMap_valid, by decide, by decide, by decide,
    insert_absent exMap_valid (25, 7) (by decide) (by decide) (by decide)⟩

/-!
## `RB_delete_fixup` computes `delFix`
-/


/-- Leaving the loop of `RB_delete_fixup` with `x` present. -/
theorem delete_fixup_exit_some {m : MapState K V} {xa : Nat} (fuel : Nat) (p : NodePtr)
    (h : delete_fixup_test m (some xa) = some false) :
    RB_delete_fixup (fuel + 1) m (some xa) p = setColor m xa B := by
  simp only [RB_delete_fixup, h]

/-- Leaving the loop of `RB_delete_fixup` with `x` absent. -/
theorem delete_fixup_exit_none {m : MapState K V} (fuel : Nat) (p : NodePtr)
    (h : delete_fixup_test m none = some false) :
    RB_delete_fixup (fuel + 1) m none p = some m := by
  simp only [RB_delete_fixup, h]

/-- One pass through the loop of `RB_delete_fixup` ending in case #2. -/
theorem delete_fixup_pass2 {m m1 m2 : MapState K V} {x : NodePtr} {pa ba : Nat}
    {np np2 : Node K V} (fuel : Nat)
    (h : delete_fixup_test m x = some true) (hp : m.heap pa = some np)
    (h1 : delete_fixup_case1 m pa (np.rc != x) (np.ch (np.rc != x)) = some (m1, some ba))
    (h2 : delete_fixup_test2 m1 ba = some true) (h3 : setColor m1 ba R = some m2)
    (h4 : m2.heap pa = some np2) :
    RB_delete_fixup (fuel + 1) m x (some pa) = RB_delete_fixup fuel m2 (some pa) np2.pa := by
  simp only [RB_delete_fixup, h, hp, h1, h2, h3, h4]

/-- One pass through the loop of `RB_delete_fixup` ending in case #4. -/
theorem delete_fixup_pass4 {m m1 m2 m3 : MapState K V} {x : NodePtr} {pa ba b2 : Nat}
    {np : Node K V} (fuel : Nat)
    (h : delete_fixup_test m x = some true) (hp : m.heap pa = some np)
    (h1 : delete_fixup_case1 m pa (np.rc != x) (np.ch (np.rc != x)) = some (m1, some ba))
    (h2 : delete_fixup_test2 m1 ba = some false)
    (h3 : delete_fixup_case3 m1 (np.rc != x) ba = some (m2, b2))
    (h4 : delete_fixup_case4 m2 pa (np.rc != x) b2 = some m3) :
    RB_delete_fixup (fuel + 1) m x (some pa) = RB_delete_fixup fuel m3 m3.root (some pa) := by
  simp only [RB_delete_fixup, h, hp, h1, h2, h3, h4]

/-- Below the root, the focus is not the root. -/
theorem root_ne_focus {m : MapState K V} {f : Frame K V} {up : List (Frame K V)}
    {t : Tree K V} (hr : Repr m (plug (f :: up) t)) : t.ptr ≠ m.root := by
  have hnd := hr.nodup
  rw [nodup_addrs_plug] at hnd
  rw [hr.root, plug_ptr]
  intro h
  have hroot : ∃ a, topPtr (f :: up) t.ptr = some a ∧ a ∈ ctxAddrs (f :: up) := by
    generalize t.ptr = q
    clear h hr hnd
    induction up generalizing f q with
    | nil => exact ⟨f.a, rfl, by simp [ctxAddrs]⟩
    | cons g gs ih =>
      obtain ⟨a, h1, h2⟩ := ih (f := g) (some f.a)
      exact ⟨a, h1, by
        simp only [ctxAddrs, List.mem_cons, List.mem_append] at h2 ⊢
        tauto⟩
  obtain ⟨a, h1, h2⟩ := hroot
  rw [← h, ] at h1
  exact hnd.2.2 a (Tree.ptr_mem_addrs h1) h2

/-- The loop test of `RB_delete_fixup` at the root. -/
theorem delete_fixup_test_root {m : MapState K V} {t : Tree K V} (hr : Repr m t) :
    delete_fixup_test m t.ptr = some false := by
  simp only [delete_fixup_test, hr.root, bne_self_eq_false, Bool.false_eq_true, if_false]

/-- The loop test of `RB_delete_fixup` below the root. -/
theorem delete_fixup_test_below {m : MapState K V} {f : Frame K V} {up : List (Frame K V)}
    {t : Tree K V} (hr : Repr m (plug (f :: up) t)) :
    delete_fixup_test m t.ptr = some (t.color == B) := by
  have hne : (t.ptr != m.root) = true := by
    rw [bne_iff_ne]; exact root_ne_focus hr
  simp only [delete_fixup_test, hne, if_true]
  exact black_spec _ hr

/-- The direction `d = (p->rc != x)` computed by `RB_delete_fixup` is the side of the
brother. -/
theorem delete_fixup_dir {m : MapState K V} {f : Frame K V} {up : List (Frame K V)}
    {t : Tree K V} (hr : Repr m (plug (f :: up) t)) (hb : f.sib ≠ .nil) :
    ((nodeD f.d f.k f.v f.c t.ptr f.sib.ptr (parentOf up)).rc != t.ptr) = !f.d := by
  have hnd := hr.nodup
  rw [nodup_addrs_plug] at hnd
  cases hd : f.d with
  | true => simp [nodeD]
  | false =>
    simp only [nodeD, Bool.false_eq_true, if_false, Bool.not_false, bne_iff_ne]
    cases hs : f.sib with
    | nil => exact absurd hs hb
    | node b cb bl kb vb br =>
      intro h
      simp only [Tree.ptr_node] at h
      exact hnd.2.2 b (Tree.ptr_mem_addrs h.symm) (by simp [ctxAddrs, hs])

theorem Tree.blacken_mkD (d : Bool) (a : Nat) (c : Bool) (k : K) (v : V) (td tn : Tree K V) :
    (Tree.mkD d a c k v td tn).blacken = Tree.mkD d a B k v td tn := by
  cases d <;> rfl

theorem Tree.blacken_eq_setColor (t : Tree K V) : t.blacken = t.setColor B := by
  cases t <;> rfl

/-- `RB_delete_fixup` on a red `x`, or at the root: one test, then `x` is coloured black. -/
theorem delete_fixup_stop {m : MapState K V} (ctx : List (Frame K V)) {t : Tree K V}
    (hr : Repr m (plug ctx t)) (h : ctx = [] ∨ t.color = R) (fuel : Nat) (p : NodePtr) :
    Succeeds (RB_delete_fixup (fuel + 1) m t.ptr p)
      (fun M => Step m M (plug ctx t) (plug ctx t.blacken)) := by
  have htest : delete_fixup_test m t.ptr = some false := by
    cases ctx with
    | nil => exact delete_fixup_test_root hr
    | cons f up =>
      rcases h with h | h
      · simp at h
      · rw [delete_fixup_test_below hr, h]; rfl
  cases t with
  | nil =>
    rw [Tree.ptr_nil] at htest ⊢
    rw [delete_fixup_exit_none fuel p htest]
    exact ⟨m, rfl, Step.refl hr⟩
  | node a c l k v r =>
    rw [Tree.ptr_node] at htest ⊢
    rw [delete_fixup_exit_some fuel p htest]
    exact setColor_step_node ctx hr B

/-- Case #1 of `RB_delete_fixup` with a red brother: the brother is rotated up and
recoloured; the new brother is the former near child of the old one. -/
theorem delete_fixup_case1_red {m : MapState K V} {up : List (Frame K V)} {d : Bool} {p : Nat}
    {cp : Bool} {kp : K} {vp : V} {b : Nat} {kb : K} {vb : V} {near far t : Tree K V}
    (hr : Repr m (plug up (Tree.mkD d p cp kp vp t (Tree.mkD d b R kb vb near far)))) :
    Succeeds (delete_fixup_case1 m p (!d) (some b)) (fun r =>
      r.2 = near.ptr ∧
      Step m r.1 (plug up (Tree.mkD d p cp kp vp t (Tree.mkD d b R kb vb near far)))
        (plug up (Tree.mkD d b B kb vb (Tree.mkD d p R kp vp t near) far))) := by
  have hv : Repr m (plug (⟨!d, p, cp, kp, vp, t⟩ :: up) (Tree.mkD d b R kb vb near far)) := by
    simpa only [plug_cons, Frame.fill, Tree.mkD_not] using hr
  have hred : red m (some b) = some true := by
    have := red_spec _ hv
    simpa using this
  have hv1 : Repr m (plug up (Tree.mkD (!d) p cp kp vp (Tree.mkD (!d) b R kb vb far near) t)) := by
    simpa only [Tree.mkD_not] using hr
  simp only [delete_fixup_case1, hred, Option.bind_eq_bind, Option.some_bind, if_true,
    Option.pure_def]
  refine (rotate_step up hv1).bind fun M1 hs1 => ?_
  simp only [Tree.mkD_not] at hs1
  refine (setColor_step up hs1.repr B).bind fun M2 hs2 => ?_
  have hv2 : Repr M2 (plug (⟨d, b, B, kb, vb, far⟩ :: up) (Tree.mkD d p cp kp vp t near)) :=
    hs2.repr
  refine (setColor_step _ hv2 R).bind fun M3 hs3 => ?_
  have hp3 := hs3.repr.heap_mkD _
  simp only [hp3, Option.some_bind, succeeds_some, nodeD_ch_not, true_and]
  exact (hs1.trans hs2).trans hs3

/-- Case #1 of `RB_delete_fixup` with a black brother: nothing happens. -/
theorem delete_fixup_case1_black {m : MapState K V} (ctx : List (Frame K V)) {b : Tree K V}
    (hr : Repr m (plug ctx b)) (hb : b.color = B) (p : Nat) (d : Bool) :
    delete_fixup_case1 m p d b.ptr = some (m, b.ptr) := by
  have := red_spec _ hr
  rw [hb] at this
  simp only [delete_fixup_case1, this, Option.bind_eq_bind, Option.some_bind]
  rfl

/-- The test `black(b->lc) && black(b->rc)` on the brother. -/
theorem delete_fixup_test2_spec {m : MapState K V} (ctx : List (Frame K V)) {b : Nat} {cb : Bool}
    {bl : Tree K V} {kb : K} {vb : V} {br : Tree K V}
    (hr : Repr m (plug ctx (.node b cb bl kb vb br))) :
    delete_fixup_test2 m b = some (Tree.node b cb bl kb vb br).bothBlack := by
  have hl : Repr m (plug (⟨false, b, cb, kb, vb, br⟩ :: ctx) bl) := hr
  have hrr : Repr m (plug (⟨true, b, cb, kb, vb, bl⟩ :: ctx) br) := hr
  simp only [delete_fixup_test2, hr.heap_node, black_spec _ hl, black_spec _ hrr,
    Option.bind_eq_bind, Option.some_bind, Tree.bothBlack, Tree.child, Bool.false_eq_true,
    if_false, if_true, Option.pure_def]
  cases bl.color <;> rfl

/-- Case #3 of `RB_delete_fixup` when the far child of the brother is black: the red near
child is rotated up and becomes the (black) brother, the old brother turns red. -/
theorem delete_fixup_case3_rot {m : MapState K V} {up : List (Frame K V)} {d : Bool} {p : Nat}
    {cp : Bool} {kp : K} {vp : V} {b : Nat} {cb : Bool} {kb : K} {vb : V} {n : Nat} {cn : Bool}
    {kn : K} {vn : V} {ND NN far t : Tree K V}
    (hr : Repr m (plug up (Tree.mkD d p cp kp vp t
      (Tree.mkD d b cb kb vb (Tree.mkD d n cn kn vn ND NN) far))))
    (hfar : far.color = B) :
    Succeeds (delete_fixup_case3 m (!d) b) (fun r =>
      r.2 = n ∧
      Step m r.1 (plug up (Tree.mkD d p cp kp vp t
          (Tree.mkD d b cb kb vb (Tree.mkD d n cn kn vn ND NN) far)))
        (plug up (Tree.mkD d p cp kp vp t
          (Tree.mkD d n B kn vn ND (Tree.mkD d b R kb vb NN far))))) := by
  have hv : Repr m (plug (⟨!d, p, cp, kp, vp, t⟩ :: up)
      (Tree.mkD d b cb kb vb (Tree.mkD d n cn kn vn ND NN) far)) := by
    simpa only [plug_cons, Frame.fill, Tree.mkD_not] using hr
  have hb := hv.heap_mkD _
  have hvf : Repr m (plug (⟨!d, b, cb, kb, vb, Tree.mkD d n cn kn vn ND NN⟩ ::
      ⟨!d, p, cp, kp, vp, t⟩ :: up) far) := by
    simpa only [plug_cons, Frame.fill, Tree.mkD_not] using hr
  have hblack : black m far.ptr = some true := by
    have := black_spec _ hvf
    rw [hfar] at this
    exact this
  simp only [delete_fixup_case3, hb, Option.bind_eq_bind, Option.some_bind, nodeD_ch_not,
    hblack, if_true, Bool.not_not, nodeD_ch, Tree.ptr_mkD, Option.pure_def]
  refine (rotate_step _ hv).bind fun M1 hs1 => ?_
  have hv1 : Repr M1 (plug (⟨!d, n, cn, kn, vn, ND⟩ :: ⟨!d, p, cp, kp, vp, t⟩ :: up)
      (Tree.mkD d b cb kb vb NN far)) := by
    simpa only [plug_cons, Frame.fill, Tree.mkD_not] using hs1.repr
  refine (setColor_step _ hv1 R).bind fun M2 hs2 => ?_
  have hb2 := hs2.repr.heap_mkD _
  simp only [hb2, Option.some_bind, nodeD_pa, parentOf_cons]
  have hv2 : Repr M2 (plug (⟨!d, p, cp, kp, vp, t⟩ :: up)
      (Tree.mkD d n cn kn vn ND (Tree.mkD d b R kb vb NN far))) := by
    simpa only [plug_cons, Frame.fill, Tree.mkD_not] using hs2.repr
  refine (setColor_step _ hv2 B).bind fun M3 hs3 => ?_
  simp only [succeeds_some, true_and]
  have h := (hs1.trans (by simpa only [plug_cons, Frame.fill, Tree.mkD_not] using hs2)).trans
    (by simpa only [plug_cons, Frame.fill, Tree.mkD_not] using hs3)
  simpa only [plug_cons, Frame.fill, Tree.mkD_not] using h

/-- Case #3 of `RB_delete_fixup` when the far child of the brother is red: nothing
happens. -/
theorem delete_fixup_case3_skip {m : MapState K V} (ctx : List (Frame K V)) {d : Bool} {b : Nat}
    {cb : Bool} {kb : K} {vb : V} {near far : Tree K V}
    (hr : Repr m (plug ctx (Tree.mkD d b cb kb vb near far))) (hfar : far.color = R) :
    delete_fixup_case3 m (!d) b = some (m, b) := by
  have hb := hr.heap_mkD _
  have hvf : Repr m (plug (⟨!d, b, cb, kb, vb, near⟩ :: ctx) far) := by
    simpa only [plug_cons, Frame.fill, Tree.mkD_not] using hr
  have hblack : black m far.ptr = some false := by
    have := black_spec _ hvf
    rw [hfar] at this
    exact this
  simp only [delete_fixup_case3, hb, Option.bind_eq_bind, Option.some_bind, nodeD_ch_not,
    hblack, Bool.false_eq_true, if_false, Option.pure_def]

/-- Case #4 of `RB_delete_fixup`: the brother is rotated up, takes the colour of the parent,
and the parent and the far child of the brother turn black. -/
theorem delete_fixup_case4_spec {m : MapState K V} {up : List (Frame K V)} {d : Bool} {p : Nat}
    {cp : Bool} {kp : K} {vp : V} {b : Nat} {cb : Bool} {kb : K} {vb : V} {near t : Tree K V}
    {c : Nat} {cc : Bool} {cl : Tree K V} {kc : K} {vc : V} {cr : Tree K V}
    (hr : Repr m (plug up (Tree.mkD d p cp kp vp t
      (Tree.mkD d b cb kb vb near (.node c cc cl kc vc cr))))) :
    Succeeds (delete_fixup_case4 m p (!d) b) (fun M =>
      Step m M (plug up (Tree.mkD d p cp kp vp t
          (Tree.mkD d b cb kb vb near (.node c cc cl kc vc cr))))
        (plug up (Tree.mkD d b cp kb vb (Tree.mkD d p B kp vp t near)
          (.node c B cl kc vc cr)))) := by
  have hv : Repr m (plug up (Tree.mkD (!d) p cp kp vp
      (Tree.mkD (!d) b cb kb vb (.node c cc cl kc vc cr) near) t)) := by
    simpa only [Tree.mkD_not] using hr
  simp only [delete_fixup_case4, Option.bind_eq_bind]
  refine (rotate_step up hv).bind fun M1 hs1 => ?_
  simp only [Tree.mkD_not] at hs1
  have hv1 : Repr M1 (plug (⟨d, b, cb, kb, vb, .node c cc cl kc vc cr⟩ :: up)
      (Tree.mkD d p cp kp vp t near)) := hs1.repr
  have hp1 := hv1.heap_mkD _
  simp only [hp1, Option.some_bind, nodeD_color]
  refine (setColor_step up hs1.repr cp).bind fun M2 hs2 => ?_
  have hv2 : Repr M2 (plug (⟨d, b, cp, kb, vb, .node c cc cl kc vc cr⟩ :: up)
      (Tree.mkD d p cp kp vp t near)) := hs2.repr
  refine (setColor_step _ hv2 B).bind fun M3 hs3 => ?_
  simp only [plug_cons, Frame.fill] at hs3
  have hb3 := hs3.repr.heap_mkD _
  simp only [hb3, Option.some_bind, nodeD_ch_not, Tree.ptr_node]
  have hv3 : Repr M3 (plug (⟨!d, b, cp, kb, vb, Tree.mkD d p B kp vp t near⟩ :: up)
      (.node c cc cl kc vc cr)) := by
    simpa only [plug_cons, Frame.fill, Tree.mkD_not] using hs3.repr
  refine (setColor_step_node _ hv3 B).imp fun M4 hs4 => ?_
  have h := ((hs1.trans hs2).trans hs3).trans
    (by simpa only [plug_cons, Frame.fill, Tree.mkD_not] using hs4)
  exact h

theorem Tree.child_mkD (d : Bool) (a : Nat) (c : Bool) (k : K) (v : V) (td tn : Tree K V) :
    (Tree.mkD d a c k v td tn).child d = td := by
  cases d <;> rfl

theorem Tree.child_mkD_not (d : Bool) (a : Nat) (c : Bool) (k : K) (v : V) (td tn : Tree K V) :
    (Tree.mkD d a c k v td tn).child (!d) = tn := by
  cases d <;> rfl

theorem Tree.bothBlack_mkD (d : Bool) (a : Nat) (c : Bool) (k : K) (v : V) (td tn : Tree K V) :
    (Tree.mkD d a c k v td tn).bothBlack = (td.color == B && tn.color == B) := by
  cases d
  · rfl
  · simp only [Tree.bothBlack, Tree.mkD, Tree.child, Bool.false_eq_true, if_false, if_true]
    exact Bool.and_comm _ _

theorem delRot_far_black (d : Bool) (p : Nat) (cp : Bool) (kp : K) (vp : V) (t : Tree K V)
    (b : Nat) (cb : Bool) (kb : K) (vb : V) (n : Nat) (cn : Bool) (kn : K) (vn : V)
    (ND NN far : Tree K V) (hfar : far.color = B) :
    delRot d p cp kp vp t (Tree.mkD d b cb kb vb (Tree.mkD d n cn kn vn ND NN) far) =
      Tree.mkD d n cp kn vn (Tree.mkD d p B kp vp t ND) (Tree.mkD d b B kb vb NN far) := by
  cases d <;> simp [delRot, Tree.mkD, Tree.child, hfar]

theorem delRot_far_red (d : Bool) (p : Nat) (cp : Bool) (kp : K) (vp : V) (t : Tree K V)
    (b : Nat) (cb : Bool) (kb : K) (vb : V) (near far : Tree K V) (hfar : far.color = R) :
    delRot d p cp kp vp t (Tree.mkD d b cb kb vb near far) =
      Tree.mkD d b cp kb vb (Tree.mkD d p B kp vp t near) (far.setColor B) := by
  cases d <;> simp [delRot, Tree.mkD, Tree.child, hfar, R, B]

/-- Case #4 of `RB_delete_fixup` with any non-empty far child. -/
theorem delete_fixup_case4_far {m : MapState K V} {up : List (Frame K V)} {d : Bool} {p : Nat}
    {cp : Bool} {kp : K} {vp : V} {b : Nat} {cb : Bool} {kb : K} {vb : V} {near far t : Tree K V}
    (hr : Repr m (plug up (Tree.mkD d p cp kp vp t (Tree.mkD d b cb kb vb near far))))
    (hfar : far ≠ .nil) :
    Succeeds (delete_fixup_case4 m p (!d) b) (fun M =>
      Step m M (plug up (Tree.mkD d p cp kp vp t (Tree.mkD d b cb kb vb near far)))
        (plug up (Tree.mkD d b cp kb vb (Tree.mkD d p B kp vp t near) (far.setColor B)))) := by
  cases far with
  | nil => exact absurd rfl hfar
  | node c cc cl kc vc cr => exact delete_fixup_case4_spec hr

/-- Cases #3 and #4 of `RB_delete_fixup` together compute `delRot`. -/
theorem delete_fixup_case34 {m : MapState K V} {up : List (Frame K V)} {d : Bool} {p : Nat}
    {cp : Bool} {kp : K} {vp : V} {b : Nat} {cb : Bool} {kb : K} {vb : V} {near far t : Tree K V}
    (hr : Repr m (plug up (Tree.mkD d p cp kp vp t (Tree.mkD d b cb kb vb near far))))
    (hbb : (Tree.mkD d b cb kb vb near far).bothBlack = false) :
    ∃ m2 b2 m3, delete_fixup_case3 m (!d) b = some (m2, b2) ∧
      delete_fixup_case4 m2 p (!d) b2 = some m3 ∧
      Step m m3 (plug up (Tree.mkD d p cp kp vp t (Tree.mkD d b cb kb vb near far)))
        (plug up (delRot d p cp kp vp t (Tree.mkD d b cb kb vb near far))) := by
  rw [Tree.bothBlack_mkD] at hbb
  by_cases hfar : far.color = B
  · have hnear : near.color = R := by
      rw [hfar] at hbb
      cases hc : near.color
      · rw [hc] at hbb; simp [B] at hbb
      · rfl
    cases near with
    | nil => simp [Tree.color, B, R] at hnear
    | node n cn nl kn vn nr =>
      have e := Tree.mkD_child d (Tree.node n cn nl kn vn nr) rfl
      rw [e] at hr ⊢
      obtain ⟨⟨m2, b2⟩, h3, hb2, hs3⟩ := delete_fixup_case3_rot hr hfar
      simp only at hb2
      subst hb2
      obtain ⟨m3, h4, hs4⟩ := delete_fixup_case4_far hs3.repr
        (by rw [← Tree.setColor_mkD d b B R kb vb]; cases d <;> simp [Tree.mkD, Tree.setColor])
      refine ⟨m2, _, m3, h3, h4, ?_⟩
      rw [delRot_far_black _ _ _ _ _ _ _ _ _ _ _ _ _ _ _ _ _ hfar]
      have h := hs3.trans hs4
      rwa [Tree.setColor_mkD] at h
  · have hfar : far.color = R := by
      cases hc : far.color
      · exact absurd hc hfar
      · rfl
    have hne : far ≠ .nil := by
      intro h; rw [h] at hfar; simp [Tree.color, B, R] at hfar
    obtain ⟨m3, h4, hs4⟩ := delete_fixup_case4_far hr hne
    have hv : Repr m (plug (⟨!d, p, cp, kp, vp, t⟩ :: up) (Tree.mkD d b cb kb vb near far)) := by
      simpa only [plug_cons, Frame.fill, Tree.mkD_not] using hr
    refine ⟨m, b, m3, delete_fixup_case3_skip _ hv hfar, h4, ?_⟩
    rw [delRot_far_red _ _ _ _ _ _ _ _ _ _ _ _ hfar]
    exact hs4

theorem Tree.exists_mkD (d : Bool) {t : Tree K V} (h : t ≠ .nil) :
    ∃ a c k v td tn, t = Tree.mkD d a c k v td tn := by
  cases t with
  | nil => exact absurd rfl h
  | node a c l k v r =>
    cases d
    · exact ⟨a, c, k, v, l, r, rfl⟩
    · exact ⟨a, c, k, v, r, l, rfl⟩

theorem Tree.color_eq_black {t : Tree K V} (h : ¬ t.color = R) : t.color = B := by
  cases hc : t.color
  · rfl
  · exact absurd hc h

/-- The test `black(b->lc) && black(b->rc)` on a brother given by direction. -/
theorem delete_fixup_test2_mkD {m : MapState K V} (ctx : List (Frame K V)) {d : Bool} {b : Nat}
    {cb : Bool} {kb : K} {vb : V} {near far : Tree K V}
    (hr : Repr m (plug ctx (Tree.mkD d b cb kb vb near far))) :
    delete_fixup_test2 m b = some (Tree.mkD d b cb kb vb near far).bothBlack := by
  cases d
  · exact delete_fixup_test2_spec ctx hr
  · exact delete_fixup_test2_spec ctx hr

/-- One pass through the loop of `RB_delete_fixup` that ends in case #2, from the state
after case #1. -/
theorem delete_fixup_body2 {m m1 : MapState K V} {up : List (Frame K V)} {d : Bool} {p : Nat}
    {cp : Bool} {kp : K} {vp : V} {b : Nat} {cb : Bool} {kb : K} {vb : V} {near far t : Tree K V}
    {x : NodePtr} {np : Node K V} (fuel : Nat)
    (h : delete_fixup_test m x = some true) (hp : m.heap p = some np)
    (hd : (np.rc != x) = !d)
    (h1 : delete_fixup_case1 m p (!d) (np.ch (!d)) = some (m1, some b))
    (hr : Repr m1 (plug up (Tree.mkD d p cp kp vp t (Tree.mkD d b cb kb vb near far))))
    (hbb : (Tree.mkD d b cb kb vb near far).bothBlack = true) :
    ∃ m2, Step m1 m2 (plug up (Tree.mkD d p cp kp vp t (Tree.mkD d b cb kb vb near far)))
        (plug up (Tree.mkD d p cp kp vp t (Tree.mkD d b R kb vb near far))) ∧
      RB_delete_fixup (fuel + 1) m x (some p) =
        RB_delete_fixup fuel m2 (some p) (parentOf up) := by
  have hv : Repr m1 (plug (⟨!d, p, cp, kp, vp, t⟩ :: up) (Tree.mkD d b cb kb vb near far)) := by
    simpa only [plug_cons, Frame.fill, Tree.mkD_not] using hr
  have h2 := delete_fixup_test2_mkD _ hv
  rw [hbb] at h2
  obtain ⟨m2, h3, hs⟩ := setColor_step _ hv R
  have hs2 : Step m1 m2 (plug up (Tree.mkD d p cp kp vp t (Tree.mkD d b cb kb vb near far)))
      (plug up (Tree.mkD d p cp kp vp t (Tree.mkD d b R kb vb near far))) := by
    simpa only [plug_cons, Frame.fill, Tree.mkD_not] using hs
  refine ⟨m2, hs2, ?_⟩
  have h4 := hs2.repr.heap_mkD _
  rw [← hd] at h1
  rw [delete_fixup_pass2 fuel h hp h1 h2 h3 h4, nodeD_pa]

/-- One pass through the loop of `RB_delete_fixup` that ends in case #4, from the state
after case #1, followed by the exit at the root. -/
theorem delete_fixup_body4 {m m1 : MapState K V} {up : List (Frame K V)} {d : Bool} {p : Nat}
    {cp : Bool} {kp : K} {vp : V} {b : Nat} {cb : Bool} {kb : K} {vb : V} {near far t : Tree K V}
    {x : NodePtr} {np : Node K V} (fuel : Nat)
    (h : delete_fixup_test m x = some true) (hp : m.heap p = some np)
    (hd : (np.rc != x) = !d)
    (h1 : delete_fixup_case1 m p (!d) (np.ch (!d)) = some (m1, some b))
    (hr : Repr m1 (plug up (Tree.mkD d p cp kp vp t (Tree.mkD d b cb kb vb near far))))
    (hbb : (Tree.mkD d b cb kb vb near far).bothBlack = false) :
    Succeeds (RB_delete_fixup (fuel + 2) m x (some p)) (fun M =>
      Step m1 M (plug up (Tree.mkD d p cp kp vp t (Tree.mkD d b cb kb vb near far)))
        (plug up (delRot d p cp kp vp t (Tree.mkD d b cb kb vb near far))).blacken) := by
  have hv : Repr m1 (plug (⟨!d, p, cp, kp, vp, t⟩ :: up) (Tree.mkD d b cb kb vb near far)) := by
    simpa only [plug_cons, Frame.fill, Tree.mkD_not] using hr
  have h2 := delete_fixup_test2_mkD _ hv
  rw [hbb] at h2
  obtain ⟨m2, b2, m3, h3, h4, hs⟩ := delete_fixup_case34 hr hbb
  rw [← hd] at h1 h3 h4
  rw [delete_fixup_pass4 (fuel + 1) h hp h1 h2 h3 h4, hs.repr.root]
  exact (delete_fixup_stop [] hs.repr (Or.inl rfl) fuel (some p)).imp fun M hM => hs.trans hM

theorem delFix_red_brother (up : List (Frame K V)) (d : Bool) (p : Nat) (cp : Bool) (kp : K)
    (vp : V) (b : Nat) (kb : K) (vb : V) (near far t : Tree K V) (hc : t.color = B) :
    delFix (⟨d, p, cp, kp, vp, Tree.mkD d b R kb vb near far⟩ :: up) t =
      if near.bothBlack then
        plug (⟨d, b, B, kb, vb, far⟩ :: up) (Tree.mkD d p B kp vp t (near.setColor R))
      else (plug (⟨d, b, B, kb, vb, far⟩ :: up) (delRot d p R kp vp t near)).blacken := by
  have e : ∀ (a : Nat) (c : Bool) (l : Tree K V) (k : K) (v : V) (r : Tree K V),
      (Tree.node a c l k v r).color = c := fun _ _ _ _ _ _ => rfl
  cases d <;> simp [delFix, hc, Tree.mkD, Tree.child, e, R, B]

theorem delFix_black_brother (up : List (Frame K V)) (d : Bool) (p : Nat) (cp : Bool) (kp : K)
    (vp : V) (sib t : Tree K V) (hc : t.color = B) (hs : sib.color = B) :
    delFix (⟨d, p, cp, kp, vp, sib⟩ :: up) t =
      if sib.bothBlack then delFix up (Tree.mkD d p cp kp vp t (sib.setColor R))
      else (plug up (delRot d p cp kp vp t sib)).blacken := by
  simp [delFix, hc, hs, R, B]

/-- `RB_delete_fixup(x, p)` returns, and computes `delFix`, whenever a black `x` below the
root has a brother (`DelSafe`). -/
theorem delete_fixup_spec (fuel : Nat) : ∀ (ctx : List (Frame K V)) (t : Tree K V)
    (m : MapState K V), Repr m (plug ctx t) → DelSafe ctx t → ctx.length < fuel →
    Succeeds (RB_delete_fixup fuel m t.ptr (parentOf ctx))
      (fun M => Step m M (plug ctx t) (delFix ctx t)) := by
  induction fuel with
  | zero => intro ctx t m _ _ h; simp at h
  | succ fuel ih =>
    intro ctx t m hr hs hf
    cases ctx with
    | nil =>
      have := delete_fixup_stop [] hr (Or.inl rfl) fuel none
      simpa only [plug_nil, delFix] using this
    | cons f up =>
      by_cases hc : t.color = R
      · have := delete_fixup_stop (f :: up) hr (Or.inr hc) fuel (parentOf (f :: up))
        rw [delFix, if_pos hc]
        exact this
      · have hcB := Tree.color_eq_black hc
        obtain ⟨d, p, cp, kp, vp, sib⟩ := f
        obtain ⟨hsib, hs2⟩ := hs hcB
        simp only at hsib hs2
        cases fuel with
        | zero => simp at hf
        | succ fuel =>
        have htest : delete_fixup_test m t.ptr = some true := by
          rw [delete_fixup_test_below hr, hcB]; rfl
        have hp := hr.heap_frame
        have hd := delete_fixup_dir hr hsib
        simp only at hp hd
        obtain ⟨b, cb, kb, vb, near, far, rfl⟩ := Tree.exists_mkD d hsib
        have hr0 : Repr m (plug up (Tree.mkD d p cp kp vp t (Tree.mkD d b cb kb vb near far))) :=
          hr
        simp only [parentOf_cons, plug_cons, Frame.fill]
        cases cb with
        | true =>
          simp only [Tree.color_mkD, if_true, Tree.child_mkD] at hs2
          obtain ⟨⟨m1, b1⟩, h1, hb1, hs1⟩ := delete_fixup_case1_red hr0
          simp only at hb1 hs1
          obtain ⟨n, cn, kn, vn, ND, NN, rfl⟩ := Tree.exists_mkD d hs2
          rw [Tree.ptr_mkD] at hb1
          subst hb1
          have h1' : delete_fixup_case1 m p (!d)
              ((nodeD d kp vp cp t.ptr (Tree.mkD d b R kb vb (Tree.mkD d n cn kn vn ND NN) far).ptr
                (parentOf up)).ch (!d)) = some (m1, some n) := by
            rw [nodeD_ch_not, Tree.ptr_mkD]; exact h1
          have hv1 : Repr m1 (plug (⟨d, b, B, kb, vb, far⟩ :: up)
              (Tree.mkD d p R kp vp t (Tree.mkD d n cn kn vn ND NN))) := hs1.repr
          have e := delFix_red_brother up d p cp kp vp b kb vb (Tree.mkD d n cn kn vn ND NN) far
            t hcB
          simp only [plug_cons, Frame.fill] at e
          rw [e]
          cases hbb : (Tree.mkD d n cn kn vn ND NN).bothBlack with
          | true =>
            obtain ⟨m2, hs2, heq⟩ := delete_fixup_body2 (fuel + 1) htest hp hd h1' hv1 hbb
            rw [heq]
            have hst := delete_fixup_stop (⟨d, b, B, kb, vb, far⟩ :: up) hs2.repr
              (Or.inr (Tree.color_mkD ..)) fuel (parentOf (⟨d, b, B, kb, vb, far⟩ :: up))
            simp only [Tree.ptr_mkD] at hst
            refine hst.imp fun M hM => ?_
            have h := (hs1.trans hs2).trans hM
            simpa only [plug_cons, Frame.fill, Tree.blacken_mkD, Tree.setColor_mkD, if_true]
              using h
          | false =>
            have hb4 := delete_fixup_body4 fuel htest hp hd h1' hv1 hbb
            refine hb4.imp fun M hM => ?_
            have h := hs1.trans hM
            simpa only [plug_cons, Frame.fill, Bool.false_eq_true, if_false] using h
        | false =>
          simp only [Tree.color_mkD, B, R, Bool.false_eq_true, if_false] at hs2
          have hv : Repr m (plug (⟨!d, p, cp, kp, vp, t⟩ :: up)
              (Tree.mkD d b false kb vb near far)) := by
            simpa only [plug_cons, Frame.fill, Tree.mkD_not] using hr0
          have h1 := delete_fixup_case1_black _ hv (Tree.color_mkD ..) p (!d)
          rw [Tree.ptr_mkD] at h1
          have h1' : delete_fixup_case1 m p (!d)
              ((nodeD d kp vp cp t.ptr (Tree.mkD d b false kb vb near far).ptr
                (parentOf up)).ch (!d)) = some (m, some b) := by
            rw [nodeD_ch_not, Tree.ptr_mkD]; exact h1
          rw [delFix_black_brother up d p cp kp vp _ t hcB (Tree.color_mkD ..)]
          cases hbb : (Tree.mkD d b false kb vb near far).bothBlack with
          | true =>
            rw [hbb] at hs2
            simp only [if_true] at hs2 ⊢
            obtain ⟨m2, hs3, heq⟩ := delete_fixup_body2 (fuel + 1) htest hp hd h1' hr0 hbb
            rw [heq]
            rw [Tree.setColor_mkD] at hs2 ⊢
            have hrec := ih up _ m2 hs3.repr hs2 (by simpa using hf)
            rw [Tree.ptr_mkD] at hrec
            exact hrec.imp fun M hM => hs3.trans hM
          | false =>
            simp only [Bool.false_eq_true, if_false]
            exact delete_fixup_body4 fuel htest hp hd h1' hr0 hbb

/-!
## `RB_transplant` and the splice of `RB_delete` on represented trees
-/


/-- The root of a non-empty context is one of its nodes. -/
theorem topPtr_mem (f : Frame K V) (up : List (Frame K V)) (q : NodePtr) :
    ∃ a, topPtr (f :: up) q = some a ∧ a ∈ ctxAddrs (f :: up) := by
  induction up generalizing f q with
  | nil => exact ⟨f.a, rfl, by simp [ctxAddrs]⟩
  | cons g gs ih =>
    obtain ⟨a, h1, h2⟩ := ih g (some f.a)
    exact ⟨a, h1, by
      simp only [ctxAddrs, List.mem_cons, List.mem_append] at h2 ⊢
      tauto⟩

/-- `RB_transplant(u, v)`: the subtree `sub` rooted at `v` takes the place of `u` in the
context of `u`; apart from `root`, only the parent of `u` and `v` itself are written. -/
theorem transplant_spec {m : MapState K V} {ctx : List (Frame K V)} {u : Nat} {nu : Node K V}
    {sub : Tree K V} {pa0 : NodePtr}
    (hroot : m.root = topPtr ctx (some u)) (hC : RepC m.heap ctx (some u))
    (hu : m.heap u = some nu) (hpa : nu.pa = parentOf ctx)
    (hndC : (ctxAddrs ctx).Nodup) (huC : u ∉ ctxAddrs ctx)
    (hsub : Rep m.heap sub pa0) (hnd : sub.addrs.Nodup)
    (hdisj : ∀ b ∈ sub.addrs, b ∉ ctxAddrs ctx) (hus : u ∉ sub.addrs) :
    Succeeds (RB_transplant m u sub.ptr) (fun M =>
      Repr M (plug ctx sub) ∧ Touch m M (sub.ptr.toList ++ (parentOf ctx).toList)) := by
  cases ctx with
  | nil =>
    simp only [topPtr] at hroot
    simp only [parentOf_nil] at hpa
    simp only [RB_transplant, hroot, beq_self_eq_true, if_true, Option.pure_def,
      Option.bind_eq_bind, Option.some_bind, plug_nil, parentOf_nil, Option.toList_none,
      List.append_nil]
    cases sub with
    | nil =>
      simp only [Tree.ptr_nil, succeeds_some, Option.toList_none]
      exact ⟨⟨rfl, trivial, List.nodup_nil⟩, Touch.setRoot m none _⟩
    | node va c l k v r =>
      have hva := hsub.1
      have hne : u ≠ va := fun h => hus (by simp [h])
      simp only [Tree.ptr_node, setRoot_heap, hu, Option.some_bind, setPa, hpa,
        modify_eq _ (show (m.setRoot (some va)).heap va = _ from hva), succeeds_some,
        Option.toList_some]
      refine ⟨⟨rfl, ?_, hnd⟩, (Touch.setRoot m _ _).seq (Touch.store _ _ (by simp))⟩
      refine Rep_reparent hsub hnd ?_ ?_
      · intro a ha n hn
        simp only [Tree.ptr_node, Option.some.injEq] at ha
        subst ha
        rw [hva] at hn
        simp only [Option.some.injEq] at hn
        subst hn
        simp [Node.setPa]
      · intro a _ ha
        simp only [Tree.ptr_node, ne_eq, Option.some.injEq] at ha
        exact store_heap_ne _ _ (fun h => ha h.symm)
  | cons f fs =>
    obtain ⟨r, hr1, hr2⟩ := topPtr_mem f fs (some u)
    have hne : (some u == m.root) = false := by
      rw [hroot, hr1]
      simp only [beq_eq_false_iff_ne, ne_eq, Option.some.injEq]
      rintro rfl; exact huC hr2
    obtain ⟨hf, hsib, hup⟩ := hC
    simp only [parentOf_cons] at hpa
    have hndC' := hndC
    simp only [ctxAddrs, List.nodup_cons, List.mem_append, not_or, List.mem_cons] at hndC' huC
    have hid : id m u = some f.d := by
      refine id_eq_dir hu hpa hf (nodeD_ch ..) ?_
      rw [nodeD_ch_not]
      exact fun h => huC.2.1 (Tree.ptr_mem_addrs h)
    have hrootM : ∀ M : MapState K V, M.root = m.root → M.root = (plug (f :: fs) sub).ptr := by
      intro M hM
      rw [hM, hroot, plug_ptr]; rfl
    simp only [RB_transplant, hne, Bool.false_eq_true, if_false, hu, hpa, hid,
      Option.bind_eq_bind, Option.some_bind, setCh, modify_eq _ hf, nodeD_setCh,
      parentOf_cons, Option.toList_some, Option.pure_def]
    have hC1 : RepC (m.store f.a (nodeD f.d f.k f.v f.c sub.ptr f.sib.ptr (parentOf fs))).heap
        (f :: fs) sub.ptr := by
      refine ⟨store_heap_same .., Rep_congr (fun b hb => store_heap_ne _ _ ?_) hsib,
        RepC_congr (fun b hb => store_heap_ne _ _ ?_) hup⟩
      · rintro rfl; exact hndC'.1.1 hb
      · rintro rfl; exact hndC'.1.2 hb
    cases sub with
    | nil =>
      simp only [Tree.ptr_nil, succeeds_some, Option.toList_none, List.nil_append]
      refine ⟨⟨hrootM _ rfl, Rep_plug.mpr ⟨hC1, trivial⟩, ?_⟩, Touch.store _ _ (by simp)⟩
      rw [nodup_addrs_plug]
      exact ⟨hnd, hndC, hdisj⟩
    | node va c l k v r =>
      have hva := hsub.1
      have hvaC : va ∉ ctxAddrs (f :: fs) := hdisj va (by simp)
      have hvaf : va ≠ f.a := by
        rintro rfl; exact hvaC (by simp [ctxAddrs])
      have hune : u ≠ va := fun h => hus (by simp [h])
      have hune' : u ≠ f.a := fun h => huC.1 h
      simp only [Tree.ptr_node, store_heap_ne _ _ hune', hu, Option.some_bind, setPa, hpa,
        modify_eq _ (show (m.store f.a _).heap va = _ from
          (store_heap_ne _ _ hvaf).trans hva), succeeds_some, Option.toList_some]
      refine ⟨⟨hrootM _ rfl, Rep_plug.mpr ⟨?_, ?_⟩, ?_⟩,
        (Touch.store _ _ (by simp)).seq (Touch.store _ _ (by simp))⟩
      · refine RepC_congr (fun b hb => store_heap_ne _ _ ?_) hC1
        rintro rfl; exact hvaC hb
      · refine Rep_reparent hsub hnd ?_ ?_
        · intro a ha n hn
          simp only [Tree.ptr_node, Option.some.injEq] at ha
          subst ha
          rw [hva] at hn
          simp only [Option.some.injEq] at hn
          subst hn
          simp [Node.setPa]
        · intro a ha hane
          simp only [Tree.ptr_node, ne_eq, Option.some.injEq] at hane
          rw [store_heap_ne _ _ (fun h => hane h.symm), store_heap_ne]
          rintro rfl
          exact hdisj _ ha (by simp [ctxAddrs])
      · rw [nodup_addrs_plug]
        exact ⟨hnd, hndC, hdisj⟩

/-!
## The pieces of `RB_delete`: `min`, detaching the successor, replacing `z`
-/


@[simp] theorem free_heap_same (m : MapState K V) (z : Nat) : (m.free z).heap z = none := by
  simp [MapState.free]

theorem free_heap_ne (m : MapState K V) {a b : Nat} (h : b ≠ a) :
    (m.free a).heap b = m.heap b := by
  simp [MapState.free, Function.update, h]

@[simp] theorem free_root (m : MapState K V) (a : Nat) : (m.free a).root = m.root := rfl

@[simp] theorem free_siz (m : MapState K V) (a : Nat) : (m.free a).siz = m.siz := rfl

@[simp] theorem free_cmp (m : MapState K V) (a : Nat) : (m.free a).cmp = m.cmp := rfl

@[simp] theorem free_self (m : MapState K V) (a : Nat) : (m.free a).self = m.self := rfl

@[simp] theorem free_next (m : MapState K V) (a : Nat) : (m.free a).next = m.next := rfl

/-- The statement `delete z` on a node outside the tree keeps the tree. -/
theorem Repr.free {m : MapState K V} {t : Tree K V} (hr : Repr m t) {z : Nat}
    (hz : z ∉ t.addrs) : Repr (m.free z) t :=
  ⟨hr.root, Rep_congr (fun a ha => free_heap_ne m (fun h => hz (h ▸ ha))) hr.rep, hr.nodup⟩

/-- The assignment `siz = n` keeps the tree. -/
theorem Repr.setSiz {m : MapState K V} {t : Tree K V} (hr : Repr m t) (n : Nat) :
    Repr (m.setSiz n) t :=
  ⟨hr.root, hr.rep, hr.nodup⟩

/-- The loop of `minmax(x, 0)` on a represented tree: it returns the leftmost node `y`, which
has no left child; the path from `y` up to the root of the tree goes through left links
only. -/
theorem minmax_loop_spec {h : Nat → Option (Node K V)} (t : Tree K V) :
    ∀ (pa : NodePtr) (fuel : Nat) (a : Nat), Rep h t pa → t.ptr = some a → t.height ≤ fuel →
    ∃ cmin y cy ky vy yr, t = plug cmin (.node y cy .nil ky vy yr) ∧
      (∀ f ∈ cmin, f.d = false) ∧ minmax_loop h false fuel a = some y ∧
      cmin.length < t.height := by
  induction t with
  | nil => intro pa fuel a _ h; simp at h
  | node b c l k v r ihl _ =>
    intro pa fuel a hrep ha hfuel
    simp only [Tree.ptr_node, Option.some.injEq] at ha
    subst ha
    obtain ⟨h1, h2, -⟩ := hrep
    simp only [Tree.height] at hfuel
    cases fuel with
    | zero => omega
    | succ n =>
      cases l with
      | nil =>
        refine ⟨[], b, c, k, v, r, rfl, by simp, ?_, by simp [Tree.height]⟩
        simp [minmax_loop, h1, Node.ch]
      | node la lc ll lk lv lr =>
        have hl : (Tree.node la lc ll lk lv lr).height ≤ n := by
          have := Nat.le_max_left (Tree.node la lc ll lk lv lr).height r.height
          omega
        obtain ⟨cmin, y, cy, ky, vy, yr, e, hd, hloop, hlen⟩ := ihl (some b) n la h2 rfl hl
        refine ⟨cmin ++ [⟨false, b, c, k, v, r⟩], y, cy, ky, vy, yr, ?_, ?_, ?_, ?_⟩
        · rw [plug_append, ← e]
          rfl
        · intro f hf
          simp only [List.mem_append, List.mem_singleton] at hf
          rcases hf with hf | rfl
          · exact hd f hf
          · rfl
        · simp only [minmax_loop, h1, Node.ch, Option.bind_eq_bind, Option.some_bind,
            Tree.ptr_node, Bool.false_eq_true, if_false]
          exact hloop
        · simp only [List.length_append, List.length_singleton]
          show cmin.length + 1 < Max.max (Tree.node la lc ll lk lv lr).height r.height + 1
          have := Nat.le_max_left (Tree.node la lc ll lk lv lr).height r.height
          omega

/-- Lines 279-282 of `RB_delete`: the node `y`, root of a subtree without left child, takes
the place of `z`, and adopts the left subtree and the colour of `z`. -/
theorem delete_replace_spec {m : MapState K V} {ctx : List (Frame K V)} {z : Nat} {kz : K}
    {vz : V} {cz : Bool} {rz : NodePtr} {zl : Tree K V} {zla : Nat} {y : Nat} {cy : Bool}
    {ky : K} {vy : V} {YR : Tree K V} {pa0 : NodePtr}
    (hroot : m.root = topPtr ctx (some z)) (hC : RepC m.heap ctx (some z))
    (hz : m.heap z = some ⟨kz, vz, cz, some zla, rz, parentOf ctx⟩)
    (hY : Rep m.heap (.node y cy .nil ky vy YR) pa0)
    (hzl : Rep m.heap zl (some z)) (hzla : zl.ptr = some zla)
    (hnd : (plug ctx (.node y cz zl ky vy YR)).addrs.Nodup)
    (hzT : z ∉ (plug ctx (.node y cz zl ky vy YR)).addrs) :
    Succeeds (RB_delete_replace m z y) (fun M =>
      Repr M (plug ctx (.node y cz zl ky vy YR)) ∧ M.heap z = m.heap z ∧
      Touch m M (plug ctx (.node y cz zl ky vy YR)).addrs) := by
  have hnd0 := hnd
  rw [nodup_addrs_plug] at hnd
  obtain ⟨hndS, hndC, hdisj⟩ := hnd
  simp only [mem_addrs_plug, Tree.addrs_node, List.mem_append, List.mem_cons, not_or] at hzT
  obtain ⟨⟨hz_zl, hzy, hz_YR⟩, hzC⟩ := hzT
  simp only [Tree.addrs_node] at hndS
  have hndS' := List.nodup_middle.mp hndS
  obtain ⟨hy_not, hnd_rest⟩ := List.nodup_cons.mp hndS'
  simp only [List.mem_append, not_or] at hy_not
  obtain ⟨hnd_zl, hnd_YR, hdis_zl_YR⟩ := List.nodup_append.mp hnd_rest
  have hzla_mem : zla ∈ zl.addrs := Tree.ptr_mem_addrs hzla
  have hzla_y : zla ≠ y := by rintro rfl; exact hy_not.1 hzla_mem
  have hzla_z : zla ≠ z := by rintro rfl; exact hz_zl hzla_mem
  have hyC : y ∉ ctxAddrs ctx := hdisj y (by simp)
  have hzlaC : zla ∉ ctxAddrs ctx := hdisj zla (by simp [hzla_mem])
  have hpz : parentOf ctx ≠ some z := fun h => hzC (parentOf_mem h)
  -- the transplant
  obtain ⟨M1, h1, hr1, ht1⟩ := transplant_spec hroot hC hz rfl hndC hzC hY
    (by
      simp only [Tree.addrs_node, Tree.addrs_nil, List.nil_append, List.nodup_cons]
      exact ⟨hy_not.2, hnd_YR⟩)
    (by
      intro b hb
      simp only [Tree.addrs_node, Tree.addrs_nil, List.nil_append] at hb
      exact hdisj b (by
        simp only [Tree.addrs_node, List.mem_append, List.mem_cons] at hb ⊢
        rcases hb with hb | hb
        · exact Or.inr (Or.inl hb)
        · exact Or.inr (Or.inr hb)))
    (by
      simp only [Tree.addrs_node, Tree.addrs_nil, List.nil_append, List.mem_cons, not_or]
      exact ⟨hzy, hz_YR⟩)
  simp only [Tree.ptr_node] at h1 ht1
  have hmem1 : ∀ a, a ≠ y → parentOf ctx ≠ some a → M1.heap a = m.heap a := by
    intro a ha hpa
    refine ht1.heap a ?_
    simp only [Option.toList_some, List.singleton_append, List.mem_cons, Option.mem_toList,
      Option.mem_def, not_or]
    exact ⟨ha, hpa⟩
  have hp_of : ∀ a, a ∉ ctxAddrs ctx → parentOf ctx ≠ some a :=
    fun a ha h => ha (parentOf_mem h)
  have hz1 : M1.heap z = some ⟨kz, vz, cz, some zla, rz, parentOf ctx⟩ :=
    (hmem1 z hzy hpz).trans hz
  have hy1 := hr1.heap_node
  simp only [Tree.ptr_nil] at hy1
  obtain ⟨nzl, hnzl⟩ := Rep_heap_some hzl hzla_mem
  have hzla1 : M1.heap zla = some nzl := (hmem1 zla hzla_y (hp_of zla hzlaC)).trans hnzl
  -- `y->lc = z->lc`
  have e2 : setCh M1 y false (some zla) =
      some (M1.store y ⟨ky, vy, cy, some zla, YR.ptr, parentOf ctx⟩) := modify_eq _ hy1
  generalize hM2 : M1.store y ⟨ky, vy, cy, some zla, YR.ptr, parentOf ctx⟩ = M2 at e2
  have hy2 : M2.heap y = some ⟨ky, vy, cy, some zla, YR.ptr, parentOf ctx⟩ := by
    rw [← hM2]; exact store_heap_same ..
  have hzla2 : M2.heap zla = some nzl := by
    rw [← hM2, store_heap_ne _ _ hzla_y]; exact hzla1
  -- `y->lc->pa = y`
  have e3 : setPa M2 zla (some y) = some (M2.store zla (nzl.setPa (some y))) :=
    modify_eq _ hzla2
  generalize hM3 : M2.store zla (nzl.setPa (some y)) = M3 at e3
  have hz3 : M3.heap z = some ⟨kz, vz, cz, some zla, rz, parentOf ctx⟩ := by
    rw [← hM3, store_heap_ne _ _ (Ne.symm hzla_z), ← hM2, store_heap_ne _ _ hzy]; exact hz1
  have hy3 : M3.heap y = some ⟨ky, vy, cy, some zla, YR.ptr, parentOf ctx⟩ := by
    rw [← hM3, store_heap_ne _ _ (Ne.symm hzla_y)]; exact hy2
  -- `y->color = z->color`
  have e4 : setColor M3 y cz =
      some (M3.store y ⟨ky, vy, cz, some zla, YR.ptr, parentOf ctx⟩) := modify_eq _ hy3
  simp only [RB_delete_replace, Option.bind_eq_bind, h1, Option.some_bind, hz1, e2, hy2, e3,
    hz3, e4, succeeds_some]
  -- the resulting heap
  have hY4 : (M3.store y ⟨ky, vy, cz, some zla, YR.ptr, parentOf ctx⟩).heap y =
      some ⟨ky, vy, cz, some zla, YR.ptr, parentOf ctx⟩ := store_heap_same ..
  have hZ4 : (M3.store y ⟨ky, vy, cz, some zla, YR.ptr, parentOf ctx⟩).heap zla =
      some (nzl.setPa (some y)) := by
    rw [store_heap_ne _ _ hzla_y, ← hM3]; exact store_heap_same ..
  have hO4 : ∀ a, a ≠ y → a ≠ zla →
      (M3.store y ⟨ky, vy, cz, some zla, YR.ptr, parentOf ctx⟩).heap a = M1.heap a := by
    intro a h1 h2
    rw [store_heap_ne _ _ h1, ← hM3, store_heap_ne _ _ h2, ← hM2, store_heap_ne _ _ h1]
  have hroot4 : (M3.store y ⟨ky, vy, cz, some zla, YR.ptr, parentOf ctx⟩).root = M1.root := by
    rw [store_root, ← hM3, store_root, ← hM2, store_root]
  have hrep1 := hr1.rep
  rw [Rep_plug] at hrep1
  obtain ⟨-, -, -, hYR1⟩ := hrep1
  refine ⟨?_, ?_, ?_⟩
  · refine hr1.replug ⟨?_, ?_, ?_⟩ (fun hctx => ?_) (fun _ => hroot4) ?_ ?_
      (by simpa only [Tree.addrs_node] using hndS) hdisj
    · rw [hY4, hzla]
    · have hzl1 : Rep M1.heap zl (some z) := by
        refine Rep_congr (fun a ha => ?_) hzl
        refine hmem1 a ?_ (hp_of a (hdisj a (by simp [ha])))
        rintro rfl; exact hy_not.1 ha
      refine Rep_reparent hzl1 hnd_zl ?_ ?_
      · intro a ha n hn
        rw [hzla] at ha
        simp only [Option.some.injEq] at ha
        subst ha
        rw [hzla1] at hn
        simp only [Option.some.injEq] at hn
        subst hn
        exact hZ4
      · intro a ha hane
        rw [hzla] at hane
        simp only [ne_eq, Option.some.injEq] at hane
        refine hO4 a ?_ (fun h => hane h.symm)
        rintro rfl; exact hy_not.1 ha
    · refine Rep_congr (fun a ha => hO4 a ?_ ?_) hYR1
      · rintro rfl; exact hy_not.2 ha
      · rintro rfl; exact hdis_zl_YR hzla_mem ha
    · subst hctx
      rw [hroot4, hr1.root]; rfl
    · intro f fs hctx n hn
      subst hctx
      have hf := hr1.heap_frame
      rw [hn] at hf
      simp only [Option.some.injEq] at hf
      subst hf
      rw [hO4 _ ?_ ?_, hn, nodeD_setCh]
      · rfl
      · rintro h; exact hyC (by simp [ctxAddrs, ← h])
      · rintro h; exact hzlaC (by simp [ctxAddrs, ← h])
    · intro b hb _
      refine hO4 b ?_ ?_
      · rintro rfl; exact hyC hb
      · rintro rfl; exact hzlaC hb
  · rw [hO4 z hzy (Ne.symm hzla_z)]
    exact hmem1 z hzy hpz
  · refine ⟨?_, ?_, ?_, ?_, ?_⟩
    · rw [store_siz, ← hM3, store_siz, ← hM2, store_siz]; exact ht1.siz
    · rw [store_cmp, ← hM3, store_cmp, ← hM2, store_cmp]; exact ht1.cmp
    · rw [store_self, ← hM3, store_self, ← hM2, store_self]; exact ht1.self
    · rw [store_next, ← hM3, store_next, ← hM2, store_next]; exact ht1.next
    · intro a ha
      simp only [mem_addrs_plug, Tree.addrs_node, List.mem_append, List.mem_cons, not_or] at ha
      rw [hO4 a ha.1.2.1 (fun h => ha.1.1 (h ▸ hzla_mem))]
      exact hmem1 a ha.1.2.1 (hp_of a ha.2)

/-- Lines 275-277 of `RB_delete`: the successor `y`, deeper than the right child of `z`, is
replaced by its right subtree and adopts the right subtree of `z`; the links of `z` and of
its context still point to `z`. -/
theorem delete_detach_spec {m : MapState K V} {ctx : List (Frame K V)} {g : Frame K V}
    {gs : List (Frame K V)} {z : Nat} {cz : Bool} {kz : K} {vz : V} {zl : Tree K V} {y : Nat}
    {cy : Bool} {ky : K} {vy : V} {yr : Tree K V}
    (hr : Repr m (plug (g :: gs ++ ⟨true, z, cz, kz, vz, zl⟩ :: ctx)
      (.node y cy .nil ky vy yr))) :
    Succeeds (RB_delete_detach m z y yr.ptr) (fun M =>
      M.root = m.root ∧ RepC M.heap ctx (some z) ∧
      M.heap z = some ⟨kz, vz, cz, zl.ptr, (plug (g :: gs) yr).ptr, parentOf ctx⟩ ∧
      Rep M.heap (.node y cy .nil ky vy (plug (g :: gs) yr)) (some g.a) ∧
      Rep M.heap zl (some z) ∧
      (plug ctx (.node z cz zl kz vz (plug (g :: gs) yr))).addrs.Nodup ∧
      y ∉ (plug ctx (.node z cz zl kz vz (plug (g :: gs) yr))).addrs ∧
      Touch m M (plug (g :: gs ++ ⟨true, z, cz, kz, vz, zl⟩ :: ctx)
        (.node y cy .nil ky vy yr)).addrs) := by
  have hy := hr.heap_node
  simp only [Tree.ptr_nil, List.cons_append, parentOf_cons] at hy
  have hrep := hr.rep
  rw [Rep_plug] at hrep
  obtain ⟨hC, -, -, hyr⟩ := hrep
  have hnd := hr.nodup
  rw [nodup_addrs_plug] at hnd
  obtain ⟨hndY, hndC, hdisj⟩ := hnd
  simp only [Tree.addrs_node, Tree.addrs_nil, List.nil_append, List.nodup_cons] at hndY
  have hyC : y ∉ ctxAddrs (g :: gs ++ ⟨true, z, cz, kz, vz, zl⟩ :: ctx) := hdisj y (by simp)
  have hyg : y ≠ g.a := by
    rintro rfl; exact hyC (by simp [ctxAddrs])
  have hroot : m.root = topPtr (g :: gs ++ ⟨true, z, cz, kz, vz, zl⟩ :: ctx) (some y) := by
    rw [hr.root, plug_ptr]; rfl
  obtain ⟨M1, h1, hr1, ht1⟩ := transplant_spec hroot hC hy rfl hndC hyC hyr hndY.2
    (fun b hb => hdisj b (by simp [hb])) hndY.1
  have e : plug (g :: gs ++ ⟨true, z, cz, kz, vz, zl⟩ :: ctx) yr =
      plug ctx (.node z cz zl kz vz (plug (g :: gs) yr)) := by
    rw [show g :: gs ++ ⟨true, z, cz, kz, vz, zl⟩ :: ctx =
      (g :: gs) ++ ⟨true, z, cz, kz, vz, zl⟩ :: ctx from rfl, plug_append]
    rfl
  have hyT1 : y ∉ (plug (g :: gs ++ ⟨true, z, cz, kz, vz, zl⟩ :: ctx) yr).addrs := by
    rw [mem_addrs_plug]
    exact fun h => h.elim hndY.1 hyC
  have hsubT : ∀ a, a ∈ (plug (g :: gs ++ ⟨true, z, cz, kz, vz, zl⟩ :: ctx) yr).addrs →
      a ∈ (plug (g :: gs ++ ⟨true, z, cz, kz, vz, zl⟩ :: ctx)
        (.node y cy .nil ky vy yr)).addrs := by
    intro a ha
    rw [mem_addrs_plug] at ha ⊢
    exact ha.imp (fun h => by simp [h]) (fun h => h)
  have hroot1 : M1.root = m.root := by
    rw [hr1.root, hr.root, plug_ptr, plug_ptr]; rfl
  generalize hZR : plug (g :: gs) yr = ZR at e ⊢
  obtain ⟨r, hZRp, -⟩ : ∃ a, ZR.ptr = some a ∧ a ∈ ctxAddrs (g :: gs) := by
    rw [← hZR, plug_ptr]; exact topPtr_mem g gs _
  have hrT : r ∈ (plug (g :: gs ++ ⟨true, z, cz, kz, vz, zl⟩ :: ctx)
      (.node y cy .nil ky vy yr)).addrs := by
    refine hsubT r ?_
    rw [e, mem_addrs_plug]
    exact Or.inl (by simp [Tree.ptr_mem_addrs hZRp])
  rw [e] at hr1 hyT1
  have hyT0 := hyT1
  have hz1 := hr1.heap_node
  have hrep1 := hr1.rep
  rw [Rep_plug] at hrep1
  obtain ⟨hC1, -, hzl1, hZR1⟩ := hrep1
  have hnd1 := hr1.nodup
  rw [nodup_addrs_plug] at hnd1
  obtain ⟨hndZ, -, hdisj1⟩ := hnd1
  simp only [Tree.addrs_node] at hndZ
  have hndZ' := List.nodup_middle.mp hndZ
  obtain ⟨hz_not, hnd_rest⟩ := List.nodup_cons.mp hndZ'
  simp only [List.mem_append, not_or] at hz_not
  obtain ⟨hnd_zl, hnd_ZR, hdis⟩ := List.nodup_append.mp hnd_rest
  simp only [mem_addrs_plug, Tree.addrs_node, List.mem_append, List.mem_cons, not_or] at hyT1
  obtain ⟨⟨hy_zl, hyz, hy_ZR⟩, hy_ctx⟩ := hyT1
  have hr_mem : r ∈ ZR.addrs := Tree.ptr_mem_addrs hZRp
  have hry : r ≠ y := by rintro rfl; exact hy_ZR hr_mem
  have hrz : r ≠ z := by rintro rfl; exact hz_not.2 hr_mem
  have hy1 : M1.heap y = some ⟨ky, vy, cy, none, yr.ptr, some g.a⟩ := by
    have hnt : y ∉ yr.ptr.toList ++
        (parentOf (g :: gs ++ ⟨true, z, cz, kz, vz, zl⟩ :: ctx)).toList := by
      simp only [List.cons_append, parentOf_cons, Option.toList_some, List.mem_append,
        List.mem_singleton, Option.mem_toList, Option.mem_def, not_or]
      exact ⟨fun h => hndY.1 (Tree.ptr_mem_addrs h), hyg⟩
    rw [ht1.heap y hnt, hy]
  obtain ⟨nr, hnr⟩ := Rep_heap_some hZR1 hr_mem
  -- `y->rc = z->rc`
  have e2 : setCh M1 y true ZR.ptr =
      some (M1.store y ⟨ky, vy, cy, none, ZR.ptr, some g.a⟩) := modify_eq _ hy1
  generalize hM2 : M1.store y ⟨ky, vy, cy, none, ZR.ptr, some g.a⟩ = M2 at e2
  have hy2 : M2.heap y = some ⟨ky, vy, cy, none, ZR.ptr, some g.a⟩ := by
    rw [← hM2]; exact store_heap_same ..
  have hr2 : M2.heap r = some nr := by
    rw [← hM2, store_heap_ne _ _ hry]; exact hnr
  -- `y->rc->pa = y`
  have e3 : setPa M2 r (some y) = some (M2.store r (nr.setPa (some y))) := modify_eq _ hr2
  have e3' : (ZR.ptr.bind fun yr => setPa M2 yr (some y)) =
      some (M2.store r (nr.setPa (some y))) := by
    rw [hZRp]; exact e3
  simp only [RB_delete_detach, Option.bind_eq_bind, h1, Option.some_bind, hz1, e2, hy2, e3',
    succeeds_some]
  have hO : ∀ a, a ≠ y → a ≠ r → (M2.store r (nr.setPa (some y))).heap a = M1.heap a := by
    intro a h1 h2
    rw [store_heap_ne _ _ h2, ← hM2, store_heap_ne _ _ h1]
  have hY3 : (M2.store r (nr.setPa (some y))).heap y =
      some ⟨ky, vy, cy, none, ZR.ptr, some g.a⟩ := by
    rw [store_heap_ne _ _ (Ne.symm hry)]; exact hy2
  have hroot3 : (M2.store r (nr.setPa (some y))).root = M1.root := by
    rw [store_root, ← hM2, store_root]
  have hrepZ : Rep (M2.store r (nr.setPa (some y))).heap ZR (some y) := by
    refine Rep_reparent hZR1 hnd_ZR ?_ ?_
    · intro a ha n hn
      rw [hZRp] at ha
      simp only [Option.some.injEq] at ha
      subst ha
      rw [hnr] at hn
      simp only [Option.some.injEq] at hn
      subst hn
      exact store_heap_same ..
    · intro a ha hane
      rw [hZRp] at hane
      simp only [ne_eq, Option.some.injEq] at hane
      refine hO a ?_ (fun h => hane h.symm)
      rintro rfl; exact hy_ZR ha
  refine ⟨?_, ?_, ?_, ⟨hY3, trivial, hrepZ⟩, ?_, hr1.nodup, hyT0, ?_⟩
  · rw [hroot3, hroot1]
  · refine RepC_congr (fun a ha => hO a ?_ ?_) hC1
    · rintro rfl; exact hy_ctx ha
    · rintro rfl; exact hdisj1 _ (by simp [hr_mem]) ha
  · rw [hO z (Ne.symm hyz) (Ne.symm hrz)]; exact hz1
  · refine Rep_congr (fun a ha => hO a ?_ ?_) hzl1
    · rintro rfl; exact hy_zl ha
    · rintro rfl; exact hdis ha hr_mem
  · have hyT : y ∈ (plug (g :: gs ++ ⟨true, z, cz, kz, vz, zl⟩ :: ctx)
        (.node y cy .nil ky vy yr)).addrs := by
      rw [mem_addrs_plug]; exact Or.inl (by simp)
    refine ⟨?_, ?_, ?_, ?_, ?_⟩
    · rw [store_siz, ← hM2, store_siz]; exact ht1.siz
    · rw [store_cmp, ← hM2, store_cmp]; exact ht1.cmp
    · rw [store_self, ← hM2, store_self]; exact ht1.self
    · rw [store_next, ← hM2, store_next]; exact ht1.next
    · intro a ha
      rw [hO a (fun h => ha (h ▸ hyT)) (fun h => ha (h ▸ hrT))]
      refine ht1.heap a ?_
      simp only [List.cons_append, parentOf_cons, Option.toList_some, List.mem_append,
        List.mem_singleton, Option.mem_toList, Option.mem_def, not_or]
      refine ⟨fun h => ha (hsubT a ?_), ?_⟩
      · rw [mem_addrs_plug]; exact Or.inl (Tree.ptr_mem_addrs h)
      · rintro rfl
        exact ha (by rw [mem_addrs_plug]; exact Or.inr (by simp [ctxAddrs]))

/-!
## `RB_delete_splice` on a represented tree, in its three shapes
-/


theorem Frame.sim_self (f : Frame K V) : Frame.Sim f f := ⟨rfl, rfl, rfl⟩

theorem forall₂_sim_refl (C : List (Frame K V)) : List.Forall₂ Frame.Sim C C := by
  induction C with
  | nil => exact List.Forall₂.nil
  | cons f fs ih => exact List.Forall₂.cons (Frame.sim_self f) ih

/-- Unlinking a node `z` in favour of one of its subtrees `sub` (the shapes of `RB_delete`
where `z` has at most one child). -/
theorem delete_unlink {m : MapState K V} {ctx : List (Frame K V)} {z : Nat} {cz : Bool}
    {zl : Tree K V} {kz : K} {vz : V} {zr sub : Tree K V}
    (hr : Repr m (plug ctx (.node z cz zl kz vz zr))) (hsub : sub = zl ∨ sub = zr) :
    Succeeds (RB_transplant m z sub.ptr) (fun M =>
      Repr M (plug ctx sub) ∧ z ∉ (plug ctx sub).addrs ∧ M.heap z = m.heap z ∧
      Touch m M (plug ctx (.node z cz zl kz vz zr)).addrs) := by
  have hz := hr.heap_node
  have hrep := hr.rep
  rw [Rep_plug] at hrep
  obtain ⟨hC, -, hzl, hzr⟩ := hrep
  have hnd := hr.nodup
  rw [nodup_addrs_plug] at hnd
  obtain ⟨hndZ, hndC, hdisj⟩ := hnd
  simp only [Tree.addrs_node] at hndZ
  have hndZ' := List.nodup_middle.mp hndZ
  obtain ⟨hz_not, hnd_rest⟩ := List.nodup_cons.mp hndZ'
  simp only [List.mem_append, not_or] at hz_not
  obtain ⟨hnd_zl, hnd_zr, -⟩ := List.nodup_append.mp hnd_rest
  have hzC : z ∉ ctxAddrs ctx := hdisj z (by simp)
  have hroot : m.root = topPtr ctx (some z) := by rw [hr.root, plug_ptr]; rfl
  have hsubset : ∀ a, a ∈ sub.addrs → a ∈ (Tree.node z cz zl kz vz zr).addrs := by
    intro a ha
    rcases hsub with rfl | rfl <;> simp [ha]
  have hz_sub : z ∉ sub.addrs := by
    rcases hsub with rfl | rfl
    · exact hz_not.1
    · exact hz_not.2
  have hrep_sub : Rep m.heap sub (some z) := by
    rcases hsub with rfl | rfl
    · exact hzl
    · exact hzr
  have hnd_sub : sub.addrs.Nodup := by
    rcases hsub with rfl | rfl
    · exact hnd_zl
    · exact hnd_zr
  refine (transplant_spec hroot hC hz rfl hndC hzC hrep_sub hnd_sub
    (fun b hb => hdisj b (hsubset b hb)) hz_sub).imp fun M hM => ?_
  obtain ⟨hrM, htM⟩ := hM
  have hsubT : ∀ a, a ∈ sub.ptr.toList ++ (parentOf ctx).toList →
      a ∈ (plug ctx (.node z cz zl kz vz zr)).addrs := by
    intro a ha
    simp only [List.mem_append, Option.mem_toList, Option.mem_def] at ha
    rw [mem_addrs_plug]
    rcases ha with ha | ha
    · exact Or.inl (hsubset a (Tree.ptr_mem_addrs ha))
    · exact Or.inr (parentOf_mem ha)
  refine ⟨hrM, ?_, ?_, htM.mono hsubT⟩
  · rw [mem_addrs_plug]
    exact fun h => h.elim hz_sub hzC
  · refine htM.heap z ?_
    simp only [List.mem_append, Option.mem_toList, Option.mem_def, not_or]
    exact ⟨fun h => hz_sub (Tree.ptr_mem_addrs h), fun h => hzC (parentOf_mem h)⟩

/-- Address facts of a tree whose node sequence is that of another tree minus one node. -/
theorem nodup_of_nodes_erase {t T : Tree K V} {l1 l2 : List (Nat × K × V)} {e : Nat × K × V}
    (h1 : t.nodes = l1 ++ e :: l2) (h2 : T.nodes = l1 ++ l2) (hnd : t.addrs.Nodup) :
    T.addrs.Nodup ∧ e.1 ∉ T.addrs ∧ ∀ a, a ∈ T.addrs → a ∈ t.addrs := by
  rw [Tree.addrs_eq_map, h1] at hnd
  simp only [Tree.addrs_eq_map, h1, h2, List.map_append, List.map_cons, List.mem_append,
    List.mem_cons] at hnd ⊢
  have hnd' := List.nodup_middle.mp hnd
  obtain ⟨hnot, hrest⟩ := List.nodup_cons.mp hnd'
  simp only [List.mem_append, not_or] at hnot
  exact ⟨hrest, fun h => h.elim hnot.1 hnot.2, fun a ha => ha.elim Or.inl (fun h => Or.inr (Or.inr h))⟩

theorem ctxLeft_of_left {c : List (Frame K V)} (h : ∀ f ∈ c, f.d = false) : ctxLeft c = [] := by
  induction c with
  | nil => rfl
  | cons f fs ih =>
    simp only [ctxLeft, ih (fun g hg => h g (List.mem_cons_of_mem _ hg)), h f (List.mem_cons_self _ _),
      Bool.false_eq_true, if_false, List.append_nil]

/-- The shape of `RB_delete` where `z` has no left child. -/
theorem delete_splice_left_nil {m : MapState K V} {ctx : List (Frame K V)} {z : Nat} {cz : Bool}
    {kz : K} {vz : V} {zr : Tree K V} (fuel : Nat)
    (hr : Repr m (plug ctx (.node z cz .nil kz vz zr))) :
    ∃ M, RB_delete_splice fuel m z = some (M, zr.ptr, parentOf ctx, cz == B) ∧
      Spliced m M (plug ctx (.node z cz .nil kz vz zr)) z ctx zr cz := by
  have hz := hr.heap_node
  have hb : black m (some z) = some (cz == B) := black_spec ctx hr
  obtain ⟨M, h1, hrM, hzo, hzh, ht⟩ := delete_unlink hr (Or.inr rfl)
  refine ⟨M, ?_, hrM, hzo, ⟨_, hzh.trans hz⟩, ht, ?_, ?_⟩
  · simp only [RB_delete_splice, hz, hb, Option.bind_eq_bind, Option.some_bind, Tree.ptr_nil,
      Option.isNone_none, if_true, h1, Option.pure_def]
  · refine ⟨ctxLeft ctx, zr.nodes ++ ctxRight ctx, kz, vz, ?_, ?_⟩
    · simp [nodes_plug]
    · simp [nodes_plug]
  · exact ⟨ctx, true, z, kz, vz, rfl, forall₂_sim_refl ctx⟩

/-- The shape of `RB_delete` where `z` has a left child and no right child. -/
theorem delete_splice_right_nil {m : MapState K V} {ctx : List (Frame K V)} {z : Nat}
    {cz : Bool} {kz : K} {vz : V} {zl : Tree K V} {zla : Nat} (fuel : Nat)
    (hr : Repr m (plug ctx (.node z cz zl kz vz .nil))) (hzla : zl.ptr = some zla) :
    ∃ M, RB_delete_splice fuel m z = some (M, zl.ptr, parentOf ctx, cz == B) ∧
      Spliced m M (plug ctx (.node z cz zl kz vz .nil)) z ctx zl cz := by
  have hz := hr.heap_node
  have hb : black m (some z) = some (cz == B) := black_spec ctx hr
  obtain ⟨M, h1, hrM, hzo, hzh, ht⟩ := delete_unlink hr (Or.inl rfl)
  refine ⟨M, ?_, hrM, hzo, ⟨_, hzh.trans hz⟩, ht, ?_, ?_⟩
  · rw [hzla] at h1 ⊢
    simp only [RB_delete_splice, hz, hb, Option.bind_eq_bind, Option.some_bind, Tree.ptr_nil,
      hzla, Option.isNone_none, Option.isNone_some, Bool.false_eq_true, if_false, if_true, h1,
      Option.pure_def]
  · refine ⟨ctxLeft ctx ++ zl.nodes, ctxRight ctx, kz, vz, ?_, ?_⟩
    · simp [nodes_plug]
    · simp [nodes_plug]
  · exact ⟨ctx, false, z, kz, vz, rfl, forall₂_sim_refl ctx⟩

theorem forall₂_sim_splice (cmin ctx : List (Frame K V)) (f g : Frame K V)
    (h : Frame.Sim f g) : List.Forall₂ Frame.Sim (cmin ++ f :: ctx) (cmin ++ g :: ctx) := by
  induction cmin with
  | nil => exact List.Forall₂.cons h (forall₂_sim_refl ctx)
  | cons a as ih => exact List.Forall₂.cons (Frame.sim_self a) ih

/-- The shape of `RB_delete` where `z` has two children: the leftmost node `y` of the right
subtree is taken out of its place, where its right subtree moves up, and is put in the place
of `z` with the colour of `z`. -/
theorem delete_splice_two {m : MapState K V} {ctx : List (Frame K V)} {z : Nat} {cz : Bool}
    {kz : K} {vz : V} {zl : Tree K V} {zla : Nat} {cmin : List (Frame K V)} {y : Nat}
    {cy : Bool} {ky : K} {vy : V} {yr : Tree K V} (fuel : Nat)
    (hr : Repr m (plug ctx (.node z cz zl kz vz (plug cmin (.node y cy .nil ky vy yr)))))
    (hzla : zl.ptr = some zla) (hd : ∀ f ∈ cmin, f.d = false)
    (hmin : min m.heap fuel (plug cmin (.node y cy .nil ky vy yr)).ptr = some (some y)) :
    ∃ M, RB_delete_splice fuel m z =
        some (M, yr.ptr, parentOf (cmin ++ ⟨true, y, cz, ky, vy, zl⟩ :: ctx), cy == B) ∧
      Spliced m M (plug ctx (.node z cz zl kz vz (plug cmin (.node y cy .nil ky vy yr)))) z
        (cmin ++ ⟨true, y, cz, ky, vy, zl⟩ :: ctx) yr cy := by
  have hz := hr.heap_node
  have hb : black m (some z) = some (cz == B) := black_spec ctx hr
  have hZRp : ∃ zra, (plug cmin (Tree.node y cy .nil ky vy yr)).ptr = some zra := by
    rw [plug_ptr]
    cases cmin with
    | nil => exact ⟨y, rfl⟩
    | cons g gs =>
      obtain ⟨a, ha, -⟩ := topPtr_mem g gs (Tree.node y cy .nil ky vy yr).ptr
      exact ⟨a, ha⟩
  obtain ⟨zra, hZRp⟩ := hZRp
  rw [hZRp] at hmin
  -- the original tree, seen from `y`
  have eT : plug ctx (.node z cz zl kz vz (plug cmin (.node y cy .nil ky vy yr))) =
      plug (cmin ++ ⟨true, z, cz, kz, vz, zl⟩ :: ctx) (.node y cy .nil ky vy yr) := by
    rw [plug_append]; rfl
  have eT' : plug ctx (.node y cz zl ky vy (plug cmin yr)) =
      plug (cmin ++ ⟨true, y, cz, ky, vy, zl⟩ :: ctx) yr := by
    rw [plug_append]; rfl
  have hr' := hr
  rw [eT] at hr'
  have hy := hr'.heap_node
  simp only [Tree.ptr_nil] at hy
  -- the node sequences
  have hn1 : (plug ctx (.node z cz zl kz vz (plug cmin (.node y cy .nil ky vy yr)))).nodes =
      (ctxLeft ctx ++ zl.nodes) ++ (z, kz, vz) ::
        ((y, ky, vy) :: yr.nodes ++ ctxRight cmin ++ ctxRight ctx) := by
    simp [nodes_plug, ctxLeft_of_left hd]
  have hn2 : (plug ctx (.node y cz zl ky vy (plug cmin yr))).nodes =
      (ctxLeft ctx ++ zl.nodes) ++
        ((y, ky, vy) :: yr.nodes ++ ctxRight cmin ++ ctxRight ctx) := by
    simp [nodes_plug, ctxLeft_of_left hd]
  obtain ⟨hnd2, hz2, hsub2⟩ := nodup_of_nodes_erase hn1 hn2 hr.nodup
  simp only at hz2
  have hrep := hr.rep
  rw [Rep_plug] at hrep
  obtain ⟨hC, -, hzl, hZR⟩ := hrep
  have hroot : m.root = topPtr ctx (some z) := by rw [hr.root, plug_ptr]; rfl
  rw [hzla] at hz
  have hfin : RB_delete_splice fuel m z =
        ((if (parentOf (cmin ++ ⟨true, z, cz, kz, vz, zl⟩ :: ctx) == some z) = true then
            some (m, some y)
          else (RB_delete_detach m z y yr.ptr).bind fun m1 =>
            some (m1, parentOf (cmin ++ ⟨true, z, cz, kz, vz, zl⟩ :: ctx))).bind
          fun r => (RB_delete_replace r.1 z y).bind fun m2 =>
            some (m2, yr.ptr, r.2, cy == B)) := by
    simp only [RB_delete_splice, hz, hb, Option.bind_eq_bind, Option.some_bind, hZRp,
      Option.isNone_some, Bool.false_eq_true, if_false, hmin, hy, Option.pure_def]
  cases cmin with
  | nil =>
    simp only [plug_nil] at hZR hr hn1 hn2 hnd2 hz2 hsub2 ⊢
    obtain ⟨M, h1, hrM, hzM, htM⟩ := delete_replace_spec hroot hC hz hZR hzl hzla hnd2 hz2
    refine ⟨M, ?_, hrM, hz2, ⟨_, hzM.trans hz⟩, htM.mono hsub2, ⟨_, _, kz, vz, hn1, hn2⟩, ?_⟩
    · rw [hfin]
      simp only [List.nil_append, parentOf_cons, beq_self_eq_true, if_true, Option.some_bind, h1]
    · exact ⟨⟨true, z, cz, kz, vz, zl⟩ :: ctx, true, y, ky, vy, rfl,
        forall₂_sim_splice [] ctx _ _ ⟨rfl, rfl, rfl⟩⟩
  | cons g gs =>
    obtain ⟨M3, h3, hroot3, hC3, hz3, hY3, hzl3, -, -, ht3⟩ := delete_detach_spec hr'
    rw [hzla] at hz3
    obtain ⟨M, h1, hrM, hzM, htM⟩ :=
      delete_replace_spec (hroot3.trans hroot) hC3 hz3 hY3 hzl3 hzla hnd2 hz2
    have hgz : g.a ≠ z := by
      have hnd := hr.nodup
      rw [nodup_addrs_plug] at hnd
      have h1 := hnd.1
      simp only [Tree.addrs_node] at h1
      have h2 := (List.nodup_cons.mp (List.nodup_middle.mp h1)).1
      simp only [List.mem_append, not_or] at h2
      rintro rfl
      refine h2.2 ?_
      rw [mem_addrs_plug]
      exact Or.inr (by simp [ctxAddrs])
    rw [← eT] at ht3
    refine ⟨M, ?_, by rw [← eT']; exact hrM, by rw [← eT']; exact hz2, ⟨_, hzM.trans hz3⟩,
      ht3.seq (htM.mono hsub2), ⟨_, _, kz, vz, hn1, by rw [← eT']; exact hn2⟩, ?_⟩
    · rw [hfin]
      simp only [List.cons_append, parentOf_cons, beq_iff_eq, Option.some.injEq, hgz, if_false,
        h3, Option.some_bind, h1]
    · exact ⟨g :: gs ++ ⟨true, z, cz, kz, vz, zl⟩ :: ctx, true, y, ky, vy, eT,
        forall₂_sim_splice _ ctx _ _ ⟨rfl, rfl, rfl⟩⟩

/-!
## Red-black invariants of `delFix`
-/


theorem Tree.blacken_of_black {t : Tree K V} (h : t.color = B) : t.blacken = t := by
  cases t with
  | nil => rfl
  | node a c l k v r =>
    simp only [Tree.color] at h
    subst h
    rfl

theorem Tree.BH_setColor_red {t : Tree K V} {n : Nat} (hc : t.color = B) (hb : t.BH (n + 1)) :
    (t.setColor R).BH n := by
  cases t with
  | nil => simp [Tree.BH] at hb
  | node a c l k v r =>
    simp only [Tree.color] at hc
    subst hc
    simp only [Tree.BH, if_true] at hb
    obtain ⟨n', h1, h2, h3⟩ := hb
    have : n' = n := by omega
    subst this
    simp only [Tree.setColor, Tree.BH, Bool.true_eq_false, if_false]
    exact ⟨h2, h3⟩

theorem Tree.NoRedRed_setColor_red {t : Tree K V} (hn : t.NoRedRed) (hb : t.bothBlack = true) :
    (t.setColor R).NoRedRed := by
  cases t with
  | nil => trivial
  | node a c l k v r =>
    simp only [Tree.bothBlack, Tree.child, Bool.false_eq_true, if_false, if_true,
      Bool.and_eq_true, beq_iff_eq] at hb
    exact ⟨fun _ => hb, hn.2.1, hn.2.2⟩

theorem Tree.ne_nil_of_BH {t : Tree K V} {n : Nat} (hb : t.BH (n + 1)) : t ≠ .nil := by
  rintro rfl
  simp [Tree.BH] at hb

theorem Tree.ne_nil_of_red {t : Tree K V} (hc : t.color = R) : t ≠ .nil := by
  rintro rfl
  simp [Tree.color] at hc

/-- Cases #3 and #4 of `RB_delete_fixup` on the abstract tree restore the black count of the
subtree of `p` and produce no red-red pair. -/
theorem delRot_inv (d : Bool) (p : Nat) (cp : Bool) (kp : K) (vp : V) {t b : Tree K V} {n : Nat}
    (ht : t.BH n) (htn : t.NoRedRed) (hb : b.BH (n + 1)) (hbn : b.NoRedRed) (hbc : b.color = B)
    (hbb : b.bothBlack = false) :
    (delRot d p cp kp vp t b).BH (if cp = B then n + 2 else n + 1) ∧
      (delRot d p cp kp vp t b).NoRedRed ∧ (delRot d p cp kp vp t b).color = cp := by
  obtain ⟨ba, cb, kb, vb, near, far, rfl⟩ := Tree.exists_mkD d (Tree.ne_nil_of_BH hb)
  simp only [Tree.color_mkD] at hbc
  subst hbc
  rw [Tree.BH_mkD] at hb
  simp only [if_true] at hb
  obtain ⟨n', hn', hnear, hfar⟩ := hb
  have : n' = n := by omega
  subst this
  rw [Tree.NoRedRed_mkD] at hbn
  obtain ⟨-, hnearn, hfarn⟩ := hbn
  rw [Tree.bothBlack_mkD] at hbb
  have hfinal : ∀ (a : Nat) (k : K) (v : V) (l r : Tree K V), l.BH (n' + 1) → r.BH (n' + 1) →
      l.NoRedRed → r.NoRedRed → l.color = B → r.color = B →
      (Tree.mkD d a cp k v l r).BH (if cp = B then n' + 2 else n' + 1) ∧
        (Tree.mkD d a cp k v l r).NoRedRed ∧ (Tree.mkD d a cp k v l r).color = cp := by
    intro a k v l r hl hr hln hrn hlc hrc
    refine ⟨?_, Tree.NoRedRed_mkD.mpr ⟨fun _ => ⟨hlc, hrc⟩, hln, hrn⟩, Tree.color_mkD ..⟩
    cases cp
    · exact Tree.BH_mkD_black hl hr
    · exact Tree.BH_mkD_red hl hr
  by_cases hfc : far.color = B
  · have hnc : near.color = R := by
      rw [hfc] at hbb
      cases h : near.color
      · rw [h] at hbb; simp [B] at hbb
      · rfl
    obtain ⟨na, cn, kn, vn, ND, NN, rfl⟩ := Tree.exists_mkD d (Tree.ne_nil_of_red hnc)
    simp only [Tree.color_mkD] at hnc
    subst hnc
    rw [Tree.BH_mkD] at hnear
    simp only [Bool.true_eq_false, if_false] at hnear
    rw [Tree.NoRedRed_mkD] at hnearn
    obtain ⟨hcc, hNDn, hNNn⟩ := hnearn
    rw [delRot_far_black _ _ _ _ _ _ _ _ _ _ _ _ _ _ _ _ _ hfc]
    exact hfinal _ _ _ _ _ (Tree.BH_mkD_black ht hnear.1) (Tree.BH_mkD_black hnear.2 hfar)
      (Tree.NoRedRed_mkD.mpr ⟨fun h => by simp [B, R] at h, htn, hNDn⟩)
      (Tree.NoRedRed_mkD.mpr ⟨fun h => by simp [B, R] at h, hNNn, hfarn⟩)
      (Tree.color_mkD ..) (Tree.color_mkD ..)
  · have hfc' : far.color = R := by
      cases h : far.color
      · exact absurd h hfc
      · rfl
    rw [delRot_far_red _ _ _ _ _ _ _ _ _ _ _ _ hfc']
    exact hfinal _ _ _ _ _ (Tree.BH_mkD_black ht hnear) (Tree.BH_setColor_black hfc' hfar)
      (Tree.NoRedRed_mkD.mpr ⟨fun h => by simp [B, R] at h, htn, hnearn⟩)
      (Tree.NoRedRed_setColor_black hfarn) (Tree.color_mkD ..) (Tree.color_setColor_black _)

theorem getLast_tail {α : Type} (a : α) {l : List α} {f : α} (h : l.getLast? = some f) :
    (a :: l).getLast? = some f := by
  cases l with
  | nil => simp at h
  | cons b l' => simpa [List.getLast?_cons_cons] using h

theorem Tree.RB_blacken_of {t : Tree K V} (h : t.NoRedRed ∧ ∃ N, t.BH N) : t.blacken.RB := by
  obtain ⟨h1, N, h2⟩ := h
  exact Tree.blacken_RB h1 h2

/-- The root of a plugged context whose top frame is black, or of a black tree in the empty
context, is black. -/
theorem plug_color_black (ctx : List (Frame K V)) (t : Tree K V)
    (hlast : ∀ f, ctx.getLast? = some f → f.c = B) (ht : ctx = [] → t.color = B) :
    (plug ctx t).color = B := by
  cases h : ctx.getLast? with
  | none =>
    have := List.getLast?_eq_none_iff.mp h
    subst this
    exact ht rfl
  | some f => rw [plug_color ctx t h]; exact hlast f h

/-- On a context that lacks one black node below the hole, `RB_delete_fixup` dereferences no
absent node, and `delFix` restores the red-black colour invariants. -/
theorem delFix_inv (ctx : List (Frame K V)) : ∀ (t : Tree K V) (n : Nat),
    CtxInv ctx (n + 1) → t.BH n → t.blacken.NoRedRed →
    (∀ f, ctx.getLast? = some f → f.c = B) → DelSafe ctx t ∧ (delFix ctx t).RB := by
  induction ctx with
  | nil =>
    intro t n _ hb hn _
    refine ⟨trivial, ?_⟩
    simp only [delFix]
    by_cases hc : t.color = R
    · have := Tree.BH_setColor_black hc hb
      rw [← Tree.blacken_eq_setColor] at this
      have h := Tree.blacken_RB hn this
      rwa [Tree.blacken_of_black (Tree.color_blacken t)] at h
    · rw [Tree.blacken_of_black (Tree.color_eq_black hc)] at hn
      exact Tree.blacken_RB hn hb
  | cons f up ih =>
    intro t n hc hb hn hlast
    by_cases hcol : t.color = R
    · refine ⟨fun h => by rw [hcol] at h; exact absurd h (by simp [B, R]), ?_⟩
      rw [delFix, if_pos hcol]
      have hb' := Tree.BH_setColor_black hcol hb
      rw [← Tree.blacken_eq_setColor] at hb'
      obtain ⟨h1, h2⟩ := plug_inv (f :: up) hc hb' hn (fun _ => Tree.color_blacken t)
      exact ⟨plug_color_black _ _ hlast (fun h => by simp at h), h1, h2⟩
    · have hcB := Tree.color_eq_black hcol
      rw [Tree.blacken_of_black hcB] at hn
      obtain ⟨d, p, cp, kp, vp, sib⟩ := f
      obtain ⟨hsb, hsn, hsc, hup⟩ := hc
      simp only at hsb hsn hsc hup
      have hsne := Tree.ne_nil_of_BH hsb
      obtain ⟨b, cb, kb, vb, near, far, rfl⟩ := Tree.exists_mkD d hsne
      cases cb with
      | true =>
        -- red brother: the parent is black
        have hcp : cp = B := by
          cases cp
          · rfl
          · have := (hsc rfl).1
            simp [B, R] at this
        subst hcp
        simp only [if_true] at hup
        rw [Tree.BH_mkD] at hsb
        simp only [Bool.true_eq_false, if_false] at hsb
        rw [Tree.NoRedRed_mkD] at hsn
        obtain ⟨hcc, hnearn, hfarn⟩ := hsn
        obtain ⟨hnearc, hfarc⟩ := hcc rfl
        have hctx' : CtxInv (⟨d, b, B, kb, vb, far⟩ :: up) (n + 1) :=
          ⟨hsb.2, hfarn, fun h => by simp [B, R] at h, by simpa using hup⟩
        have hlast' : ∀ g, (⟨d, b, B, kb, vb, far⟩ :: up : List (Frame K V)).getLast? = some g →
            g.c = B := by
          intro g hg
          cases up with
          | nil =>
            simp only [List.getLast?_singleton, Option.some.injEq] at hg
            subst hg; rfl
          | cons u us =>
            rw [List.getLast?_cons_cons] at hg
            exact hlast g (by rw [List.getLast?_cons_cons]; exact hg)
        refine ⟨fun _ => ⟨hsne, ?_⟩, ?_⟩
        · simp only [Tree.color_mkD, if_true, Tree.child_mkD]
          exact Tree.ne_nil_of_BH hsb.1
        · rw [delFix_red_brother up d p B kp vp b kb vb near far t hcB]
          cases hbb : near.bothBlack with
          | true =>
            simp only [if_true]
            obtain ⟨h1, h2⟩ := plug_inv (⟨d, b, B, kb, vb, far⟩ :: up) hctx'
              (Tree.BH_mkD_black hb (Tree.BH_setColor_red hnearc hsb.1))
              (Tree.NoRedRed_mkD.mpr ⟨fun h => by simp [B, R] at h, hn,
                Tree.NoRedRed_setColor_red hnearn hbb⟩)
              (fun h => by simp [ctxColor, B, R] at h)
            exact ⟨plug_color_black _ _ hlast' (fun h => by simp at h), h1, h2⟩
          | false =>
            simp only [Bool.false_eq_true, if_false]
            obtain ⟨r1, r2, r3⟩ := delRot_inv d p R kp vp
              hb hn hsb.1 hnearn hnearc hbb
            simp only [Bool.true_eq_false, if_false] at r1
            exact Tree.RB_blacken_of (plug_inv (⟨d, b, B, kb, vb, far⟩ :: up) hctx' r1 r2
              (fun h => by simp [ctxColor, B, R] at h))
      | false =>
        have hlast_up : ∀ g, up.getLast? = some g → g.c = B :=
          fun g hg => hlast g (getLast_tail _ hg)
        rw [delFix_black_brother up d p cp kp vp _ t hcB (Tree.color_mkD ..)]
        cases hbb : (Tree.mkD d b false kb vb near far).bothBlack with
        | true =>
          simp only [if_true]
          have hsr : ((Tree.mkD d b false kb vb near far).setColor R).BH n :=
            Tree.BH_setColor_red (Tree.color_mkD ..) hsb
          have hsrn : ((Tree.mkD d b false kb vb near far).setColor R).NoRedRed :=
            Tree.NoRedRed_setColor_red hsn hbb
          have hrec : DelSafe up (Tree.mkD d p cp kp vp t
                ((Tree.mkD d b false kb vb near far).setColor R)) ∧
              (delFix up (Tree.mkD d p cp kp vp t
                ((Tree.mkD d b false kb vb near far).setColor R))).RB := by
            cases cp with
            | false =>
              simp only [if_true] at hup
              refine ih _ (n + 1) hup (Tree.BH_mkD_black hb hsr) ?_ hlast_up
              rw [Tree.blacken_mkD]
              exact Tree.NoRedRed_mkD.mpr ⟨fun h => by simp [B, R] at h, hn, hsrn⟩
            | true =>
              simp only [Bool.true_eq_false, if_false] at hup
              refine ih _ n hup (Tree.BH_mkD_red hb hsr) ?_ hlast_up
              rw [Tree.blacken_mkD]
              exact Tree.NoRedRed_mkD.mpr ⟨fun h => by simp [B, R] at h, hn, hsrn⟩
          refine ⟨fun _ => ⟨hsne, ?_⟩, hrec.2⟩
          simp only [Tree.color_mkD, hbb, R, Bool.false_eq_true, if_false, if_true]
          exact hrec.1
        | false =>
          simp only [Bool.false_eq_true, if_false]
          refine ⟨fun _ => ⟨hsne, ?_⟩, ?_⟩
          · simp only [Tree.color_mkD, hbb, R, Bool.false_eq_true, if_false]
          · obtain ⟨r1, r2, r3⟩ := delRot_inv d p cp kp vp
              hb hn hsb hsn (Tree.color_mkD ..) hbb
            refine Tree.RB_blacken_of (plug_inv up hup r1 r2 ?_)
            intro h
            rw [r3]
            cases cp
            · rfl
            · have := (hsc rfl).2
              rw [this] at h
              simp [B, R] at h

theorem ctxColor_sim {C C' : List (Frame K V)} (h : List.Forall₂ Frame.Sim C C') :
    ctxColor C = ctxColor C' := by
  cases h with
  | nil => rfl
  | cons h1 _ => exact h1.2.1

theorem CtxInv_sim {C C' : List (Frame K V)} (h : List.Forall₂ Frame.Sim C C') :
    ∀ n, CtxInv C n → CtxInv C' n := by
  induction h with
  | nil => intro n _; trivial
  | cons h1 h2 ih =>
    intro n hc
    obtain ⟨a1, a2, a3, a4⟩ := hc
    obtain ⟨-, e2, e3⟩ := h1
    refine ⟨e3 ▸ a1, e3 ▸ a2, ?_, ?_⟩
    · intro hc
      rw [← e2] at hc
      rw [← e3, ← ctxColor_sim h2]
      exact a3 hc
    · rw [← e2]
      exact ih _ a4

theorem getLast_sim {C C' : List (Frame K V)} (h : List.Forall₂ Frame.Sim C C')
    (hl : ∀ f, C.getLast? = some f → f.c = B) : ∀ f, C'.getLast? = some f → f.c = B := by
  induction h with
  | nil => intro f hf; simp at hf
  | cons h1 h2 ih =>
    rename_i a b l1 l2
    intro f hf
    cases h2 with
    | nil =>
      simp only [List.getLast?_singleton, Option.some.injEq] at hf
      subst hf
      rw [← h1.2.1]
      exact hl a (by simp)
    | cons h3 h4 =>
      rw [List.getLast?_cons_cons] at hf
      exact ih (fun g hg => hl g (by rw [List.getLast?_cons_cons]; exact hg)) f hf

/-- The colour facts after the splice of `RB_delete`: when the removed node was red the tree
is well coloured; when it was black, the hole lacks one black node and `delFix`
applies. -/
theorem splice_inv {C ctx : List (Frame K V)} {d : Bool} {a : Nat} {c : Bool} {k : K} {v : V}
    {x : Tree K V} (hrb : (plug C (Tree.mkD d a c k v x .nil)).RB)
    (hsim : List.Forall₂ Frame.Sim C ctx) :
    (c = R → (plug ctx x).RB) ∧
      (c = B → ∃ n, CtxInv ctx (n + 1) ∧ x.BH n ∧ x.blacken.NoRedRed ∧
        ∀ f, ctx.getLast? = some f → f.c = B) := by
  obtain ⟨hcol, hnrr, N, hbh⟩ := hrb
  obtain ⟨n, hci, hb, hn, hcc⟩ := unplug_inv C hnrr hbh
  have hlastC : ∀ f, C.getLast? = some f → f.c = B := by
    intro f hf
    rw [← plug_color C _ hf]; exact hcol
  have hlast := getLast_sim hsim hlastC
  rw [Tree.NoRedRed_mkD] at hn
  rw [Tree.BH_mkD] at hb
  constructor
  · rintro rfl
    simp only [Bool.true_eq_false, if_false] at hb
    obtain ⟨h1, h2⟩ := plug_inv ctx (CtxInv_sim hsim n hci) hb.1 hn.2.1 (fun _ => (hn.1 rfl).1)
    exact ⟨plug_color_black ctx x hlast (fun _ => (hn.1 rfl).1), h1, h2⟩
  · rintro rfl
    simp only [if_true] at hb
    obtain ⟨n', rfl, hx, -⟩ := hb
    refine ⟨n', CtxInv_sim hsim _ hci, hx, ?_, hlast⟩
    rw [Tree.blacken_eq_setColor]
    exact Tree.NoRedRed_setColor_black hn.2.1

/-!
## `RB_delete` on a valid map
-/


theorem Tree.height_mkD (d : Bool) (a : Nat) (c : Bool) (k : K) (v : V) (td tn : Tree K V) :
    td.height + 1 ≤ (Tree.mkD d a c k v td tn).height := by
  cases d
  · simp only [Tree.mkD, Bool.false_eq_true, if_false, Tree.height]
    have := Nat.le_max_left td.height tn.height
    omega
  · simp only [Tree.mkD, if_true, Tree.height]
    have := Nat.le_max_right tn.height td.height
    omega

/-- The depth of the hole of a context is bounded by the height of the plugged tree. -/
theorem height_plug (ctx : List (Frame K V)) (t : Tree K V) :
    ctx.length + t.height ≤ (plug ctx t).height := by
  induction ctx generalizing t with
  | nil => simp
  | cons f fs ih =>
    have h1 := ih (f.fill t)
    have h2 := Tree.height_mkD f.d f.a f.c f.k f.v t f.sib
    simp only [plug_cons, List.length_cons, Frame.fill] at h1 ⊢
    omega

/-- The splice of `RB_delete` on a represented tree, at any node `z` of the tree. -/
theorem delete_splice_spec {m : MapState K V} {t : Tree K V} {z : Nat} (hr : Repr m t)
    (hz : z ∈ t.addrs) {fuel : Nat} (hfuel : t.height ≤ fuel) :
    ∃ M ctx x c, RB_delete_splice fuel m z = some (M, x.ptr, parentOf ctx, c == B) ∧
      Spliced m M t z ctx x c ∧ ctx.length < t.height := by
  obtain ⟨ctx, c, l, k, v, r, rfl⟩ := exists_plug_of_mem hz
  have hh := height_plug ctx (.node z c l k v r)
  cases l with
  | nil =>
    obtain ⟨M, h1, h2⟩ := delete_splice_left_nil fuel hr
    refine ⟨M, ctx, r, c, h1, h2, ?_⟩
    simp only [Tree.height] at hh
    omega
  | node la lc ll lk lv lr =>
    cases r with
    | nil =>
      obtain ⟨M, h1, h2⟩ := delete_splice_right_nil fuel hr rfl
      refine ⟨M, ctx, _, c, h1, h2, ?_⟩
      simp only [Tree.height] at hh
      omega
    | node ra rc rl rk rv rr =>
      have hrep := (Rep_plug.mp hr.rep).2.2.2
      have hrh : (Tree.node ra rc rl rk rv rr).height + 1 ≤
          (Tree.node z c (Tree.node la lc ll lk lv lr) k v (Tree.node ra rc rl rk rv rr)).height := by
        show _ ≤ Max.max _ _ + 1
        have := Nat.le_max_right (Tree.node la lc ll lk lv lr).height
          (Tree.node ra rc rl rk rv rr).height
        omega
      obtain ⟨cmin, y, cy, ky, vy, yr, e, hd, hloop, hlen⟩ :=
        minmax_loop_spec (Tree.node ra rc rl rk rv rr) (some z) fuel ra hrep rfl (by omega)
      have hmin : min m.heap fuel (Tree.node ra rc rl rk rv rr).ptr = some (some y) := by
        simp [min, minmax, hloop]
      have hbound : (cmin ++ (⟨true, y, c, ky, vy, Tree.node la lc ll lk lv lr⟩ :
          Frame K V) :: ctx).length < (plug ctx (Tree.node z c (Tree.node la lc ll lk lv lr) k v
            (Tree.node ra rc rl rk rv rr))).height := by
        simp only [List.length_append, List.length_cons]
        omega
      rw [e] at hr hmin hbound ⊢
      obtain ⟨M, h1, h2⟩ := delete_splice_two fuel hr rfl hd hmin
      exact ⟨M, _, yr, cy, h1, h2, hbound⟩

/-- `RB_delete(z)` on a represented, well-coloured tree and a node `z` of it: the call
returns; the node `z` is freed and has left the in-order sequence, every other node keeps its
address, key and value; the colour invariants hold again. -/
theorem RB_delete_spec {m : MapState K V} {t : Tree K V} {z : Nat} (hr : Repr m t)
    (hrb : t.RB) (hz : z ∈ t.addrs) {fuel : Nat} (hfuel : t.height ≤ fuel) :
    ∃ M T, RB_delete fuel m z = some M ∧ Erased m M t T z := by
  have hr0 : Repr (m.setSiz ((m.siz + 2 ^ 64 - 1) % 2 ^ 64)) t := hr.setSiz _
  obtain ⟨M1, ctx, x, c, h1, hsp, hlen⟩ := delete_splice_spec hr0 hz hfuel
  obtain ⟨nz, hnz⟩ := hsp.zheap
  have hr2 : Repr (M1.free z) (plug ctx x) := hsp.repr.free hsp.zout
  obtain ⟨C, d, a, k, v, et, hsim⟩ := hsp.shape
  have hinv := splice_inv (by rw [← et]; exact hrb) hsim
  obtain ⟨l1, l2, kz, vz, hn1, hn2⟩ := hsp.nodes
  obtain ⟨-, -, hsub⟩ := nodup_of_nodes_erase hn1 hn2 hr.nodup
  have hframe2 : ∀ b, b ∉ t.addrs → (M1.free z).heap b = m.heap b := by
    intro b hb
    rw [free_heap_ne _ (fun h => hb (by rw [h]; exact hz)), hsp.touch.heap b hb]
    exact congrFun (setSiz_heap ..) b
  cases c with
  | true =>
    refine ⟨M1.free z, plug ctx x, ?_, hr2, hinv.1 rfl, ?_, ?_, ?_, ?_, hframe2,
      free_heap_same .., l1, l2, kz, vz, hn1, hn2⟩
    · simp only [RB_delete, h1, Option.bind_eq_bind, Option.some_bind, hnz, Option.pure_def]
      rfl
    · rw [free_siz, hsp.touch.siz]; exact setSiz_siz ..
    · rw [free_cmp, hsp.touch.cmp]; exact setSiz_cmp ..
    · rw [free_self, hsp.touch.self]; exact setSiz_self ..
    · rw [free_next, hsp.touch.next]; exact setSiz_next ..
  | false =>
    obtain ⟨n, hci, hxb, hxn, hlast⟩ := hinv.2 rfl
    obtain ⟨hsafe, hRB⟩ := delFix_inv ctx x n hci hxb hxn hlast
    obtain ⟨M3, h3, hstep⟩ := delete_fixup_spec fuel ctx x (M1.free z) hr2 hsafe (by omega)
    have hO : ∀ b, b ∉ (plug ctx x).addrs → M3.heap b = (M1.free z).heap b := hstep.touch.heap
    refine ⟨M3, delFix ctx x, ?_, hstep.repr, hRB, ?_, ?_, ?_, ?_, ?_, ?_,
      l1, l2, kz, vz, hn1, hstep.nodes.trans hn2⟩
    · simp only [RB_delete, h1, Option.bind_eq_bind, Option.some_bind, hnz, Option.pure_def]
      exact h3
    · rw [hstep.touch.siz, free_siz, hsp.touch.siz]; exact setSiz_siz ..
    · rw [hstep.touch.cmp, free_cmp, hsp.touch.cmp]; exact setSiz_cmp ..
    · rw [hstep.touch.self, free_self, hsp.touch.self]; exact setSiz_self ..
    · rw [hstep.touch.next, free_next, hsp.touch.next]; exact setSiz_next ..
    · intro b hb
      rw [hO b (fun h => hb (hsub b h))]
      exact hframe2 b hb
    · rw [hO z hsp.zout]
      exact free_heap_same ..

/-- Removing one element keeps a sequence strictly increasing. -/
theorem sorted_erase {cmp : K → K → Bool} {l1 l2 : List (Nat × K × V)} {e : Nat × K × V}
    (h : ((l1 ++ e :: l2).map (fun x => x.2.1)).Pairwise (fun a b => cmp a b = true)) :
    ((l1 ++ l2).map (fun x => x.2.1)).Pairwise (fun a b => cmp a b = true) := by
  refine List.Pairwise.sublist ?_ h
  exact List.Sublist.map _ (List.Sublist.append_left (List.sublist_cons_self e l2) l1)

/-- The state after `RB_delete(z)` on a valid map is a valid map. -/
theorem Erased.keeps_valid {m M : MapState K V} {t T : Tree K V} {z : Nat} (hv : Valid m t)
    (h : Erased m M t T z) : Valid M T := by
  obtain ⟨l1, l2, kz, vz, hn1, hn2⟩ := h.nodes
  refine ⟨h.repr, ?_, h.rb, by rw [h.cmp]; exact hv.swo, ?_⟩
  · rw [h.cmp]
    have hs := hv.sorted
    simp only [Tree.Sorted, Tree.keys, hn1, hn2] at hs ⊢
    exact sorted_erase hs
  · intro a ha
    rw [h.next] at ha
    by_cases hmem : a ∈ t.addrs
    · obtain ⟨n, hn⟩ := Rep_heap_some hv.repr.rep hmem
      rw [hv.fresh a ha] at hn
      exact absurd hn (by simp)
    · rw [h.frame a hmem]
      exact hv.fresh a ha

/-!
## Erasure: the claims on `erase`
-/


/-- A node of the in-order sequence lives in the heap with its key and value. -/
theorem Rep_node_of_mem {h : Nat → Option (Node K V)} {t : Tree K V} {pa : NodePtr}
    (hr : Rep h t pa) {e : Nat × K × V} (he : e ∈ t.nodes) :
    ∃ n, h e.1 = some n ∧ n.key = e.2.1 ∧ n.value = e.2.2 := by
  induction t generalizing pa with
  | nil => simp at he
  | node b c l k v r ihl ihr =>
    obtain ⟨h1, h2, h3⟩ := hr
    simp only [Tree.nodes_node, List.mem_append, List.mem_cons] at he
    rcases he with he | rfl | he
    · exact ihl h2 he
    · exact ⟨_, h1, rfl, rfl⟩
    · exact ihr h3 he

/-- `erase` through an iterator of this map at a node of the tree runs `RB_delete`. -/
theorem erase_at {m : MapState K V} {t : Tree K V} (hr : Repr m t) (hrb : t.RB) {z : Nat}
    (hz : z ∈ t.addrs) {fuel : Nat} (hfuel : t.height ≤ fuel) :
    ∃ M T, erase fuel m ⟨some z, some m.self⟩ = some (M, .ok ()) ∧ Erased m M t T z := by
  obtain ⟨M, T, hdel, he⟩ := RB_delete_spec hr hrb hz hfuel
  refine ⟨M, T, ?_, he⟩
  simp only [erase, bne_self_eq_false, Bool.false_eq_true, if_false, hdel, Option.bind_eq_bind,
    Option.some_bind, Option.pure_def]

/-- C2: on a map whose tree satisfies the red-black colour invariants (black root, no red
node with a red child, one black count for all paths from the root to an absent child),
`erase` of an iterator of this map at any node `z` of the tree returns without throwing, and
the tree the state then holds is empty or has a black root, has no red node with a red child,
and has one black count for all paths from the root to an absent child. -/
theorem erase_preserves_RB {m : MapState K V} {t : Tree K V} (hr : Repr m t)
    (hrb : t.color = B ∧ t.NoRedRed ∧ ∃ n, t.BH n) {z : Nat} (hz : z ∈ t.addrs) {fuel : Nat}
    (hfuel : t.height ≤ fuel) :
    ∃ M T, erase fuel m ⟨some z, some m.self⟩ = some (M, .ok ()) ∧ Repr M T ∧
      (T = .nil ∨ ∃ a l k v r, T = .node a B l k v r) ∧ T.NoRedRed ∧ ∃ n, T.BH n := by
  obtain ⟨M, T, h1, he⟩ := erase_at hr hrb hz hfuel
  obtain ⟨hc, hn, hb⟩ := he.rb
  refine ⟨M, T, h1, he.repr, ?_, hn, hb⟩
  cases T with
  | nil => exact Or.inl rfl
  | node a c l k v r =>
    simp only [Tree.color] at hc
    subst hc
    exact Or.inr ⟨a, l, k, v, r, rfl⟩

theorem erase_preserves_RB_witness :
    Repr exMap exTree ∧ (exTree.color = B ∧ exTree.NoRedRed ∧ ∃ n, exTree.BH n) ∧
    1 ∈ exTree.addrs ∧ exTree.height ≤ 2 ∧
    ∃ M T, erase 2 exMap ⟨some 1, some exMap.self⟩ = some (M, .ok ()) ∧ Repr M T ∧
      (T = .nil ∨ ∃ a l k v r, T = .node a B l k v r) ∧ T.NoRedRed ∧ ∃ n, T.BH n :=
  ⟨exMap_repr, exTree_rb, by decide, by decide,
    erase_preserves_RB exMap_repr exTree_rb (by decide) (by decide)⟩

/-- C6: on a valid map whose `size()` is the number of nodes, `erase` of an iterator of this
map at a node `z` of the tree returns without throwing; the node `z` is freed; the in-order
sequence of nodes (address, key, value) afterwards is the previous one without the node `z`,
every other node keeping its place, address, key and value, so the sequence of (key, value)
entries is the previous one with the entry of `z` deleted; the state is a valid map again and
`size()` is again the number of nodes, one less than before. -/
theorem erase_removes {m : MapState K V} {t : Tree K V} (hv : Valid m t) {z : Nat}
    (hz : z ∈ t.addrs) {fuel : Nat} (hfuel : t.height ≤ fuel) (hsiz : m.siz = t.size)
    (hlt : t.size < 2 ^ 64) :
    ∃ M T, erase fuel m ⟨some z, some m.self⟩ = some (M, .ok ()) ∧ Valid M T ∧
      (∃ l1 l2 kz vz, (∃ n, m.heap z = some n ∧ n.key = kz ∧ n.value = vz) ∧
        t.nodes = l1 ++ (z, kz, vz) :: l2 ∧ T.nodes = l1 ++ l2 ∧
        t.entries = l1.map (fun e => e.2) ++ (kz, vz) :: l2.map (fun e => e.2) ∧
        T.entries = l1.map (fun e => e.2) ++ l2.map (fun e => e.2)) ∧
      M.heap z = none ∧ size M = T.size ∧ size M + 1 = size m := by
  obtain ⟨M, T, h1, he⟩ := erase_at hv.repr hv.rb hz hfuel
  obtain ⟨l1, l2, kz, vz, hn1, hn2⟩ := he.nodes
  have hmem : (z, kz, vz) ∈ t.nodes := by rw [hn1]; simp
  have hnode := Rep_node_of_mem hv.repr.rep hmem
  have hts : t.size = T.size + 1 := by
    rw [Tree.size_eq_length, Tree.size_eq_length, hn1, hn2]
    simp only [List.length_append, List.length_cons]
    omega
  have hM : M.siz = T.size := by
    rw [he.siz, hsiz, hts]
    rw [hts] at hlt
    omega
  refine ⟨M, T, h1, he.keeps_valid hv, ⟨l1, l2, kz, vz, hnode, hn1, hn2, ?_, ?_⟩, he.freed, hM, ?_⟩
  · simp [Tree.entries, hn1]
  · simp [Tree.entries, hn2]
  · simp only [size, hM, hsiz, hts]

theorem erase_removes_witness :
    Valid exMap exTree ∧ 1 ∈ exTree.addrs ∧ exTree.height ≤ 2 ∧ exMap.siz = exTree.size ∧
    exTree.size < 2 ^ 64 ∧
    ∃ M T, erase 2 exMap ⟨some 1, some exMap.self⟩ = some (M, .ok ()) ∧ Valid M T ∧
      (∃ l1 l2 kz vz, (∃ n, exMap.heap 1 = some n ∧ n.key = kz ∧ n.value = vz) ∧
        exTree.nodes = l1 ++ (1, kz, vz) :: l2 ∧ T.nodes = l1 ++ l2 ∧
        exTree.entries = l1.map (fun e => e.2) ++ (kz, vz) :: l2.map (fun e => e.2) ∧
        T.entries = l1.map (fun e => e.2) ++ l2.map (fun e => e.2)) ∧
      M.heap 1 = none ∧ size M = T.size ∧ size M + 1 = size exMap :=
  ⟨exMap_valid, by decide, by decide, by decide, by decide,
    erase_removes exMap_valid (by decide) (by decide) (by decide) (by decide)⟩

/-- After `RB_delete` of the node that holds a key equivalent to `key`, no stored key is
equivalent to `key`. -/
theorem Erased.absent {m M : MapState K V} {t T : Tree K V} {z : Nat} (hv : Valid m t)
    (h : Erased m M t T z) {key : K} {e : Nat × K × V} (he : e ∈ t.nodes) (hez : e.1 = z)
    (heq : equal m.cmp key e.2.1 = true) : ∀ k ∈ T.keys, equal M.cmp key k = false := by
  obtain ⟨l1, l2, kz, vz, hn1, hn2⟩ := h.nodes
  obtain ⟨-, hzT, -⟩ := nodup_of_nodes_erase hn1 hn2 hv.repr.nodup
  intro k hk
  simp only [Tree.keys, List.mem_map] at hk
  obtain ⟨e', he', rfl⟩ := hk
  rw [h.cmp]
  cases hq : equal m.cmp key e'.2.1 with
  | false => rfl
  | true =>
    have hmem : e' ∈ t.nodes := by
      rw [hn2] at he'
      rw [hn1]
      simp only [List.mem_append, List.mem_cons] at he' ⊢
      exact he'.elim Or.inl (fun h => Or.inr (Or.inr h))
    have := Tree.equiv_unique hv.swo hv.sorted he hmem heq hq
    subst this
    exfalso
    apply hzT
    simp only
    rw [← hez, Tree.addrs_eq_map]
    exact List.mem_map_of_mem _ he'

/-- C7: on a valid map that holds a key equivalent to `key`, `find(key)` returns an iterator
that `erase` accepts, and after `erase(find(key))` both overloads of `find(key)` return
`end()` and `count(key)` returns 0. -/
theorem erase_find_absent [Inhabited V] {m : MapState K V} {t : Tree K V} (hv : Valid m t)
    (key : K) (hpres : ∃ k ∈ t.keys, equal m.cmp key k = true) {fuel : Nat}
    (hfuel : t.size < fuel) :
    ∃ it M, find fuel m key = some (m, it) ∧ erase fuel m it = some (M, .ok ()) ∧
      find fuel M key = some (M, end_ M) ∧ find_const fuel M key = some (end_ M) ∧
      count fuel M key = some 0 := by
  obtain ⟨k, hk, heq⟩ := hpres
  simp only [Tree.keys, List.mem_map] at hk
  obtain ⟨e, he, rfl⟩ := hk
  have hh := Tree.height_le_size t
  have hfound := (locate_correct hv.swo hv.sorted key).1 e he heq
  have hz : e.1 ∈ t.addrs := by
    rw [Tree.addrs_eq_map]; exact List.mem_map_of_mem _ he
  obtain ⟨M, T, h1, her⟩ := erase_at hv.repr hv.rb hz (show t.height ≤ fuel by omega)
  have hv' := her.keeps_valid hv
  have habs := her.absent hv he rfl heq
  have hloc := (locate_correct hv'.swo hv'.sorted key).2.mpr habs
  obtain ⟨l1, l2, kz, vz, hn1, hn2⟩ := her.nodes
  have hT : T.height < fuel := by
    have h2 := Tree.height_le_size T
    have h3 : T.size < t.size := by
      rw [Tree.size_eq_length, Tree.size_eq_length, hn1, hn2]
      simp only [List.length_append, List.length_cons]
      omega
    omega
  refine ⟨⟨some e.1, some m.self⟩, M, ?_, h1, ?_, ?_, ?_⟩
  · simp only [find, RB_find_mode0 hv.repr key (show t.height < fuel by omega), hfound,
      Option.bind_eq_bind, Option.some_bind, Option.pure_def]
  · simp only [find, RB_find_mode0 hv'.repr key hT, hloc, Option.bind_eq_bind,
      Option.some_bind, Option.pure_def, end_]
  · simp only [find_const, RB_find_const_spec hv'.repr hv'.swo key hT, hloc,
      Option.bind_eq_bind, Option.some_bind, Option.pure_def, end_]
  · simp only [count, RB_find_const_spec hv'.repr hv'.swo key hT, hloc, Option.bind_eq_bind,
      Option.some_bind, Option.pure_def, bne_self_eq_false, Bool.false_eq_true, if_false]

theorem erase_find_absent_witness :
    Valid exMap exTree ∧ (∃ k ∈ exTree.keys, equal exMap.cmp 20 k = true) ∧
    exTree.size < 4 ∧
    ∃ it M, find 4 exMap 20 = some (exMap, it) ∧ erase 4 exMap it = some (M, .ok ()) ∧
      find 4 M 20 = some (M, end_ M) ∧ find_const 4 M 20 = some (end_ M) ∧
      count 4 M 20 = some 0 :=
  ⟨exMap_valid, ⟨20, by decide, by decide⟩, by decide,
    erase_find_absent exMap_valid 20 ⟨20, by decide, by decide⟩ (by decide)⟩

/-!
## Sequences of operations on an initially empty map
-/


/-- The empty map is a valid map. -/
theorem mk_valid {cmp : K → K → Bool} (hs : StrictWeak cmp) (self : Nat)
    (heap : Nat → Option (Node K V)) (next : Nat) (hfresh : ∀ a, next ≤ a → heap a = none) :
    Valid (mk cmp self heap next) (.nil : Tree K V) :=
  ⟨⟨rfl, trivial, List.nodup_nil⟩, List.Pairwise.nil, ⟨rfl, trivial, 0, rfl⟩, hs, hfresh⟩

/-- One call on a valid map returns and leaves a valid map with the same comparator and at
most one more node. -/
theorem step_valid [Inhabited V] {m : MapState K V} {t : Tree K V} (hv : Valid m t)
    (op : Op K V) {fuel : Nat} (hfuel : t.size + 1 < fuel) :
    ∃ M T, step fuel m op = some M ∧ Valid M T ∧ M.cmp = m.cmp ∧ T.size ≤ t.size + 1 := by
  have hh := Tree.height_le_size t
  cases op with
  | insert k v =>
    obtain ⟨M, T, r, h1, h2, h3, h4⟩ := insert_valid hv (k, v) (show t.height + 1 < fuel by omega)
    exact ⟨M, T, by simp only [step, h1, Option.map_some'], h2, h3, h4⟩
  | index k =>
    obtain ⟨M, T, a, h1, h2, -, h3, h4⟩ := index_valid hv k (show t.height + 1 < fuel by omega)
    exact ⟨M, T, by simp only [step, h1, Option.map_some'], h2, h3, h4⟩
  | erase k =>
    have hfind := RB_find_mode0 hv.repr k (show t.height < fuel by omega)
    cases hloc : (locate m.cmp k t []).2 with
    | nil =>
      refine ⟨m, t, ?_, hv, rfl, Nat.le_succ _⟩
      simp only [step, find, hfind, hloc, Tree.ptr_nil, Option.bind_eq_bind, Option.some_bind,
        Option.pure_def, erase, Option.map_some']
    | node a c l k' v r =>
      obtain ⟨-, hmem⟩ := locate_found hloc
      have hz : a ∈ t.addrs := by
        rw [Tree.addrs_eq_map]; exact List.mem_map_of_mem (fun e => e.1) hmem
      obtain ⟨M, T, h1, her⟩ := erase_at hv.repr hv.rb hz (show t.height ≤ fuel by omega)
      obtain ⟨l1, l2, kz, vz, hn1, hn2⟩ := her.nodes
      refine ⟨M, T, ?_, her.keeps_valid hv, her.cmp, ?_⟩
      · simp only [step, find, hfind, hloc, Tree.ptr_node, Option.bind_eq_bind,
          Option.some_bind, Option.pure_def, h1, Option.map_some']
      · rw [Tree.size_eq_length, Tree.size_eq_length, hn1, hn2]
        simp only [List.length_append, List.length_cons]
        omega

/-- A sequence of calls on a valid map returns and leaves a valid map. -/
theorem run_valid [Inhabited V] (ops : List (Op K V)) : ∀ {m : MapState K V} {t : Tree K V},
    Valid m t → ∀ {fuel : Nat}, t.size + ops.length + 1 < fuel →
    ∃ M T, run fuel m ops = some M ∧ Valid M T ∧ M.cmp = m.cmp := by
  induction ops with
  | nil => intro m t hv fuel _; exact ⟨m, t, rfl, hv, rfl⟩
  | cons op ops ih =>
    intro m t hv fuel hfuel
    simp only [List.length_cons] at hfuel
    obtain ⟨M1, T1, h1, hv1, hc1, hs1⟩ := step_valid hv op (show t.size + 1 < fuel by omega)
    obtain ⟨M, T, h2, hv2, hc2⟩ := ih hv1 (show T1.size + ops.length + 1 < fuel by omega)
    exact ⟨M, T, by simp only [run, h1, Option.bind_eq_bind, Option.some_bind, h2], hv2,
      hc2.trans hc1⟩

/-- C3: every finite sequence of `insert`, `operator[]` and `erase` calls on an initially
empty map whose comparator is a strict weak order returns, and the in-order sequence of the
keys of the tree the map then holds is strictly increasing under the comparator; no two of
its keys are equivalent. -/
theorem ops_keep_sorted [Inhabited V] {cmp : K → K → Bool} (hs : StrictWeak cmp) (self : Nat)
    (heap : Nat → Option (Node K V)) (next : Nat) (hfresh : ∀ a, next ≤ a → heap a = none)
    (ops : List (Op K V)) {fuel : Nat} (hfuel : ops.length + 1 < fuel) :
    ∃ M T, run fuel (mk cmp self heap next) ops = some M ∧ Repr M T ∧
      T.keys.Pairwise (fun a b => cmp a b = true) ∧
      T.keys.Pairwise (fun a b => equal cmp a b = false) := by
  obtain ⟨M, T, h1, hv, hc⟩ := run_valid ops (mk_valid hs self heap next hfresh)
    (show (Tree.nil : Tree K V).size + ops.length + 1 < fuel by simpa [Tree.size] using hfuel)
  have hsorted : T.keys.Pairwise (fun a b => cmp a b = true) := by
    have := hv.sorted
    rw [hc] at this
    exact this
  exact ⟨M, T, h1, hv.repr, hsorted, hsorted.imp (fun h => equal_false_of_lt h)⟩

theorem ops_keep_sorted_witness :
    StrictWeak natLt ∧ (∀ a, 1 ≤ a → (fun _ => none : Nat → Option (Node Nat Nat)) a = none) ∧
    [Op.insert 5 50, Op.insert 3 30, Op.index 8, Op.insert 3 31, Op.erase 5,
      Op.erase 7].length + 1 < 8 ∧
    ∃ M T, run 8 (mk natLt 0 (fun _ => none) 1)
        [Op.insert 5 50, Op.insert 3 30, Op.index 8, Op.insert 3 31, Op.erase 5, Op.erase 7] =
          some M ∧ Repr M T ∧
      T.keys.Pairwise (fun a b => natLt a b = true) ∧
      T.keys.Pairwise (fun a b => equal natLt a b = false) :=
  ⟨natLt_strictWeak, fun _ _ => rfl, by decide,
    ops_keep_sorted natLt_strictWeak 0 (fun _ => none) 1 (fun _ _ => rfl) _ (by decide)⟩

/-!
## Element access: `at` and `operator[]`
-/


/-- C11: on a map whose tree is ordered under a strict weak order, `at(key)` (both overloads)
and the const `operator[](key)` return; they throw `index_out_of_bound` exactly when no
stored key is equivalent to `key`; otherwise the reference they return denotes the mapped
value of the node whose key is equivalent to `key`; the non-const overload leaves the state
(heap, root and `siz`) as it was. -/
theorem at_checked [Inhabited V] {m : MapState K V} {t : Tree K V} (hr : Repr m t)
    (hs : StrictWeak m.cmp) (hsorted : t.Sorted m.cmp) (key : K) {fuel : Nat}
    (hfuel : t.height < fuel) :
    ∃ r, at_ fuel m key = some (m, r) ∧ at_const fuel m key = some r ∧
      index_const fuel m key = some r ∧
      (r = .error .index_out_of_bound ↔ ∀ k ∈ t.keys, equal m.cmp key k = false) ∧
      (∀ e ∈ t.nodes, equal m.cmp key e.2.1 = true →
        r = .ok e.1 ∧ ∃ n, m.heap e.1 = some n ∧ n.value = e.2.2) := by
  have h0 := RB_find_mode0 hr key hfuel
  have hc := RB_find_const_spec hr hs key hfuel
  obtain ⟨hfound, hnone⟩ := locate_correct hs hsorted key
  cases hloc : (locate m.cmp key t []).2 with
  | nil =>
    rw [hloc] at h0 hc hfound hnone
    simp only [Tree.ptr_nil] at h0 hc hfound hnone
    have habs := hnone.mp trivial
    refine ⟨.error .index_out_of_bound, ?_, ?_, ?_, ?_, ?_⟩
    · simp only [at_, h0, Option.bind_eq_bind, Option.some_bind, Option.pure_def]
    · simp only [at_const, hc, Option.bind_eq_bind, Option.some_bind, Option.pure_def]
    · simp only [index_const, at_const, hc, Option.bind_eq_bind, Option.some_bind,
        Option.pure_def]
    · exact ⟨fun _ => habs, fun _ => rfl⟩
    · intro e he heq
      exact absurd (hfound e he heq) (by simp)
  | node a c l k v r =>
    obtain ⟨heq0, hmem⟩ := locate_found hloc
    rw [hloc] at h0 hc hfound hnone
    simp only [Tree.ptr_node] at h0 hc hfound hnone
    obtain ⟨n, hn, -, hval⟩ := Rep_node_of_mem hr.rep hmem
    simp only at hn hval
    refine ⟨.ok a, ?_, ?_, ?_, ?_, ?_⟩
    · simp only [at_, h0, hn, Option.bind_eq_bind, Option.some_bind, Option.pure_def]
    · simp only [at_const, hc, hn, Option.bind_eq_bind, Option.some_bind, Option.pure_def]
    · simp only [index_const, at_const, hc, hn, Option.bind_eq_bind, Option.some_bind,
        Option.pure_def]
    · refine ⟨fun h => by simp at h, fun h => ?_⟩
      have := h k (List.mem_map_of_mem (fun e => e.2.1) hmem)
      rw [heq0] at this
      exact absurd this (by simp)
    · intro e he heq
      have ha := hfound e he heq
      simp only [Option.some.injEq] at ha
      have hee := Tree.equiv_unique hs hsorted hmem he heq0 heq
      subst hee
      exact ⟨rfl, n, hn, hval⟩

theorem at_checked_witness :
    Repr exMap exTree ∧ StrictWeak exMap.cmp ∧ exTree.Sorted exMap.cmp ∧ exTree.height < 3 ∧
    ∃ r, at_ 3 exMap 25 = some (exMap, r) ∧ at_const 3 exMap 25 = some r ∧
      index_const 3 exMap 25 = some r ∧
      (r = .error .index_out_of_bound ↔ ∀ k ∈ exTree.keys, equal exMap.cmp 25 k = false) ∧
      (∀ e ∈ exTree.nodes, equal exMap.cmp 25 e.2.1 = true →
        r = .ok e.1 ∧ ∃ n, exMap.heap e.1 = some n ∧ n.value = e.2.2) :=
  ⟨exMap_repr, natLt_strictWeak, exTree_sorted, by decide,
    at_checked exMap_repr natLt_strictWeak exTree_sorted 25 (by decide)⟩

/-- C12: on a valid map, `operator[](key)` on an absent key returns a reference to the
mapped value of a new node that holds `key` and the default value `T()`; the in-order
sequence of nodes afterwards is the previous one with that node put in, every earlier node
keeping its address, key and value; `count(key)` is then 1 and `size()` has grown by one. On
a present key it returns a reference to the mapped value of the existing node and leaves
the state (heap, root and `siz`) as it was. -/
theorem index_inserts_on_miss [Inhabited V] {m : MapState K V} {t : Tree K V} (hv : Valid m t)
    (key : K) {fuel : Nat} (hfuel : t.size + 1 < fuel) (hsz : m.siz + 1 < 2 ^ 64) :
    ((∀ k ∈ t.keys, equal m.cmp key k = false) →
      ∃ M T a, index fuel m key = some (M, a) ∧ Valid M T ∧
        (∃ n, M.heap a = some n ∧ n.key = key ∧ n.value = default) ∧
        (∃ l1 l2, t.nodes = l1 ++ l2 ∧ T.nodes = l1 ++ (a, key, default) :: l2) ∧
        count fuel M key = some 1 ∧ size M = size m + 1) ∧
    (∀ e ∈ t.nodes, equal m.cmp key e.2.1 = true →
      index fuel m key = some (m, e.1) ∧ ∃ n, m.heap e.1 = some n ∧ n.value = e.2.2) := by
  have hh := Tree.height_le_size t
  constructor
  · intro habs
    obtain ⟨M, T, hfind, hins⟩ := RB_find_insert_absent hv key habs
      (show t.height + 1 < fuel by omega)
    obtain ⟨l1, l2, hn1, hn2, -, -⟩ := hins.nodes
    have hmem : (m.next, key, default) ∈ T.nodes := by rw [hn2]; simp
    obtain ⟨n, hn, hk, hval⟩ := Rep_node_of_mem hins.repr.rep hmem
    simp only at hn hk hval
    have hv' := hins.valid hv
    have hT : T.height < fuel := by
      have h1 := Tree.height_le_size T
      have h2 := hins.size
      omega
    have hself : equal M.cmp key key = true := by
      simp [equal, hv'.swo.irrefl]
    have hloc := (locate_correct hv'.swo hv'.sorted key).1 _ hmem hself
    refine ⟨M, T, m.next, ?_, hv', ⟨n, hn, hk, hval⟩, ⟨l1, l2, hn1, hn2⟩, ?_, ?_⟩
    · simp only [index, hfind, hn, Option.bind_eq_bind, Option.some_bind, Option.pure_def]
    · simp only [count, RB_find_const_spec hv'.repr hv'.swo key hT, hloc, Option.bind_eq_bind,
        Option.some_bind, Option.pure_def]
      rfl
    · simp only [size, hins.siz]
      exact Nat.mod_eq_of_lt hsz
  · intro e he heq
    have hfound := (locate_correct hv.swo hv.sorted key).1 e he heq
    obtain ⟨n, hn, -, hval⟩ := Rep_node_of_mem hv.repr.rep he
    refine ⟨?_, n, hn, hval⟩
    simp only [index, RB_find_mode1_present hv.repr key (show t.height < fuel by omega) hfound,
      hn, Option.bind_eq_bind, Option.some_bind, Option.pure_def]

theorem index_inserts_on_miss_witness :
    Valid exMap exTree ∧ exTree.size + 1 < 5 ∧ exMap.siz + 1 < 2 ^ 64 ∧
    ((∀ k ∈ exTree.keys, equal exMap.cmp 25 k = false) →
      ∃ M T a, index 5 exMap 25 = some (M, a) ∧ Valid M T ∧
        (∃ n, M.heap a = some n ∧ n.key = 25 ∧ n.value = default) ∧
        (∃ l1 l2, exTree.nodes = l1 ++ l2 ∧ T.nodes = l1 ++ (a, 25, default) :: l2) ∧
        count 5 M 25 = some 1 ∧ size M = size exMap + 1) ∧
    (∀ e ∈ exTree.nodes, equal exMap.cmp 25 e.2.1 = true →
      index 5 exMap 25 = some (exMap, e.1) ∧ ∃ n, exMap.heap e.1 = some n ∧ n.value = e.2.2) :=
  ⟨exMap_valid, by decide, by decide,
    index_inserts_on_miss exMap_valid 25 (by decide) (by decide)⟩

/-!
## Iterators: `begin`, `++`, `--`, `*`, `->`, `==`
-/


/-- The loop of `minmax(x, 0)` reaches the first node of the in-order sequence. -/
theorem minmax_loop_first {h : Nat → Option (Node K V)} (t : Tree K V) :
    ∀ (pa : NodePtr) (fuel : Nat) (a : Nat), Rep h t pa → t.ptr = some a → t.height ≤ fuel →
    ∃ e, t.nodes.head? = some e ∧ minmax_loop h false fuel a = some e.1 := by
  induction t with
  | nil => intro pa fuel a _ h; simp at h
  | node b c l k v r ihl _ =>
    intro pa fuel a hrep ha hfuel
    simp only [Tree.ptr_node, Option.some.injEq] at ha
    subst ha
    obtain ⟨h1, h2, -⟩ := hrep
    have hl : l.height + 1 ≤ fuel := by
      have : l.height + 1 ≤ (Tree.node b c l k v r).height := by
        show _ ≤ Max.max _ _ + 1
        have := Nat.le_max_left l.height r.height
        omega
      omega
    cases fuel with
    | zero => omega
    | succ n =>
      cases l with
      | nil =>
        refine ⟨(b, k, v), by simp, ?_⟩
        simp [minmax_loop, h1, Node.ch]
      | node la lc ll lk lv lr =>
        obtain ⟨e, he, hloop⟩ := ihl (some b) n la h2 rfl (by omega)
        refine ⟨e, ?_, ?_⟩
        · simp only [Tree.nodes_node] at he ⊢
          rw [List.head?_append_of_ne_nil _ (by simp)]
          exact he
        · simp only [minmax_loop, h1, Node.ch, Option.bind_eq_bind, Option.some_bind,
            Tree.ptr_node, Bool.false_eq_true, if_false]
          exact hloop

theorem getLast_append_of_some {α : Type} (l1 : List α) {l2 : List α} {e : α}
    (h : l2.getLast? = some e) : (l1 ++ l2).getLast? = some e := by
  rw [List.getLast?_append, h]
  rfl

/-- The loop of `minmax(x, 1)` reaches the last node of the in-order sequence. -/
theorem minmax_loop_last {h : Nat → Option (Node K V)} (t : Tree K V) :
    ∀ (pa : NodePtr) (fuel : Nat) (a : Nat), Rep h t pa → t.ptr = some a → t.height ≤ fuel →
    ∃ e, t.nodes.getLast? = some e ∧ minmax_loop h true fuel a = some e.1 := by
  induction t with
  | nil => intro pa fuel a _ h; simp at h
  | node b c l k v r _ ihr =>
    intro pa fuel a hrep ha hfuel
    simp only [Tree.ptr_node, Option.some.injEq] at ha
    subst ha
    obtain ⟨h1, -, h3⟩ := hrep
    have hr : r.height + 1 ≤ fuel := by
      have : r.height + 1 ≤ (Tree.node b c l k v r).height := by
        show _ ≤ Max.max _ _ + 1
        have := Nat.le_max_right l.height r.height
        omega
      omega
    cases fuel with
    | zero => omega
    | succ n =>
      cases r with
      | nil =>
        refine ⟨(b, k, v), by simp, ?_⟩
        simp [minmax_loop, h1, Node.ch]
      | node ra rc rl rk rv rr =>
        obtain ⟨e, he, hloop⟩ := ihr (some b) n ra h3 rfl (by omega)
        refine ⟨e, ?_, ?_⟩
        · rw [Tree.nodes_node]
          exact getLast_append_of_some _ (getLast_append_of_some [(b, k, v)] he)
        · simp only [minmax_loop, h1, Node.ch, Option.bind_eq_bind, Option.some_bind,
            Tree.ptr_node, if_true]
          exact hloop

/-- The upward loop of `predsucc(x, d)` stops at the first ancestor whose child `ch(!d)` is
on the path. -/
theorem predsucc_loop_spec {h : Nat → Option (Node K V)} (d : Bool) (ctx : List (Frame K V)) :
    ∀ (x : Nat) (nx : Node K V) (fuel : Nat), RepC h ctx (some x) → h x = some nx →
    nx.pa = parentOf ctx → x ∉ ctxAddrs ctx → (ctxAddrs ctx).Nodup → ctx.length < fuel →
    predsucc_loop h d fuel x = some ((ctx.find? (fun f => f.d == !d)).map (fun f => f.a)) := by
  induction ctx with
  | nil =>
    intro x nx fuel _ hx hpa _ _ hfuel
    cases fuel with
    | zero => simp at hfuel
    | succ n =>
      simp only [parentOf_nil] at hpa
      simp [predsucc_loop, hx, hpa]
  | cons f fs ih =>
    intro x nx fuel hC hx hpa hxC hnd hfuel
    cases fuel with
    | zero => simp at hfuel
    | succ n =>
      obtain ⟨hf, -, hup⟩ := hC
      simp only [parentOf_cons] at hpa
      simp only [ctxAddrs, List.nodup_cons, List.mem_append, not_or, List.mem_cons] at hnd hxC
      simp only [predsucc_loop, hx, hpa, hf, Option.bind_eq_bind, Option.some_bind,
        Option.pure_def, List.find?_cons]
      by_cases hd : f.d = !d
      · have e1 : ((nodeD f.d f.k f.v f.c (some x) f.sib.ptr (parentOf fs)).ch (!d) ==
            some x) = true := by
          rw [← hd, nodeD_ch]; simp
        have e2 : (f.d == !d) = true := by rw [hd]; simp
        simp only [e1, e2, if_true, Option.map_some']
      · have hd' : f.d = d := by
          cases hfd : f.d <;> cases hdd : d <;> simp_all
        have e1 : ((nodeD f.d f.k f.v f.c (some x) f.sib.ptr (parentOf fs)).ch (!d) ==
            some x) = false := by
          rw [← hd', nodeD_ch_not]
          simp only [beq_eq_false_iff_ne, ne_eq]
          exact fun h => hxC.2.1 (Tree.ptr_mem_addrs h)
        have e2 : (f.d == !d) = false := by
          rw [hd']; cases d <;> rfl
        simp only [e1, e2, Bool.false_eq_true, if_false]
        exact ih f.a _ n hup hf (nodeD_pa ..) hnd.1.2 (List.nodup_append.mp hnd.2).2.1
          (by simpa using hfuel)

theorem ctxRight_head (ctx : List (Frame K V)) :
    (ctxRight ctx).head? =
      (ctx.find? (fun f => f.d == !true)).map (fun f => (f.a, f.k, f.v)) := by
  induction ctx with
  | nil => rfl
  | cons f fs ih =>
    simp only [ctxRight, List.find?_cons]
    cases hd : f.d
    · simp
    · simpa using ih

theorem ctxLeft_getLast (ctx : List (Frame K V)) :
    (ctxLeft ctx).getLast? =
      (ctx.find? (fun f => f.d == !false)).map (fun f => (f.a, f.k, f.v)) := by
  induction ctx with
  | nil => rfl
  | cons f fs ih =>
    simp only [ctxLeft, List.find?_cons]
    cases hd : f.d
    · simpa using ih
    · simp only [if_true, Bool.not_false, beq_self_eq_true, Option.map_some']
      exact getLast_append_of_some _ (getLast_append_of_some _ (by simp))

/-- A node of a represented tree, seen in its context, with the in-order sequence split at
it. -/
theorem split_at_node {m : MapState K V} {t : Tree K V} (hr : Repr m t)
    {l1 l2 : List (Nat × K × V)} {e : Nat × K × V} (hn : t.nodes = l1 ++ e :: l2) :
    ∃ ctx c l r, t = plug ctx (.node e.1 c l e.2.1 e.2.2 r) ∧
      l1 = ctxLeft ctx ++ l.nodes ∧ l2 = r.nodes ++ ctxRight ctx := by
  obtain ⟨a, k0, v0⟩ := e
  have hmem : a ∈ t.addrs := by
    rw [Tree.addrs_eq_map, hn]; simp
  obtain ⟨ctx, c, l, k, v, r, rfl⟩ := exists_plug_of_mem hmem
  have hn' : (plug ctx (.node a c l k v r)).nodes =
      (ctxLeft ctx ++ l.nodes) ++ (a, k, v) :: (r.nodes ++ ctxRight ctx) := by
    simp [nodes_plug]
  have hnd := hr.nodup
  rw [Tree.addrs_eq_map, hn] at hnd
  obtain ⟨h1, h2, h3⟩ := split_unique (hn.symm.trans hn') rfl hnd
  simp only [Prod.mk.injEq, true_and] at h2
  obtain ⟨rfl, rfl⟩ := h2
  exact ⟨ctx, c, l, r, rfl, h1, h3⟩

/-- The source's `succ(x)` on a node of a represented tree: the next node of the in-order
sequence, or null after the last one. -/
theorem succ_spec {m : MapState K V} {t : Tree K V} (hr : Repr m t)
    {l1 l2 : List (Nat × K × V)} {e : Nat × K × V} (hn : t.nodes = l1 ++ e :: l2)
    {fuel : Nat} (hfuel : t.height < fuel) :
    succ m.heap fuel e.1 = some (l2.head?.map (fun x => x.1)) := by
  obtain ⟨ctx, c, l, r, rfl, -, rfl⟩ := split_at_node hr hn
  have hx := hr.heap_node
  have hh := height_plug ctx (.node e.1 c l e.2.1 e.2.2 r)
  have hrep := hr.rep
  rw [Rep_plug] at hrep
  obtain ⟨hC, -, -, hR⟩ := hrep
  have hnd := hr.nodup
  rw [nodup_addrs_plug] at hnd
  cases r with
  | nil =>
    have := predsucc_loop_spec true ctx e.1 _ fuel hC hx rfl (hnd.2.2 _ (by simp)) hnd.2.1
      (by simp only [Tree.height] at hh; omega)
    simp only [succ, predsucc, hx, Node.ch, if_true, Tree.ptr_nil, Option.bind_eq_bind,
      Option.some_bind, this, Tree.nodes_nil, List.nil_append, ctxRight_head]
    cases ctx.find? (fun f => f.d == !true) <;> rfl
  | node ra rc rl rk rv rr =>
    have hrh : (Tree.node ra rc rl rk rv rr).height ≤ fuel := by
      have : (Tree.node ra rc rl rk rv rr).height + 1 ≤
          (Tree.node e.1 c l e.2.1 e.2.2 (Tree.node ra rc rl rk rv rr)).height := by
        show _ ≤ Max.max _ _ + 1
        have := Nat.le_max_right l.height (Tree.node ra rc rl rk rv rr).height
        omega
      omega
    obtain ⟨e', he', hloop⟩ := minmax_loop_first _ (some e.1) fuel ra hR rfl hrh
    have hhead : ((Tree.node ra rc rl rk rv rr).nodes ++ ctxRight ctx).head? = some e' := by
      rw [List.head?_append_of_ne_nil _ (by simp)]
      exact he'
    rw [hhead]
    simp only [succ, predsucc, hx, Node.ch, if_true, Tree.ptr_node, Option.bind_eq_bind,
      Option.some_bind, minmax, Bool.not_true, hloop, Option.map_some']

/-- The source's `pred(x)` on a node of a represented tree: the previous node of the in-order
sequence, or null before the first one. -/
theorem pred_spec {m : MapState K V} {t : Tree K V} (hr : Repr m t)
    {l1 l2 : List (Nat × K × V)} {e : Nat × K × V} (hn : t.nodes = l1 ++ e :: l2)
    {fuel : Nat} (hfuel : t.height < fuel) :
    pred m.heap fuel e.1 = some (l1.getLast?.map (fun x => x.1)) := by
  obtain ⟨ctx, c, l, r, rfl, rfl, -⟩ := split_at_node hr hn
  have hx := hr.heap_node
  have hh := height_plug ctx (.node e.1 c l e.2.1 e.2.2 r)
  have hrep := hr.rep
  rw [Rep_plug] at hrep
  obtain ⟨hC, -, hL, -⟩ := hrep
  have hnd := hr.nodup
  rw [nodup_addrs_plug] at hnd
  cases l with
  | nil =>
    have := predsucc_loop_spec false ctx e.1 _ fuel hC hx rfl (hnd.2.2 _ (by simp)) hnd.2.1
      (by simp only [Tree.height] at hh; omega)
    simp only [pred, predsucc, hx, Node.ch, Bool.false_eq_true, if_false, Tree.ptr_nil,
      Option.bind_eq_bind, Option.some_bind, this, Tree.nodes_nil, List.append_nil,
      ctxLeft_getLast]
    cases ctx.find? (fun f => f.d == !false) <;> rfl
  | node la lc ll lk lv lr =>
    have hlh : (Tree.node la lc ll lk lv lr).height ≤ fuel := by
      have : (Tree.node la lc ll lk lv lr).height + 1 ≤
          (Tree.node e.1 c (Tree.node la lc ll lk lv lr) e.2.1 e.2.2 r).height := by
        show _ ≤ Max.max _ _ + 1
        have := Nat.le_max_left (Tree.node la lc ll lk lv lr).height r.height
        omega
      omega
    obtain ⟨e', he', hloop⟩ := minmax_loop_last _ (some e.1) fuel la hL rfl hlh
    rw [getLast_append_of_some _ he']
    simp only [pred, predsucc, hx, Node.ch, Bool.false_eq_true, if_false, Tree.ptr_node,
      Option.bind_eq_bind, Option.some_bind, minmax, Bool.not_false, hloop, Option.map_some']

/-!
## The claims on iterators
-/


/-- The source's `begin()` on a represented tree: the first node of the in-order sequence,
`end()` on the empty tree. -/
theorem begin_spec {m : MapState K V} {t : Tree K V} (hr : Repr m t) {fuel : Nat}
    (hfuel : t.height < fuel) :
    begin fuel m = some ⟨t.nodes.head?.map (fun e => e.1), some m.self⟩ := by
  cases t with
  | nil => simp [begin, min, minmax, hr.root]
  | node a c l k v r =>
    obtain ⟨e, he, hloop⟩ := minmax_loop_first _ none fuel a hr.rep rfl (Nat.le_of_lt hfuel)
    simp only [begin, min, minmax, hr.root, Tree.ptr_node, hloop, Option.map_some',
      Option.bind_eq_bind, Option.some_bind, Option.pure_def, he]

/-- The source's prefix `operator++` at a node of a represented tree. -/
theorem inc_spec {m : MapState K V} {t : Tree K V} (hr : Repr m t)
    {l1 l2 : List (Nat × K × V)} {e : Nat × K × V} (hn : t.nodes = l1 ++ e :: l2)
    {fuel : Nat} (hfuel : t.height < fuel) (s : Nat) :
    iterator.inc m.heap fuel ⟨some e.1, some s⟩ =
      some (⟨l2.head?.map (fun x => x.1), some s⟩, .ok ()) := by
  simp only [iterator.inc, succ_spec hr hn hfuel, Option.bind_eq_bind, Option.some_bind,
    Option.pure_def]

/-- The client loop over the rest of the in-order sequence reads its entries in order and
ends at `end()`. -/
theorem walk_spec {m : MapState K V} {t : Tree K V} (hr : Repr m t) {fuel : Nat}
    (hfuel : t.height < fuel) (s : Nat) (l2 : List (Nat × K × V)) :
    ∀ (l1 : List (Nat × K × V)) (acc : List (K × V)), t.nodes = l1 ++ l2 →
    walk m.heap fuel l2.length ⟨l2.head?.map (fun x => x.1), some s⟩ acc =
      some (⟨none, some s⟩, acc ++ l2.map (fun x => x.2)) := by
  induction l2 with
  | nil => intro l1 acc _; simp [walk]
  | cons e l2 ih =>
    intro l1 acc hn
    have hmem : e ∈ t.nodes := by rw [hn]; simp
    obtain ⟨n, h1, h2, h3⟩ := Rep_node_of_mem hr.rep hmem
    have hstar : iterator.star m.heap ⟨some e.1, some s⟩ = some (.ok (e.2.1, e.2.2)) := by
      simp only [iterator.star, h1, h2, h3, Option.bind_eq_bind, Option.some_bind,
        Option.pure_def]
    have hrec := ih (l1 ++ [e]) (acc ++ [e.2]) (by simp [hn])
    simp only [List.length_cons, List.head?_cons, Option.map_some', walk, hstar,
      inc_spec hr hn hfuel s, hrec, List.map_cons, List.append_assoc, List.singleton_append]

/-- C14: on a valid map whose `size()` is the number of nodes, `begin()` is positioned at the
first entry of the in-order sequence (`end()` when there is none); `++` from a node moves to
the next node of the in-order sequence and, from the last node, to the past-end position,
without throwing; the loop that starts at `begin()` and reads and advances `size()` times
reads every entry once, in in-order sequence, and ends at `end()`; the keys of the in-order
sequence are strictly increasing under the comparator; and `begin() == end()` exactly when
the map is empty. -/
theorem forward_iteration {m : MapState K V} {t : Tree K V} (hv : Valid m t)
    (hsiz : m.siz = t.size) {fuel : Nat} (hfuel : t.height < fuel) :
    ∃ b, begin fuel m = some b ∧ b = ⟨t.nodes.head?.map (fun e => e.1), some m.self⟩ ∧
      (∀ l1 e l2, t.nodes = l1 ++ e :: l2 →
        iterator.inc m.heap fuel ⟨some e.1, some m.self⟩ =
          some (⟨l2.head?.map (fun x => x.1), some m.self⟩, .ok ())) ∧
      (∀ l1 e, t.nodes = l1 ++ [e] →
        iterator.inc m.heap fuel ⟨some e.1, some m.self⟩ = some (end_ m, .ok ())) ∧
      walk m.heap fuel (size m) b [] = some (end_ m, t.entries) ∧
      t.keys.Pairwise (fun x y => m.cmp x y = true) ∧
      (iterator.eq b (end_ m) = true ↔ empty m = true) ∧ (empty m = true ↔ t = .nil) := by
  refine ⟨_, begin_spec hv.repr hfuel, rfl, fun l1 e l2 hn => inc_spec hv.repr hn hfuel _,
    fun l1 e hn => inc_spec hv.repr hn hfuel _, ?_, hv.sorted, ?_, ?_⟩
  · have := walk_spec hv.repr hfuel m.self t.nodes [] [] rfl
    rw [← Tree.size_eq_length, ← hsiz] at this
    simpa [size, end_, Tree.entries] using this
  · simp only [iterator.eq, end_, empty, hsiz, beq_self_eq_true, Bool.and_true]
    cases t with
    | nil => simp [Tree.size]
    | node a c l k v r =>
      simp only [Tree.nodes_node, Tree.size]
      cases hl : l.nodes <;> simp
  · simp only [empty, hsiz]
    cases t <;> simp [Tree.size]

theorem forward_iteration_witness :
    Valid exMap exTree ∧ exMap.siz = exTree.size ∧ exTree.height < 3 ∧
    ∃ b, begin 3 exMap = some b ∧ b = ⟨exTree.nodes.head?.map (fun e => e.1), some exMap.self⟩ ∧
      (∀ l1 e l2, exTree.nodes = l1 ++ e :: l2 →
        iterator.inc exMap.heap 3 ⟨some e.1, some exMap.self⟩ =
          some (⟨l2.head?.map (fun x => x.1), some exMap.self⟩, .ok ())) ∧
      (∀ l1 e, exTree.nodes = l1 ++ [e] →
        iterator.inc exMap.heap 3 ⟨some e.1, some exMap.self⟩ = some (end_ exMap, .ok ())) ∧
      walk exMap.heap 3 (size exMap) b [] = some (end_ exMap, exTree.entries) ∧
      exTree.keys.Pairwise (fun x y => exMap.cmp x y = true) ∧
      (iterator.eq b (end_ exMap) = true ↔ empty exMap = true) ∧
      (empty exMap = true ↔ exTree = .nil) :=
  ⟨exMap_valid, by decide, by decide, forward_iteration exMap_valid (by decide) (by decide)⟩

/-- C15 as stated fails on the code: on the three-entry map `exMap`, `begin()` is at the
node 2 (key 10, the smallest), and `--` there throws `invalid_iterator` and leaves the
iterator where it was; it does not yield the past-end position. -/
theorem dec_at_begin_counterexample :
    begin 3 exMap = some ⟨some 2, some 0⟩ ∧
    iterator.dec 3 exMap ⟨some 2, some 0⟩ =
      some (⟨some 2, some 0⟩, .error .invalid_iterator) ∧
    iterator.dec 3 exMap ⟨some 2, some 0⟩ ≠ some (end_ exMap, .ok ()) := by
  have h : iterator.dec 3 exMap ⟨some 2, some 0⟩ =
      some (⟨some 2, some 0⟩, .error .invalid_iterator) := by
    simp [iterator.dec, pred, predsucc, predsucc_loop, exMap, exHeap, Node.ch]
  refine ⟨?_, h, ?_⟩
  · simp [begin, min, minmax, minmax_loop, exMap, exHeap, Node.ch]
  · rw [h]
    simp

/-- C15, amended: on a represented tree, `--` (prefix and postfix) at a node that has a
predecessor moves the iterator to the previous node of the in-order sequence; at the first
node of the in-order sequence it throws `invalid_iterator` and leaves the iterator where it
was. -/
theorem dec_spec {m : MapState K V} {t : Tree K V} (hr : Repr m t) {fuel : Nat}
    (hfuel : t.height < fuel) (s : Nat) :
    (∀ l1 p e l2, t.nodes = l1 ++ p :: e :: l2 →
      iterator.dec fuel m ⟨some e.1, some s⟩ = some (⟨some p.1, some s⟩, .ok ()) ∧
      iterator.post_dec fuel m ⟨some e.1, some s⟩ =
        some (⟨some p.1, some s⟩, .ok ⟨some e.1, some s⟩)) ∧
    (∀ e l2, t.nodes = e :: l2 →
      iterator.dec fuel m ⟨some e.1, some s⟩ =
        some (⟨some e.1, some s⟩, .error .invalid_iterator) ∧
      iterator.post_dec fuel m ⟨some e.1, some s⟩ =
        some (⟨some e.1, some s⟩, .error .invalid_iterator)) := by
  constructor
  · intro l1 p e l2 hn
    have hn' : t.nodes = (l1 ++ [p]) ++ e :: l2 := by simp [hn]
    have h := pred_spec hr hn' hfuel
    have hd : iterator.dec fuel m ⟨some e.1, some s⟩ = some (⟨some p.1, some s⟩, .ok ()) := by
      simp only [iterator.dec, h, Option.bind_eq_bind, Option.some_bind, Option.pure_def,
        List.getLast?_append, List.getLast?_singleton, Option.or, Option.map_some']
    refine ⟨hd, ?_⟩
    simp only [iterator.post_dec, hd, Option.bind_eq_bind, Option.some_bind, Option.pure_def]
  · intro e l2 hn
    have hn' : t.nodes = [] ++ e :: l2 := by simp [hn]
    have h := pred_spec hr hn' hfuel
    have hd : iterator.dec fuel m ⟨some e.1, some s⟩ =
        some (⟨some e.1, some s⟩, .error .invalid_iterator) := by
      simp only [iterator.dec, h, Option.bind_eq_bind, Option.some_bind, Option.pure_def,
        List.getLast?_nil, Option.map_none']
    refine ⟨hd, ?_⟩
    simp only [iterator.post_dec, hd, Option.bind_eq_bind, Option.some_bind, Option.pure_def]

theorem dec_spec_witness :
    Repr exMap exTree ∧ exTree.height < 3 ∧
    (∀ l1 p e l2, exTree.nodes = l1 ++ p :: e :: l2 →
      iterator.dec 3 exMap ⟨some e.1, some 0⟩ = some (⟨some p.1, some 0⟩, .ok ()) ∧
      iterator.post_dec 3 exMap ⟨some e.1, some 0⟩ =
        some (⟨some p.1, some 0⟩, .ok ⟨some e.1, some 0⟩)) ∧
    (∀ e l2, exTree.nodes = e :: l2 →
      iterator.dec 3 exMap ⟨some e.1, some 0⟩ =
        some (⟨some e.1, some 0⟩, .error .invalid_iterator) ∧
      iterator.post_dec 3 exMap ⟨some e.1, some 0⟩ =
        some (⟨some e.1, some 0⟩, .error .invalid_iterator)) :=
  ⟨exMap_repr, by decide, dec_spec exMap_repr (by decide) 0⟩

/-- C16: on a represented tree, `++` (prefix and postfix) applied to `end()` throws
`invalid_iterator` and leaves the iterator at the past-end position; `--` applied to `end()`
moves the iterator to the last node of the in-order sequence (the largest key) when the tree
is not empty, and throws `invalid_iterator`, leaving the iterator at the past-end position,
when the tree is empty. -/
theorem end_advance {m : MapState K V} {t : Tree K V} (hr : Repr m t) {fuel : Nat}
    (hfuel : t.height < fuel) :
    iterator.inc m.heap fuel (end_ m) = some (end_ m, .error .invalid_iterator) ∧
    iterator.post_inc m.heap fuel (end_ m) = some (end_ m, .error .invalid_iterator) ∧
    (∀ l e, t.nodes = l ++ [e] →
      iterator.dec fuel m (end_ m) = some (⟨some e.1, some m.self⟩, .ok ())) ∧
    (t = .nil → iterator.dec fuel m (end_ m) = some (end_ m, .error .invalid_iterator)) := by
  refine ⟨rfl, rfl, ?_, ?_⟩
  · intro l e hn
    cases t with
    | nil => simp at hn
    | node a c tl k v tr =>
      obtain ⟨e', he', hloop⟩ := minmax_loop_last _ none fuel a hr.rep rfl (Nat.le_of_lt hfuel)
      rw [hn, getLast_append_of_some l (by simp : [e].getLast? = some e)] at he'
      simp only [Option.some.injEq] at he'
      subst he'
      simp only [iterator.dec, end_, if_true, max, minmax, hr.root, Tree.ptr_node, hloop,
        Option.map_some', Option.bind_eq_bind, Option.some_bind, Option.pure_def]
  · rintro rfl
    simp [iterator.dec, end_, max, minmax, hr.root]

theorem end_advance_witness :
    Repr exMap exTree ∧ exTree.height < 3 ∧
    iterator.inc exMap.heap 3 (end_ exMap) = some (end_ exMap, .error .invalid_iterator) ∧
    iterator.post_inc exMap.heap 3 (end_ exMap) =
      some (end_ exMap, .error .invalid_iterator) ∧
    (∀ l e, exTree.nodes = l ++ [e] →
      iterator.dec 3 exMap (end_ exMap) = some (⟨some e.1, some exMap.self⟩, .ok ())) ∧
    (exTree = .nil →
      iterator.dec 3 exMap (end_ exMap) = some (end_ exMap, .error .invalid_iterator)) :=
  ⟨exMap_repr, by decide, end_advance exMap_repr (by decide)⟩

/-- C17 as stated fails on the code: `end()` of the map `exMap` has an absent node
reference, and `operator->` on it does not throw `invalid_iterator`: it makes no test and
returns the (null) address. -/
theorem arrow_at_end_counterexample :
    (end_ exMap).ptr = none ∧
    iterator.arrow (end_ exMap) ≠ .error .invalid_iterator ∧
    iterator.arrow (end_ exMap) = .ok none := by
  refine ⟨rfl, ?_, rfl⟩
  simp [iterator.arrow]

/-- C17, amended: `operator*` on an iterator whose node reference is absent (`end()`, or a
default-constructed iterator) throws `invalid_iterator`; `operator->` never throws: it
returns the address of the entry of the node `ptr` without a test; on an iterator at a node
of a represented tree `operator*` yields the (key, value) entry of that node and
`operator->` the address of that node, which holds this entry. -/
theorem deref_spec {m : MapState K V} {t : Tree K V} (hr : Repr m t) :
    (∀ it : iterator, it.ptr = none → iterator.star m.heap it = some (.error .invalid_iterator)) ∧
    iterator.star m.heap (end_ m) = some (.error .invalid_iterator) ∧
    iterator.star m.heap ⟨none, none⟩ = some (.error .invalid_iterator) ∧
    (∀ it : iterator, iterator.arrow it = .ok it.ptr) ∧
    (∀ e ∈ t.nodes, ∀ tr : Option Nat,
      iterator.star m.heap ⟨some e.1, tr⟩ = some (.ok (e.2.1, e.2.2)) ∧
      iterator.arrow ⟨some e.1, tr⟩ = .ok (some e.1) ∧
      ∃ n, m.heap e.1 = some n ∧ (n.key, n.value) = (e.2.1, e.2.2)) := by
  refine ⟨?_, rfl, rfl, fun _ => rfl, ?_⟩
  · intro it h
    simp only [iterator.star, h]
  · intro e he tr
    obtain ⟨n, h1, h2, h3⟩ := Rep_node_of_mem hr.rep he
    refine ⟨?_, rfl, n, h1, by rw [h2, h3]⟩
    simp only [iterator.star, h1, h2, h3, Option.bind_eq_bind, Option.some_bind,
      Option.pure_def]

theorem deref_spec_witness :
    Repr exMap exTree ∧
    (∀ it : iterator, it.ptr = none →
      iterator.star exMap.heap it = some (.error .invalid_iterator)) ∧
    iterator.star exMap.heap (end_ exMap) = some (.error .invalid_iterator) ∧
    iterator.star exMap.heap ⟨none, none⟩ = some (.error .invalid_iterator) ∧
    (∀ it : iterator, iterator.arrow it = .ok it.ptr) ∧
    (∀ e ∈ exTree.nodes, ∀ tr : Option Nat,
      iterator.star exMap.heap ⟨some e.1, tr⟩ = some (.ok (e.2.1, e.2.2)) ∧
      iterator.arrow ⟨some e.1, tr⟩ = .ok (some e.1) ∧
      ∃ n, exMap.heap e.1 = some n ∧ (n.key, n.value) = (e.2.1, e.2.2)) :=
  ⟨exMap_repr, deref_spec exMap_repr⟩

/-- C18: `a == b` holds exactly when the node references and the owning-container
identities of `a` and `b` are both equal, and `a != b` is its negation; so iterators of two
different map objects are never equal: not their `end()` iterators, and not the iterators
that `find` returns in the two maps for one key (on represented trees `find` returns in both
maps). -/
theorem iterator_eq_iff (m1 m2 : MapState K V) (hne : m1.self ≠ m2.self) :
    (∀ a b : iterator, (iterator.eq a b = true ↔ a.ptr = b.ptr ∧ a.tree = b.tree) ∧
      iterator.ne a b = !iterator.eq a b) ∧
    (∀ a b : iterator, a.tree = some m1.self → b.tree = some m2.self →
      iterator.eq a b = false ∧ iterator.ne a b = true) ∧
    (iterator.eq (end_ m1) (end_ m2) = false ∧ iterator.ne (end_ m1) (end_ m2) = true) ∧
    (∀ (t1 t2 : Tree K V) (fuel : Nat) (key : K), Repr m1 t1 → StrictWeak m1.cmp →
      Repr m2 t2 → StrictWeak m2.cmp → t1.height < fuel → t2.height < fuel →
      ∃ a b, find_const fuel m1 key = some a ∧ find_const fuel m2 key = some b ∧
        iterator.eq a b = false ∧ iterator.ne a b = true) := by
  have hkey : ∀ a b : iterator, a.tree = some m1.self → b.tree = some m2.self →
      iterator.eq a b = false ∧ iterator.ne a b = true := by
    intro a b ha hb
    have : (a.tree == b.tree) = false := by
      rw [ha, hb]
      simp only [beq_eq_false_iff_ne, ne_eq, Option.some.injEq]
      exact hne
    simp [iterator.eq, iterator.ne, this]
  refine ⟨fun a b => ⟨?_, rfl⟩, hkey, hkey _ _ rfl rfl, ?_⟩
  · simp [iterator.eq]
  · intro t1 t2 fuel key hr1 hs1 hr2 hs2 hf1 hf2
    refine ⟨⟨(locate m1.cmp key t1 []).2.ptr, some m1.self⟩,
      ⟨(locate m2.cmp key t2 []).2.ptr, some m2.self⟩, ?_, ?_, hkey _ _ rfl rfl⟩
    · simp only [find_const, RB_find_const_spec hr1 hs1 key hf1, Option.bind_eq_bind,
        Option.some_bind, Option.pure_def]
    · simp only [find_const, RB_find_const_spec hr2 hs2 key hf2, Option.bind_eq_bind,
        Option.some_bind, Option.pure_def]

theorem exTwin_repr : Repr exTwin exTree := ⟨exMap_repr.root, exMap_repr.rep, exMap_repr.nodup⟩

theorem iterator_eq_iff_witness :
    exMap.self ≠ exTwin.self ∧
    (∀ a b : iterator, (iterator.eq a b = true ↔ a.ptr = b.ptr ∧ a.tree = b.tree) ∧
      iterator.ne a b = !iterator.eq a b) ∧
    (∀ a b : iterator, a.tree = some exMap.self → b.tree = some exTwin.self →
      iterator.eq a b = false ∧ iterator.ne a b = true) ∧
    (iterator.eq (end_ exMap) (end_ exTwin) = false ∧
      iterator.ne (end_ exMap) (end_ exTwin) = true) ∧
    ∃ a b, find_const 3 exMap 20 = some a ∧ find_const 3 exTwin 20 = some b ∧
      iterator.eq a b = false ∧ iterator.ne a b = true := by
  have h := iterator_eq_iff exMap exTwin (by decide)
  exact ⟨by decide, h.1, h.2.1, h.2.2.1, h.2.2.2 exTree exTree 3 20 exMap_repr
    natLt_strictWeak exTwin_repr natLt_strictWeak (by decide) (by decide)⟩

/-!
## `copy`, `destroy`, copy construction, assignment, `clear`
-/


theorem Tree.size_copyAt (t : Tree K V) : ∀ b, (t.copyAt b).size = t.size := by
  induction t with
  | nil => intro b; rfl
  | node a c l k v r ihl ihr => intro b; simp [Tree.copyAt, Tree.size, ihl, ihr]

theorem Tree.height_copyAt (t : Tree K V) : ∀ b, (t.copyAt b).height = t.height := by
  induction t with
  | nil => intro b; rfl
  | node a c l k v r ihl ihr => intro b; simp [Tree.copyAt, Tree.height, ihl, ihr]

theorem Tree.skel_copyAt (t : Tree K V) : ∀ b, (t.copyAt b).skel = t.skel := by
  induction t with
  | nil => intro b; rfl
  | node a c l k v r ihl ihr => intro b; simp [Tree.copyAt, Tree.skel, ihl, ihr]

theorem Tree.color_copyAt (t : Tree K V) (b : Nat) : (t.copyAt b).color = t.color := by
  cases t <;> rfl

theorem Tree.entries_copyAt (t : Tree K V) : ∀ b, (t.copyAt b).entries = t.entries := by
  induction t with
  | nil => intro b; rfl
  | node a c l k v r ihl ihr =>
    intro b
    have h1 := ihl (b + 1)
    have h2 := ihr (b + 1 + l.size)
    simp only [Tree.entries] at h1 h2 ⊢
    simp [Tree.copyAt, h1, h2]

theorem Tree.mem_addrs_copyAt (t : Tree K V) :
    ∀ b a, a ∈ (t.copyAt b).addrs → b ≤ a ∧ a < b + t.size := by
  induction t with
  | nil => intro b a h; simp [Tree.copyAt] at h
  | node x c l k v r ihl ihr =>
    intro b a h
    simp only [Tree.copyAt, Tree.addrs_node, List.mem_append, List.mem_cons] at h
    simp only [Tree.size]
    rcases h with h | rfl | h
    · have := ihl _ _ h; omega
    · omega
    · have := ihr _ _ h; omega

theorem Tree.nodup_addrs_copyAt (t : Tree K V) : ∀ b, (t.copyAt b).addrs.Nodup := by
  induction t with
  | nil => intro b; exact List.nodup_nil
  | node x c l k v r ihl ihr =>
    intro b
    simp only [Tree.copyAt, Tree.addrs_node]
    refine List.nodup_middle.mpr (List.nodup_cons.mpr ⟨?_, List.nodup_append.mpr
      ⟨ihl _, ihr _, ?_⟩⟩)
    · simp only [List.mem_append, not_or]
      constructor
      · intro h; have := Tree.mem_addrs_copyAt l _ _ h; omega
      · intro h; have := Tree.mem_addrs_copyAt r _ _ h; omega
    · intro a h1 h2
      have := Tree.mem_addrs_copyAt l _ _ h1
      have := Tree.mem_addrs_copyAt r _ _ h2
      omega

theorem Tree.RB_copyAt {t : Tree K V} (h : t.RB) (b : Nat) : (t.copyAt b).RB := by
  have hn : ∀ (t : Tree K V) b, t.NoRedRed → (t.copyAt b).NoRedRed := by
    intro t
    induction t with
    | nil => intro b _; trivial
    | node a c l k v r ihl ihr =>
      intro b h
      exact ⟨fun hc => by simpa [Tree.color_copyAt] using h.1 hc, ihl _ h.2.1, ihr _ h.2.2⟩
  have hb : ∀ (t : Tree K V) b n, t.BH n → (t.copyAt b).BH n := by
    intro t
    induction t with
    | nil => intro b n h; exact h
    | node a c l k v r ihl ihr =>
      intro b n h
      simp only [Tree.copyAt, Tree.BH] at h ⊢
      split
      · rename_i hc
        simp only [hc, if_true] at h
        obtain ⟨n', h1, h2, h3⟩ := h
        exact ⟨n', h1, ihl _ _ h2, ihr _ _ h3⟩
      · rename_i hc
        simp only [hc, if_false] at h
        exact ⟨ihl _ _ h.1, ihr _ _ h.2⟩
  obtain ⟨h1, h2, n, h3⟩ := h
  exact ⟨by rw [Tree.color_copyAt]; exact h1, hn t b h2, n, hb t b n h3⟩

/-- The source's `destroy(x)` on a represented subtree: every node of the subtree is
freed, nothing else changes. -/
theorem destroy_spec (t : Tree K V) : ∀ (m : MapState K V) (pa : NodePtr) (fuel : Nat),
    Rep m.heap t pa → t.addrs.Nodup → t.height < fuel →
    Succeeds (destroy fuel m t.ptr) (fun M =>
      M.root = m.root ∧ Touch m M t.addrs ∧ ∀ a ∈ t.addrs, M.heap a = none) := by
  induction t with
  | nil =>
    intro m pa fuel _ _ hfuel
    cases fuel with
    | zero => simp at hfuel
    | succ n => exact ⟨m, rfl, rfl, Touch.same m _, fun a ha => by simp at ha⟩
  | node x c l k v r ihl ihr =>
    intro m pa fuel hrep hnd hfuel
    cases fuel with
    | zero => simp at hfuel
    | succ n =>
      obtain ⟨hx, hl, hr⟩ := hrep
      simp only [Tree.addrs_node] at hnd
      have hnd' := List.nodup_middle.mp hnd
      obtain ⟨hx_not, hnd_rest⟩ := List.nodup_cons.mp hnd'
      simp only [List.mem_append, not_or] at hx_not
      obtain ⟨hnd_l, hnd_r, hdis⟩ := List.nodup_append.mp hnd_rest
      have hlh : l.height < n := by
        have : l.height + 1 ≤ (Tree.node x c l k v r).height := by
          show _ ≤ Max.max _ _ + 1
          have := Nat.le_max_left l.height r.height
          omega
        omega
      have hrh : r.height < n := by
        have : r.height + 1 ≤ (Tree.node x c l k v r).height := by
          show _ ≤ Max.max _ _ + 1
          have := Nat.le_max_right l.height r.height
          omega
        omega
      simp only [Tree.ptr_node, destroy, hx, Option.bind_eq_bind, Option.some_bind,
        Option.pure_def]
      refine (ihl m _ n hl hnd_l hlh).bind fun M1 h1 => ?_
      obtain ⟨hroot1, ht1, hfree1⟩ := h1
      have hx1 : M1.heap x = some ⟨k, v, c, l.ptr, r.ptr, pa⟩ :=
        (ht1.heap x hx_not.1).trans hx
      have hr1 : Rep M1.heap r (some x) :=
        Rep_congr (fun a ha => ht1.heap a (fun h => hdis h ha)) hr
      simp only [hx1, Option.some_bind]
      refine (ihr M1 _ n hr1 hnd_r hrh).bind fun M2 h2 => ?_
      obtain ⟨hroot2, ht2, hfree2⟩ := h2
      have hx2 : M2.heap x = some ⟨k, v, c, l.ptr, r.ptr, pa⟩ :=
        (ht2.heap x hx_not.2).trans hx1
      simp only [hx2, Option.some_bind, succeeds_some, free_root]
      refine ⟨hroot2.trans hroot1, ⟨?_, ?_, ?_, ?_, ?_⟩, ?_⟩
      · rw [free_siz, ht2.siz, ht1.siz]
      · rw [free_cmp, ht2.cmp, ht1.cmp]
      · rw [free_self, ht2.self, ht1.self]
      · rw [free_next, ht2.next, ht1.next]
      · intro a ha
        simp only [Tree.addrs_node, List.mem_append, List.mem_cons, not_or] at ha
        rw [free_heap_ne _ ha.2.1, ht2.heap a ha.2.2, ht1.heap a ha.1]
      · intro a ha
        simp only [Tree.addrs_node, List.mem_append, List.mem_cons] at ha
        by_cases hax : a = x
        · subst hax; exact free_heap_same ..
        · rw [free_heap_ne _ hax]
          rcases ha with ha | ha | ha
          · rw [ht2.heap a (fun h => hdis ha h)]; exact hfree1 a ha
          · exact absurd ha hax
          · exact hfree2 a ha

/-- Every node of a represented tree lies below the allocator's next address. -/
theorem Rep_lt_next {m : MapState K V} {t : Tree K V} {pa : NodePtr} (hr : Rep m.heap t pa)
    (hf : HeapFresh m) {a : Nat} (ha : a ∈ t.addrs) : a < m.next := by
  by_contra h
  obtain ⟨n, hn⟩ := Rep_heap_some hr ha
  rw [hf a (Nat.le_of_not_lt h)] at hn
  exact absurd hn (by simp)

/-- The source's `copy(x, p)` on a represented subtree: the copy is the same tree at fresh
addresses, its root has the parent link `p`; the nodes that existed before are unchanged. -/
theorem copy_spec (t : Tree K V) : ∀ (m : MapState K V) (pa0 p : NodePtr) (fuel : Nat),
    Rep m.heap t pa0 → HeapFresh m → t.height < fuel →
    Succeeds (copy fuel m t.ptr p) (fun r =>
      r.2 = (t.copyAt m.next).ptr ∧ Rep r.1.heap (t.copyAt m.next) p ∧
      Grown m r.1 t.size) := by
  induction t with
  | nil =>
    intro m pa0 p fuel _ hf hfuel
    cases fuel with
    | zero => simp at hfuel
    | succ n =>
      exact ⟨(m, none), rfl, rfl, trivial, rfl, rfl, rfl, rfl, rfl, fun _ _ => rfl, hf⟩
  | node x c l k v r ihl ihr =>
    intro m pa0 p fuel hrep hf hfuel
    cases fuel with
    | zero => simp at hfuel
    | succ n =>
      have hlt : ∀ a ∈ (Tree.node x c l k v r).addrs, a < m.next :=
        fun a ha => Rep_lt_next hrep hf ha
      obtain ⟨hx, hl, hr⟩ := hrep
      have hxlt : x < m.next := hlt x (by simp)
      have hllt : ∀ a ∈ l.addrs, a < m.next := fun a ha => hlt a (by simp [ha])
      have hrlt : ∀ a ∈ r.addrs, a < m.next := fun a ha => hlt a (by simp [ha])
      have hlh : l.height < n := by
        have : l.height + 1 ≤ (Tree.node x c l k v r).height := by
          show _ ≤ Max.max _ _ + 1
          have := Nat.le_max_left l.height r.height
          omega
        omega
      have hrh : r.height < n := by
        have : r.height + 1 ≤ (Tree.node x c l k v r).height := by
          show _ ≤ Max.max _ _ + 1
          have := Nat.le_max_right l.height r.height
          omega
        omega
      -- `new Node(*x)`
      have hx0 : (m.alloc ⟨k, v, c, l.ptr, r.ptr, pa0⟩).heap x =
          some ⟨k, v, c, l.ptr, r.ptr, pa0⟩ := by
        rw [alloc_heap_ne _ _ (Nat.ne_of_lt hxlt)]; exact hx
      simp only [Tree.ptr_node, copy, hx, Option.bind_eq_bind, Option.some_bind, hx0,
        Option.pure_def]
      generalize hM0 : m.alloc ⟨k, v, c, l.ptr, r.ptr, pa0⟩ = M0
      have hn0 : M0.next = m.next + 1 := by rw [← hM0]; rfl
      have hb0 : M0.heap m.next = some ⟨k, v, c, l.ptr, r.ptr, pa0⟩ := by
        rw [← hM0]; exact alloc_heap_same ..
      have ho0 : ∀ a, a ≠ m.next → M0.heap a = m.heap a := by
        intro a ha; rw [← hM0]; exact alloc_heap_ne _ _ ha
      have hf0 : HeapFresh M0 := by
        intro a ha
        rw [hn0] at ha
        rw [ho0 a (by omega)]
        exact hf a (by omega)
      have hl0 : Rep M0.heap l (some x) :=
        Rep_congr (fun a ha => ho0 a (Nat.ne_of_lt (hllt a ha))) hl
      -- the left subtree
      refine (ihl M0 _ (some m.next) n hl0 hf0 hlh).bind fun r1 h1 => ?_
      obtain ⟨M1, pl⟩ := r1
      obtain ⟨hpl, hRl, hG1⟩ := h1
      simp only at hpl hRl hG1 ⊢
      rw [hn0] at hpl hRl
      have hn1 : M1.next = m.next + 1 + l.size := by rw [hG1.next, hn0]
      have hb1 : M1.heap m.next = some ⟨k, v, c, l.ptr, r.ptr, pa0⟩ := by
        rw [hG1.old _ (by omega)]; exact hb0
      have e2 : setCh M1 m.next false pl =
          some (M1.store m.next ⟨k, v, c, pl, r.ptr, pa0⟩) := modify_eq _ hb1
      simp only [e2, Option.some_bind]
      generalize hM2 : M1.store m.next ⟨k, v, c, pl, r.ptr, pa0⟩ = M2
      have hn2 : M2.next = m.next + 1 + l.size := by rw [← hM2]; exact hn1
      have hb2 : M2.heap m.next = some ⟨k, v, c, pl, r.ptr, pa0⟩ := by
        rw [← hM2]; exact store_heap_same ..
      have ho2 : ∀ a, a ≠ m.next → M2.heap a = M1.heap a := by
        intro a ha; rw [← hM2]; exact store_heap_ne _ _ ha
      have hold2 : ∀ a, a < m.next → M2.heap a = m.heap a := by
        intro a ha
        rw [ho2 a (by omega), hG1.old a (by omega), ho0 a (by omega)]
      have hx2 : M2.heap x = some ⟨k, v, c, l.ptr, r.ptr, pa0⟩ := by
        rw [hold2 x hxlt]; exact hx
      have hf2 : HeapFresh M2 := by
        intro a ha
        rw [hn2] at ha
        rw [ho2 a (by omega)]
        exact hG1.fresh a (by omega)
      have hr2 : Rep M2.heap r (some x) :=
        Rep_congr (fun a ha => hold2 a (hrlt a ha)) hr
      simp only [hx2, Option.some_bind]
      -- the right subtree
      refine (ihr M2 _ (some m.next) n hr2 hf2 hrh).bind fun r3 h3 => ?_
      obtain ⟨M3, pr⟩ := r3
      obtain ⟨hpr, hRr, hG3⟩ := h3
      simp only at hpr hRr hG3 ⊢
      rw [hn2] at hpr hRr
      have hb3 : M3.heap m.next = some ⟨k, v, c, pl, r.ptr, pa0⟩ := by
        rw [hG3.old _ (by omega)]; exact hb2
      have e4 : setCh M3 m.next true pr =
          some (M3.store m.next ⟨k, v, c, pl, pr, pa0⟩) := modify_eq _ hb3
      have e5 : setPa (M3.store m.next ⟨k, v, c, pl, pr, pa0⟩) m.next p =
          some ((M3.store m.next ⟨k, v, c, pl, pr, pa0⟩).store m.next ⟨k, v, c, pl, pr, p⟩) :=
        modify_eq _ (store_heap_same ..)
      simp only [e4, Option.some_bind, e5, succeeds_some]
      have hfin : ∀ a, a ≠ m.next →
          ((M3.store m.next ⟨k, v, c, pl, pr, pa0⟩).store m.next ⟨k, v, c, pl, pr, p⟩).heap a =
            M3.heap a := by
        intro a ha
        rw [store_heap_ne _ _ ha, store_heap_ne _ _ ha]
      refine ⟨rfl, ⟨?_, ?_, ?_⟩, ?_⟩
      · rw [store_heap_same, hpl, hpr]
      · refine Rep_congr (fun a ha => ?_) hRl
        have := Tree.mem_addrs_copyAt l _ _ ha
        rw [hfin a (by omega), hG3.old a (by omega), ho2 a (by omega)]
      · refine Rep_congr (fun a ha => ?_) hRr
        have := Tree.mem_addrs_copyAt r _ _ ha
        exact hfin a (by omega)
      · refine ⟨?_, ?_, ?_, ?_, ?_, ?_, ?_⟩
        · rw [store_siz, store_siz, hG3.siz, ← hM2, store_siz, hG1.siz, ← hM0, alloc_siz]
        · rw [store_cmp, store_cmp, hG3.cmp, ← hM2, store_cmp, hG1.cmp, ← hM0, alloc_cmp]
        · rw [store_self, store_self, hG3.self, ← hM2, store_self, hG1.self, ← hM0, alloc_self]
        · rw [store_root, store_root, hG3.root, ← hM2, store_root, hG1.root, ← hM0, alloc_root]
        · rw [store_next, store_next, hG3.next, hn2]
          simp only [Tree.size]
          omega
        · intro a ha
          rw [hfin a (by omega), hG3.old a (by omega)]
          exact hold2 a ha
        · intro a ha
          rw [store_next, store_next] at ha
          have hge : M3.next = m.next + 1 + l.size + r.size := by rw [hG3.next, hn2]
          rw [hfin a (by omega)]
          exact hG3.fresh a ha

/-- A map object keeps its tree in any memory that agrees with its own on the nodes of the
tree. -/
theorem Repr.sync {a M : MapState K V} {t : Tree K V} (hr : Repr a t)
    (h : ∀ x ∈ t.addrs, M.heap x = a.heap x) : Repr (a.sync M) t :=
  ⟨hr.root, Rep_congr h hr.rep, hr.nodup⟩

/-- The copy constructor on a represented tree. -/
theorem mk_copy_spec {a : MapState K V} {t : Tree K V} (hr : Repr a t) (hf : HeapFresh a)
    (cmp : K → K → Bool) (self : Nat) {fuel : Nat} (hfuel : t.height < fuel) :
    ∃ b, mk_copy fuel cmp self a = some b ∧ Repr b (t.copyAt a.next) ∧ b.siz = a.siz ∧
      b.cmp = cmp ∧ b.self = self ∧ b.next = a.next + t.size ∧
      (∀ x, x < a.next → b.heap x = a.heap x) ∧ HeapFresh b := by
  obtain ⟨⟨M, r⟩, h1, hp, hR, hG⟩ := copy_spec t
    { siz := a.siz, cmp := cmp, root := none, self := self, heap := a.heap, next := a.next }
    none none fuel hr.rep hf hfuel
  simp only at hp hR hG
  rw [← hr.root] at h1
  refine ⟨M.setRoot r, ?_, ⟨hp, hR, Tree.nodup_addrs_copyAt t _⟩, hG.siz, hG.cmp, hG.self,
    hG.next, hG.old, hG.fresh⟩
  simp only [mk_copy, h1, Option.bind_eq_bind, Option.some_bind, Option.pure_def]

/-- C19: the copy constructor, on a map object `a` whose tree `t` satisfies the colour
invariants, returns a map object `b` whose tree `T` has the colours, keys, mapped values and
topology of `t` (`T.skel = t.skel`) at addresses none of which is a node of `t`, with
consistent parent links and no parent of the root (`Repr b T`), and the same `size()`; the
tree of `a` is as it was. An `erase` in `b` afterwards leaves the tree of `a` (addresses,
colours, keys, values, links) and its `size()` as they were, and an `erase` in `a` leaves
those of `b` as they were. -/
theorem copy_is_deep {a : MapState K V} {t : Tree K V} (hr : Repr a t) (hf : HeapFresh a)
    (hrb : t.RB) (cmp : K → K → Bool) (self : Nat) {fuel : Nat} (hfuel : t.height < fuel) :
    ∃ b T, mk_copy fuel cmp self a = some b ∧ Repr b T ∧ T.skel = t.skel ∧
      T.entries = t.entries ∧ (∀ x ∈ T.addrs, x ∉ t.addrs) ∧ size b = size a ∧
      Repr (a.sync b) t ∧
      (∀ z ∈ T.addrs, ∃ b' T', erase fuel b ⟨some z, some b.self⟩ = some (b', .ok ()) ∧
        Repr b' T' ∧ Repr (a.sync b') t ∧ size (a.sync b') = size a) ∧
      (∀ z ∈ t.addrs, ∃ a' t',
        erase fuel (a.sync b) ⟨some z, some (a.sync b).self⟩ = some (a', .ok ()) ∧
        Repr a' t' ∧ Repr (b.sync a') T ∧ size (b.sync a') = size b) := by
  obtain ⟨b, h1, hrB, hsiz, -, -, hnext, hold, hfb⟩ := mk_copy_spec hr hf cmp self hfuel
  have hlt : ∀ x ∈ t.addrs, x < a.next := fun x hx => Rep_lt_next hr.rep hf hx
  have hdisj : ∀ x ∈ (t.copyAt a.next).addrs, x ∉ t.addrs := by
    intro x hx hx'
    have := Tree.mem_addrs_copyAt t _ _ hx
    have := hlt x hx'
    omega
  have hra : Repr (a.sync b) t := hr.sync (fun x hx => hold x (hlt x hx))
  refine ⟨b, t.copyAt a.next, h1, hrB, Tree.skel_copyAt t _, Tree.entries_copyAt t _, hdisj,
    hsiz, hra, ?_, ?_⟩
  · intro z hz
    obtain ⟨b', T', he, her⟩ := erase_at hrB (Tree.RB_copyAt hrb _) hz
      (show (t.copyAt a.next).height ≤ fuel by rw [Tree.height_copyAt]; omega)
    refine ⟨b', T', he, her.repr, hr.sync (fun x hx => ?_), rfl⟩
    rw [her.frame x (fun h => hdisj x h hx)]
    exact hold x (hlt x hx)
  · intro z hz
    obtain ⟨a', t', he, her⟩ := erase_at hra hrb hz (show t.height ≤ fuel by omega)
    refine ⟨a', t', he, her.repr, hrB.sync (fun x hx => ?_), rfl⟩
    exact her.frame x (fun h => hdisj x hx h)

theorem copy_is_deep_witness :
    Repr exMap exTree ∧ HeapFresh exMap ∧ exTree.RB ∧ exTree.height < 3 ∧
    ∃ b T, mk_copy 3 natLt 1 exMap = some b ∧ Repr b T ∧ T.skel = exTree.skel ∧
      T.entries = exTree.entries ∧ (∀ x ∈ T.addrs, x ∉ exTree.addrs) ∧ size b = size exMap ∧
      Repr (exMap.sync b) exTree ∧
      (∀ z ∈ T.addrs, ∃ b' T', erase 3 b ⟨some z, some b.self⟩ = some (b', .ok ()) ∧
        Repr b' T' ∧ Repr (exMap.sync b') exTree ∧ size (exMap.sync b') = size exMap) ∧
      (∀ z ∈ exTree.addrs, ∃ a' t',
        erase 3 (exMap.sync b) ⟨some z, some (exMap.sync b).self⟩ = some (a', .ok ()) ∧
        Repr a' t' ∧ Repr (b.sync a') T ∧ size (b.sync a') = size b) :=
  ⟨exMap_repr, exMap_fresh, exTree_rb, by decide,
    copy_is_deep exMap_repr exMap_fresh exTree_rb natLt 1 (by decide)⟩

theorem Tree.keys_copyAt (t : Tree K V) (b : Nat) : (t.copyAt b).keys = t.keys := by
  have h := congrArg (List.map (fun e : K × V => e.1)) (Tree.entries_copyAt t b)
  simpa only [Tree.entries, Tree.keys, List.map_map] using h

/-- The source's `operator=` on two distinct objects of one memory. -/
theorem assign_spec {a b : MapState K V} {ta tb : Tree K V} (hra : Repr a ta)
    (hrb : Repr b tb) (hheap : b.heap = a.heap) (hf : HeapFresh a)
    (hdisj : ∀ x ∈ ta.addrs, x ∉ tb.addrs) (hself : a.self ≠ b.self) {fuel : Nat}
    (hfa : ta.height < fuel) (hfb : tb.height < fuel) :
    ∃ a', assign fuel a b = some a' ∧ Repr a' (tb.copyAt a.next) ∧ a'.siz = b.siz ∧
      a'.cmp = a.cmp ∧ a'.self = a.self ∧ a'.next = a.next + tb.size ∧
      (∀ x, x ∉ ta.addrs → x < a.next → a'.heap x = a.heap x) ∧
      (∀ x ∈ ta.addrs, a'.heap x = none) ∧ HeapFresh a' := by
  have hr1 : Rep (a.setSiz b.siz).heap ta none := hra.rep
  obtain ⟨M2, h2, hroot2, ht2, hfree2⟩ :=
    destroy_spec ta (a.setSiz b.siz) none fuel hr1 hra.nodup hfa
  have hltb : ∀ x ∈ tb.addrs, x < a.next :=
    fun x hx => Rep_lt_next (m := a) (by rw [← hheap]; exact hrb.rep) hf hx
  have hlta : ∀ x ∈ ta.addrs, x < a.next := fun x hx => Rep_lt_next hra.rep hf hx
  have hn2 : M2.next = a.next := ht2.next
  have hk2 : ∀ x ∈ tb.addrs, M2.heap x = b.heap x := by
    intro x hx
    rw [ht2.heap x (fun h => hdisj x h hx), hheap]
    rfl
  have hf2 : HeapFresh M2 := by
    intro x hx
    rw [hn2] at hx
    by_cases hm : x ∈ ta.addrs
    · exact hfree2 x hm
    · rw [ht2.heap x hm]
      exact hf x hx
  obtain ⟨⟨M3, r⟩, h3, hp, hR, hG⟩ :=
    copy_spec tb M2 none none fuel (Rep_congr hk2 hrb.rep) hf2 hfb
  simp only at hp hR hG
  rw [← hrb.root] at h3
  rw [hn2] at hp hR
  refine ⟨M3.setRoot r, ?_, ⟨hp, hR, Tree.nodup_addrs_copyAt tb _⟩, ?_, ?_, ?_, ?_, ?_, ?_,
    hG.fresh⟩
  · have hro : (a.setSiz b.siz).root = ta.ptr := hra.root
    have hne : (a.self == b.self) = false := by simpa using hself
    simp only [assign, hne, Bool.false_eq_true, if_false, hro, h2, h3,
      Option.bind_eq_bind, Option.some_bind, Option.pure_def]
  · show M3.siz = b.siz
    rw [hG.siz, ht2.siz]
    rfl
  · show M3.cmp = a.cmp
    rw [hG.cmp, ht2.cmp]
    rfl
  · show M3.self = a.self
    rw [hG.self, ht2.self]
    rfl
  · show M3.next = a.next + tb.size
    rw [hG.next, hn2]
  · intro x hx hlt
    show M3.heap x = a.heap x
    rw [hG.old x (by rw [hn2]; exact hlt), ht2.heap x hx]
    rfl
  · intro x hx
    show M3.heap x = none
    rw [hG.old x (by rw [hn2]; exact hlta x hx)]
    exact hfree2 x hx

/-- C20: for two distinct map objects `a` and `b` of one memory, with trees `ta` and `tb`,
`a = b` frees every node that `a` held and leaves `a` with a tree `T` that has the colours,
keys, mapped values and topology of `tb` at addresses of its own, with `size()` that of `b`;
the tree of `b` and its `size()` are as they were. Assigning a map to itself returns the map
as it is. -/
theorem assign_copies {a b : MapState K V} {ta tb : Tree K V} (hra : Repr a ta)
    (hrb : Repr b tb) (hheap : b.heap = a.heap) (hf : HeapFresh a)
    (hdisj : ∀ x ∈ ta.addrs, x ∉ tb.addrs) (hself : a.self ≠ b.self) {fuel : Nat}
    (hfa : ta.height < fuel) (hfb : tb.height < fuel) :
    (∃ a' T, assign fuel a b = some a' ∧ Repr a' T ∧ T.skel = tb.skel ∧
      T.entries = tb.entries ∧ (∀ x ∈ T.addrs, x ∉ tb.addrs) ∧ size a' = size b ∧
      Repr (b.sync a') tb ∧ size (b.sync a') = size b ∧ (∀ x ∈ ta.addrs, a'.heap x = none)) ∧
    assign fuel a a = some a := by
  constructor
  · obtain ⟨a', h1, hR, hsiz, -, -, -, hold, hfree, -⟩ :=
      assign_spec hra hrb hheap hf hdisj hself hfa hfb
    have hltb : ∀ x ∈ tb.addrs, x < a.next :=
      fun x hx => Rep_lt_next (m := a) (by rw [← hheap]; exact hrb.rep) hf hx
    have hd3 : ∀ x ∈ (tb.copyAt a.next).addrs, x ∉ tb.addrs := by
      intro x hx hx'
      have := Tree.mem_addrs_copyAt tb _ _ hx
      have := hltb x hx'
      omega
    refine ⟨a', tb.copyAt a.next, h1, hR, Tree.skel_copyAt tb _, Tree.entries_copyAt tb _, hd3,
      hsiz, hrb.sync (fun x hx => ?_), rfl, hfree⟩
    rw [hold x (fun h => hdisj x h hx) (hltb x hx), hheap]
  · simp [assign]

theorem exEmpty_repr : Repr exEmpty .nil := ⟨rfl, trivial, List.nodup_nil⟩

theorem assign_copies_witness :
    Repr exEmpty .nil ∧ Repr exMap exTree ∧ exMap.heap = exEmpty.heap ∧ HeapFresh exEmpty ∧
    exEmpty.self ≠ exMap.self ∧
    (∃ a' T, assign 3 exEmpty exMap = some a' ∧ Repr a' T ∧ T.skel = exTree.skel ∧
      T.entries = exTree.entries ∧ (∀ x ∈ T.addrs, x ∉ exTree.addrs) ∧
      size a' = size exMap ∧ Repr (exMap.sync a') exTree ∧
      size (exMap.sync a') = size exMap ∧
      (∀ x ∈ (Tree.nil : Tree Nat Nat).addrs, a'.heap x = none)) ∧
    assign 3 exEmpty exEmpty = some exEmpty :=
  ⟨exEmpty_repr, exMap_repr, rfl, exMap_fresh, by decide,
    assign_copies exEmpty_repr exMap_repr rfl
      exMap_fresh (fun _ h => by simp [Tree.addrs] at h) (by decide) (by decide) (by decide)⟩

/-!
## The effect of one member-function call on the memory

A call on a map object with tree `t` leaves a valid map whose stored count is its number of
nodes; it changes the memory only at the nodes of `t` and at addresses that were unused.
-/


theorem Evolves.unchanged {m : MapState K V} {t : Tree K V} {n : Nat} (hv : Valid m t)
    (hs : m.siz = t.size) (hn : t.size ≤ n) : Evolves n m m t t :=
  ⟨hv, rfl, rfl, Nat.le_refl _, fun _ _ _ => rfl, fun _ h => Or.inl h, hs, hn⟩

theorem Evolves.weaken {n n' : Nat} {m M : MapState K V} {t T : Tree K V}
    (h : Evolves n m M t T) (hn : n ≤ n') : Evolves n' m M t T :=
  ⟨h.valid, h.cmp, h.self, h.next, h.frame, h.addrs, h.siz, Nat.le_trans h.size hn⟩

theorem Inserted.evolves_ins {m M : MapState K V} {t T : Tree K V} {key : K} {v : V}
    (hv : Valid m t) (hs : m.siz = t.size) (hlt : t.size + 1 < 2 ^ 64)
    (h : Inserted m M t T key v) : Evolves (t.size + 1) m M t T := by
  have hsz := h.size
  refine ⟨h.valid hv, h.cmp, h.self, by rw [h.next]; omega,
    fun a ha hlt => h.frame a ha (by omega), ?_, ?_, by omega⟩
  · obtain ⟨l1, l2, hn1, hn2, -, -⟩ := h.nodes
    intro a ha
    rw [Tree.addrs_eq_map, hn2] at ha
    rw [Tree.addrs_eq_map, hn1]
    simp only [List.map_append, List.map_cons, List.mem_append, List.mem_cons] at ha ⊢
    rcases ha with ha | ha | ha
    · exact Or.inl (Or.inl ha)
    · exact Or.inr (by omega)
    · exact Or.inl (Or.inr ha)
  · rw [h.siz, hs, hsz]
    omega

theorem Erased.evolves_del {m M : MapState K V} {t T : Tree K V} {z : Nat}
    (hv : Valid m t) (hs : m.siz = t.size) (hlt : t.size < 2 ^ 64)
    (h : Erased m M t T z) : Evolves t.size m M t T := by
  obtain ⟨l1, l2, kz, vz, hn1, hn2⟩ := h.nodes
  have hts : t.size = T.size + 1 := by
    rw [Tree.size_eq_length, Tree.size_eq_length, hn1, hn2]
    simp only [List.length_append, List.length_cons]
    omega
  refine ⟨h.keeps_valid hv, h.cmp, h.self, by rw [h.next], fun a ha _ => h.frame a ha, ?_, ?_,
    by omega⟩
  · intro a ha
    rw [Tree.addrs_eq_map, hn2] at ha
    rw [Tree.addrs_eq_map, hn1]
    simp only [List.map_append, List.map_cons, List.mem_append, List.mem_cons] at ha ⊢
    rcases ha with ha | ha
    · exact Or.inl (Or.inl ha)
    · exact Or.inl (Or.inr (Or.inr ha))
  · rw [h.siz, hs, hts]
    rw [hts] at hlt
    omega

/-- One call of `insert`, `operator[]` or `erase(find(k))` on a valid map whose stored count
is its number of nodes. -/
theorem step_evolves [Inhabited V] {m : MapState K V} {t : Tree K V} (hv : Valid m t)
    (hs : m.siz = t.size) (hlt : t.size + 1 < 2 ^ 64) (op : Op K V) {fuel : Nat}
    (hfuel : t.size + 1 < fuel) :
    ∃ M T, step fuel m op = some M ∧ Evolves (t.size + 1) m M t T := by
  have hh := Tree.height_le_size t
  have hsame : Evolves (t.size + 1) m m t t := Evolves.unchanged hv hs (Nat.le_succ _)
  cases op with
  | insert k v =>
    by_cases habs : ∀ k' ∈ t.keys, equal m.cmp k k' = false
    · obtain ⟨M, T, hi, hins, -⟩ :=
        insert_absent_core hv (k, v) habs (show t.height + 1 < fuel by omega)
      exact ⟨M, T, by simp only [step, hi, Option.map_some'], hins.evolves_ins hv hs hlt⟩
    · simp only [not_forall, Bool.not_eq_false] at habs
      obtain ⟨k', hk, heq⟩ := habs
      simp only [Tree.keys, List.mem_map] at hk
      obtain ⟨e, he, rfl⟩ := hk
      have hi := insert_of_found hv.repr (k, v) (show t.height < fuel by omega)
        ((locate_correct hv.swo hv.sorted k).1 e he heq)
      exact ⟨m, t, by simp only [step, hi, Option.map_some'], hsame⟩
  | index k =>
    by_cases habs : ∀ k' ∈ t.keys, equal m.cmp k k' = false
    · obtain ⟨M, T, hfind, hins⟩ :=
        RB_find_insert_absent hv k habs (show t.height + 1 < fuel by omega)
      obtain ⟨l1, l2, -, hn2, -, -⟩ := hins.nodes
      have hmem : m.next ∈ T.addrs := by
        rw [Tree.addrs_eq_map, hn2]; simp
      obtain ⟨n, hn⟩ := Rep_heap_some hins.repr.rep hmem
      refine ⟨M, T, ?_, hins.evolves_ins hv hs hlt⟩
      simp only [step, index, hfind, hn, Option.bind_eq_bind, Option.some_bind,
        Option.pure_def, Option.map_some']
    · simp only [not_forall, Bool.not_eq_false] at habs
      obtain ⟨k', hk, heq⟩ := habs
      simp only [Tree.keys, List.mem_map] at hk
      obtain ⟨e, he, rfl⟩ := hk
      have hfound := (locate_correct hv.swo hv.sorted k).1 e he heq
      have hmem : e.1 ∈ t.addrs := by
        rw [Tree.addrs_eq_map]; exact List.mem_map_of_mem _ he
      obtain ⟨n, hn⟩ := Rep_heap_some hv.repr.rep hmem
      refine ⟨m, t, ?_, hsame⟩
      simp only [step, index,
        RB_find_mode1_present hv.repr k (show t.height < fuel by omega) hfound, hn,
        Option.bind_eq_bind, Option.some_bind, Option.pure_def, Option.map_some']
  | erase k =>
    have hfind := RB_find_mode0 hv.repr k (show t.height < fuel by omega)
    cases hloc : (locate m.cmp k t []).2 with
    | nil =>
      refine ⟨m, t, ?_, hsame⟩
      simp only [step, find, hfind, hloc, Tree.ptr_nil, Option.bind_eq_bind, Option.some_bind,
        Option.pure_def, erase, Option.map_some']
    | node a c l k' v r =>
      obtain ⟨-, hmem⟩ := locate_found hloc
      have hz : a ∈ t.addrs := by
        rw [Tree.addrs_eq_map]; exact List.mem_map_of_mem (fun e => e.1) hmem
      obtain ⟨M, T, h1, her⟩ := erase_at hv.repr hv.rb hz (show t.height ≤ fuel by omega)
      refine ⟨M, T, ?_, (her.evolves_del hv hs (by omega)).weaken (Nat.le_succ _)⟩
      simp only [step, find, hfind, hloc, Tree.ptr_node, Option.bind_eq_bind,
        Option.some_bind, Option.pure_def, h1, Option.map_some']

/-- The source's `clear()` on a valid map. -/
theorem clear_evolves {m : MapState K V} {t : Tree K V} (hv : Valid m t) {fuel : Nat}
    (hfuel : t.height < fuel) (n : Nat) :
    ∃ M, clear fuel m = some M ∧ Evolves n m M t .nil := by
  obtain ⟨M, h1, -, ht, hfree⟩ := destroy_spec t m none fuel hv.repr.rep hv.repr.nodup hfuel
  rw [← hv.repr.root] at h1
  refine ⟨(M.setRoot none).setSiz 0, ?_, ⟨⟨rfl, trivial, List.nodup_nil⟩, List.Pairwise.nil,
    ⟨rfl, trivial, 0, rfl⟩, ?_, ?_⟩, ht.cmp, ht.self, Nat.le_of_eq ht.next.symm, ?_, ?_, rfl,
    Nat.zero_le _⟩
  · simp only [clear, h1, Option.bind_eq_bind, Option.some_bind, Option.pure_def]
  · show StrictWeak M.cmp
    rw [ht.cmp]
    exact hv.swo
  · intro a ha
    show M.heap a = none
    have ha' : m.next ≤ a := by
      have := ht.next
      change M.next ≤ a at ha
      omega
    by_cases hm : a ∈ t.addrs
    · exact hfree a hm
    · rw [ht.heap a hm]
      exact hv.fresh a ha'
  · intro a ha _
    exact ht.heap a ha
  · intro a ha
    simp [Tree.addrs] at ha

/-- The copy constructor, seen from a new object of the same memory. -/
theorem mk_copy_evolves {a : MapState K V} {t : Tree K V} (hv : Valid a t)
    (hs : a.siz = t.size) (self : Nat) {fuel : Nat} (hfuel : t.height < fuel) :
    ∃ b T, mk_copy fuel a.cmp self a = some b ∧
      Evolves t.size (mk a.cmp self a.heap a.next) b .nil T := by
  obtain ⟨b, h1, hR, hsiz, hcmp, hself, hnext, hold, hf⟩ :=
    mk_copy_spec hv.repr hv.fresh a.cmp self hfuel
  refine ⟨b, t.copyAt a.next, h1, ⟨hR, ?_, Tree.RB_copyAt hv.rb _, ?_, hf⟩, hcmp, hself, ?_,
    fun x _ hx => hold x hx, ?_, ?_, Nat.le_of_eq (Tree.size_copyAt t _)⟩
  · rw [hcmp, Tree.Sorted, Tree.keys_copyAt]
    exact hv.sorted
  · rw [hcmp]
    exact hv.swo
  · show a.next ≤ b.next
    omega
  · intro x hx
    exact Or.inr (Tree.mem_addrs_copyAt t _ _ hx).1
  · rw [hsiz, hs, Tree.size_copyAt]

/-- The source's `operator=` on two distinct valid objects of one memory, with one
comparator. -/
theorem assign_evolves {a b : MapState K V} {ta tb : Tree K V} (hva : Valid a ta)
    (hvb : Valid b tb) (hsb : b.siz = tb.size) (hheap : b.heap = a.heap)
    (hcmp : b.cmp = a.cmp) (hdisj : ∀ x ∈ ta.addrs, x ∉ tb.addrs) (hself : a.self ≠ b.self)
    {fuel : Nat} (hfa : ta.height < fuel) (hfb : tb.height < fuel) :
    ∃ a' T, assign fuel a b = some a' ∧ Evolves tb.size a a' ta T := by
  obtain ⟨a', h1, hR, hsiz, hc, hself', hnext, hold, hfree, hf⟩ :=
    assign_spec hva.repr hvb.repr hheap hva.fresh hdisj hself hfa hfb
  refine ⟨a', tb.copyAt a.next, h1, ⟨hR, ?_, Tree.RB_copyAt hvb.rb _, ?_, hf⟩, hc, hself',
    by omega, hold, ?_, ?_, Nat.le_of_eq (Tree.size_copyAt tb _)⟩
  · rw [hc, ← hcmp, Tree.Sorted, Tree.keys_copyAt]
    exact hvb.sorted
  · rw [hc]
    exact hva.swo
  · intro x hx
    exact Or.inr (Tree.mem_addrs_copyAt tb _ _ hx).1
  · rw [hsiz, hsb, Tree.size_copyAt]

/-!
## Several map objects in one memory

The copy constructor and `operator=` read one map object and write another, so sequences of
calls that include them run on a memory that holds several map objects.
-/


theorem World.view_eq {w : World K V} {i : Nat} {M : MapState K V} (h : w.view i = some M) :
    ∃ o, w.objs[i]? = some o ∧
      M = { siz := o.siz, cmp := o.cmp, root := o.root, self := i, heap := w.heap,
            next := w.next } := by
  simp only [World.view, Option.map_eq_some'] at h
  obtain ⟨o, ho, rfl⟩ := h
  exact ⟨o, ho, rfl⟩

theorem World.view_lt {w : World K V} {i : Nat} {M : MapState K V} (h : w.view i = some M) :
    i < w.objs.length := by
  obtain ⟨o, ho, -⟩ := World.view_eq h
  by_contra hge
  rw [List.getElem?_eq_none (Nat.le_of_not_lt hge)] at ho
  exact absurd ho (by simp)

theorem World.put_objs (w : World K V) {i : Nat} (hi : i < w.objs.length) (M : MapState K V)
    (k : Nat) :
    (w.put i M).objs[k]? = if k = i then some ⟨M.siz, M.cmp, M.root⟩ else w.objs[k]? := by
  simp only [World.put, List.getElem?_set]
  by_cases h : i = k
  · subst h
    simp [hi]
  · have h' : ¬ k = i := fun e => h e.symm
    simp [h, h']

theorem World.push_objs (w : World K V) (M : MapState K V) (k : Nat) :
    (w.push M).objs[k]? =
      if k = w.objs.length then some ⟨M.siz, M.cmp, M.root⟩ else w.objs[k]? := by
  simp only [World.push]
  by_cases h : k = w.objs.length
  · subst h
    simp
  · simp only [h, if_false]
    rcases Nat.lt_or_gt_of_ne h with hlt | hgt
    · rw [List.getElem?_append_left hlt]
    · rw [List.getElem?_eq_none (by simp; omega), List.getElem?_eq_none (by omega)]

theorem WInv.relax {cmp : K → K → Bool} {n n' : Nat} {w : World K V} {ts : Nat → Tree K V}
    (h : WInv cmp n w ts) (hn : n ≤ n') : WInv cmp n' w ts :=
  ⟨h.fresh, fun i M hM => by
    obtain ⟨h1, h2, h3, h4⟩ := h.obj i M hM
    exact ⟨h1, h2, h3, Nat.le_trans h4 hn⟩, h.out, h.disj, h.lt⟩

/-- The invariant of the memory after a call on the object `i` (an existing object, or the
object that a constructor adds). -/
theorem WInv.update {cmp : K → K → Bool} {n : Nat} {w : World K V} {ts : Nat → Tree K V}
    (h : WInv cmp n w ts) {i : Nat} {m M : MapState K V} {T : Tree K V}
    (hm : m.heap = w.heap) (hmn : m.next = w.next) (hself : m.self = i) (hc : m.cmp = cmp)
    (he : Evolves (n + 1) m M (ts i) T) {w' : World K V} (hh : w'.heap = M.heap)
    (hn : w'.next = M.next)
    (hobjs : ∀ k, w'.objs[k]? = if k = i then some ⟨M.siz, M.cmp, M.root⟩ else w.objs[k]?) :
    WInv cmp (n + 1) w' (Function.update ts i T) := by
  have hnext : w.next ≤ w'.next := by
    have := he.next
    omega
  have hTlt : ∀ a ∈ T.addrs, a < w'.next := by
    intro a ha
    rw [hn]
    exact Rep_lt_next he.valid.repr.rep he.valid.fresh ha
  have hTd : ∀ k, k ≠ i → ∀ a ∈ T.addrs, a ∉ (ts k).addrs := by
    intro k hk a ha hak
    have h1 := h.lt k a hak
    rcases he.addrs a ha with h2 | h2
    · exact h.disj i k (fun e => hk e.symm) a h2 hak
    · omega
  refine ⟨?_, ?_, ?_, ?_, ?_⟩
  · intro a ha
    rw [hh]
    exact he.valid.fresh a (by omega)
  · intro k Mk hk
    obtain ⟨o, ho, rfl⟩ := World.view_eq hk
    rw [hobjs k] at ho
    by_cases hki : k = i
    · subst hki
      simp only [if_true, Option.some.injEq] at ho
      subst ho
      have hs : M.self = k := he.self.trans hself
      have hM : (⟨M.siz, M.cmp, M.root, k, w'.heap, w'.next⟩ : MapState K V) = M := by
        cases M
        simp only at hs hh hn
        simp only [hs, hh, hn]
      rw [hM, Function.update_same]
      exact ⟨he.valid, he.cmp.trans hc, he.siz, he.size⟩
    · simp only [hki, if_false] at ho
      have hv : w.view k = some ⟨o.siz, o.cmp, o.root, k, w.heap, w.next⟩ := by
        simp only [World.view, ho, Option.map_some']
      obtain ⟨h1, h2, h3, h4⟩ := h.obj k _ hv
      rw [Function.update_noteq hki]
      refine ⟨⟨⟨h1.repr.root, Rep_congr (fun a ha => ?_) h1.repr.rep, h1.repr.nodup⟩,
        h1.sorted, h1.rb, h1.swo, ?_⟩, h2, h3, Nat.le_succ_of_le h4⟩
      · show w'.heap a = w.heap a
        rw [hh, he.frame a (fun hai => h.disj k i hki a ha hai)
          (by rw [hmn]; exact h.lt k a ha), hm]
      · intro a ha
        show w'.heap a = none
        rw [hh]
        exact he.valid.fresh a (by rw [← hn]; exact ha)
  · intro k hk
    have hnone : w'.objs[k]? = none := List.getElem?_eq_none hk
    rw [hobjs k] at hnone
    by_cases hki : k = i
    · simp [hki] at hnone
    · simp only [hki, if_false] at hnone
      rw [Function.update_noteq hki]
      apply h.out
      by_contra hlt
      rw [List.getElem?_eq_getElem (Nat.lt_of_not_le hlt)] at hnone
      exact absurd hnone (by simp)
  · intro k j hkj a ha
    by_cases hki : k = i
    · subst hki
      rw [Function.update_same] at ha
      rw [Function.update_noteq (fun e => hkj e.symm)]
      exact hTd j (fun e => hkj e.symm) a ha
    · rw [Function.update_noteq hki] at ha
      by_cases hji : j = i
      · subst hji
        rw [Function.update_same]
        exact fun haT => hTd k hki a haT ha
      · rw [Function.update_noteq hji]
        exact h.disj k j hkj a ha
  · intro k a ha
    by_cases hki : k = i
    · subst hki
      rw [Function.update_same] at ha
      exact hTlt a ha
    · rw [Function.update_noteq hki] at ha
      have := h.lt k a ha
      omega

theorem World.view_heap {w : World K V} {i : Nat} {M : MapState K V}
    (h : w.view i = some M) : M.heap = w.heap ∧ M.next = w.next ∧ M.self = i := by
  obtain ⟨o, -, rfl⟩ := World.view_eq h
  exact ⟨rfl, rfl, rfl⟩

/-- The invariant after a member-function call on an existing object. -/
theorem WInv.put {cmp : K → K → Bool} {n : Nat} {w : World K V} {ts : Nat → Tree K V}
    (h : WInv cmp n w ts) {i : Nat} {m M : MapState K V} {T : Tree K V}
    (hv : w.view i = some m) (he : Evolves (n + 1) m M (ts i) T) :
    WInv cmp (n + 1) (w.put i M) (Function.update ts i T) := by
  obtain ⟨h1, h2, h3⟩ := World.view_heap hv
  exact h.update h1 h2 h3 (h.obj i m hv).2.1 he rfl rfl
    (World.put_objs w (World.view_lt hv) M)

/-- The invariant after a constructor call. -/
theorem WInv.push {cmp : K → K → Bool} {n : Nat} {w : World K V} {ts : Nat → Tree K V}
    (h : WInv cmp n w ts) {M : MapState K V} {T : Tree K V}
    (he : Evolves (n + 1) (sjtu.map.mk cmp w.objs.length w.heap w.next) M .nil T) :
    WInv cmp (n + 1) (w.push M) (Function.update ts w.objs.length T) := by
  have he2 : Evolves (n + 1) (sjtu.map.mk cmp w.objs.length w.heap w.next) M
      (ts w.objs.length) T := by
    rw [h.out _ (Nat.le_refl _)]
    exact he
  exact h.update rfl rfl rfl rfl he2 rfl rfl (World.push_objs w M)

/-- One statement keeps the invariant of the memory. -/
theorem World.step_inv [Inhabited V] {cmp : K → K → Bool} (hs : StrictWeak cmp) {n : Nat}
    {w : World K V} {ts : Nat → Tree K V} (h : WInv cmp n w ts) (op : WOp K V) {fuel : Nat}
    (hfuel : n + 1 < fuel) (hlt : n + 1 < 2 ^ 64) :
    ∃ w' ts', World.step fuel cmp w op = some w' ∧ WInv cmp (n + 1) w' ts' := by
  have hsame : ∃ w' ts', some w = some w' ∧ WInv cmp (n + 1) w' ts' :=
    ⟨w, ts, rfl, h.relax (Nat.le_succ _)⟩
  cases op with
  | create =>
    refine ⟨_, _, rfl, h.push (T := .nil) ?_⟩
    exact Evolves.unchanged (mk_valid hs _ _ _ h.fresh) rfl (Nat.zero_le _)
  | copy j =>
    cases hj : w.view j with
    | none => simpa only [World.step, hj] using hsame
    | some a =>
      obtain ⟨hv, hc, hsz, hn⟩ := h.obj j a hj
      obtain ⟨h1, h2, -⟩ := World.view_heap hj
      have hh := Tree.height_le_size (ts j)
      obtain ⟨b, T, hb, he⟩ :=
        mk_copy_evolves hv hsz w.objs.length (show (ts j).height < fuel by omega)
      rw [hc, h1, h2] at he
      rw [hc] at hb
      refine ⟨_, _, ?_, h.push (he.weaken (by omega))⟩
      simp only [World.step, hj, hb, Option.map_some']
  | assign i j =>
    cases hi : w.view i with
    | none => simpa only [World.step, hi] using hsame
    | some a =>
      cases hj : w.view j with
      | none => simpa only [World.step, hi, hj] using hsame
      | some b =>
        obtain ⟨hva, hca, hsa, hna⟩ := h.obj i a hi
        obtain ⟨hvb, hcb, hsb, hnb⟩ := h.obj j b hj
        obtain ⟨ha1, ha2, ha3⟩ := World.view_heap hi
        obtain ⟨hb1, hb2, hb3⟩ := World.view_heap hj
        by_cases hij : i = j
        · have hself : (a.self == b.self) = true := by
            rw [ha3, hb3, hij]
            exact beq_self_eq_true j
          refine ⟨_, _, ?_, h.put hi (Evolves.unchanged hva hsa (Nat.le_succ_of_le hna))⟩
          simp only [World.step, hi, hj, assign, hself, if_true, Option.map_some']
        · have hha := Tree.height_le_size (ts i)
          have hhb := Tree.height_le_size (ts j)
          obtain ⟨a', T, h1, he⟩ := assign_evolves hva hvb hsb (hb1.trans ha1.symm)
            (hcb.trans hca.symm) (h.disj i j hij) (by rw [ha3, hb3]; exact hij)
            (show (ts i).height < fuel by omega) (show (ts j).height < fuel by omega)
          refine ⟨_, _, ?_, h.put hi (he.weaken (by omega))⟩
          simp only [World.step, hi, hj, h1, Option.map_some']
  | clear i =>
    cases hi : w.view i with
    | none => simpa only [World.step, hi] using hsame
    | some a =>
      obtain ⟨hva, -, -, hna⟩ := h.obj i a hi
      have hha := Tree.height_le_size (ts i)
      obtain ⟨M, h1, he⟩ := clear_evolves hva (show (ts i).height < fuel by omega) (n + 1)
      refine ⟨_, _, ?_, h.put hi he⟩
      simp only [World.step, hi, h1, Option.map_some']
  | call i op =>
    cases hi : w.view i with
    | none => simpa only [World.step, hi] using hsame
    | some a =>
      obtain ⟨hva, -, hsa, hna⟩ := h.obj i a hi
      obtain ⟨M, T, h1, he⟩ := step_evolves hva hsa (show (ts i).size + 1 < 2 ^ 64 by omega)
        op (show (ts i).size + 1 < fuel by omega)
      refine ⟨_, _, ?_, h.put hi (he.weaken (by omega))⟩
      simp only [World.step, hi, h1, Option.map_some']

/-- A sequence of statements keeps the invariant of the memory. -/
theorem World.run_inv [Inhabited V] {cmp : K → K → Bool} (hs : StrictWeak cmp)
    (ops : List (WOp K V)) : ∀ {n : Nat} {w : World K V} {ts : Nat → Tree K V},
    WInv cmp n w ts → ∀ {fuel : Nat}, n + ops.length < fuel → n + ops.length < 2 ^ 64 →
    ∃ w' ts', World.run fuel cmp w ops = some w' ∧ WInv cmp (n + ops.length) w' ts' := by
  induction ops with
  | nil => intro n w ts h fuel _ _; exact ⟨w, ts, rfl, h⟩
  | cons op ops ih =>
    intro n w ts h fuel hfuel hlt
    simp only [List.length_cons] at hfuel hlt ⊢
    obtain ⟨w1, ts1, h1, hi1⟩ := World.step_inv hs h op (show n + 1 < fuel by omega)
      (show n + 1 < 2 ^ 64 by omega)
    obtain ⟨w2, ts2, h2, hi2⟩ := ih hi1 (show n + 1 + ops.length < fuel by omega)
      (show n + 1 + ops.length < 2 ^ 64 by omega)
    refine ⟨w2, ts2, ?_, ?_⟩
    · simp only [World.run, h1, Option.bind_eq_bind, Option.some_bind, h2]
    · have e : n + (ops.length + 1) = n + 1 + ops.length := by omega
      rw [e]
      exact hi2

/-- The memory with one empty map satisfies the invariant. -/
theorem World.init_inv {cmp : K → K → Bool} (hs : StrictWeak cmp)
    (heap : Nat → Option (Node K V)) (next : Nat) (hfresh : ∀ a, next ≤ a → heap a = none) :
    WInv cmp 0 (World.init cmp heap next) (fun _ => .nil) := by
  refine ⟨hfresh, ?_, fun _ _ => rfl, fun _ _ _ a ha => by simp [Tree.addrs] at ha,
    fun _ a ha => by simp [Tree.addrs] at ha⟩
  intro i M hM
  obtain ⟨o, ho, rfl⟩ := World.view_eq hM
  have hi : i = 0 := by
    have := World.view_lt hM
    simp only [World.init, List.length_singleton] at this
    omega
  subst hi
  simp only [World.init, List.getElem?_cons_zero, Option.some.injEq] at ho
  subst ho
  exact ⟨mk_valid hs 0 heap next hfresh, rfl, rfl, Nat.le_refl _⟩

/-- C13: every finite sequence of statements (constructing an empty map, copy construction,
assignment, `clear`, `insert`, `operator[]`, `erase`) on a memory that holds one empty map,
with a comparator that is a strict weak order and fewer than `2 ^ 64` statements, returns,
and every map object `M` of the memory then holds a tree `T` (the nodes reachable from its
root) such that `size()` is the number of nodes of `T`, which is the length of the in-order
sequence of `T`, and `empty()` holds exactly when that number is zero. -/
theorem size_exact [Inhabited V] {cmp : K → K → Bool} (hs : StrictWeak cmp)
    (heap : Nat → Option (Node K V)) (next : Nat) (hfresh : ∀ a, next ≤ a → heap a = none)
    (ops : List (WOp K V)) {fuel : Nat} (hfuel : ops.length < fuel)
    (hlen : ops.length < 2 ^ 64) :
    ∃ w, World.run fuel cmp (World.init cmp heap next) ops = some w ∧
      ∀ i M, w.view i = some M → ∃ T, Repr M T ∧ size M = T.size ∧
        T.size = T.nodes.length ∧ (empty M = true ↔ T.size = 0) := by
  obtain ⟨w, ts, h1, hi⟩ := World.run_inv hs ops (World.init_inv hs heap next hfresh)
    (show 0 + ops.length < fuel by omega) (show 0 + ops.length < 2 ^ 64 by omega)
  refine ⟨w, h1, fun i M hM => ?_⟩
  obtain ⟨hv, -, hsz, -⟩ := hi.obj i M hM
  refine ⟨ts i, hv.repr, hsz, Tree.size_eq_length _, ?_⟩
  simp only [empty, hsz, beq_iff_eq]

theorem size_exact_witness :
    StrictWeak natLt ∧ (∀ a, 1 ≤ a → (fun _ => none : Nat → Option (Node Nat Nat)) a = none) ∧
    [WOp.call 0 (.insert 5 50), .call 0 (.insert 3 30), .copy 0, .call 1 (.erase 5),
      .call 1 (.index 8), .assign 0 1, .clear 1, .create].length < 9 ∧
    [WOp.call 0 (.insert 5 50), .call 0 (.insert 3 30), .copy 0, .call 1 (.erase 5),
      .call 1 (.index 8), .assign 0 1, .clear 1, .create].length < 2 ^ 64 ∧
    ∃ w, World.run 9 natLt (World.init natLt (fun _ => none) 1)
        [WOp.call 0 (.insert 5 50), .call 0 (.insert 3 30), .copy 0, .call 1 (.erase 5),
          .call 1 (.index 8), .assign 0 1, .clear 1, .create] = some w ∧
      ∀ i M, w.view i = some M → ∃ T, Repr M T ∧ size M = T.size ∧
        T.size = T.nodes.length ∧ (empty M = true ↔ T.size = 0) :=
  ⟨natLt_strictWeak, fun _ _ => rfl, by decide, by decide,
    size_exact natLt_strictWeak (fun _ => none) 1 (fun _ _ => rfl) _ (by decide) (by decide)⟩

/-!
## Nodes keep their address, key and value across calls on other entries
-/


/-- What an iterator at a node of a represented tree denotes. -/
theorem star_of_mem {h : Nat → Option (Node K V)} {t : Tree K V} {pa : NodePtr}
    (hr : Rep h t pa) {e : Nat × K × V} (he : e ∈ t.nodes) (tr : Option Nat) :
    (∃ n, h e.1 = some n ∧ n.key = e.2.1 ∧ n.value = e.2.2) ∧
      iterator.star h ⟨some e.1, tr⟩ = some (.ok (e.2.1, e.2.2)) := by
  obtain ⟨n, h1, h2, h3⟩ := Rep_node_of_mem hr he
  refine ⟨⟨n, h1, h2, h3⟩, ?_⟩
  simp only [iterator.star, h1, h2, h3, Option.bind_eq_bind, Option.some_bind, Option.pure_def]

/-- C21: on a valid map, `erase` at any node `z` returns, releases the node `z` only, and
every other node of the tree is a node of the new tree at the same address with the same key
and the same mapped value (also the successor of a two-child `z`, which is relinked and not
copied), so an iterator at any entry other than the erased one denotes the same (key, value)
entry as before; `insert` of a key equivalent to no stored key returns, and every node of
the tree is a node of the new tree at the same address with the same key and mapped value,
so an iterator at any entry denotes the same entry as before. -/
theorem nodes_stable [Inhabited V] {m : MapState K V} {t : Tree K V} (hv : Valid m t)
    {fuel : Nat} (hfuel : t.height + 1 < fuel) :
    (∀ z ∈ t.addrs, ∃ M T, erase fuel m ⟨some z, some m.self⟩ = some (M, .ok ()) ∧
      Repr M T ∧ M.heap z = none ∧
      ∀ e ∈ t.nodes, e.1 ≠ z → e ∈ T.nodes ∧
        (∃ n, M.heap e.1 = some n ∧ n.key = e.2.1 ∧ n.value = e.2.2) ∧
        ∀ tr, iterator.star m.heap ⟨some e.1, tr⟩ = some (.ok (e.2.1, e.2.2)) ∧
          iterator.star M.heap ⟨some e.1, tr⟩ = some (.ok (e.2.1, e.2.2))) ∧
    (∀ value : K × V, (∀ k ∈ t.keys, equal m.cmp value.1 k = false) →
      ∃ M T a, insert fuel m value = some (M, (⟨some a, some M.self⟩, true)) ∧ Repr M T ∧
      ∀ e ∈ t.nodes, e.1 ≠ a ∧ e ∈ T.nodes ∧
        (∃ n, M.heap e.1 = some n ∧ n.key = e.2.1 ∧ n.value = e.2.2) ∧
        ∀ tr, iterator.star m.heap ⟨some e.1, tr⟩ = some (.ok (e.2.1, e.2.2)) ∧
          iterator.star M.heap ⟨some e.1, tr⟩ = some (.ok (e.2.1, e.2.2))) := by
  constructor
  · intro z hz
    obtain ⟨M, T, h1, he⟩ := erase_at hv.repr hv.rb hz (show t.height ≤ fuel by omega)
    obtain ⟨l1, l2, kz, vz, hn1, hn2⟩ := he.nodes
    refine ⟨M, T, h1, he.repr, he.freed, fun e hmem hne => ?_⟩
    have hT : e ∈ T.nodes := by
      rw [hn1] at hmem
      rw [hn2]
      simp only [List.mem_append, List.mem_cons] at hmem ⊢
      rcases hmem with h | h | h
      · exact Or.inl h
      · exact absurd (by rw [h]) hne
      · exact Or.inr h
    exact ⟨hT, (star_of_mem he.repr.rep hT none).1,
      fun tr => ⟨(star_of_mem hv.repr.rep hmem tr).2, (star_of_mem he.repr.rep hT tr).2⟩⟩
  · intro value habs
    obtain ⟨M, T, hi, hins, -⟩ := insert_absent_core hv value habs hfuel
    obtain ⟨l1, l2, hn1, hn2, -, -⟩ := hins.nodes
    refine ⟨M, T, m.next, hi, hins.repr, fun e hmem => ?_⟩
    have hT : e ∈ T.nodes := by
      rw [hn1] at hmem
      rw [hn2]
      simp only [List.mem_append, List.mem_cons] at hmem ⊢
      rcases hmem with h | h
      · exact Or.inl h
      · exact Or.inr (Or.inr h)
    have hlt : e.1 < m.next := by
      apply Rep_lt_next hv.repr.rep hv.fresh
      rw [Tree.addrs_eq_map]
      exact List.mem_map_of_mem _ hmem
    exact ⟨Nat.ne_of_lt hlt, hT, (star_of_mem hins.repr.rep hT none).1,
      fun tr => ⟨(star_of_mem hv.repr.rep hmem tr).2, (star_of_mem hins.repr.rep hT tr).2⟩⟩

theorem nodes_stable_witness :
    Valid exMap exTree ∧ exTree.height + 1 < 4 ∧
    (∀ z ∈ exTree.addrs, ∃ M T, erase 4 exMap ⟨some z, some exMap.self⟩ = some (M, .ok ()) ∧
      Repr M T ∧ M.heap z = none ∧
      ∀ e ∈ exTree.nodes, e.1 ≠ z → e ∈ T.nodes ∧
        (∃ n, M.heap e.1 = some n ∧ n.key = e.2.1 ∧ n.value = e.2.2) ∧
        ∀ tr, iterator.star exMap.heap ⟨some e.1, tr⟩ = some (.ok (e.2.1, e.2.2)) ∧
          iterator.star M.heap ⟨some e.1, tr⟩ = some (.ok (e.2.1, e.2.2))) ∧
    (∀ value : Nat × Nat, (∀ k ∈ exTree.keys, equal exMap.cmp value.1 k = false) →
      ∃ M T a, insert 4 exMap value = some (M, (⟨some a, some M.self⟩, true)) ∧ Repr M T ∧
      ∀ e ∈ exTree.nodes, e.1 ≠ a ∧ e ∈ T.nodes ∧
        (∃ n, M.heap e.1 = some n ∧ n.key = e.2.1 ∧ n.value = e.2.2) ∧
        ∀ tr, iterator.star exMap.heap ⟨some e.1, tr⟩ = some (.ok (e.2.1, e.2.2)) ∧
          iterator.star M.heap ⟨some e.1, tr⟩ = some (.ok (e.2.1, e.2.2))) :=
  ⟨exMap_valid, by decide, nodes_stable exMap_valid (by decide)⟩

/-!
## `rotate` on an arbitrary node below the root
-/


theorem Tree.cnodes_mkD (d : Bool) (a : Nat) (c : Bool) (k : K) (v : V) (td tn : Tree K V) :
    (Tree.mkD d a c k v td tn).cnodes =
      if d then tn.cnodes ++ (a, c, k, v) :: td.cnodes
      else td.cnodes ++ (a, c, k, v) :: tn.cnodes := by
  cases d <;> simp [Tree.mkD, Tree.cnodes]

theorem Tree.nodes_of_cnodes (t : Tree K V) :
    t.nodes = t.cnodes.map (fun e => (e.1, e.2.2.1, e.2.2.2)) := by
  induction t with
  | nil => rfl
  | node a c l k v r ihl ihr => simp [Tree.cnodes, ihl, ihr]

theorem cnodes_plug_congr {t1 t2 : Tree K V} (h : t1.cnodes = t2.cnodes)
    (ctx : List (Frame K V)) : (plug ctx t1).cnodes = (plug ctx t2).cnodes := by
  induction ctx generalizing t1 t2 with
  | nil => exact h
  | cons f fs ih =>
    apply ih
    simp only [Frame.fill, Tree.cnodes_mkD, h]

theorem rotate_cnodes (d : Bool) (p : Nat) (cp : Bool) (kp : K) (vp : V) (x : Nat) (cx : Bool)
    (kx : K) (vx : V) (XD XN S : Tree K V) :
    (Tree.mkD d x cx kx vx XD (Tree.mkD d p cp kp vp XN S)).cnodes =
      (Tree.mkD d p cp kp vp (Tree.mkD d x cx kx vx XD XN) S).cnodes := by
  cases d <;> simp [Tree.mkD, Tree.cnodes]

/-- The node that the heap holds at an entry of the in-order sequence. -/
theorem Rep_cnode_of_mem {h : Nat → Option (Node K V)} {t : Tree K V} {pa : NodePtr}
    (hr : Rep h t pa) {e : Nat × Bool × K × V} (he : e ∈ t.cnodes) :
    ∃ n, h e.1 = some n ∧ n.color = e.2.1 ∧ n.key = e.2.2.1 ∧ n.value = e.2.2.2 := by
  induction t generalizing pa with
  | nil => simp [Tree.cnodes] at he
  | node b c l k v r ihl ihr =>
    obtain ⟨h1, h2, h3⟩ := hr
    simp only [Tree.cnodes, List.mem_append, List.mem_cons] at he
    rcases he with he | rfl | he
    · exact ihl h2 he
    · exact ⟨_, h1, rfl, rfl, rfl⟩
    · exact ihr h3 he

/-- C24: on a represented tree `t` (consistent parent links) and a node `x` of `t` other
than the root, `rotate(x)` returns. With `p` the parent of `x`, `x` the child `ch(d)` of `p`,
`XD` and `XN` the subtrees `ch(d)` and `ch(!d)` of `x`, `S` the other subtree of `p` and `up`
the path from `p` to the root, the state then holds the tree `T` in which `x` stands where
`p` stood, `p` is the child `ch(!d)` of `x`, and `XN` is the child `ch(d)` of `p`, again with
consistent parent links (`Repr M T`). The in-order sequence of (address, colour, key, value)
is unchanged, so every node keeps its key, value and colour and an ordered tree stays ordered.
On pointers: the parent link of `x` is the former parent link of `p`; the slot of the
grandparent that held `p` holds `x`, or `root` is `x` when there is no grandparent; the parent
link of `p` is `x`; and the root of `XN`, when present, has the parent link `p`. -/
theorem rotate_relinks {m : MapState K V} {t : Tree K V} (hr : Repr m t) {x : Nat}
    (hx : x ∈ t.addrs) (hroot : m.root ≠ some x) :
    ∃ (up : List (Frame K V)) (d : Bool) (p : Nat) (cp : Bool) (kp : K) (vp : V) (cx : Bool)
      (kx : K) (vx : V) (XD XN S T : Tree K V) (M : MapState K V),
      t = plug up (Tree.mkD d p cp kp vp (Tree.mkD d x cx kx vx XD XN) S) ∧
      T = plug up (Tree.mkD d x cx kx vx XD (Tree.mkD d p cp kp vp XN S)) ∧
      rotate m x = some M ∧ Repr M T ∧ Touch m M t.addrs ∧
      T.cnodes = t.cnodes ∧ T.nodes = t.nodes ∧ (∀ cmp, t.Sorted cmp → T.Sorted cmp) ∧
      (∀ e ∈ t.cnodes, ∃ n n', m.heap e.1 = some n ∧ M.heap e.1 = some n' ∧
        n'.key = n.key ∧ n'.value = n.value ∧ n'.color = n.color) ∧
      (∃ nx np nx' np', m.heap x = some nx ∧ m.heap p = some np ∧ M.heap x = some nx' ∧
        M.heap p = some np' ∧ nx.pa = some p ∧ np.ch d = some x ∧
        nx'.pa = np.pa ∧ nx'.ch (!d) = some p ∧ nx'.ch d = nx.ch d ∧
        np'.pa = some x ∧ np'.ch d = nx.ch (!d) ∧ np'.ch (!d) = np.ch (!d) ∧
        np.pa = parentOf up) ∧
      (parentOf up = none → M.root = some x) ∧
      (∀ g, parentOf up = some g → M.root = m.root ∧ ∃ dg ng ng', m.heap g = some ng ∧
        M.heap g = some ng' ∧ ng.ch dg = some p ∧ ng'.ch dg = some x ∧
        ng'.ch (!dg) = ng.ch (!dg) ∧ ng'.pa = ng.pa) ∧
      (∀ c, XN.ptr = some c → ∃ nc, M.heap c = some nc ∧ nc.pa = some p) := by
  obtain ⟨ctx, cx, l, kx, vx, r, rfl⟩ := exists_plug_of_mem hx
  cases ctx with
  | nil =>
    exact absurd hr.root hroot
  | cons f up =>
    obtain ⟨d, p, cp, kp, vp, S⟩ := f
    obtain ⟨x', cx', kx', vx', XD, XN, hX⟩ :=
      Tree.exists_mkD d (t := Tree.node x cx l kx vx r) (by simp)
    have hxe : x' = x ∧ cx' = cx ∧ kx' = kx ∧ vx' = vx := by
      cases d <;> simp [Tree.mkD] at hX <;> simp [hX]
    obtain ⟨rfl, rfl, rfl, rfl⟩ := hxe
    rw [hX] at hr ⊢
    simp only [plug_cons, Frame.fill] at hr ⊢
    obtain ⟨M, hM, hrM, htM⟩ := rotate_spec hr
    have hcn : (plug up (Tree.mkD d x' cx' kx' vx' XD (Tree.mkD d p cp kp vp XN S))).cnodes =
        (plug up (Tree.mkD d p cp kp vp (Tree.mkD d x' cx' kx' vx' XD XN) S)).cnodes :=
      cnodes_plug_congr (rotate_cnodes ..) up
    have hnn : (plug up (Tree.mkD d x' cx' kx' vx' XD (Tree.mkD d p cp kp vp XN S))).nodes =
        (plug up (Tree.mkD d p cp kp vp (Tree.mkD d x' cx' kx' vx' XD XN) S)).nodes :=
      nodes_plug_congr (rotate_nodes ..) up
    -- the nodes `x` and `p` before and after
    have hp := hr.heap_mkD up
    have hx0 := Repr.heap_mkD (⟨d, p, cp, kp, vp, S⟩ :: up) hr
    have hx1 := hrM.heap_mkD up
    have hrM' : Repr M (plug (⟨!d, x', cx', kx', vx', XD⟩ :: up)
        (Tree.mkD d p cp kp vp XN S)) := by
      simp only [plug_cons, Frame.fill, Tree.mkD_not]
      exact hrM
    have hp1 := Repr.heap_mkD (⟨!d, x', cx', kx', vx', XD⟩ :: up) hrM'
    simp only [Tree.ptr_mkD, parentOf_cons] at hp hx0 hx1 hp1
    refine ⟨up, d, p, cp, kp, vp, cx', kx', vx', XD, XN, S, _, M, rfl, rfl, hM, hrM, htM, hcn,
      hnn, fun cmp hs => Tree.sorted_of_nodes hnn hs, ?_, ?_, ?_, ?_, ?_⟩
    · intro e he
      obtain ⟨n, h1, h2, h3, h4⟩ := Rep_cnode_of_mem hr.rep he
      obtain ⟨n', h1', h2', h3', h4'⟩ := Rep_cnode_of_mem hrM.rep (by rw [hcn]; exact he)
      exact ⟨n, n', h1, h1', by rw [h3, h3'], by rw [h4, h4'], by rw [h2, h2']⟩
    · exact ⟨_, _, _, _, hx0, hp, hx1, hp1, by simp, by simp, by simp, by simp, by simp,
        by simp, by simp, by simp, by simp⟩
    · intro hg
      rw [hrM.root, plug_ptr]
      cases up with
      | nil => simp [topPtr]
      | cons g gs => simp at hg
    · intro g hg
      cases up with
      | nil => simp at hg
      | cons fg gs =>
        simp only [parentOf_cons, Option.some.injEq] at hg
        subst hg
        have h0 := hr.heap_frame
        have h1 := hrM.heap_frame
        simp only [Tree.ptr_mkD] at h0 h1
        refine ⟨?_, fg.d, _, _, h0, h1, by simp, by simp, by simp, by simp⟩
        rw [hrM.root, hr.root, plug_ptr, plug_ptr]
        exact topPtr_cons ..
    · intro c hc
      have hrep := hrM'.rep
      rw [Rep_plug, Rep_mkD] at hrep
      obtain ⟨-, -, hXN, -⟩ := hrep
      cases XN with
      | nil => simp at hc
      | node a ca la ka va ra =>
        simp only [Tree.ptr_node, Option.some.injEq] at hc
        subst hc
        exact ⟨_, hXN.1, rfl⟩

theorem rotate_relinks_witness :
    Repr exMap exTree ∧ 2 ∈ exTree.addrs ∧ exMap.root ≠ some 2 ∧
    ∃ (M : MapState Nat Nat) (T : Tree Nat Nat), rotate exMap 2 = some M ∧ Repr M T ∧
      T.cnodes = exTree.cnodes ∧ T.nodes = exTree.nodes ∧ M.root = some 2 ∧
      ∃ np, M.heap 1 = some np ∧ np.pa = some 2 := by
  obtain ⟨up, d, p, cp, kp, vp, cx, kx, vx, XD, XN, S, T, M, ht, -, hM, hrM, -, hc, hn, -, -,
    ⟨nx, np, nx1, np1, h1, h2, h3, h4, h5, h6, h7, h8, h9, h10, h11, h12, h13⟩, hg, -, -⟩ :=
    rotate_relinks exMap_repr (show 2 ∈ exTree.addrs by decide)
      (show exMap.root ≠ some 2 by decide)
  have hx2 : exMap.heap 2 = some ⟨10, 100, R, none, none, some 1⟩ := rfl
  have hp1 : exMap.heap 1 = some ⟨20, 200, B, some 2, some 3, none⟩ := rfl
  have hpe : p = 1 := by
    rw [hx2] at h1
    simp only [Option.some.injEq] at h1
    subst h1
    simpa using h5.symm
  subst hpe
  have hup : parentOf up = none := by
    rw [hp1] at h2
    simp only [Option.some.injEq] at h2
    subst h2
    exact h13.symm
  exact ⟨exMap_repr, by decide, by decide, M, T, hM, hrM, hc, hn, hg hup, np1, h4, h10⟩

/-!
## Parent links after every call
-/


/-- In a represented tree every child of a node is a node of the tree whose parent link is
that node. -/
theorem Rep_children {h : Nat → Option (Node K V)} {t : Tree K V} {pa : NodePtr}
    (hr : Rep h t pa) {a : Nat} (ha : a ∈ t.addrs) :
    ∃ n, h a = some n ∧ ∀ c, n.lc = some c ∨ n.rc = some c →
      c ∈ t.addrs ∧ ∃ nc, h c = some nc ∧ nc.pa = some a := by
  induction t generalizing pa with
  | nil => simp at ha
  | node b cb l k v r ihl ihr =>
    obtain ⟨h1, h2, h3⟩ := hr
    simp only [Tree.addrs_node, List.mem_append, List.mem_cons] at ha
    rcases ha with ha | rfl | ha
    · obtain ⟨n, hn, hc⟩ := ihl h2 ha
      refine ⟨n, hn, fun c hcc => ?_⟩
      obtain ⟨hm, hnc⟩ := hc c hcc
      exact ⟨by simp [hm], hnc⟩
    · refine ⟨_, h1, fun c hcc => ?_⟩
      rcases hcc with hcc | hcc
      · simp only at hcc
        cases l with
        | nil => simp at hcc
        | node la lc ll lk lv lr =>
          simp only [Tree.ptr_node, Option.some.injEq] at hcc
          subst hcc
          exact ⟨by simp, _, h2.1, rfl⟩
      · simp only at hcc
        cases r with
        | nil => simp at hcc
        | node ra rc rl rk rv rr =>
          simp only [Tree.ptr_node, Option.some.injEq] at hcc
          subst hcc
          exact ⟨by simp, _, h3.1, rfl⟩
    · obtain ⟨n, hn, hc⟩ := ihr h3 ha
      refine ⟨n, hn, fun c hcc => ?_⟩
      obtain ⟨hm, hnc⟩ := hc c hcc
      exact ⟨by simp [hm], hnc⟩

/-- In a represented tree the parent link of the root is the given one, and the parent link
of every other node is a node of the tree that has it as a child. -/
theorem Rep_parent {h : Nat → Option (Node K V)} {t : Tree K V} {pa : NodePtr}
    (hr : Rep h t pa) {a : Nat} (ha : a ∈ t.addrs) :
    ∃ n, h a = some n ∧ ((t.ptr = some a ∧ n.pa = pa) ∨
      ∃ q nq, q ∈ t.addrs ∧ h q = some nq ∧ n.pa = some q ∧
        (nq.lc = some a ∨ nq.rc = some a)) := by
  induction t generalizing pa with
  | nil => simp at ha
  | node b cb l k v r ihl ihr =>
    obtain ⟨h1, h2, h3⟩ := hr
    simp only [Tree.addrs_node, List.mem_append, List.mem_cons] at ha
    rcases ha with ha | rfl | ha
    · obtain ⟨n, hn, hc⟩ := ihl h2 ha
      refine ⟨n, hn, Or.inr ?_⟩
      rcases hc with ⟨hp, hpa⟩ | ⟨q, nq, hq, hnq, hpa, hch⟩
      · exact ⟨b, _, by simp, h1, hpa, Or.inl hp⟩
      · exact ⟨q, nq, by simp [hq], hnq, hpa, hch⟩
    · exact ⟨_, h1, Or.inl ⟨rfl, rfl⟩⟩
    · obtain ⟨n, hn, hc⟩ := ihr h3 ha
      refine ⟨n, hn, Or.inr ?_⟩
      rcases hc with ⟨hp, hpa⟩ | ⟨q, nq, hq, hnq, hpa, hch⟩
      · exact ⟨b, _, by simp, h1, hpa, Or.inr hp⟩
      · exact ⟨q, nq, by simp [hq], hnq, hpa, hch⟩

/-- The parent links of a state that holds a tree. -/
theorem Repr.links {M : MapState K V} {T : Tree K V} (hr : Repr M T) :
    (∀ r, M.root = some r → ∃ n, M.heap r = some n ∧ n.pa = none) ∧
    ∀ a ∈ T.addrs, ∃ n, M.heap a = some n ∧
      (∀ c, n.lc = some c ∨ n.rc = some c →
        c ∈ T.addrs ∧ ∃ nc, M.heap c = some nc ∧ nc.pa = some a) ∧
      (n.pa = none ↔ M.root = some a) ∧
      (∀ q, n.pa = some q → q ∈ T.addrs ∧ ∃ nq, M.heap q = some nq ∧
        (nq.lc = some a ∨ nq.rc = some a)) := by
  have hroot : ∀ r, M.root = some r → ∃ n, M.heap r = some n ∧ n.pa = none := by
    intro r h
    rw [hr.root] at h
    obtain ⟨n, hn, hc⟩ := Rep_parent hr.rep (Tree.ptr_mem_addrs h)
    refine ⟨n, hn, ?_⟩
    cases T with
    | nil => simp at h
    | node b cb l k v rr =>
      simp only [Tree.ptr_node, Option.some.injEq] at h
      subst h
      have := hr.rep.1
      rw [hn] at this
      simp only [Option.some.injEq] at this
      rw [this]
  refine ⟨hroot, fun a ha => ?_⟩
  obtain ⟨n, hn, hch⟩ := Rep_children hr.rep ha
  obtain ⟨n', hn', hpa⟩ := Rep_parent hr.rep ha
  rw [hn] at hn'
  simp only [Option.some.injEq] at hn'
  subst hn'
  refine ⟨n, hn, hch, ⟨fun h => ?_, fun h => ?_⟩, fun q hq => ?_⟩
  · rcases hpa with ⟨hp, -⟩ | ⟨q, nq, -, -, hq, -⟩
    · rw [hr.root, hp]
    · rw [h] at hq
      exact absurd hq (by simp)
  · obtain ⟨n2, hn2, hp2⟩ := hroot a h
    rw [hn] at hn2
    simp only [Option.some.injEq] at hn2
    subst hn2
    exact hp2
  · rcases hpa with ⟨-, hp⟩ | ⟨q', nq, hq', hnq, hp, hc⟩
    · rw [hp] at hq
      exact absurd hq (by simp)
    · rw [hp] at hq
      simp only [Option.some.injEq] at hq
      subst hq
      exact ⟨hq', nq, hnq, hc⟩

/-- C26: every finite sequence of statements (constructing an empty map, copy construction,
assignment, `clear`, `insert`, `operator[]`, `erase`) on a memory that holds one empty map
returns, and every map object of the memory then holds a tree `T` (the nodes reachable from
`root`) in which the root has no parent link, every present child of a node `a` is a node
whose parent link is `a`, the parent link of a node is absent exactly when the node is the
root, and the parent link of any other node is a node of the tree that has it as a child. -/
theorem parent_links_consistent [Inhabited V] {cmp : K → K → Bool} (hs : StrictWeak cmp)
    (heap : Nat → Option (Node K V)) (next : Nat) (hfresh : ∀ a, next ≤ a → heap a = none)
    (ops : List (WOp K V)) {fuel : Nat} (hfuel : ops.length < fuel)
    (hlen : ops.length < 2 ^ 64) :
    ∃ w, World.run fuel cmp (World.init cmp heap next) ops = some w ∧
      ∀ i M, w.view i = some M → ∃ T, Repr M T ∧
        (∀ r, M.root = some r → ∃ n, M.heap r = some n ∧ n.pa = none) ∧
        ∀ a ∈ T.addrs, ∃ n, M.heap a = some n ∧
          (∀ c, n.lc = some c ∨ n.rc = some c →
            c ∈ T.addrs ∧ ∃ nc, M.heap c = some nc ∧ nc.pa = some a) ∧
          (n.pa = none ↔ M.root = some a) ∧
          (∀ q, n.pa = some q → q ∈ T.addrs ∧ ∃ nq, M.heap q = some nq ∧
            (nq.lc = some a ∨ nq.rc = some a)) := by
  obtain ⟨w, ts, h1, hi⟩ := World.run_inv hs ops (World.init_inv hs heap next hfresh)
    (show 0 + ops.length < fuel by omega) (show 0 + ops.length < 2 ^ 64 by omega)
  refine ⟨w, h1, fun i M hM => ?_⟩
  obtain ⟨hv, -, -, -⟩ := hi.obj i M hM
  exact ⟨ts i, hv.repr, hv.repr.links⟩

theorem parent_links_consistent_witness :
    StrictWeak natLt ∧ (∀ a, 1 ≤ a → (fun _ => none : Nat → Option (Node Nat Nat)) a = none) ∧
    [WOp.call 0 (.insert 5 50), .call 0 (.insert 3 30), .call 0 (.index 8), .copy 0,
      .call 1 (.erase 5), .create, .assign 2 0].length < 8 ∧
    [WOp.call 0 (.insert 5 50), .call 0 (.insert 3 30), .call 0 (.index 8), .copy 0,
      .call 1 (.erase 5), .create, .assign 2 0].length < 2 ^ 64 ∧
    ∃ w, World.run 8 natLt (World.init natLt (fun _ => none) 1)
        [WOp.call 0 (.insert 5 50), .call 0 (.insert 3 30), .call 0 (.index 8), .copy 0,
          .call 1 (.erase 5), .create, .assign 2 0] = some w ∧
      ∀ i M, w.view i = some M → ∃ T, Repr M T ∧
        (∀ r, M.root = some r → ∃ n, M.heap r = some n ∧ n.pa = none) ∧
        ∀ a ∈ T.addrs, ∃ n, M.heap a = some n ∧
          (∀ c, n.lc = some c ∨ n.rc = some c →
            c ∈ T.addrs ∧ ∃ nc, M.heap c = some nc ∧ nc.pa = some a) ∧
          (n.pa = none ↔ M.root = some a) ∧
          (∀ q, n.pa = some q → q ∈ T.addrs ∧ ∃ nq, M.heap q = some nq ∧
            (nq.lc = some a ∨ nq.rc = some a)) :=
  ⟨natLt_strictWeak, fun _ _ => rfl, by decide, by decide,
    parent_links_consistent natLt_strictWeak (fun _ => none) 1 (fun _ _ => rfl) _ (by decide)
      (by decide)⟩

/-!
## The rebalancing loops dereference no absent node

Every dereference of the embedding fails on an absent node, and the loops fail when the fuel
runs out; a call that returns has met neither.
-/


theorem exMapB_repr : Repr exMapB exTreeB := by
  refine ⟨rfl, ?_, by decide⟩
  simp [exTreeB, Rep, exMapB, exHeapB]

theorem exTreeB_rb : exTreeB.RB := by
  refine ⟨rfl, by simp [exTreeB, Tree.NoRedRed, Tree.color], 2, ?_⟩
  simp [exTreeB, Tree.BH]

/-- A red frame of a context whose top frame is black is not the top frame. -/
theorem red_frame_has_parent {ctx pre up : List (Frame K V)} {fp : Frame K V}
    (hlast : ∀ f, ctx.getLast? = some f → f.c = B) (hc : ctx = pre ++ fp :: up)
    (hred : fp.c = R) : up ≠ [] := by
  rintro rfl
  have := hlast fp (by rw [hc]; simp)
  rw [hred] at this
  exact absurd this (by decide)

/-- C27: on a represented tree `t` that satisfies the red-black colour invariants, with fuel
above the height of `t`: (a) for every absent-child position of `t` (context `ctx`) and every
state that holds `t` with a new red leaf `x` at that position, every red node on the path
from `x` to the root has a parent (so the grandparent of `x` exists whenever the parent of
`x` is red, at every level the loop reaches), and `RB_insert_fixup(x)` returns, leaving a tree
with the colour invariants; such a state is the one in which the non-const `RB_find` calls
`RB_insert_fixup` on a key that the descent does not find; (b) for every node `z` of `t`, the splice of `RB_delete(z)`
returns the node `x` (possibly absent) and its parent `p`; when the removed colour is black
the shape is one on which a black `x` below the root has a brother, also after the rotation
of a red brother (`DelSafe`), and `RB_delete_fixup(x, p)` returns; `RB_delete(z)` returns,
leaving a tree with the colour invariants. A call that returns has dereferenced no absent
node and has ended its loop within the fuel. -/
theorem rebalance_safe [Inhabited V] {m : MapState K V} {t : Tree K V} (hr : Repr m t)
    (hrb : t.RB) (hfresh : HeapFresh m) {fuel : Nat} (hfuel : t.height < fuel) :
    (∀ (ctx : List (Frame K V)) (x : Nat) (k : K) (v : V) (M : MapState K V),
      plug ctx .nil = t → Repr M (plug ctx (.node x R .nil k v .nil)) →
      (∀ pre fp up, ctx = pre ++ fp :: up → fp.c = R → up ≠ []) ∧
      ∃ M' T, RB_insert_fixup fuel M x = some M' ∧ Repr M' T ∧ T.RB) ∧
    (∀ (key : K) (ctx : List (Frame K V)), locate m.cmp key t [] = (ctx, .nil) →
      ∃ M M', Repr M (plug ctx (.node m.next R .nil key default .nil)) ∧
        RB_find fuel m key 1 =
          (RB_insert_fixup fuel M m.next).bind (fun m4 => some (m4, some m.next)) ∧
        RB_insert_fixup fuel M m.next = some M' ∧
        RB_find fuel m key 1 = some (M', some m.next)) ∧
    (∀ z ∈ t.addrs, ∃ M1 ctx x c,
      RB_delete_splice fuel (m.setSiz ((m.siz + 2 ^ 64 - 1) % 2 ^ 64)) z =
        some (M1, x.ptr, parentOf ctx, c == B) ∧
      Repr (M1.free z) (plug ctx x) ∧
      (c = B → DelSafe ctx x ∧
        ∃ M2, RB_delete_fixup fuel (M1.free z) x.ptr (parentOf ctx) = some M2) ∧
      ∃ M T, RB_delete fuel m z = some M ∧ Repr M T ∧ T.RB) := by
  have ha : ∀ (ctx : List (Frame K V)) (x : Nat) (k : K) (v : V) (M : MapState K V),
      plug ctx .nil = t → Repr M (plug ctx (.node x R .nil k v .nil)) →
      (∀ pre fp up, ctx = pre ++ fp :: up → fp.c = R → up ≠ []) ∧
      ∃ M' T, RB_insert_fixup fuel M x = some M' ∧ Repr M' T ∧ T.RB := by
    intro ctx x k v M hplug hrM
    obtain ⟨hcol, hnrr, N, hbh⟩ := hrb
    have hlast : ∀ f, ctx.getLast? = some f → f.c = B := by
      intro f hf
      have := plug_color ctx (.nil : Tree K V) hf
      rw [hplug, hcol] at this
      exact this.symm
    have hlen : ctx.length < fuel := by
      have := height_plug ctx (.nil : Tree K V)
      rw [hplug] at this
      simp only [Tree.height] at this
      omega
    refine ⟨fun pre fp up hc hred => red_frame_has_parent hlast hc hred, ?_⟩
    obtain ⟨M5, hfix, hstep⟩ := insert_fixup_spec fuel ctx _ M x hrM rfl hlast hlen
    refine ⟨M5, _, hfix, hstep.repr, ?_⟩
    rw [← hplug] at hnrr hbh
    obtain ⟨n, hc, hb0, -, -⟩ := unplug_inv ctx hnrr hbh
    simp only [Tree.BH] at hb0
    subst hb0
    exact insFix_RB ctx _ 0 hc (by simp [Tree.BH]) (by simp [Tree.NoRedRed, Tree.color]) rfl
      hlast
  refine ⟨ha, ?_, ?_⟩
  · intro key ctx hloc
    have hplug : plug ctx .nil = t := by
      have := locate_plug m.cmp key t []
      rw [hloc] at this
      exact this
    obtain ⟨M4, hr4, -, -, -, -, -, hfind⟩ := RB_find_link hr hfresh key hloc hfuel
    obtain ⟨-, M5, T, hfix, -, -⟩ := ha ctx m.next key default M4 hplug hr4
    refine ⟨M4, M5, hr4, hfind, hfix, ?_⟩
    rw [hfind, hfix]
    rfl
  · intro z hz
    have hr0 : Repr (m.setSiz ((m.siz + 2 ^ 64 - 1) % 2 ^ 64)) t := hr.setSiz _
    obtain ⟨M1, ctx, x, c, h1, hsp, hlen⟩ := delete_splice_spec hr0 hz (Nat.le_of_lt hfuel)
    have hr2 : Repr (M1.free z) (plug ctx x) := hsp.repr.free hsp.zout
    obtain ⟨C, d, a, k, v, et, hsim⟩ := hsp.shape
    have hinv := splice_inv (by rw [← et]; exact hrb) hsim
    obtain ⟨M, T, hdel, he⟩ := RB_delete_spec hr hrb hz (Nat.le_of_lt hfuel)
    refine ⟨M1, ctx, x, c, h1, hr2, ?_, M, T, hdel, he.repr, he.rb⟩
    intro hc
    obtain ⟨n, hci, hxb, hxn, hlast⟩ := hinv.2 hc
    obtain ⟨hsafe, -⟩ := delFix_inv ctx x n hci hxb hxn hlast
    obtain ⟨M3, h3, -⟩ := delete_fixup_spec fuel ctx x (M1.free z) hr2 hsafe (by omega)
    exact ⟨hsafe, M3, h3⟩

theorem exMapB_fresh : HeapFresh exMapB := by
  intro a ha
  simp only [exMapB] at ha
  simp only [exMapB, exHeapB]
  rw [if_neg (by omega), if_neg (by omega), if_neg (by omega)]

theorem rebalance_safe_witness :
    Repr exMapB exTreeB ∧ exTreeB.RB ∧ HeapFresh exMapB ∧ exTreeB.height < 3 ∧
    (∀ (ctx : List (Frame Nat Nat)) (x : Nat) (k : Nat) (v : Nat) (M : MapState Nat Nat),
      plug ctx .nil = exTreeB → Repr M (plug ctx (.node x R .nil k v .nil)) →
      (∀ pre fp up, ctx = pre ++ fp :: up → fp.c = R → up ≠ []) ∧
      ∃ M' T, RB_insert_fixup 3 M x = some M' ∧ Repr M' T ∧ T.RB) ∧
    (∀ (key : Nat) (ctx : List (Frame Nat Nat)),
      locate exMapB.cmp key exTreeB [] = (ctx, .nil) →
      ∃ M M', Repr M (plug ctx (.node exMapB.next R .nil key default .nil)) ∧
        RB_find 3 exMapB key 1 =
          (RB_insert_fixup 3 M exMapB.next).bind (fun m4 => some (m4, some exMapB.next)) ∧
        RB_insert_fixup 3 M exMapB.next = some M' ∧
        RB_find 3 exMapB key 1 = some (M', some exMapB.next)) ∧
    (∀ z ∈ exTreeB.addrs, ∃ M1 ctx x c,
      RB_delete_splice 3 (exMapB.setSiz ((exMapB.siz + 2 ^ 64 - 1) % 2 ^ 64)) z =
        some (M1, x.ptr, parentOf ctx, c == B) ∧
      Repr (M1.free z) (plug ctx x) ∧
      (c = B → DelSafe ctx x ∧
        ∃ M2, RB_delete_fixup 3 (M1.free z) x.ptr (parentOf ctx) = some M2) ∧
      ∃ M T, RB_delete 3 exMapB z = some M ∧ Repr M T ∧ T.RB) :=
  ⟨exMapB_repr, exTreeB_rb, exMapB_fresh, by decide,
    rebalance_safe exMapB_repr exTreeB_rb exMapB_fresh (by decide)⟩

/-!
## The comparator of a copy

No constructor of the source takes a comparator and no member function assigns `cmp`: the
member is default-constructed in `map()` and in `map(const map &)`, and `operator=` leaves it
as it is.
-/


theorem natGt_strictWeak : StrictWeak natGt := by
  refine ⟨fun a => by simp [natGt], fun a b c h1 h2 => ?_, fun a b c h1 h2 => ?_⟩
  · simp only [natGt, decide_eq_true_eq] at *
    omega
  · simp only [equal, natGt, Bool.and_eq_true, Bool.not_eq_true', decide_eq_false_iff_not] at *
    omega

/-- On a valid map `count(key)` is 1 when a stored key is equivalent to `key` and 0
otherwise. -/
theorem count_of_keys {m : MapState K V} {t : Tree K V} (hr : Repr m t)
    (hs : StrictWeak m.cmp) (hsorted : t.Sorted m.cmp) (key : K) {fuel : Nat}
    (hfuel : t.height < fuel) :
    count fuel m key = some (if t.keys.any (fun k => equal m.cmp key k) then 1 else 0) := by
  have hnone := (locate_correct hs hsorted key).2
  simp only [count, RB_find_const_spec hr hs key hfuel, Option.bind_eq_bind,
    Option.some_bind, Option.pure_def, Option.some.injEq]
  by_cases h : (locate m.cmp key t []).2.ptr = none
  · have h2 := hnone.mp h
    have h3 : t.keys.any (fun k => equal m.cmp key k) = false := by
      rw [List.any_eq_false]
      intro k hk
      simp [h2 k hk]
    simp [h, h3]
  · have h3 : t.keys.any (fun k => equal m.cmp key k) = true := by
      by_contra hc
      apply h
      apply hnone.mpr
      intro k hk
      simp only [Bool.not_eq_true, List.any_eq_false] at hc
      simpa using hc k hk
    cases hp : (locate m.cmp key t []).2.ptr with
    | none => exact absurd hp h
    | some z => simp [h3]

/-- C25 as stated fails on the code: the map `a` is built by `insert` of the keys 1 and 2
while `Compare()` is the order `>`; the copy `b` of `a` and the target `t` of the assignment
`t = a` are constructed while `Compare()` is the order `<`. Both hold the comparator `<`, not
that of `a`, and `count(2)`, which is 1 in `a`, is 0 in `b` and in `t`. -/
theorem copy_cmp_counterexample :
    ∃ a b t : MapState Nat Nat,
      run 5 (mk natGt 0 (fun _ => none) 1) [.insert 1 10, .insert 2 20] = some a ∧
      a.cmp = natGt ∧ mk_copy 5 natLt 1 a = some b ∧
      assign 5 (mk natLt 2 a.heap a.next) a = some t ∧
      b.cmp ≠ a.cmp ∧ t.cmp ≠ a.cmp ∧
      count 5 a 2 = some 1 ∧ count 5 b 2 = some 0 ∧ count 5 t 2 = some 0 := by
  obtain ⟨a, T, ha, -, hc⟩ := run_valid [Op.insert 1 10, Op.insert 2 20]
    (mk_valid natGt_strictWeak 0 (fun _ => none : Nat → Option (Node Nat Nat)) 1
      (fun _ _ => rfl)) (show (Tree.nil : Tree Nat Nat).size + 2 + 1 < 5 by decide)
  have e1 : (run 5 (mk natGt 0 (fun _ => none) 1) [.insert 1 10, .insert 2 20]).bind
      (fun a => count 5 a 2) = some 1 := by decide
  have e2 : (run 5 (mk natGt 0 (fun _ => none) 1) [.insert 1 10, .insert 2 20]).bind
      (fun a => (mk_copy 5 natLt 1 a).map fun b => (b.cmp 1 2, count 5 b 2)) =
        some (true, some 0) := by decide
  have e3 : (run 5 (mk natGt 0 (fun _ => none) 1) [.insert 1 10, .insert 2 20]).bind
      (fun a => (assign 5 (mk natLt 2 a.heap a.next) a).map fun t =>
        (t.cmp 1 2, count 5 t 2)) = some (true, some 0) := by decide
  rw [ha] at e1 e2 e3
  simp only [Option.some_bind, Option.map_eq_some', Prod.mk.injEq] at e1 e2 e3
  obtain ⟨b, hb, hb1, hb2⟩ := e2
  obtain ⟨t, ht, ht1, ht2⟩ := e3
  have hne : ∀ M : MapState Nat Nat, M.cmp 1 2 = true → M.cmp ≠ a.cmp := by
    intro M hM h
    rw [h, hc] at hM
    exact absurd hM (by decide)
  exact ⟨a, b, t, ha, hc, hb, ht, hne b hb1, hne t ht1, e1, hb2, ht2⟩

/-- C25, amended: the comparator is default-constructed, not copied. On a valid map `a`,
the map `b` produced by copy construction holds the value `cmp0` of `Compare()`, and the
target of a copy assignment from `a` keeps the comparator it held; each is the comparator of
`a` whenever `a` holds that value too, and then `count` gives in the copy what it gives in
`a` for every key. In a memory where every construction finds the same value of `Compare()`,
every map object reached by constructions, copies, assignments and the other calls holds
that value. -/
theorem cmp_default_constructed [Inhabited V] {a : MapState K V} {t : Tree K V}
    (hv : Valid a t) (cmp0 : K → K → Bool) (self : Nat) {fuel : Nat}
    (hfuel : t.height < fuel) :
    (∃ b, mk_copy fuel cmp0 self a = some b ∧ b.cmp = cmp0 ∧
      (a.cmp = cmp0 → b.cmp = a.cmp ∧ ∀ key, count fuel b key = count fuel a key)) ∧
    (∀ (tgt : MapState K V) (tt : Tree K V), Repr tgt tt → a.heap = tgt.heap →
      HeapFresh tgt → (∀ x ∈ tt.addrs, x ∉ t.addrs) → tgt.self ≠ a.self →
      tt.height < fuel →
      ∃ r, assign fuel tgt a = some r ∧ r.cmp = tgt.cmp ∧
        (tgt.cmp = a.cmp → r.cmp = a.cmp ∧ ∀ key, count fuel r key = count fuel a key)) ∧
    (StrictWeak cmp0 → ∀ (heap : Nat → Option (Node K V)) (next : Nat),
      (∀ x, next ≤ x → heap x = none) → ∀ ops : List (WOp K V), ops.length < fuel →
      ops.length < 2 ^ 64 →
      ∃ w, World.run fuel cmp0 (World.init cmp0 heap next) ops = some w ∧
        ∀ i M, w.view i = some M → M.cmp = cmp0) := by
  have hca := count_of_keys hv.repr hv.swo hv.sorted
  refine ⟨?_, ?_, ?_⟩
  · obtain ⟨b, h1, hR, -, hcmp, -, -, -, -⟩ := mk_copy_spec hv.repr hv.fresh cmp0 self hfuel
    refine ⟨b, h1, hcmp, fun he => ⟨hcmp.trans he.symm, fun key => ?_⟩⟩
    have hcb : b.cmp = a.cmp := hcmp.trans he.symm
    rw [hca key hfuel, count_of_keys hR (by rw [hcb]; exact hv.swo)
      (by rw [hcb, Tree.Sorted, Tree.keys_copyAt]; exact hv.sorted) key
      (by rw [Tree.height_copyAt]; exact hfuel), hcb, Tree.keys_copyAt]
  · intro tgt tt hrt hheap hf hdisj hself hft
    obtain ⟨r, h1, hR, -, hc, -, -, -, -, -⟩ :=
      assign_spec hrt hv.repr hheap hf hdisj hself hft hfuel
    refine ⟨r, h1, hc, fun he => ⟨hc.trans he, fun key => ?_⟩⟩
    have hcb : r.cmp = a.cmp := hc.trans he
    rw [hca key hfuel, count_of_keys hR (by rw [hcb]; exact hv.swo)
      (by rw [hcb, Tree.Sorted, Tree.keys_copyAt]; exact hv.sorted) key
      (by rw [Tree.height_copyAt]; exact hfuel), hcb, Tree.keys_copyAt]
  · intro hs heap next hfresh ops hlen hlt
    obtain ⟨w, ts, h1, hi⟩ := World.run_inv hs ops (World.init_inv hs heap next hfresh)
      (show 0 + ops.length < fuel by omega) (show 0 + ops.length < 2 ^ 64 by omega)
    exact ⟨w, h1, fun i M hM => (hi.obj i M hM).2.1⟩

theorem cmp_default_constructed_witness :
    Valid exMap exTree ∧ exTree.height < 9 ∧
    (∃ b, mk_copy 9 natLt 1 exMap = some b ∧ b.cmp = natLt ∧
      (exMap.cmp = natLt → b.cmp = exMap.cmp ∧
        ∀ key, count 9 b key = count 9 exMap key)) ∧
    (∃ r, assign 9 exEmpty exMap = some r ∧ r.cmp = exEmpty.cmp ∧
      (exEmpty.cmp = exMap.cmp → r.cmp = exMap.cmp ∧
        ∀ key, count 9 r key = count 9 exMap key)) ∧
    ∃ w, World.run 9 natLt (World.init natLt (fun _ => none) 1)
        [WOp.call 0 (.insert 5 50), .copy 0, .create, .assign 2 1] = some w ∧
      ∀ i M, w.view i = some M → M.cmp = natLt := by
  have h := cmp_default_constructed exMap_valid natLt 1 (show exTree.height < 9 by decide)
  exact ⟨exMap_valid, by decide, h.1,
    h.2.1 exEmpty .nil exEmpty_repr rfl exMap_fresh (fun _ hx => by simp [Tree.addrs] at hx)
      (by decide) (by decide),
    h.2.2 natLt_strictWeak (fun _ => none) 1 (fun _ _ => rfl) _ (by decide) (by decide)⟩

end map
end sjtu

/-!
# `sjtu::vector`: `erase(ind)`

The container of `src/vector/src/vector_malloc.hpp`. The block `arr` is a map from slot
indices to constructed objects; a slot that holds no constructed object (raw storage, or
storage outside the block, or any slot of the null block) is `none`, and reading, assigning
to or destroying such a slot fails.
-/

namespace sjtu
namespace vector
variable {T : Type}

/-- The shifting loop of `erase` on constructed slots: every slot from `i` up to `siz - 1`
receives the content of the next slot. -/
theorem erase_loop_spec (fuel : Nat) : ∀ (arr : Nat → Option T) (siz i : Nat),
    i ≤ siz → siz - i < fuel → siz < 2 ^ 64 →
    (∀ j, i ≤ j → j ≤ siz → ∃ x, arr j = some x) →
    erase_loop fuel arr siz i =
      some (fun j => if i ≤ j ∧ j < siz then arr (j + 1) else arr j) := by
  induction fuel with
  | zero => intro arr siz i _ h; omega
  | succ n ih =>
    intro arr siz i hi hf hs hc
    by_cases hlt : i < siz
    · obtain ⟨x0, hx0⟩ := hc i (Nat.le_refl _) hi
      obtain ⟨x1, hx1⟩ := hc (i + 1) (Nat.le_succ _) hlt
      have hmod : (i + 1) % 2 ^ 64 = i + 1 := Nat.mod_eq_of_lt (by omega)
      have hc2 : ∀ j, i + 1 ≤ j → j ≤ siz → ∃ x, Function.update arr i (some x1) j = some x := by
        intro j h1 h2
        rw [Function.update_noteq (by omega)]
        exact hc j (by omega) h2
      simp only [erase_loop, hlt, if_true, hx0, hx1, Option.bind_eq_bind, Option.some_bind,
        hmod]
      rw [ih _ siz (i + 1) hlt (by omega) hs hc2]
      congr 1
      funext j
      by_cases hji : j = i
      · subst hji
        simp [hlt, hx1]
      · by_cases h1 : i + 1 ≤ j ∧ j < siz
        · have h2 : i ≤ j ∧ j < siz := ⟨by omega, h1.2⟩
          rw [if_pos h1, if_pos h2, Function.update_noteq (by omega)]
        · have h2 : ¬ (i ≤ j ∧ j < siz) := by omega
          rw [if_neg h1, if_neg h2, Function.update_noteq hji]
    · simp only [erase_loop, hlt, if_false]
      congr 1
      funext j
      rw [if_neg (by omega)]

/-- The source's `erase(ind)` with `ind > size()`: it throws `index_out_of_bound` and leaves
the vector as it was. -/
theorem erase_above (fuel : Nat) (v : Vec T) {ind : Nat} (h : v.siz < ind) :
    erase fuel v ind = some (v, .error .index_out_of_bound) := by
  simp [erase, h]

/-- The source's `erase(ind)` with `ind < size()`: the element at `ind` is removed, the
following elements move down by one, `size()` decreases by one, and the iterator returned
stands at position `ind`. -/
theorem erase_in_range {v : Vec T} {l : List T} (hv : Holds v l) {ind : Nat}
    (hind : ind < l.length) {fuel : Nat} (hfuel : l.length < fuel) :
    ∃ w, erase fuel v ind = some (w, .ok ind) ∧ Holds w (l.eraseIdx ind) ∧
      size w + 1 = size v := by
  obtain ⟨hs, hcap, hlt, harr⟩ := hv
  have hsiz : (v.siz + 2 ^ 64 - 1) % 2 ^ 64 = l.length - 1 := by
    rw [hs]
    have : l.length + 2 ^ 64 - 1 = (l.length - 1) + 2 ^ 64 := by omega
    rw [this, Nat.add_mod_right]
    exact Nat.mod_eq_of_lt (by omega)
  have hc : ∀ j, ind ≤ j → j ≤ l.length - 1 → ∃ x, v.arr j = some x := by
    intro j _ h2
    rw [harr j, List.getElem?_eq_getElem (by omega)]
    exact ⟨_, rfl⟩
  have hloop := erase_loop_spec fuel v.arr (l.length - 1) ind (by omega) (by omega)
    (by omega) hc
  obtain ⟨xl, hxl⟩ := hc (l.length - 1) (by omega) (Nat.le_refl _)
  have hng : ¬ ind > v.siz := by omega
  refine ⟨⟨Function.update (fun j => if ind ≤ j ∧ j < l.length - 1 then v.arr (j + 1)
    else v.arr j) (l.length - 1) none, l.length - 1, v.cap⟩, ?_, ⟨?_, ?_, hlt, ?_⟩, ?_⟩
  · simp only [erase, hng, if_false, hsiz, hloop, Option.bind_eq_bind, Option.some_bind,
      Nat.lt_irrefl, and_false, hxl, Option.pure_def]
  · simp only [List.length_eraseIdx, hind, if_true]
  · simp only [List.length_eraseIdx, hind, if_true]
    omega
  · intro j
    simp only [List.getElem?_eraseIdx]
    by_cases hj : j = l.length - 1
    · subst hj
      rw [Function.update_same, if_neg (by omega), List.getElem?_eq_none (by omega)]
    · rw [Function.update_noteq hj]
      by_cases h1 : ind ≤ j ∧ j < l.length - 1
      · rw [if_pos h1, if_neg (by omega), harr]
      · rw [if_neg h1, harr]
        by_cases h2 : j < ind
        · rw [if_pos h2]
        · rw [if_neg h2, List.getElem?_eq_none (by omega), List.getElem?_eq_none (by omega)]
  · simp only [size, hs]
    omega

/-- The source's `erase(ind)` with `ind == size()` on a non-empty vector: the guard
`ind > siz` lets the call through; no exception is thrown, the last element is destroyed and
`size()` decreases by one. -/
theorem erase_at_size {v : Vec T} {l : List T} (hv : Holds v l) (hne : l ≠ []) {fuel : Nat}
    (hfuel : 0 < fuel) :
    ∃ w, erase fuel v l.length = some (w, .ok l.length) ∧ Holds w l.dropLast ∧
      size w + 1 = size v := by
  obtain ⟨hs, hcap, hlt, harr⟩ := hv
  have hpos : 0 < l.length := List.length_pos.mpr hne
  have hsiz : (v.siz + 2 ^ 64 - 1) % 2 ^ 64 = l.length - 1 := by
    rw [hs]
    have : l.length + 2 ^ 64 - 1 = (l.length - 1) + 2 ^ 64 := by omega
    rw [this, Nat.add_mod_right]
    exact Nat.mod_eq_of_lt (by omega)
  obtain ⟨n, rfl⟩ : ∃ n, fuel = n + 1 := ⟨fuel - 1, by omega⟩
  have hloop : erase_loop (n + 1) v.arr (l.length - 1) l.length = some v.arr := by
    simp only [erase_loop]
    rw [if_neg (by omega)]
  obtain ⟨xl, hxl⟩ : ∃ x, v.arr (l.length - 1) = some x := by
    rw [harr, List.getElem?_eq_getElem (by omega)]
    exact ⟨_, rfl⟩
  have hng : ¬ l.length > v.siz := by omega
  refine ⟨⟨Function.update v.arr (l.length - 1) none, l.length - 1, v.cap⟩, ?_,
    ⟨?_, ?_, hlt, ?_⟩, ?_⟩
  · simp only [erase, hng, if_false, hsiz, hloop, Option.bind_eq_bind, Option.some_bind, hxl,
      Option.pure_def]
  · simp only [List.length_dropLast]
  · simp only [List.length_dropLast]
    omega
  · intro j
    show Function.update v.arr (l.length - 1) none j = l.dropLast[j]?
    by_cases hj : j = l.length - 1
    · subst hj
      rw [Function.update_same, List.getElem?_eq_none (by simp)]
    · rw [Function.update_noteq hj, harr]
      by_cases h2 : j < l.length - 1
      · rw [List.getElem?_eq_getElem (by omega),
          List.getElem?_eq_getElem (by simp only [List.length_dropLast]; exact h2),
          List.getElem_dropLast]
      · rw [List.getElem?_eq_none (by omega),
          List.getElem?_eq_none (by simp only [List.length_dropLast]; omega)]
  · simp only [size, hs]
    omega

/-- The source's `erase(0)` on the empty vector: `siz--` wraps around, and the loop reads the
slot 1 of a block that holds no constructed object. -/
theorem erase_empty (fuel : Nat) {v : Vec T} (hv : Holds v []) : erase fuel v 0 = none := by
  obtain ⟨hs, -, -, harr⟩ := hv
  simp only [List.length_nil] at hs
  cases fuel with
  | zero => simp [erase, hs, erase_loop]
  | succ n =>
    have h0 : v.arr 0 = none := by rw [harr]; rfl
    simp [erase, hs, erase_loop, h0]

theorem exVec_holds : Holds exVec [7] := by
  refine ⟨rfl, by decide, by decide, fun i => ?_⟩
  cases i with
  | zero => rfl
  | succ n => simp [exVec]

/-- C22 at the index `ind == size()`: on the vector `[7]`, `erase(1)` does not throw
`index_out_of_bound`; it returns an iterator at position 1 and leaves the vector empty, the
element 7 destroyed. The source's own comment on `erase(ind)` demands the exception for
`ind >= size`, and `erase(iterator)` rejects the same position. -/
theorem erase_at_size_no_throw :
    Holds exVec [7] ∧ size exVec = 1 ∧
    ∃ w, erase 1 exVec 1 = some (w, .ok 1) ∧ size w = 0 ∧ w.arr 0 = none ∧ Holds w [] ∧
      erase 1 exVec 1 ≠ some (exVec, .error .index_out_of_bound) := by
  obtain ⟨w, h1, h2, h3⟩ := erase_at_size exVec_holds (by simp) (show 0 < 1 by decide)
  simp only [List.length_singleton] at h1
  refine ⟨exVec_holds, rfl, w, h1, h2.1, ?_, h2, ?_⟩
  · rw [h2.2.2.2 0]
    rfl
  · rw [h1]
    simp

end vector
end sjtu

/-!
## `merge` on represented heap-ordered trees
-/

namespace sjtu
namespace priority_queue
variable {T : Type}

theorem PTree.length_addrs (t : PTree T) : t.addrs.length = t.size := by
  induction t with
  | nil => rfl
  | node a k hh l r ihl ihr => simp [PTree.addrs, PTree.size, ihl, ihr]

theorem PTree.length_keys (t : PTree T) : t.keys.length = t.size := by
  induction t with
  | nil => rfl
  | node a k hh l r ihl ihr => simp [PTree.keys, PTree.size, ihl, ihr]

theorem PTree.ptr_mem {t : PTree T} {a : Nat} (e : t.ptr = some a) : a ∈ t.addrs := by
  cases t with
  | nil => simp [PTree.ptr] at e
  | node b k hh l r =>
    simp only [PTree.ptr, Option.some.injEq] at e
    simp [PTree.addrs, e]

theorem PRep_congr {heap heap2 : Nat → Option (Node T)} {t : PTree T}
    (hag : ∀ a ∈ t.addrs, heap2 a = heap a) (hr : PRep heap t) : PRep heap2 t := by
  induction t with
  | nil => trivial
  | node a k hh l r ihl ihr =>
    obtain ⟨h1, h2, h3⟩ := hr
    refine ⟨?_, ihl (fun b hb => hag b ?_) h2, ihr (fun b hb => hag b ?_) h3⟩
    · rw [hag a (by simp [PTree.addrs])]
      exact h1
    · simp [PTree.addrs, hb]
    · simp [PTree.addrs, hb]

theorem PRep_heap_some {heap : Nat → Option (Node T)} {t : PTree T} (hr : PRep heap t)
    {a : Nat} (ha : a ∈ t.addrs) : ∃ n, heap a = some n := by
  induction t with
  | nil => simp [PTree.addrs] at ha
  | node b k hh l r ihl ihr =>
    obtain ⟨h1, h2, h3⟩ := hr
    simp only [PTree.addrs, List.mem_cons, List.mem_append] at ha
    rcases ha with rfl | ha | ha
    · exact ⟨_, h1⟩
    · exact ihl h2 ha
    · exact ihr h3 ha

/-- A represented tree is closed under its child pointers. -/
theorem PRep_closed {heap : Nat → Option (Node T)} {t : PTree T} (hr : PRep heap t) :
    ClosedOn heap t.addrs := by
  induction t with
  | nil => intro a ha; simp [PTree.addrs] at ha
  | node b k hh l r ihl ihr =>
    obtain ⟨h1, h2, h3⟩ := hr
    intro a ha
    simp only [PTree.addrs, List.mem_cons, List.mem_append] at ha
    rcases ha with rfl | ha | ha
    · refine ⟨_, h1, fun c hc => ?_, fun c hc => ?_⟩
      · simp only at hc
        simp [PTree.addrs, PTree.ptr_mem hc]
      · simp only at hc
        simp [PTree.addrs, PTree.ptr_mem hc]
    · obtain ⟨n, hn, hl, hrr⟩ := ihl h2 a ha
      exact ⟨n, hn, fun c hc => by simp [PTree.addrs, hl c hc],
        fun c hc => by simp [PTree.addrs, hrr c hc]⟩
    · obtain ⟨n, hn, hl, hrr⟩ := ihr h3 a ha
      exact ⟨n, hn, fun c hc => by simp [PTree.addrs, hl c hc],
        fun c hc => by simp [PTree.addrs, hrr c hc]⟩

/-- In a strict weak order, `not less` is transitive. -/
theorem not_lt_trans {cmp : T → T → Bool} (hs : map.StrictWeak cmp) {a b c : T}
    (hab : cmp a b = false) (hbc : cmp b c = false) : cmp a c = false := by
  cases hac : cmp a c with
  | false => rfl
  | true =>
    cases hba : cmp b a with
    | true =>
      have := hs.trans _ _ _ hba hac
      rw [hbc] at this
      exact absurd this (by simp)
    | false =>
      cases hcb : cmp c b with
      | true =>
        have := hs.trans _ _ _ hac hcb
        rw [hab] at this
        exact absurd this (by simp)
      | false =>
        have e1 : map.equal cmp a b = true := by simp [map.equal, hab, hba]
        have e2 : map.equal cmp b c = true := by simp [map.equal, hbc, hcb]
        have e3 := hs.incomp _ _ _ e1 e2
        simp [map.equal, hac] at e3

/-- The value of `h(p)` at the root of a represented tree. -/
theorem h_of_rep {heap : Nat → Option (Node T)} {t : PTree T} (hr : PRep heap t) :
    ∃ v, h heap t.ptr = some v := by
  cases t with
  | nil => exact ⟨0, rfl⟩
  | node a k hh l r => exact ⟨hh, by simp [h, PTree.ptr, hr.1]⟩

theorem h_update {heap : Nat → Option (Node T)} {x : Nat} {n : Option (Node T)}
    {t : PTree T} (hx : x ∉ t.addrs) : h (Function.update heap x n) t.ptr = h heap t.ptr := by
  cases t with
  | nil => rfl
  | node a k hh l r =>
    have : a ≠ x := by
      rintro rfl
      exact hx (by simp [PTree.addrs])
    simp [h, PTree.ptr, Function.update_noteq this]

/-- Lines 52-57 of `merge` on a node `x` with left subtree `L` and a merged tree `M`: the
node `x` gets `L` and `M` as its subtrees, in one order or the other, and a new height field;
nothing else changes. -/
theorem merge_link_spec {heap : Nat → Option (Node T)} {x : Nat} {k : T} {q : Option Nat}
    {hx : Int} {L M : PTree T} (e : heap x = some ⟨k, L.ptr, q, hx⟩) (hL : PRep heap L)
    (hM : PRep heap M) (hxL : x ∉ L.addrs) (hxM : x ∉ M.addrs) :
    ∃ l r hh, merge_link heap x M.ptr =
        some (Function.update heap x (some ⟨k, l.ptr, r.ptr, hh⟩), some x) ∧
      ((l = L ∧ r = M) ∨ (l = M ∧ r = L)) := by
  obtain ⟨vl, hvl⟩ := h_of_rep hL
  obtain ⟨vr, hvr⟩ := h_of_rep hM
  by_cases hgt : vr > vl
  · refine ⟨M, L, wrap32 (vl + 1), ?_, Or.inr ⟨rfl, rfl⟩⟩
    simp only [merge_link, e, Option.bind_eq_bind, Option.some_bind, Function.update_same,
      h_update hxL, h_update hxM, hvl, hvr, hgt, if_true, Function.update_idem,
      Option.pure_def]
  · refine ⟨L, M, wrap32 (vr + 1), ?_, Or.inl ⟨rfl, rfl⟩⟩
    simp only [merge_link, e, Option.bind_eq_bind, Option.some_bind, Function.update_same,
      h_update hxL, h_update hxM, hvl, hvr, hgt, if_false, Function.update_idem,
      Option.pure_def]

/-- The recursive call of `merge` and the lines after it, on a node `a` whose key is not below
any key of the other tree. -/
theorem merge_below {cmp : T → T → Bool} {n : Nat} {heap : Nat → Option (Node T)} {a : Nat}
    {ka : T} {ha : Int} {la ra O : PTree T}
    (ih : PRep heap ra → PRep heap O → (ra.addrs ++ O.addrs).Nodup → HeapOrd cmp ra →
      HeapOrd cmp O → ∃ heap1 M, merge cmp n heap ra.ptr O.ptr = some (heap1, M.ptr) ∧
        Merged cmp heap heap1 ra O M)
    (hW : PRep heap (.node a ka ha la ra)) (hO : PRep heap O)
    (hnd : ((PTree.node a ka ha la ra).addrs ++ O.addrs).Nodup)
    (hoW : HeapOrd cmp (.node a ka ha la ra)) (hoO : HeapOrd cmp O)
    (hdom : ∀ y ∈ O.keys, cmp ka y = false) :
    ∃ heap2 t, (merge cmp n heap ra.ptr O.ptr).bind (fun r => merge_link r.1 a r.2) =
        some (heap2, t.ptr) ∧ Merged cmp heap heap2 (.node a ka ha la ra) O t := by
  obtain ⟨hWa, hWl, hWr⟩ := hW
  obtain ⟨hdW, holW, horW⟩ := hoW
  simp only [PTree.addrs, List.cons_append, List.append_assoc, List.nodup_cons,
    List.mem_append, not_or] at hnd
  obtain ⟨⟨haL, haR, haO⟩, hnd2⟩ := hnd
  rw [List.nodup_append] at hnd2
  obtain ⟨hnL, hnRO, hdisj⟩ := hnd2
  obtain ⟨heap1, M, h1, hM, hpa, hpk, hoM, hfr⟩ := ih hWr hO hnRO horW hoO
  have haM : a ∉ M.addrs := by
    rw [hpa.mem_iff, List.mem_append]
    exact fun h => h.elim haR haO
  have hLM : ∀ b ∈ la.addrs, heap1 b = heap b := fun b hb => hfr b (fun h => hdisj hb h)
  have e1 : heap1 a = some ⟨ka, la.ptr, ra.ptr, ha⟩ := by
    rw [hfr a (by rw [List.mem_append]; exact fun h => h.elim haR haO)]
    exact hWa
  have hL1 : PRep heap1 la := PRep_congr hLM hWl
  obtain ⟨l, r, hh, h2, hlr⟩ := merge_link_spec e1 hL1 hM haL haM
  have hal : a ∉ l.addrs := by rcases hlr with ⟨rfl, rfl⟩ | ⟨rfl, rfl⟩ <;> assumption
  have har : a ∉ r.addrs := by rcases hlr with ⟨rfl, rfl⟩ | ⟨rfl, rfl⟩ <;> assumption
  have hl2 : PRep heap1 l := by rcases hlr with ⟨rfl, rfl⟩ | ⟨rfl, rfl⟩ <;> assumption
  have hr2 : PRep heap1 r := by rcases hlr with ⟨rfl, rfl⟩ | ⟨rfl, rfl⟩ <;> assumption
  have hup : ∀ (t : PTree T), a ∉ t.addrs → PRep heap1 t →
      PRep (Function.update heap1 a (some ⟨ka, l.ptr, r.ptr, hh⟩)) t := by
    intro t hat ht
    refine PRep_congr (fun b hb => ?_) ht
    rw [Function.update_noteq]
    rintro rfl
    exact hat hb
  refine ⟨_, .node a ka hh l r, ?_, ⟨Function.update_same .., hup l hal hl2, hup r har hr2⟩,
    ?_, ?_, ⟨?_, ?_, ?_⟩, ?_⟩
  · rw [h1]
    exact h2
  · simp only [PTree.addrs, List.cons_append, List.append_assoc]
    refine List.Perm.cons a ?_
    rcases hlr with ⟨rfl, rfl⟩ | ⟨rfl, rfl⟩
    · exact List.Perm.append_left _ hpa
    · exact (List.perm_append_comm).trans (List.Perm.append_left _ hpa)
  · simp only [PTree.keys, List.cons_append, List.append_assoc]
    refine List.Perm.cons ka ?_
    rcases hlr with ⟨rfl, rfl⟩ | ⟨rfl, rfl⟩
    · exact List.Perm.append_left _ hpk
    · exact (List.perm_append_comm).trans (List.Perm.append_left _ hpk)
  · intro y hy
    have hy2 : y ∈ la.keys ∨ y ∈ ra.keys ∨ y ∈ O.keys := by
      rw [List.mem_append] at hy
      rcases hlr with ⟨rfl, rfl⟩ | ⟨rfl, rfl⟩
      · rcases hy with hy | hy
        · exact Or.inl hy
        · rw [hpk.mem_iff, List.mem_append] at hy
          exact Or.inr hy
      · rcases hy with hy | hy
        · rw [hpk.mem_iff, List.mem_append] at hy
          exact Or.inr hy
        · exact Or.inl hy
    rcases hy2 with hy | hy | hy
    · exact hdW y (List.mem_append_left _ hy)
    · exact hdW y (List.mem_append_right _ hy)
    · exact hdom y hy
  · rcases hlr with ⟨rfl, rfl⟩ | ⟨rfl, rfl⟩ <;> assumption
  · rcases hlr with ⟨rfl, rfl⟩ | ⟨rfl, rfl⟩ <;> assumption
  · intro b hb
    simp only [PTree.addrs, List.cons_append, List.append_assoc, List.mem_cons,
      List.mem_append, not_or] at hb
    rw [Function.update_noteq hb.1]
    exact hfr b (by rw [List.mem_append]; exact fun h => h.elim hb.2.2.1 hb.2.2.2)

/-- The keys of a heap-ordered tree are not above its root key. -/
theorem HeapOrd.root_dom {cmp : T → T → Bool} (hs : map.StrictWeak cmp) {a : Nat} {k : T}
    {hh : Int} {l r : PTree T} (ho : HeapOrd cmp (.node a k hh l r)) :
    ∀ y ∈ (PTree.node a k hh l r).keys, cmp k y = false := by
  intro y hy
  simp only [PTree.keys, List.mem_cons] at hy
  rcases hy with rfl | hy
  · exact hs.irrefl _
  · exact ho.1 y hy

/-- The source's `merge(x, y)` on two represented, heap-ordered trees without a common node:
it returns the root of a represented, heap-ordered tree that has the nodes and the keys of
both; nothing else changes. -/
theorem merge_spec {cmp : T → T → Bool} (hs : map.StrictWeak cmp) (fuel : Nat) :
    ∀ (tx ty : PTree T) (heap : Nat → Option (Node T)), PRep heap tx → PRep heap ty →
      (tx.addrs ++ ty.addrs).Nodup → HeapOrd cmp tx → HeapOrd cmp ty →
      tx.size + ty.size < fuel →
      ∃ heap2 t, merge cmp fuel heap tx.ptr ty.ptr = some (heap2, t.ptr) ∧
        Merged cmp heap heap2 tx ty t := by
  induction fuel with
  | zero => intro tx ty heap _ _ _ _ _ hf; omega
  | succ n ih =>
    intro tx ty heap hx hy hnd hox hoy hf
    cases tx with
    | nil =>
      refine ⟨heap, ty, by simp [merge, PTree.ptr], hy, ?_, ?_, hoy, fun _ _ => rfl⟩
      · simp [PTree.addrs]
      · simp [PTree.keys]
    | node x kx hhx lx rx =>
      cases ty with
      | nil =>
        refine ⟨heap, .node x kx hhx lx rx, by simp [merge, PTree.ptr], hx, ?_, ?_, hox,
          fun _ _ => rfl⟩
        · simp [PTree.addrs]
        · simp [PTree.keys]
      | node y ky hhy ly ry =>
        have ex := hx.1
        have ey := hy.1
        simp only [PTree.size] at hf
        cases hc : cmp kx ky with
        | false =>
          have hdom : ∀ z ∈ (PTree.node y ky hhy ly ry).keys, cmp kx z = false :=
            fun z hz => not_lt_trans hs hc (hoy.root_dom hs z hz)
          obtain ⟨heap2, t, h1, hm⟩ := merge_below
            (fun h1 h2 h3 h4 h5 => ih rx (.node y ky hhy ly ry) heap h1 h2 h3 h4 h5
              (by simp only [PTree.size]; omega)) hx hy hnd hox hoy hdom
          refine ⟨heap2, t, ?_, hm⟩
          simp only [PTree.ptr] at h1
          simp only [merge, PTree.ptr, ex, ey, hc, Option.bind_eq_bind, Option.some_bind,
            Bool.false_eq_true, if_false]
          exact h1
        | true =>
          have hc2 : cmp ky kx = false := hs.asymm hc
          have hdom : ∀ z ∈ (PTree.node x kx hhx lx rx).keys, cmp ky z = false :=
            fun z hz => not_lt_trans hs hc2 (hox.root_dom hs z hz)
          have hnd2 : ((PTree.node y ky hhy ly ry).addrs ++
              (PTree.node x kx hhx lx rx).addrs).Nodup :=
            (List.perm_append_comm.nodup_iff).mp hnd
          obtain ⟨heap2, t, h1, hm⟩ := merge_below
            (fun h1 h2 h3 h4 h5 => ih ry (.node x kx hhx lx rx) heap h1 h2 h3 h4 h5
              (by simp only [PTree.size]; omega)) hy hx hnd2 hoy hox hdom
          obtain ⟨m1, m2, m3, m4, m5⟩ := hm
          refine ⟨heap2, t, ?_, m1, m2.trans List.perm_append_comm,
            m3.trans List.perm_append_comm, m4, fun a ha => m5 a ?_⟩
          · simp only [PTree.ptr] at h1
            simp only [merge, PTree.ptr, ex, ey, hc, Option.bind_eq_bind, Option.some_bind,
              if_true]
            exact h1
          · simp only [List.mem_append] at ha ⊢
            exact fun h => ha h.symm

theorem ClosedOn.set_node {heap : Nat → Option (Node T)} {S : List Nat}
    (hc : ClosedOn heap S) {x : Nat} {n : Node T} (hl : ∀ c, n.lc = some c → c ∈ S)
    (hr : ∀ c, n.rc = some c → c ∈ S) : ClosedOn (Function.update heap x (some n)) S := by
  intro a ha
  by_cases hax : a = x
  · subst hax
    exact ⟨n, Function.update_same .., hl, hr⟩
  · rw [Function.update_noteq hax]
    exact hc a ha

theorem h_closed {heap : Nat → Option (Node T)} {S : List Nat} (hc : ClosedOn heap S)
    {p : Option Nat} (hp : ∀ c, p = some c → c ∈ S) : ∃ v, h heap p = some v := by
  cases p with
  | none => exact ⟨0, rfl⟩
  | some c =>
    obtain ⟨n, hn, -, -⟩ := hc c (hp c rfl)
    exact ⟨n.h, by simp [h, hn]⟩

/-- Lines 52-57 of `merge` on any node of a set that is closed under child pointers: the
lines dereference no absent node, and the set stays closed. -/
theorem merge_link_total {heap : Nat → Option (Node T)} {S : List Nat}
    (hc : ClosedOn heap S) {x : Nat} (hx : x ∈ S) {r : Option Nat}
    (hr : ∀ c, r = some c → c ∈ S) :
    ∃ heap2, merge_link heap x r = some (heap2, some x) ∧ ClosedOn heap2 S ∧
      ∀ a, a ∉ S → heap2 a = heap a := by
  obtain ⟨nx, enx, hxl, hxr⟩ := hc x hx
  have hc1 : ClosedOn (Function.update heap x (some { nx with rc := r })) S :=
    hc.set_node hxl hr
  obtain ⟨vr, hvr⟩ := h_closed hc1 hr
  obtain ⟨vl, hvl⟩ := h_closed hc1 hxl
  have hne : ∀ a, a ∉ S → a ≠ x := by
    rintro a ha rfl
    exact ha hx
  by_cases hgt : vr > vl
  · have hc2 : ClosedOn (Function.update heap x (some ⟨nx.key, r, nx.lc, nx.h⟩)) S :=
      hc.set_node hr hxl
    obtain ⟨v2, hv2⟩ := h_closed hc2 hxl
    refine ⟨Function.update heap x (some ⟨nx.key, r, nx.lc, wrap32 (v2 + 1)⟩), ?_,
      hc.set_node hr hxl, fun a ha => Function.update_noteq (hne a ha) _ _⟩
    simp only [merge_link, enx, Option.bind_eq_bind, Option.some_bind, Function.update_same,
      hvr, hvl, hgt, if_true, Function.update_idem, hv2, Option.pure_def]
  · refine ⟨Function.update heap x (some ⟨nx.key, nx.lc, r, wrap32 (vr + 1)⟩), ?_,
      hc.set_node hxl hr, fun a ha => Function.update_noteq (hne a ha) _ _⟩
    simp only [merge_link, enx, Option.bind_eq_bind, Option.some_bind, Function.update_same,
      hvr, hvl, hgt, if_false, Function.update_idem, Option.pure_def]

/-- The source's `merge(x, y)` on two represented trees that may share nodes (as in
`q.merge(q)`): the call returns; it changes only nodes of the two trees, which stay allocated
with child pointers among them. -/
theorem merge_total (cmp : T → T → Bool) (fuel : Nat) :
    ∀ (tx ty : PTree T) (heap : Nat → Option (Node T)) (S : List Nat), ClosedOn heap S →
      PRep heap tx → PRep heap ty → (∀ a ∈ tx.addrs, a ∈ S) → (∀ a ∈ ty.addrs, a ∈ S) →
      tx.size + ty.size < fuel →
      ∃ heap2 r, merge cmp fuel heap tx.ptr ty.ptr = some (heap2, r) ∧ ClosedOn heap2 S ∧
        (∀ a, a ∉ S → heap2 a = heap a) ∧ ∀ c, r = some c → c ∈ S := by
  induction fuel with
  | zero => intro tx ty heap S _ _ _ _ _ hf; omega
  | succ n ih =>
    intro tx ty heap S hc hx hy hsx hsy hf
    cases tx with
    | nil =>
      exact ⟨heap, ty.ptr, by simp [merge, PTree.ptr], hc, fun _ _ => rfl,
        fun c e => hsy c (PTree.ptr_mem e)⟩
    | node x kx hhx lx rx =>
      cases ty with
      | nil =>
        refine ⟨heap, some x, by simp [merge, PTree.ptr], hc, fun _ _ => rfl, fun c e => ?_⟩
        simp only [Option.some.injEq] at e
        subst e
        exact hsx _ (by simp [PTree.addrs])
      | node y ky hhy ly ry =>
        have ex := hx.1
        have ey := hy.1
        simp only [PTree.size] at hf
        have hxS : x ∈ S := hsx x (by simp [PTree.addrs])
        have hyS : y ∈ S := hsy y (by simp [PTree.addrs])
        cases hcm : cmp kx ky with
        | false =>
          obtain ⟨heap1, r, h1, hc1, hf1, hr1⟩ := ih rx (.node y ky hhy ly ry) heap S hc
            hx.2.2 hy (fun a ha => hsx a (by simp [PTree.addrs, ha])) hsy
            (by simp only [PTree.size]; omega)
          obtain ⟨heap2, h2, hc2, hf2⟩ := merge_link_total hc1 hxS hr1
          refine ⟨heap2, some x, ?_, hc2, fun a ha => (hf2 a ha).trans (hf1 a ha), fun c e => ?_⟩
          · simp only [PTree.ptr] at h1
            simp only [merge, PTree.ptr, ex, ey, hcm, Option.bind_eq_bind, Option.some_bind,
              Bool.false_eq_true, if_false, h1]
            exact h2
          · simp only [Option.some.injEq] at e
            subst e
            exact hxS
        | true =>
          obtain ⟨heap1, r, h1, hc1, hf1, hr1⟩ := ih ry (.node x kx hhx lx rx) heap S hc
            hy.2.2 hx (fun a ha => hsy a (by simp [PTree.addrs, ha])) hsx
            (by simp only [PTree.size]; omega)
          obtain ⟨heap2, h2, hc2, hf2⟩ := merge_link_total hc1 hyS hr1
          refine ⟨heap2, some y, ?_, hc2, fun a ha => (hf2 a ha).trans (hf1 a ha), fun c e => ?_⟩
          · simp only [PTree.ptr] at h1
            simp only [merge, PTree.ptr, ex, ey, hcm, Option.bind_eq_bind, Option.some_bind,
              if_true, h1]
            exact h2
          · simp only [Option.some.injEq] at e
            subst e
            exact hyS

end priority_queue
end sjtu

/-!
## `push`, `pop`, `top` and `merge(other)` on heap-ordered queues
-/

namespace sjtu
namespace priority_queue
variable {T : Type}

/-- The nodes of a represented tree lie below the allocator's next address. -/
theorem PRep_lt_next {heap : Nat → Option (Node T)} {next : Nat}
    (hf : ∀ a, next ≤ a → heap a = none) {t : PTree T} (hr : PRep heap t) {a : Nat}
    (ha : a ∈ t.addrs) : a < next := by
  by_contra hge
  obtain ⟨n, hn⟩ := PRep_heap_some hr ha
  rw [hf a (Nat.le_of_not_lt hge)] at hn
  exact absurd hn (by simp)

/-- A list of distinct numbers below `N` has at most `N` elements. -/
theorem length_le_of_nodup_lt {l : List Nat} {N : Nat} (hnd : l.Nodup)
    (hlt : ∀ a ∈ l, a < N) : l.length ≤ N := by
  have hsub : l ⊆ List.range N := fun a ha => List.mem_range.mpr (hlt a ha)
  have := (List.subperm_of_subset hnd hsub).length_le
  simpa using this

/-- The source's `top()` on a state that holds a tree. -/
theorem top_spec {q : PQState T} {t : PTree T} (hq : QInv q t) (hs : map.StrictWeak q.cmp) :
    (t.keys = [] → top q = some (.error .container_is_empty)) ∧
    (∀ a k hh l r, t = .node a k hh l r →
      top q = some (.ok k) ∧ k ∈ t.keys ∧ ∀ y ∈ t.keys, q.cmp k y = false) := by
  constructor
  · intro he
    have : q.siz = 0 := by
      rw [hq.siz, ← PTree.length_keys, he]
      rfl
    simp [top, this]
  · rintro a k hh l r rfl
    refine ⟨?_, by simp [PTree.keys], hq.ord.root_dom hs⟩
    have hsz : (q.siz == 0) = false := by
      rw [hq.siz]
      simp [PTree.size]
    have hroot : q.root = some a := hq.root
    simp only [top, hsz, Bool.false_eq_true, if_false, hroot, hq.rep.1,
      Option.bind_eq_bind, Option.some_bind, Option.pure_def]

/-- The source's `push(e)` on a state that holds a heap-ordered tree. -/
theorem push_spec {q : PQState T} {t : PTree T} (hq : QInv q t) (hs : map.StrictWeak q.cmp)
    (hf : ∀ a, q.next ≤ a → q.heap a = none) (e : T) {fuel : Nat} (hfuel : t.size + 1 < fuel)
    (hlt : t.size + 1 < 2 ^ 64) :
    ∃ q2 t2, push fuel q e = some q2 ∧ QInv q2 t2 ∧ t2.keys.Perm (e :: t.keys) ∧
      t2.addrs.Perm (q.next :: t.addrs) ∧ q2.cmp = q.cmp ∧ q2.next = q.next + 1 ∧
      ∀ a, a ∉ t.addrs → a ≠ q.next → q2.heap a = q.heap a := by
  have hpt : q.next ∉ t.addrs := fun hm => Nat.lt_irrefl _ (PRep_lt_next hf hq.rep hm)
  have hr0 : PRep (Function.update q.heap q.next (some ⟨e, none, none, 1⟩)) t :=
    PRep_congr (fun a ha => Function.update_noteq (fun h => hpt (by rw [← h]; exact ha)) _ _)
      hq.rep
  have hP : PRep (Function.update q.heap q.next (some ⟨e, none, none, 1⟩))
      (.node q.next e 1 .nil .nil) := ⟨Function.update_same .., trivial, trivial⟩
  have hnd : (t.addrs ++ (PTree.node q.next e 1 .nil .nil).addrs).Nodup := by
    simp only [PTree.addrs, List.append_nil]
    rw [List.nodup_append]
    exact ⟨hq.nodup, List.nodup_singleton _, by simpa using hpt⟩
  obtain ⟨heap2, t2, h1, hR, hpa, hpk, ho, hfr⟩ := merge_spec hs fuel t
    (.node q.next e 1 .nil .nil) _ hr0 hP hnd hq.ord
    ⟨by simp [PTree.keys], trivial, trivial⟩ (by simp only [PTree.size]; omega)
  simp only [PTree.addrs, PTree.keys, List.append_nil] at hpa hpk
  refine ⟨⟨q.cmp, (q.siz + 1) % 2 ^ 64, t2.ptr, heap2, q.next + 1⟩, t2, ?_,
    ⟨hR, rfl, ?_, ho, ?_⟩, ?_, ?_, rfl, rfl, ?_⟩
  · rw [← hq.root] at h1
    have e1 : (PTree.node q.next e 1 .nil .nil).ptr = some q.next := rfl
    rw [e1] at h1
    simp only [push, h1, Option.bind_eq_bind, Option.some_bind, Option.pure_def]
  · rw [hpa.nodup_iff]
    simpa only [PTree.addrs, List.append_nil] using hnd
  · show (q.siz + 1) % 2 ^ 64 = t2.size
    rw [hq.siz, Nat.mod_eq_of_lt hlt, ← PTree.length_keys t2, hpk.length_eq,
      List.length_append, PTree.length_keys]
    rfl
  · exact hpk.trans (List.perm_append_comm)
  · exact hpa.trans (List.perm_append_comm)
  · intro a h1 h2
    show heap2 a = q.heap a
    rw [hfr a (by simp [PTree.addrs, h1, h2]), Function.update_noteq h2]

/-- The source's `pop()` on a state that holds a heap-ordered tree. -/
theorem pop_spec {q : PQState T} {t : PTree T} (hq : QInv q t) (hs : map.StrictWeak q.cmp)
    {fuel : Nat} (hfuel : t.size < fuel) (hlt : t.size < 2 ^ 64) :
    (t.keys = [] → pop fuel q = some (q, .error .container_is_empty)) ∧
    (∀ a k hh l r, t = .node a k hh l r → ∃ q2 t2, pop fuel q = some (q2, .ok ()) ∧
      QInv q2 t2 ∧ t.keys.Perm (k :: t2.keys) ∧ t2.addrs.Perm (l.addrs ++ r.addrs) ∧
      q2.cmp = q.cmp ∧ q2.next = q.next ∧ q2.siz + 1 = q.siz ∧
      ∀ b, b ∉ t.addrs → q2.heap b = q.heap b) := by
  constructor
  · intro he
    have : q.siz = 0 := by
      rw [hq.siz, ← PTree.length_keys, he]
      rfl
    simp [pop, this]
  · rintro a k hh l r rfl
    obtain ⟨hra, hrl, hrr⟩ := hq.rep
    obtain ⟨hd, hol, hor⟩ := hq.ord
    have hnd := hq.nodup
    simp only [PTree.addrs, List.nodup_cons] at hnd
    simp only [PTree.size] at hfuel hlt
    obtain ⟨heap2, t2, h1, hR, hpa, hpk, ho, hfr⟩ := merge_spec hs fuel l r q.heap hrl hrr
      hnd.2 hol hor (by omega)
    have hsz : (q.siz == 0) = false := by
      rw [hq.siz]
      simp [PTree.size]
    have ha2 : heap2 a = some ⟨k, l.ptr, r.ptr, hh⟩ := by
      rw [hfr a hnd.1]
      exact hra
    have hat : a ∉ t2.addrs := by
      rw [hpa.mem_iff]
      exact hnd.1
    have hR2 : PRep (Function.update heap2 a none) t2 := by
      refine PRep_congr (fun b hb => Function.update_noteq ?_ _ _) hR
      rintro rfl
      exact hat hb
    refine ⟨⟨q.cmp, (q.siz + 2 ^ 64 - 1) % 2 ^ 64, t2.ptr, Function.update heap2 a none,
      q.next⟩, t2, ?_, ⟨hR2, rfl, ?_, ho, ?_⟩, ?_, hpa, rfl, rfl, ?_, ?_⟩
    · have hroot : q.root = some a := hq.root
      simp only [pop, hsz, Bool.false_eq_true, if_false, hroot, hra, h1, ha2,
        Option.bind_eq_bind, Option.some_bind, Option.pure_def]
    · rw [hpa.nodup_iff]
      exact hnd.2
    · show (q.siz + 2 ^ 64 - 1) % 2 ^ 64 = t2.size
      have e2 : t2.size = l.size + r.size := by
        rw [← PTree.length_keys t2, hpk.length_eq, List.length_append, PTree.length_keys,
          PTree.length_keys]
      rw [hq.siz, e2]
      simp only [PTree.size]
      have : l.size + r.size + 1 + 2 ^ 64 - 1 = (l.size + r.size) + 2 ^ 64 := by omega
      rw [this, Nat.add_mod_right]
      exact Nat.mod_eq_of_lt (by omega)
    · simp only [PTree.keys]
      exact List.Perm.cons k hpk.symm
    · show (q.siz + 2 ^ 64 - 1) % 2 ^ 64 + 1 = q.siz
      rw [hq.siz]
      simp only [PTree.size]
      have : l.size + r.size + 1 + 2 ^ 64 - 1 = (l.size + r.size) + 2 ^ 64 := by omega
      rw [this, Nat.add_mod_right, Nat.mod_eq_of_lt (by omega)]
    · intro b hb
      simp only [PTree.addrs, List.mem_cons, not_or] at hb
      show Function.update heap2 a none b = q.heap b
      rw [Function.update_noteq hb.1]
      exact hfr b hb.2

/-- The invariant of the memory after a call has left the state `q2` with tree `t2` for the
object `i`. -/
theorem MInv.put_obj {cmp : T → T → Bool} {w : Mem T} {ts : Nat → PTree T} (hm : MInv cmp w ts)
    {i : Nat} {o : Obj T} (hi : w.objs i = some o) {q2 : PQState T} {t2 : PTree T}
    (hq2 : QInv q2 t2) (hc : q2.cmp = cmp) (hfresh2 : ∀ a, q2.next ≤ a → q2.heap a = none)
    (hframe : ∀ k, k ≠ i → ∀ a ∈ (ts k).addrs, q2.heap a = w.heap a)
    (hdisj : ∀ k, k ≠ i → ∀ a ∈ t2.addrs, a ∉ (ts k).addrs) :
    MInv cmp (w.put i q2) (Function.update ts i t2) := by
  refine ⟨hfresh2, ?_, ?_, ?_, ?_⟩
  · intro k hk
    have hki : k ≠ i := by
      rintro rfl
      rw [hm.cnt k hk] at hi
      exact absurd hi (by simp)
    show Function.update w.objs i _ k = none
    rw [Function.update_noteq hki]
    exact hm.cnt k hk
  · intro k ok hk
    change Function.update w.objs i _ k = some ok at hk
    by_cases hki : k = i
    · subst hki
      rw [Function.update_same] at hk
      simp only [Option.some.injEq] at hk
      subst hk
      rw [Function.update_same]
      exact ⟨hc, hq2.rep, hq2.root, hq2.nodup, hq2.ord, hq2.siz⟩
    · rw [Function.update_noteq hki] at hk
      obtain ⟨h1, h2⟩ := hm.obj k ok hk
      rw [Function.update_noteq hki]
      exact ⟨h1, PRep_congr (hframe k hki) h2.rep, h2.root, h2.nodup, h2.ord, h2.siz⟩
  · intro k hk
    change Function.update w.objs i _ k = none at hk
    by_cases hki : k = i
    · subst hki
      rw [Function.update_same] at hk
      exact absurd hk (by simp)
    · rw [Function.update_noteq hki] at hk
      rw [Function.update_noteq hki]
      exact hm.out k hk
  · intro k j hkj a ha
    by_cases hki : k = i
    · subst hki
      rw [Function.update_same] at ha
      rw [Function.update_noteq (fun e => hkj e.symm)]
      exact hdisj j (fun e => hkj e.symm) a ha
    · rw [Function.update_noteq hki] at ha
      by_cases hji : j = i
      · subst hji
        rw [Function.update_same]
        exact fun h2 => hdisj k hki a h2 ha
      · rw [Function.update_noteq hji]
        exact hm.disj k j hkj a ha

/-- The nodes of every tree of the memory lie below the allocator's next address. -/
theorem MInv.lt_next {cmp : T → T → Bool} {w : Mem T} {ts : Nat → PTree T}
    (hm : MInv cmp w ts) (k : Nat) {a : Nat} (ha : a ∈ (ts k).addrs) : a < w.next := by
  cases hk : w.objs k with
  | none =>
    rw [hm.out k hk] at ha
    simp [PTree.addrs] at ha
  | some o => exact PRep_lt_next hm.fresh (hm.obj k o hk).2.rep ha

/-- The number of nodes of a tree of the memory is at most the allocator's next address. -/
theorem MInv.size_le {cmp : T → T → Bool} {w : Mem T} {ts : Nat → PTree T}
    (hm : MInv cmp w ts) {k : Nat} {o : Obj T} (hk : w.objs k = some o) :
    (ts k).size ≤ w.next := by
  rw [← PTree.length_addrs]
  exact length_le_of_nodup_lt (hm.obj k o hk).2.nodup (fun a ha => hm.lt_next k ha)

end priority_queue
end sjtu

/-!
## Sequences of `push`, `pop` and `merge` on several queues
-/

namespace sjtu
namespace priority_queue
variable {T : Type}

theorem Mem.view_obj {w : Mem T} {i : Nat} {q : PQState T} (hv : w.view i = some q) :
    ∃ o, w.objs i = some o ∧ q = ⟨o.cmp, o.siz, o.root, w.heap, w.next⟩ := by
  simp only [Mem.view, Option.map_eq_some'] at hv
  obtain ⟨o, ho, rfl⟩ := hv
  exact ⟨o, ho, rfl⟩

/-- The statement `objs[i].push(e)` keeps the invariant of the memory. -/
theorem MInv.push_obj {cmp : T → T → Bool} (hs : map.StrictWeak cmp) {w : Mem T}
    {ts : Nat → PTree T} (hm : MInv cmp w ts) {i : Nat} {q : PQState T}
    (hv : w.view i = some q) (e : T) {fuel : Nat} (hfuel : w.next + 1 < fuel)
    (hlt : w.next + 1 < 2 ^ 64) :
    ∃ q2 ts2, push fuel q e = some q2 ∧ MInv cmp (w.put i q2) ts2 ∧
      (w.put i q2).next = w.next + 1 := by
  obtain ⟨o, ho, rfl⟩ := Mem.view_obj hv
  obtain ⟨hc, hq⟩ := hm.obj i o ho
  have hsz := hm.size_le ho
  obtain ⟨q2, t2, h1, hq2, -, hpa, hc2, hn2, hfr⟩ := push_spec hq (by rw [hc]; exact hs)
    hm.fresh e (show (ts i).size + 1 < fuel by omega) (show (ts i).size + 1 < 2 ^ 64 by omega)
  simp only at hpa hc2 hn2 hfr
  refine ⟨q2, Function.update ts i t2, h1, hm.put_obj ho hq2 (hc2.trans hc) ?_ ?_ ?_, hn2⟩
  · intro a ha
    rw [hn2] at ha
    rw [hfr a (fun h => by have := hm.lt_next i h; omega) (by omega)]
    exact hm.fresh a (by omega)
  · intro k hki a ha
    exact hfr a (fun h => hm.disj k i hki a ha h)
      (by have := hm.lt_next k ha; omega)
  · intro k hki a ha hak
    rw [hpa.mem_iff, List.mem_cons] at ha
    rcases ha with rfl | ha
    · have := hm.lt_next k hak
      omega
    · exact hm.disj i k (fun e => hki e.symm) a ha hak

/-- The statement `objs[i].pop()` keeps the invariant of the memory. -/
theorem MInv.pop_obj {cmp : T → T → Bool} (hs : map.StrictWeak cmp) {w : Mem T}
    {ts : Nat → PTree T} (hm : MInv cmp w ts) {i : Nat} {q : PQState T}
    (hv : w.view i = some q) {fuel : Nat} (hfuel : w.next < fuel) (hlt : w.next < 2 ^ 64) :
    ∃ r ts2, pop fuel q = some r ∧ MInv cmp (w.put i r.1) ts2 ∧
      (w.put i r.1).next = w.next := by
  obtain ⟨o, ho, rfl⟩ := Mem.view_obj hv
  obtain ⟨hc, hq⟩ := hm.obj i o ho
  have hsz := hm.size_le ho
  obtain ⟨hp1, hp2⟩ := pop_spec hq (by rw [hc]; exact hs) (show (ts i).size < fuel by omega)
    (show (ts i).size < 2 ^ 64 by omega)
  cases hti : ts i with
  | nil =>
    refine ⟨_, Function.update ts i (ts i), hp1 (by rw [hti]; rfl),
      hm.put_obj ho hq hc hm.fresh (fun _ _ _ _ => rfl) ?_, rfl⟩
    intro k hki a ha
    exact hm.disj i k (fun e => hki e.symm) a ha
  | node a k hh l r =>
    obtain ⟨q2, t2, h1, hq2, -, hpa, hc2, hn2, -, hfr⟩ := hp2 a k hh l r hti
    simp only at hc2 hn2 hfr
    have hsub : ∀ b ∈ t2.addrs, b ∈ (ts i).addrs := by
      intro b hb
      rw [hpa.mem_iff] at hb
      rw [hti]
      simp [PTree.addrs, List.mem_append.mp hb]
    refine ⟨_, Function.update ts i t2, h1, hm.put_obj ho hq2 (hc2.trans hc) ?_ ?_ ?_, hn2⟩
    · intro b hb
      rw [hn2] at hb
      rw [hfr b (fun h => by have := hm.lt_next i h; omega)]
      exact hm.fresh b hb
    · intro j hji b hb
      exact hfr b (fun h => hm.disj j i hji b hb h)
    · intro j hji b hb
      exact hm.disj i j (fun e => hji e.symm) b (hsub b hb)

/-- The statements of `merge(other)` on two distinct objects. -/
theorem merge_other_ne {w : Mem T} {i j : Nat} (hij : i ≠ j) {a b : Obj T}
    (hi : w.objs i = some a) (hj : w.objs j = some b) {fuel : Nat}
    {heap2 : Nat → Option (Node T)} {r : Option Nat}
    (h1 : merge a.cmp fuel w.heap a.root b.root = some (heap2, r)) :
    merge_other fuel w i j =
      some ((w.put j ⟨b.cmp, 0, none, w.heap, w.next⟩).put i
        ⟨a.cmp, (a.siz + b.siz) % 2 ^ 64, r, heap2, w.next⟩) := by
  have hji : j ≠ i := fun e => hij e.symm
  simp only [merge_other, hi, hj, h1, Option.bind_eq_bind, Option.some_bind,
    Function.update_same, Function.update_noteq hij, Function.update_noteq hji, ne_eq,
    not_false_eq_true, Option.pure_def, Mem.put, Option.some.injEq]
  congr 1
  funext k
  by_cases hki : k = i
  · subst hki
    simp [Function.update_noteq hij]
  · by_cases hkj : k = j
    · subst hkj
      simp [Function.update_noteq hki]
    · simp [Function.update_noteq hki, Function.update_noteq hkj]

/-- The statements of `merge(other)` when `other` is the object itself. -/
theorem merge_other_self {w : Mem T} {i : Nat} {a : Obj T} (hi : w.objs i = some a)
    {fuel : Nat} {heap2 : Nat → Option (Node T)} {r : Option Nat}
    (h1 : merge a.cmp fuel w.heap a.root a.root = some (heap2, r)) :
    merge_other fuel w i i = some (w.put i ⟨a.cmp, 0, none, heap2, w.next⟩) := by
  simp only [merge_other, hi, h1, Option.bind_eq_bind, Option.some_bind,
    Function.update_same, Function.update_idem, Option.pure_def, Mem.put]

/-- The statement `objs[i].merge(objs[j])` keeps the invariant of the memory. -/
theorem MInv.merge_objs {cmp : T → T → Bool} (hs : map.StrictWeak cmp) {w : Mem T}
    {ts : Nat → PTree T} (hm : MInv cmp w ts) {i j : Nat} {a b : Obj T}
    (hi : w.objs i = some a) (hj : w.objs j = some b) {fuel : Nat}
    (hfuel : 2 * w.next < fuel) (hlt : w.next < 2 ^ 64) :
    ∃ w2 ts2, merge_other fuel w i j = some w2 ∧ MInv cmp w2 ts2 ∧ w2.next = w.next := by
  obtain ⟨hca, hqa⟩ := hm.obj i a hi
  obtain ⟨hcb, hqb⟩ := hm.obj j b hj
  by_cases hij : i = j
  · subst hij
    rw [hi] at hj
    simp only [Option.some.injEq] at hj
    subst hj
    have hsz := hm.size_le hi
    obtain ⟨heap2, r, h1, -, hfr, -⟩ := merge_total a.cmp fuel (ts i) (ts i) w.heap
      (ts i).addrs (PRep_closed hqa.rep) hqa.rep hqa.rep (fun _ h => h) (fun _ h => h)
      (by omega)
    have hra : a.root = (ts i).ptr := hqa.root
    rw [← hra] at h1
    refine ⟨_, Function.update ts i .nil, merge_other_self hi h1,
      hm.put_obj hi ⟨trivial, rfl, List.nodup_nil, trivial, rfl⟩ hca ?_ ?_ ?_, rfl⟩
    · intro x hx
      change w.next ≤ x at hx
      show heap2 x = none
      rw [hfr x (fun h => by have := hm.lt_next i h; omega)]
      exact hm.fresh x hx
    · intro k hki x hx
      exact hfr x (fun h => hm.disj k i hki x hx h)
    · intro k _ x hx
      simp [PTree.addrs] at hx
  · have hnd : ((ts i).addrs ++ (ts j).addrs).Nodup := by
      rw [List.nodup_append]
      exact ⟨hqa.nodup, hqb.nodup, fun x hx hx2 => hm.disj i j hij x hx hx2⟩
    have hlen : (ts i).size + (ts j).size ≤ w.next := by
      rw [← PTree.length_addrs, ← PTree.length_addrs, ← List.length_append]
      refine length_le_of_nodup_lt hnd (fun x hx => ?_)
      rw [List.mem_append] at hx
      exact hx.elim (hm.lt_next i) (hm.lt_next j)
    have hob : HeapOrd a.cmp (ts j) := by
      have := hqb.ord
      rw [hcb] at this
      rw [hca]
      exact this
    obtain ⟨heap2, t, h1, hR, hpa, hpk, ho, hfr⟩ := merge_spec (by rw [hca]; exact hs) fuel
      (ts i) (ts j) w.heap hqa.rep hqb.rep hnd hqa.ord hob (by omega)
    have hra : a.root = (ts i).ptr := hqa.root
    have hrb : b.root = (ts j).ptr := hqb.root
    rw [← hra, ← hrb] at h1
    -- first the object `j`, emptied
    have hm1 : MInv cmp (w.put j ⟨b.cmp, 0, none, w.heap, w.next⟩)
        (Function.update ts j .nil) :=
      hm.put_obj hj ⟨trivial, rfl, List.nodup_nil, trivial, rfl⟩ hcb hm.fresh
        (fun _ _ _ _ => rfl) (fun k _ x hx => by simp [PTree.addrs] at hx)
    have hi1 : (w.put j ⟨b.cmp, 0, none, w.heap, w.next⟩).objs i = some a := by
      show Function.update w.objs j _ i = some a
      rw [Function.update_noteq hij]
      exact hi
    have hsiz : (a.siz + b.siz) % 2 ^ 64 = t.size := by
      have ea : a.siz = (ts i).size := hqa.siz
      have eb : b.siz = (ts j).size := hqb.siz
      rw [ea, eb, Nat.mod_eq_of_lt (by omega), ← PTree.length_keys t, hpk.length_eq,
        List.length_append, PTree.length_keys, PTree.length_keys]
    have hq2 : QInv ⟨a.cmp, (a.siz + b.siz) % 2 ^ 64, t.ptr, heap2, w.next⟩ t :=
      ⟨hR, rfl, by rw [hpa.nodup_iff]; exact hnd, ho, hsiz⟩
    refine ⟨_, Function.update (Function.update ts j .nil) i t, merge_other_ne hij hi hj h1,
      hm1.put_obj hi1 hq2 hca ?_ ?_ ?_, rfl⟩
    · intro x hx
      show heap2 x = none
      rw [hfr x (fun h => by
        rw [List.mem_append] at h
        have := h.elim (hm.lt_next i) (hm.lt_next j)
        change w.next ≤ x at hx
        omega)]
      exact hm.fresh x hx
    · intro k hki x hx
      show heap2 x = w.heap x
      by_cases hkj : k = j
      · subst hkj
        rw [Function.update_same] at hx
        simp [PTree.addrs] at hx
      · rw [Function.update_noteq hkj] at hx
        refine hfr x (fun h => ?_)
        rw [List.mem_append] at h
        exact h.elim (hm.disj k i hki x hx) (hm.disj k j hkj x hx)
    · intro k hki x hx
      by_cases hkj : k = j
      · subst hkj
        rw [Function.update_same]
        simp [PTree.addrs]
      · rw [Function.update_noteq hkj]
        rw [hpa.mem_iff, List.mem_append] at hx
        exact hx.elim (hm.disj i k (fun e => hki e.symm) x)
          (hm.disj j k (fun e => hkj e.symm) x)

/-- One statement keeps the invariant of the memory and allocates at most one node. -/
theorem Mem.step_keeps {cmp : T → T → Bool} (hs : map.StrictWeak cmp) {w : Mem T}
    {ts : Nat → PTree T} (hm : MInv cmp w ts) (op : QOp T) {fuel : Nat}
    (hfuel : 2 * w.next + 1 < fuel) (hlt : w.next + 1 < 2 ^ 64) :
    ∃ w2 ts2, Mem.step fuel cmp w op = some w2 ∧ MInv cmp w2 ts2 ∧ w2.next ≤ w.next + 1 := by
  have hsame : ∃ w2 ts2, some w = some w2 ∧ MInv cmp w2 ts2 ∧ w2.next ≤ w.next + 1 :=
    ⟨w, ts, rfl, hm, Nat.le_succ _⟩
  cases op with
  | create =>
    have hnil : ts w.count = .nil := hm.out _ (hm.cnt _ (Nat.le_refl _))
    refine ⟨_, ts, rfl, ⟨hm.fresh, ?_, ?_, ?_, hm.disj⟩, Nat.le_succ _⟩
    · intro k hk
      change w.count + 1 ≤ k at hk
      show Function.update w.objs w.count _ k = none
      rw [Function.update_noteq (by omega)]
      exact hm.cnt k (by omega)
    · intro k o hk
      change Function.update w.objs w.count _ k = some o at hk
      by_cases hkc : k = w.count
      · subst hkc
        rw [Function.update_same] at hk
        simp only [Option.some.injEq] at hk
        subst hk
        rw [hnil]
        exact ⟨rfl, trivial, rfl, List.nodup_nil, trivial, rfl⟩
      · rw [Function.update_noteq hkc] at hk
        exact hm.obj k o hk
    · intro k hk
      change Function.update w.objs w.count _ k = none at hk
      by_cases hkc : k = w.count
      · subst hkc
        exact hnil
      · rw [Function.update_noteq hkc] at hk
        exact hm.out k hk
  | push i e =>
    cases hv : w.view i with
    | none => simpa only [Mem.step, hv] using hsame
    | some q =>
      obtain ⟨q2, ts2, h1, hm2, hn⟩ := hm.push_obj hs hv e (show w.next + 1 < fuel by omega) hlt
      exact ⟨_, ts2, by simp only [Mem.step, hv, h1, Option.map_some'], hm2,
        Nat.le_of_eq hn⟩
  | pop i =>
    cases hv : w.view i with
    | none => simpa only [Mem.step, hv] using hsame
    | some q =>
      obtain ⟨r, ts2, h1, hm2, hn⟩ := hm.pop_obj hs hv (show w.next < fuel by omega)
        (show w.next < 2 ^ 64 by omega)
      exact ⟨_, ts2, by simp only [Mem.step, hv, h1, Option.map_some'], hm2,
        by rw [hn]; exact Nat.le_succ _⟩
  | merge i j =>
    cases hi : w.objs i with
    | none => simpa only [Mem.step, hi] using hsame
    | some a =>
      cases hj : w.objs j with
      | none => simpa only [Mem.step, hi, hj] using hsame
      | some b =>
        obtain ⟨w2, ts2, h1, hm2, hn⟩ := hm.merge_objs hs hi hj (show 2 * w.next < fuel by omega)
          (show w.next < 2 ^ 64 by omega)
        exact ⟨w2, ts2, by simp only [Mem.step, hi, hj, h1], hm2,
          by rw [hn]; exact Nat.le_succ _⟩

/-- A sequence of statements keeps the invariant of the memory. -/
theorem Mem.run_keeps {cmp : T → T → Bool} (hs : map.StrictWeak cmp) (ops : List (QOp T)) :
    ∀ {w : Mem T} {ts : Nat → PTree T}, MInv cmp w ts → ∀ {fuel : Nat},
      2 * (w.next + ops.length) + 1 < fuel → w.next + ops.length + 1 < 2 ^ 64 →
      ∃ w2 ts2, Mem.run fuel cmp w ops = some w2 ∧ MInv cmp w2 ts2 ∧
        w2.next ≤ w.next + ops.length := by
  induction ops with
  | nil => intro w ts hm fuel _ _; exact ⟨w, ts, rfl, hm, Nat.le_refl _⟩
  | cons op ops ih =>
    intro w ts hm fuel hfuel hlt
    simp only [List.length_cons] at hfuel hlt ⊢
    obtain ⟨w1, ts1, h1, hm1, hn1⟩ := Mem.step_keeps hs hm op
      (show 2 * w.next + 1 < fuel by omega) (show w.next + 1 < 2 ^ 64 by omega)
    obtain ⟨w2, ts2, h2, hm2, hn2⟩ := ih hm1
      (show 2 * (w1.next + ops.length) + 1 < fuel by omega)
      (show w1.next + ops.length + 1 < 2 ^ 64 by omega)
    refine ⟨w2, ts2, ?_, hm2, by omega⟩
    simp only [Mem.run, h1, Option.bind_eq_bind, Option.some_bind, h2]

/-- The memory with one empty queue satisfies the invariant. -/
theorem Mem.init_keeps (cmp : T → T → Bool) (heap : Nat → Option (Node T)) (next : Nat)
    (hfresh : ∀ a, next ≤ a → heap a = none) :
    MInv cmp (Mem.init cmp heap next) (fun _ => .nil) := by
  refine ⟨hfresh, ?_, ?_, fun _ _ => rfl, fun _ _ _ a ha => by simp [PTree.addrs] at ha⟩
  · intro k hk
    change 1 ≤ k at hk
    show (if k = 0 then _ else none) = none
    rw [if_neg (by omega)]
  · intro k o hk
    change (if k = 0 then some _ else none) = some o at hk
    by_cases hk0 : k = 0
    · rw [if_pos hk0] at hk
      simp only [Option.some.injEq] at hk
      subst hk
      exact ⟨rfl, trivial, rfl, List.nodup_nil, trivial, rfl⟩
    · rw [if_neg hk0] at hk
      exact absurd hk (by simp)

/-- C23: every finite sequence of statements (constructing an empty queue, `push`, `pop`,
`merge`, also of a queue with itself) on a memory that holds one empty queue, with a
comparator that is a strict weak order, returns, and every queue object of the memory then
holds a tree `t` whose keys are the elements of the queue, with `size()` their number. When
there is no element, `top()` and `pop()` throw `container_is_empty`. When there is one,
neither throws; `top()` returns an element `e` of the queue with `cmp(e, y)` false for every
element `y` of the queue, and `pop()` leaves a queue whose elements are those before without
one occurrence of `e`, with `size()` one less. -/
theorem max_heap {cmp : T → T → Bool} (hs : map.StrictWeak cmp)
    (heap : Nat → Option (Node T)) (next : Nat) (hfresh : ∀ a, next ≤ a → heap a = none)
    (ops : List (QOp T)) {fuel : Nat} (hfuel : 2 * (next + ops.length) + 1 < fuel)
    (hlen : next + ops.length + 1 < 2 ^ 64) :
    ∃ w, Mem.run fuel cmp (Mem.init cmp heap next) ops = some w ∧
      ∀ i q, w.view i = some q → ∃ t : PTree T, PRep q.heap t ∧ q.root = t.ptr ∧
        size q = t.keys.length ∧ (empty q = true ↔ t.keys = []) ∧
        (t.keys = [] → top q = some (.error .container_is_empty) ∧
          pop fuel q = some (q, .error .container_is_empty)) ∧
        (t.keys ≠ [] → ∃ e, top q = some (.ok e) ∧ e ∈ t.keys ∧
          (∀ y ∈ t.keys, cmp e y = false) ∧
          ∃ q2 t2, pop fuel q = some (q2, .ok ()) ∧ PRep q2.heap t2 ∧ q2.root = t2.ptr ∧
            t.keys.Perm (e :: t2.keys) ∧ size q2 + 1 = size q ∧
            size q2 = t2.keys.length) := by
  obtain ⟨w, ts, h1, hm, hn⟩ := Mem.run_keeps hs ops (Mem.init_keeps cmp heap next hfresh)
    (show 2 * ((Mem.init cmp heap next).next + ops.length) + 1 < fuel from hfuel)
    (show (Mem.init cmp heap next).next + ops.length + 1 < 2 ^ 64 from hlen)
  change w.next ≤ next + ops.length at hn
  refine ⟨w, h1, fun i q hv => ?_⟩
  obtain ⟨o, ho, rfl⟩ := Mem.view_obj hv
  obtain ⟨hc, hq⟩ := hm.obj i o ho
  have hsz := hm.size_le ho
  have hs2 : map.StrictWeak o.cmp := by rw [hc]; exact hs
  obtain ⟨ht1, ht2⟩ := top_spec hq hs2
  obtain ⟨hp1, hp2⟩ := pop_spec hq hs2 (show (ts i).size < fuel by omega)
    (show (ts i).size < 2 ^ 64 by omega)
  have hsiz : o.siz = (ts i).keys.length := by
    rw [PTree.length_keys]
    exact hq.siz
  refine ⟨ts i, hq.rep, hq.root, hsiz, ?_, fun he => ⟨ht1 he, hp1 he⟩, fun hne => ?_⟩
  · simp only [empty, hsiz, beq_iff_eq, List.length_eq_zero]
  · cases hti : ts i with
    | nil =>
      rw [hti] at hne
      exact absurd rfl hne
    | node a k hh l r =>
      obtain ⟨he1, he2, he3⟩ := ht2 a k hh l r hti
      obtain ⟨q2, t2, h2, hq2, hpk, -, -, -, hs3, -⟩ := hp2 a k hh l r hti
      rw [hti] at he2 he3 hpk
      refine ⟨k, he1, he2, fun y hy => ?_, q2, t2, h2, hq2.rep, hq2.root, hpk, hs3, ?_⟩
      · rw [← hc]
        exact he3 y hy
      · rw [PTree.length_keys]
        exact hq2.siz

theorem max_heap_witness :
    map.StrictWeak map.natLt ∧
    (∀ a, 0 ≤ a → (fun _ => none : Nat → Option (Node Nat)) a = none) ∧
    2 * (0 + [QOp.push 0 5, .push 0 3, .push 0 9, .create, .push 1 7, .merge 0 1, .pop 0,
      .merge 1 1, .pop 1].length) + 1 < 20 ∧
    0 + [QOp.push 0 5, .push 0 3, .push 0 9, .create, .push 1 7, .merge 0 1, .pop 0,
      .merge 1 1, .pop 1].length + 1 < 2 ^ 64 ∧
    ∃ w, Mem.run 20 map.natLt (Mem.init map.natLt (fun _ => none) 0)
        [QOp.push 0 5, .push 0 3, .push 0 9, .create, .push 1 7, .merge 0 1, .pop 0,
          .merge 1 1, .pop 1] = some w ∧
      ∀ i q, w.view i = some q → ∃ t : PTree Nat, PRep q.heap t ∧ q.root = t.ptr ∧
        size q = t.keys.length ∧ (empty q = true ↔ t.keys = []) ∧
        (t.keys = [] → top q = some (.error .container_is_empty) ∧
          pop 20 q = some (q, .error .container_is_empty)) ∧
        (t.keys ≠ [] → ∃ e, top q = some (.ok e) ∧ e ∈ t.keys ∧
          (∀ y ∈ t.keys, map.natLt e y = false) ∧
          ∃ q2 t2, pop 20 q = some (q2, .ok ()) ∧ PRep q2.heap t2 ∧ q2.root = t2.ptr ∧
            t.keys.Perm (e :: t2.keys) ∧ size q2 + 1 = size q ∧
            size q2 = t2.keys.length) :=
  ⟨map.natLt_strictWeak, fun _ _ => rfl, by decide, by decide,
    max_heap map.natLt_strictWeak (fun _ => none) 0 (fun _ _ => rfl) _ (by decide)
      (by decide)⟩

end priority_queue
end sjtu
